import Mathlib

/-!
Register-interval creation (LTRF): a shallow embedding.

The development follows `src/implementation/ControlFlowGraph.cpp`,
`src/implementation/RegisterIntervalCreation.cpp` and the driver loop of
`main.cpp`.

Conventions of the embedding.

* Objects live in two arenas (`State.blocks`, `State.intervals`); a C++ pointer is
  the index of the object in its arena, `new` appends to the arena, and a
  nullable pointer is an `Option Nat`.  Dereferencing an index outside the arena
  is undefined behaviour.
* `std::string` is a `List Char` (one `Char` per byte), `std::set<T>` is the
  strictly increasing list of its elements, `std::vector<T>` and `std::queue<T>`
  are lists.
* The file-level globals of `RegisterIntervalCreation.cpp` and the static ID
  counters are the fields of `State`.
* A run ends in `Except.ok`, or in one of three faults: the fuel of the model
  ran out (`Fault.fuel`, the only place where the model may stop although the
  C++ loop would go on), the C++ program has undefined behaviour (`Fault.ub`), or
  a library call throws (`Fault.exn`).
* `int N` is an `Int`; comparisons of a `size_t` with `N` convert `N` to a
  64-bit unsigned value first, as C++ does.
* A `std::set` of pointers iterates in the order of the arena indices: objects
  allocated later are taken to have larger addresses.
* An iterator over the global vector `basic_blocks` is an index into it; the
  growth loop of pass one, during which `traverse` may append to the vector,
  goes on to the appended elements (the C++ iterator is invalidated when the
  vector reallocates, which the model does not track).
-/

namespace RegisterInterval

/-- Ways in which a run of the model stops without a result. -/
inductive Fault where
  | fuel
  | ub
  | exn
deriving DecidableEq, Repr

/-- Byte strings. -/
abbrev Str := List Char

/-! ## `std::string` and `std::set` primitives -/

/-- The `s[i]` of `std::string`; `s[s.size()]` is the terminating NUL. -/
def charAt (s : Str) (i : Nat) : Char := s.getD i (Char.ofNat 0)

/-- The test `c > 47 && c < 58` of the source. -/
def isDigit (c : Char) : Bool := decide (47 < c.toNat) && decide (c.toNat < 58)

/-- The call `s.find(c, pos)` for a single character: `none` is `string::npos`. -/
def find_char (s : Str) (c : Char) (pos : Nat) : Option Nat :=
  if c ∈ s.drop pos then some (pos + (s.drop pos).indexOf c) else none

/-- First match of `pat` in the suffix `s`, whose first character has index `i`. -/
def find_aux (pat : Str) : Str → Nat → Option Nat
  | [], i => if pat = [] then some i else none
  | c :: cs, i => if pat.isPrefixOf (c :: cs) then some i else find_aux pat cs (i + 1)

/-- The call `s.find(pat, pos)`: `none` is `string::npos`. -/
def find (s pat : Str) (pos : Nat) : Option Nat :=
  if pos ≤ s.length then find_aux pat (s.drop pos) pos else none

/-- The call `s.replace(pos, len, r)` for `pos ≤ s.size()`. -/
def replace (s : Str) (pos len : Nat) (r : Str) : Str :=
  s.take pos ++ r ++ s.drop (pos + len)

/-- Decimal digits of a natural number, as `std::to_string` prints them. -/
def to_string (n : Nat) : Str := Nat.toDigits 10 n

/-- Insertion into a `std::set` kept as a strictly increasing list. -/
def set_insert {α : Type} [DecidableEq α] (lt : α → α → Bool) (x : α) : List α → List α
  | [] => [x]
  | y :: ys =>
    if lt x y then x :: y :: ys
    else if x = y then y :: ys
    else y :: set_insert lt x ys

/-- The order of `std::string`. -/
def str_lt (a b : Str) : Bool := decide (a < b)

/-- The call `s.insert(r)` on a `std::set<std::string>`. -/
def reg_insert (r : Str) (s : List Str) : List Str := set_insert str_lt r s

/-- Inserting every element of `t` into `s`, in the iteration order of `t`. -/
def reg_union (s t : List Str) : List Str := t.foldl (fun acc r => reg_insert r acc) s

/-- The value of `N` after conversion to `size_t`. -/
def to_size (N : Int) : Nat := (N % (2 ^ 64 : Int)).toNat

/-- The comparison `size < N` with `size` a `size_t` and `N` an `int`. -/
def size_lt (size : Nat) (N : Int) : Bool := decide (size < to_size N)

/-- The comparison `size > N` with `size` a `size_t` and `N` an `int`. -/
def size_gt (size : Nat) (N : Int) : Bool := decide (to_size N < size)

/-! ## The graph node model (`ControlFlowGraph.h`) -/

/-- The class `basicBlock`, without the fields only the front end uses
(`ABB`, `controlBB`, `exit_state`, `controling_basicBlock`). -/
structure basicBlock where
  ID : Nat
  name : Str
  code : Str
  NumberOfInstructions : Nat
  predecessors : List Nat
  successors : List Nat
  input_list : List Str
  output_list : List Str
  BB_registerInterval : Option Nat
deriving DecidableEq, Repr

/-- The class `registerInterval`. -/
structure registerInterval where
  ID : Nat
  register_vector : List Bool
  next_level_registerInterval : Option Nat
  code : Str
  registerInterval_numberOfInstructions : Nat
  register_list : List Str
  predecessors : List (Option Nat)
  successors : List (Option Nat)
deriving DecidableEq, Repr

/-- The two arenas, the globals of `RegisterIntervalCreation.cpp` and the static
ID counters `basicBlock::IDgenerator` and `registerInterval::IDgenerator`. -/
structure State where
  blocks : List basicBlock
  intervals : List registerInterval
  basic_blocks : List Nat
  RegisterIntervals : List Nat
  WS : List Nat
  mark : List Bool
  registerInterval_mark : List Bool
  bbIDgenerator : Nat
  riIDgenerator : Nat
deriving DecidableEq, Repr

/-- Result of a step of the model. -/
abbrev M (α : Type) := Except Fault α

/-- Dereference of a `basicBlock*`. -/
def getBlock (st : State) (p : Nat) : M basicBlock :=
  match st.blocks[p]? with
  | some b => .ok b
  | none => .error .ub

/-- Dereference of a `registerInterval*`. -/
def getInterval (st : State) (p : Nat) : M registerInterval :=
  match st.intervals[p]? with
  | some i => .ok i
  | none => .error .ub

/-- Dereference of a nullable `registerInterval*`. -/
def getIntervalPtr (st : State) (p : Option Nat) : M registerInterval :=
  match p with
  | some q => getInterval st q
  | none => .error .ub

/-- Write through a `basicBlock*` that was dereferenced before. -/
def setBlock (st : State) (p : Nat) (b : basicBlock) : State :=
  { st with blocks := st.blocks.set p b }

/-- Write through a `registerInterval*` that was dereferenced before. -/
def setInterval (st : State) (p : Nat) (i : registerInterval) : State :=
  { st with intervals := st.intervals.set p i }

/-- Number of `;` found by the loop of `set_code`, which starts its search at
index 1. -/
def count_instructions (s : Str) : Nat := (s.drop 1).count ';'

/-- The method `basicBlock::set_code`. -/
def basicBlock.set_code (b : basicBlock) (s : Str) : basicBlock :=
  { b with code := s, NumberOfInstructions := count_instructions s }

/-- The method `registerInterval::set_code`. -/
def registerInterval.set_code (i : registerInterval) (s : Str) : registerInterval :=
  { i with code := s, registerInterval_numberOfInstructions := count_instructions s }

/-- The method `basicBlock::add_predecessor`. -/
def basicBlock.add_predecessor (b : basicBlock) (p : Nat) : basicBlock :=
  if p ∈ b.predecessors then b else { b with predecessors := b.predecessors ++ [p] }

/-- The method `registerInterval::add_predecessor`. -/
def registerInterval.add_predecessor (i : registerInterval) (p : Option Nat) :
    registerInterval :=
  if p ∈ i.predecessors then i else { i with predecessors := i.predecessors ++ [p] }

/-- The method `registerInterval::add_successors`. -/
def registerInterval.add_successors (i : registerInterval) (p : Option Nat) :
    registerInterval :=
  if p ∈ i.successors then i else { i with successors := i.successors ++ [p] }

/-- The constructor `basicBlock::basicBlock()`; the interval pointer, which the
constructor leaves unset, reads as null. -/
def new_basicBlock (st : State) : State × Nat :=
  ({ st with
      blocks := st.blocks ++ [{
        ID := st.bbIDgenerator, name := [], code := [],
        NumberOfInstructions := 0, predecessors := [], successors := [],
        input_list := [], output_list := [], BB_registerInterval := none }],
      bbIDgenerator := st.bbIDgenerator + 1 },
   st.blocks.length)

/-- The constructor `registerInterval::registerInterval()`; the next-level
pointer, which the constructor leaves unset, reads as null. -/
def new_registerInterval (st : State) : State × Nat :=
  ({ st with
      intervals := st.intervals ++ [{
        ID := st.riIDgenerator, register_vector := [],
        next_level_registerInterval := none, code := [],
        registerInterval_numberOfInstructions := 0, register_list := [],
        predecessors := [], successors := [] }],
      riIDgenerator := st.riIDgenerator + 1 },
   st.intervals.length)

/-! ## The block splitter (`RegisterIntervalCreationPass::traverse`) -/

/-- The register token the inner `for` loop of `traverse` reads at index `i`:
`R`, one digit and, when present, a second digit. -/
def token_at (code : Str) (i : Nat) : Option Str :=
  if charAt code i = 'R' ∧ isDigit (charAt code (i + 1)) = true then
    some ('R' :: charAt code (i + 1) ::
      (if isDigit (charAt code (i + 2)) = true then [charAt code (i + 2)] else []))
  else none

/-- The loop `for (int i = found1; i < found2; i++)` of `traverse`: the tokens of
one statement are added to `temporary_register_list`. -/
def scan_statement (code : Str) (found1 found2 : Nat) (temporary_register_list : List Str) :
    List Str :=
  (List.range' found1 (found2 - found1)).foldl
    (fun t i => match token_at code i with
      | some r => reg_insert r t
      | none => t)
    temporary_register_list

/-- Indices of the `;` of `code` from index `pos` on, in increasing order: the
values `found2` takes in the `while` loop of `traverse`. -/
def terminators (code : Str) (pos : Nat) : List Nat :=
  (List.range' pos (code.length - pos)).filter (fun i => charAt code i = ';')

/-- How the `while` loop of `traverse` ends. -/
inductive Scan where
  /-- The statement starting at `found1` overflows; `register_list` is the value
  of that variable at this moment. -/
  | overflow (found1 : Nat) (register_list : List Str)
  /-- The loop ran to the end; `last` is the last argument given to
  `set_output_list`, if the call was made at all. -/
  | finished (last : Option (List Str))
deriving DecidableEq, Repr

/-- The `while (found2 != string::npos)` loop of `traverse`, as a recursion over
the successive values of `found2`. -/
def scan_loop (code : Str) (N : Int) :
    List Nat → Nat → List Str → List Str → Option (List Str) → Scan
  | [], _, _, _, last => .finished last
  | found2 :: rest, found1, register_list, temporary_register_list, _ =>
    let t := scan_statement code found1 found2 temporary_register_list
    if size_gt t.length N = true then .overflow found1 register_list
    else scan_loop code N rest (found2 + 1) t t (some t)

/-- The loop that rewrites the old block name inside `code2`; `found` is the
current value of that variable. -/
def rename_loop : Nat → Str → Str → Str → Option Nat → M Str
  | _, code2, _, _, none => .ok code2
  | 0, _, _, _, some _ => .error .fuel
  | fuel + 1, code2, old_name, new_name, some found =>
    let code2 := replace code2 found old_name.length new_name
    rename_loop fuel code2 old_name new_name (find code2 old_name (found + 1))

/-- The loop that fills the register set of the new block from `code2`: the
search for `R` starts at index 1 and a token takes the whole run of digits. -/
def rescan (code2 : Str) : List Str :=
  (List.range' 1 (code2.length - 1)).foldl
    (fun out i =>
      if charAt code2 i = 'R' ∧ isDigit (charAt code2 (i + 1)) = true then
        reg_insert ('R' :: (code2.drop (i + 1)).takeWhile isDigit) out
      else out)
    []

/-- The body of `if (temporary_register_list.size() > N)` in `traverse`:
`BB` is split at `found1`. -/
def split (fuel : Nat) (st : State) (BB : Nat) (found1 : Nat) (register_list : List Str) :
    M State := do
  let b ← getBlock st BB
  let code := b.code
  let code1 := code.take found1
  let code2 := code.drop (found1 + 1)
  -- BB1 = new basicBlock(); basic_blocks.push_back(BB1);
  let (st, BB1) := new_basicBlock st
  let st := { st with basic_blocks := st.basic_blocks ++ [BB1] }
  let old_name := b.name
  let new_name := old_name ++ to_string (b.ID + 1)
  let code2 ← rename_loop fuel code2 old_name new_name (find code2 old_name 1)
  let b1 ← getBlock st BB1
  let b1 := { b1 with name := new_name }
  let b1 := b1.set_code code2
  let b1 := { b1 with output_list := reg_union b1.output_list (rescan code2) }
  -- BB->set_code(code1); BB->set_output_list(register_list);
  let b := b.set_code code1
  let b := { b with output_list := register_list }
  -- successors and predecessors
  let b1 := { b1 with successors := b.successors }
  let b := { b with successors := [BB1] }
  let b1 := b1.add_predecessor BB
  -- a new register-interval for BB1
  let (st, temp) := new_registerInterval st
  let st := { st with RegisterIntervals := st.RegisterIntervals ++ [temp] }
  let b1 := { b1 with BB_registerInterval := some temp }
  let b1 := { b1 with input_list := [] }
  let st := setBlock (setBlock st BB b) BB1 b1
  return { st with WS := st.WS ++ [BB1] }

/-- The function `RegisterIntervalCreationPass::traverse`. -/
def traverse (fuel : Nat) (st : State) (BB : Nat) (N : Int) : M State := do
  let b ← getBlock st BB
  match scan_loop b.code N (terminators b.code 0) 0 b.input_list [] none with
  | .overflow found1 register_list => split fuel st BB found1 register_list
  | .finished (some r) => return setBlock st BB { b with output_list := r }
  | .finished none => return st

/-! ## Register vectors (`registerInterval::set_register_list`) -/

/-- The test `isspace` of the C locale. -/
def isSpace (c : Char) : Bool := decide (c.toNat = 32) || (decide (9 ≤ c.toNat) && decide (c.toNat ≤ 13))

/-- The call `std::stoi(str)`: leading white space, an optional sign and a run
of digits; it throws when there is no digit or the value is no `int`. -/
def stoi (str : Str) : M Int :=
  let s := str.dropWhile isSpace
  let neg := decide (s.head? = some '-')
  let s := if s.head? = some '-' ∨ s.head? = some '+' then s.drop 1 else s
  let ds := s.takeWhile isDigit
  if ds = [] then .error .exn
  else
    let v : Nat := ds.foldl (fun a c => 10 * a + (c.toNat - 48)) 0
    let r : Int := if neg = true then - (v : Int) else (v : Int)
    if - (2 ^ 31 : Int) ≤ r ∧ r < (2 ^ 31 : Int) then .ok r else .error .exn

/-- One turn of the second loop of `set_register_list`. -/
def set_register_bit (i : registerInterval) (str : Str) : M registerInterval :=
  match str with
  | [] => .error .ub
  | _ :: digits => do
    let pos ← stoi digits
    if 0 ≤ pos ∧ pos.toNat < i.register_vector.length then
      return { i with register_vector := i.register_vector.set pos.toNat true }
    else .error .ub

/-- The method `registerInterval::set_register_list`. -/
def registerInterval.set_register_list (i : registerInterval) (s : List Str) :
    M registerInterval :=
  s.foldlM set_register_bit
    { i with register_list := s,
             register_vector := i.register_vector ++ List.replicate 64 false }

/-! ## Ancestor marking on basic blocks -/

/-- The read `mark[id]`. -/
def getMark (st : State) (id : Nat) : M Bool :=
  match st.mark[id]? with
  | some m => .ok m
  | none => .error .ub

/-- The write `mark[id] = true`. -/
def setMark (st : State) (id : Nat) : M State :=
  if id < st.mark.length then .ok { st with mark := st.mark.set id true } else .error .ub

/-- The function `RegisterIntervalCreationPass::visit_predecessors`. -/
def visit_predecessors : Nat → State → Nat → M State
  | 0, _, _ => .error .fuel
  | fuel + 1, st, BB => do
    let b ← getBlock st BB
    let st ← setMark st b.ID
    b.predecessors.foldlM
      (fun st p => do
        let pb ← getBlock st p
        let m ← getMark st pb.ID
        if m = false then visit_predecessors fuel st p else return st)
      st

/-- The two loops at the head of `visit_all_predecessors`: `basic_blocks.size()`
entries are appended to `mark`, then the first `basic_blocks.size()` entries are
cleared. -/
def reset_mark (st : State) : State :=
  let n := st.basic_blocks.length
  { st with mark := List.replicate n false ++ (st.mark ++ List.replicate n false).drop n }

/-- The function `RegisterIntervalCreationPass::visit_all_predecessors`. -/
def visit_all_predecessors (fuel : Nat) (st : State) (BB : Nat) : M State :=
  visit_predecessors fuel (reset_mark st) BB

/-! ## Pass one -/

/-- The comparison `BB->numberOfRegisters() < N` between two `int`s. -/
def int_lt (size : Nat) (N : Int) : Bool := decide ((size : Int) < N)

/-- The loop of pass one that adds to `Union` the registers of the marked blocks
of the register-interval `i`. -/
def union_marked (st : State) (i : Option Nat) (Union : List Str) : M (List Str) :=
  st.basic_blocks.foldlM
    (fun Union bb => do
      let b ← getBlock st bb
      let m ← getMark st b.ID
      if m = true ∧ b.BB_registerInterval = i then return reg_union Union b.output_list
      else return Union)
    Union

/-- The loop of pass one that computes the boolean `C`: every predecessor in `P`
belongs to the register-interval `i`. -/
def all_in_interval (st : State) (i : Option Nat) (P : List Nat) : M Bool :=
  P.foldlM
    (fun C p => do
      let pb ← getBlock st p
      if pb.BB_registerInterval ≠ i then return false else return C)
    true

/-- One turn of the growth loop of pass one, for the candidate block `b`. -/
def growth_step (fuel : Nat) (st : State) (i : Option Nat) (N : Int) (b : Nat) : M State := do
  let st ← visit_all_predecessors fuel st b
  let blk ← getBlock st b
  let Union ← union_marked st i blk.output_list
  let C ← all_in_interval st i blk.predecessors
  if blk.BB_registerInterval = none ∧ C = true ∧ size_lt Union.length N = true then
    let st := setBlock st b { blk with BB_registerInterval := i, input_list := Union }
    traverse fuel st b N
  else return st

/-- The growth loop of pass one, `for (auto b = basic_blocks.begin(); ...)`, from
the element of index `k` on.  A block that `traverse` appends to `basic_blocks`
during the loop is visited by the loop. -/
def growth_loop (i : Option Nat) (N : Int) : Nat → State → Nat → M State
  | 0, st, k => if k < st.basic_blocks.length then .error .fuel else .ok st
  | fuel + 1, st, k =>
    match st.basic_blocks[k]? with
    | none => .ok st
    | some b => do
      let st ← growth_step fuel st i N b
      growth_loop i N fuel st (k + 1)

/-- Order of pointers in a `std::set<basicBlock*>`. -/
def ptr_lt (a b : Nat) : Bool := decide (a < b)

/-- The loop of pass one that collects in `Successors` the successors of the
blocks of `i` that lie outside `i`. -/
def collect_successors (st : State) (i : Option Nat) : M (List Nat) :=
  st.basic_blocks.foldlM
    (fun Successors b => do
      let blk ← getBlock st b
      if blk.BB_registerInterval = i then
        blk.successors.foldlM
          (fun Successors s => do
            let sb ← getBlock st s
            if sb.BB_registerInterval ≠ i then return set_insert ptr_lt s Successors
            else return Successors)
          Successors
      else return Successors)
    []

/-- The loop of pass one that gives a new register-interval to every successor
that has none. -/
def assign_successors (st : State) (Successors : List Nat) : M State :=
  Successors.foldlM
    (fun st s => do
      let sb ← getBlock st s
      if sb.BB_registerInterval = none then
        let (st, temp) := new_registerInterval st
        let st := { st with RegisterIntervals := st.RegisterIntervals ++ [temp] }
        let st := setBlock st s { sb with BB_registerInterval := some temp, input_list := [] }
        return { st with WS := st.WS ++ [s] }
      else return st)
    st

/-- The statement `if (BB->numberOfRegisters() < N) { ... }` of pass one: the
growth loop runs when the block `BB` is under the budget. -/
def passOne_growth (fuel : Nat) (st : State) (i : Option Nat) (N : Int) (BB : Nat) :
    M State := do
  let b ← getBlock st BB
  if int_lt b.output_list.length N = true then growth_loop i N fuel st 0 else pure st

/-- The body of the `while (!WS.empty())` loop of pass one, for the block `BB`
just popped from the working set. -/
def passOne_body (fuel : Nat) (st : State) (BB : Nat) (N : Int) : M State := do
  let b ← getBlock st BB
  let i := b.BB_registerInterval
  let st ← traverse fuel st BB N
  let st ← passOne_growth fuel st i N BB
  let Successors ← collect_successors st i
  assign_successors st Successors

/-- The `while (!WS.empty())` loop of pass one. -/
def passOne_loop (N : Int) : Nat → State → M State
  | fuel, st =>
    match st.WS with
    | [] => .ok st
    | BB :: rest =>
      match fuel with
      | 0 => .error .fuel
      | fuel + 1 => do
        let st ← passOne_body fuel { st with WS := rest } BB N
        passOne_loop N fuel st

/-- The initialisation loop of pass one. -/
def passOne_init (st : State) : M State :=
  st.basic_blocks.foldlM
    (fun st b => do
      let blk ← getBlock st b
      return setBlock st b { blk with input_list := [], BB_registerInterval := none })
    st

/-- The seeding loop of pass one: every block without predecessors opens a
register-interval and enters the working set. -/
def passOne_seed (st : State) : M State :=
  st.basic_blocks.foldlM
    (fun st b => do
      let blk ← getBlock st b
      if blk.predecessors.length = 0 then
        let (st, temp) := new_registerInterval st
        let st := { st with RegisterIntervals := st.RegisterIntervals ++ [temp] }
        let st := setBlock st b { blk with BB_registerInterval := some temp }
        return { st with WS := st.WS ++ [b] }
      else return st)
    st

/-- Union of the output lists of the blocks of the register-interval `i`. -/
def member_registers (st : State) (i : Nat) : M (List Str) :=
  st.basic_blocks.foldlM
    (fun regList b => do
      let blk ← getBlock st b
      if blk.BB_registerInterval = some i then return reg_union regList blk.output_list
      else return regList)
    []

/-- Concatenation of the texts of the blocks of the register-interval `i`. -/
def member_code (st : State) (i : Nat) : M Str :=
  st.basic_blocks.foldlM
    (fun code b => do
      let blk ← getBlock st b
      if blk.BB_registerInterval = some i then return code ++ blk.code
      else return code)
    []

/-- The loop of pass one that sets the register list of every register-interval. -/
def passOne_register_lists (st : State) : M State :=
  st.RegisterIntervals.foldlM
    (fun st i => do
      let regList ← member_registers st i
      let I ← getInterval st i
      let I ← I.set_register_list regList
      return setInterval st i I)
    st

/-- The loop of pass one that sets the code of every register-interval. -/
def passOne_codes (st : State) : M State :=
  st.RegisterIntervals.foldlM
    (fun st i => do
      let code ← member_code st i
      let I ← getInterval st i
      return setInterval st i (I.set_code code))
    st

/-- The edges a block `b` of the register-interval `i` contributes to `i`. -/
def passOne_block_edges (st : State) (i : Nat) (b : Nat) : M State := do
  let blk ← getBlock st b
  if blk.BB_registerInterval = some i then
    let st ← blk.predecessors.foldlM
      (fun st p => do
        let pb ← getBlock st p
        if pb.BB_registerInterval ≠ some i then
          let I ← getInterval st i
          return setInterval st i (I.add_predecessor pb.BB_registerInterval)
        else return st)
      st
    blk.successors.foldlM
      (fun st s => do
        let sb ← getBlock st s
        if sb.BB_registerInterval ≠ some i then
          let I ← getInterval st i
          return setInterval st i (I.add_successors sb.BB_registerInterval)
        else return st)
      st
  else return st

/-- The loop of pass one that sets the predecessors and successors of every
register-interval. -/
def passOne_edges (st : State) : M State :=
  st.RegisterIntervals.foldlM
    (fun st i => st.basic_blocks.foldlM (fun st b => passOne_block_edges st i b) st)
    st

/-- The function `RegisterIntervalCreationPass::registerIntervalCreationPassOne`;
the result is the final state and the returned vector. -/
def registerIntervalCreationPassOne (fuel : Nat) (st : State) (BB_vector : List Nat) (N : Int) :
    M (State × List Nat) := do
  let st := { st with basic_blocks := BB_vector }
  let st ← passOne_init st
  let st := { st with RegisterIntervals := [] }
  let st ← passOne_seed st
  let st ← passOne_loop N fuel st
  let st ← passOne_register_lists st
  let st ← passOne_codes st
  let st ← passOne_edges st
  return (st, st.RegisterIntervals)

/-! ## Ancestor marking on register-intervals -/

/-- The read `registerInterval_mark[id]`. -/
def getIntervalMark (st : State) (id : Nat) : M Bool :=
  match st.registerInterval_mark[id]? with
  | some m => .ok m
  | none => .error .ub

/-- The write `registerInterval_mark[id] = true`. -/
def setIntervalMark (st : State) (id : Nat) : M State :=
  if id < st.registerInterval_mark.length then
    .ok { st with registerInterval_mark := st.registerInterval_mark.set id true }
  else .error .ub

/-- The function `RegisterIntervalCreationPass::registerInterval_visit_predecessors`. -/
def registerInterval_visit_predecessors : Nat → State → Nat → M State
  | 0, _, _ => .error .fuel
  | fuel + 1, st, i => do
    let I ← getInterval st i
    let st ← setIntervalMark st I.ID
    I.predecessors.foldlM
      (fun st p => do
        let P ← getIntervalPtr st p
        let m ← getIntervalMark st P.ID
        match p with
        | some q => if m = false then registerInterval_visit_predecessors fuel st q else return st
        | none => .error .ub)
      st

/-- The two loops at the head of `visit_registerInterval_all_predecessors`; their
bound `RegisterIntervals[0]->getID() + RegisterIntervals.size()` reads the
global vector that pass one filled. -/
def reset_interval_mark (st : State) : M State :=
  match st.RegisterIntervals with
  | [] => .error .ub
  | first :: _ => do
    let I ← getInterval st first
    let n := I.ID + st.RegisterIntervals.length
    let cleared := List.replicate n false ++
      (st.registerInterval_mark ++ List.replicate n false).drop n
    return { st with registerInterval_mark := cleared }

/-- The function `RegisterIntervalCreationPass::visit_registerInterval_all_predecessors`. -/
def visit_registerInterval_all_predecessors (fuel : Nat) (st : State) (i : Nat) : M State := do
  let st ← reset_interval_mark st
  registerInterval_visit_predecessors fuel st i

/-! ## Pass two -/

/-- The initialisation loop of pass two. -/
def passTwo_init (st : State) (RegisterInterval_in : List Nat) : M State :=
  RegisterInterval_in.foldlM
    (fun st i => do
      let I ← getInterval st i
      return setInterval st i { I with next_level_registerInterval := none })
    st

/-- The seeding loop of pass two; the result carries the state, the vector
`RegisterInterval_out` and the queue `WorkingSet`. -/
def passTwo_seed (st : State) (RegisterInterval_in : List Nat) :
    M (State × List Nat × List Nat) :=
  RegisterInterval_in.foldlM
    (fun (acc : State × List Nat × List Nat) i => do
      let (st, out, WorkingSet) := acc
      let I ← getInterval st i
      if I.predecessors.length = 0 then
        let (st, temp) := new_registerInterval st
        let st := setInterval st i { I with next_level_registerInterval := some temp }
        return (st, out ++ [temp], WorkingSet ++ [i])
      else return (st, out, WorkingSet))
    (st, [], [])

/-- The loop of pass two that computes the boolean `C` for the candidate
`Interval`. -/
def all_in_next_level (st : State) (ii : Option Nat) (Interval : Nat)
    (Predecessors : List (Option Nat)) : M Bool :=
  Predecessors.foldlM
    (fun C p => do
      let P ← getIntervalPtr st p
      if P.next_level_registerInterval ≠ ii ∧ p ≠ some Interval then return false
      else return C)
    true

/-- The loop of pass two that unites the register lists of all the elements of
`RegisterInterval_in`. -/
def union_all (st : State) (RegisterInterval_in : List Nat) : M (List Str) :=
  RegisterInterval_in.foldlM
    (fun Union i => do
      let I ← getInterval st i
      return reg_union Union I.register_list)
    []

/-- One turn of the growth loop of pass two, for the candidate `Interval`. -/
def passTwo_growth_step (fuel : Nat) (RegisterInterval_in : List Nat) (ii : Option Nat)
    (N : Int) (st : State) (Interval : Nat) : M State := do
  let I ← getInterval st Interval
  let Predecessors := I.predecessors
  let st ← visit_registerInterval_all_predecessors fuel st Interval
  let C ← all_in_next_level st ii Interval Predecessors
  let Union ← union_all st RegisterInterval_in
  let I ← getInterval st Interval
  if I.next_level_registerInterval = none ∧ C = true ∧ size_lt Union.length N = true then
    let st := setInterval st Interval { I with next_level_registerInterval := ii }
    let I ← getInterval st Interval
    let s := I.register_list
    let II ← getIntervalPtr st ii
    let Union := reg_union II.register_list s
    let II ← II.set_register_list Union
    return setInterval st (ii.getD 0) II
  else return st

/-- Order of pointers in a `std::set<registerInterval*>`; the null pointer comes
first. -/
def optr_lt (a b : Option Nat) : Bool :=
  match a, b with
  | none, none => false
  | none, some _ => true
  | some _, none => false
  | some x, some y => decide (x < y)

/-- The loop of pass two that collects in `Successors` the successors of the
elements of the next-level register-interval `ii`. -/
def passTwo_collect_successors (st : State) (RegisterInterval_in : List Nat)
    (ii : Option Nat) : M (List (Option Nat)) :=
  RegisterInterval_in.foldlM
    (fun Successors i => do
      let I ← getInterval st i
      if I.next_level_registerInterval = ii then
        return I.successors.foldl (fun Successors s => set_insert optr_lt s Successors) Successors
      else return Successors)
    []

/-- The loop of pass two that gives a new next-level register-interval to every
successor that has none. -/
def passTwo_assign_successors (st : State) (out WorkingSet : List Nat)
    (Successors : List (Option Nat)) : M (State × List Nat × List Nat) :=
  Successors.foldlM
    (fun (acc : State × List Nat × List Nat) s => do
      let (st, out, WorkingSet) := acc
      let S ← getIntervalPtr st s
      if S.next_level_registerInterval = none then
        let (st, temp) := new_registerInterval st
        let st := setInterval st (s.getD 0) { S with next_level_registerInterval := some temp }
        return (st, out ++ [temp], WorkingSet ++ [s.getD 0])
      else return (st, out, WorkingSet))
    (st, out, WorkingSet)

/-- The statement `if (i->get_register_list().size() < N) { ... }` of pass two,
for the register-interval just popped, whose record is `I`: the register list of
its next-level register-interval is set, then the growth loop runs. -/
def passTwo_growth (fuel : Nat) (RegisterInterval_in : List Nat) (N : Int) (st : State)
    (I : registerInterval) : M State :=
  if size_lt I.register_list.length N = true then do
    let ii := I.next_level_registerInterval
    let II ← getIntervalPtr st ii
    let II ← II.set_register_list I.register_list
    let st := setInterval st (ii.getD 0) II
    RegisterInterval_in.foldlM (passTwo_growth_step fuel RegisterInterval_in ii N) st
  else pure st

/-- The body of the `while (!WorkingSet.empty())` loop of pass two, for the
register-interval `i` just popped. -/
def passTwo_body (fuel : Nat) (RegisterInterval_in : List Nat) (N : Int) (st : State)
    (out WorkingSet : List Nat) (i : Nat) : M (State × List Nat × List Nat) := do
  let I ← getInterval st i
  let ii := I.next_level_registerInterval
  let st ← passTwo_growth fuel RegisterInterval_in N st I
  let Successors ← passTwo_collect_successors st RegisterInterval_in ii
  passTwo_assign_successors st out WorkingSet Successors

/-- The `while (!WorkingSet.empty())` loop of pass two. -/
def passTwo_loop (RegisterInterval_in : List Nat) (N : Int) :
    Nat → State → List Nat → List Nat → M (State × List Nat)
  | fuel, st, out, WorkingSet =>
    match WorkingSet with
    | [] => .ok (st, out)
    | i :: rest =>
      match fuel with
      | 0 => .error .fuel
      | fuel + 1 => do
        let (st, out, WorkingSet) ← passTwo_body fuel RegisterInterval_in N st out rest i
        passTwo_loop RegisterInterval_in N fuel st out WorkingSet

/-- Union of the register lists of the register-intervals folded into `Interval`. -/
def folded_registers (st : State) (RegisterInterval_in : List Nat) (Interval : Nat) :
    M (List Str) :=
  RegisterInterval_in.foldlM
    (fun regList i => do
      let I ← getInterval st i
      if I.next_level_registerInterval = some Interval then
        return reg_union regList I.register_list
      else return regList)
    []

/-- Concatenation of the codes of the register-intervals folded into `Interval`. -/
def folded_code (st : State) (RegisterInterval_in : List Nat) (Interval : Nat) : M Str :=
  RegisterInterval_in.foldlM
    (fun code i => do
      let I ← getInterval st i
      if I.next_level_registerInterval = some Interval then return code ++ I.code
      else return code)
    []

/-- The loop of pass two that sets the register list of every output
register-interval. -/
def passTwo_register_lists (st : State) (RegisterInterval_in out : List Nat) : M State :=
  out.foldlM
    (fun st Interval => do
      let regList ← folded_registers st RegisterInterval_in Interval
      let I ← getInterval st Interval
      let I ← I.set_register_list regList
      return setInterval st Interval I)
    st

/-- The loop of pass two that sets the code of every output register-interval. -/
def passTwo_codes (st : State) (RegisterInterval_in out : List Nat) : M State :=
  out.foldlM
    (fun st Interval => do
      let code ← folded_code st RegisterInterval_in Interval
      let I ← getInterval st Interval
      return setInterval st Interval (I.set_code code))
    st

/-- The edges an input register-interval `i` folded into `Interval` contributes
to `Interval`: the source calls `add_successors` in the loop over the
predecessors of `i` and `add_predecessor` in the loop over its successors. -/
def passTwo_interval_edges (st : State) (Interval : Nat) (i : Nat) : M State := do
  let I ← getInterval st i
  if I.next_level_registerInterval = some Interval then
    let st ← I.predecessors.foldlM
      (fun st p => do
        let P ← getIntervalPtr st p
        if P.next_level_registerInterval ≠ some Interval then
          let Out ← getInterval st Interval
          return setInterval st Interval (Out.add_successors P.next_level_registerInterval)
        else return st)
      st
    I.successors.foldlM
      (fun st s => do
        let S ← getIntervalPtr st s
        if S.next_level_registerInterval ≠ some Interval then
          let Out ← getInterval st Interval
          return setInterval st Interval (Out.add_predecessor S.next_level_registerInterval)
        else return st)
      st
  else return st

/-- The loop of pass two that sets the predecessors and successors of every
output register-interval. -/
def passTwo_edges (st : State) (RegisterInterval_in out : List Nat) : M State :=
  out.foldlM
    (fun st Interval =>
      RegisterInterval_in.foldlM (fun st i => passTwo_interval_edges st Interval i) st)
    st

/-- The function `RegisterIntervalCreationPass::registerIntervalCreationPassTwo`;
the result is the final state and the returned vector. -/
def registerIntervalCreationPassTwo (fuel : Nat) (st : State) (RegisterInterval_in : List Nat)
    (N : Int) : M (State × List Nat) := do
  let st ← passTwo_init st RegisterInterval_in
  let (st, out, WorkingSet) ← passTwo_seed st RegisterInterval_in
  let (st, out) ← passTwo_loop RegisterInterval_in N fuel st out WorkingSet
  let st ← passTwo_register_lists st RegisterInterval_in out
  let st ← passTwo_codes st RegisterInterval_in out
  let st ← passTwo_edges st RegisterInterval_in out
  return (st, out)

/-! ## The convergence driver (`main`) -/

/-- The `do ... while (intervals.size() < Size)` loop of `main`.  The result is
the final state and the values the variable `intervals` took after each call of
pass two, in order. -/
def convergence_loop (N : Int) : Nat → State → List Nat → M (State × List (List Nat))
  | 0, _, _ => .error .fuel
  | fuel + 1, st, intervals => do
    let Size := intervals.length
    let (st, intervals) ← registerIntervalCreationPassTwo fuel st intervals N
    if intervals.length < Size then do
      let (st, later) ← convergence_loop N fuel st intervals
      return (st, intervals :: later)
    else return (st, [intervals])

/-- The part of `main` after the front end: pass one, then the convergence
loop. -/
def run (fuel : Nat) (st : State) (basic_blocks : List Nat) (REGNUM : Int) :
    M (State × List (List Nat)) := do
  let (st, intervals) ← registerIntervalCreationPassOne fuel st basic_blocks REGNUM
  convergence_loop REGNUM fuel st intervals

/-! ## Auxiliary definitions used in the statements -/

deriving instance DecidableEq for Except

/-- The record of the block `BB` after `traverse` has split it at `found1`. -/
def split_old (b : basicBlock) (found1 : Nat) (register_list : List Str) (BB1 : Nat) :
    basicBlock :=
  { b with code := b.code.take found1,
           NumberOfInstructions := count_instructions (b.code.take found1),
           output_list := register_list,
           successors := [BB1] }

/-- The record of the block that `traverse` creates when it splits the block
`BB`, whose record was `b`; `code2` is the text after renaming. -/
def split_new (st : State) (b : basicBlock) (BB : Nat) (code2 : Str) : basicBlock :=
  { ID := st.bbIDgenerator, name := b.name ++ to_string (b.ID + 1), code := code2,
    NumberOfInstructions := count_instructions code2,
    predecessors := [BB], successors := b.successors,
    input_list := [], output_list := reg_union [] (rescan code2),
    BB_registerInterval := some st.intervals.length }

/-- The record of a register-interval right after its construction. -/
def fresh_interval (st : State) : registerInterval :=
  { ID := st.riIDgenerator, register_vector := [],
    next_level_registerInterval := none, code := [],
    registerInterval_numberOfInstructions := 0, register_list := [],
    predecessors := [], successors := [] }

/-- The state after `traverse` has split the block `BB`. -/
def split_state (st : State) (b : basicBlock) (BB found1 : Nat) (register_list : List Str)
    (code2 : Str) : State :=
  { blocks := (st.blocks.set BB (split_old b found1 register_list st.blocks.length)) ++
      [split_new st b BB code2],
    intervals := st.intervals ++ [fresh_interval st],
    basic_blocks := st.basic_blocks ++ [st.blocks.length],
    RegisterIntervals := st.RegisterIntervals ++ [st.intervals.length],
    WS := st.WS ++ [st.blocks.length],
    mark := st.mark,
    registerInterval_mark := st.registerInterval_mark,
    bbIDgenerator := st.bbIDgenerator + 1,
    riIDgenerator := st.riIDgenerator + 1 }

/-- The state after a block `s` without register-interval, whose record is `sb`,
has received a new register-interval and entered the working set. -/
def frontier_state (st : State) (s : Nat) (sb : basicBlock) : State :=
  { st with
    blocks := st.blocks.set s { sb with BB_registerInterval := some st.intervals.length,
                                        input_list := [] },
    intervals := st.intervals ++ [fresh_interval st],
    RegisterIntervals := st.RegisterIntervals ++ [st.intervals.length],
    WS := st.WS ++ [s],
    riIDgenerator := st.riIDgenerator + 1 }

/-! ## Concrete inputs -/

/-- A basic block as the front end of `main.cpp` hands it to pass one: the text
is stored with `set_code` and the output list is filled by the register
extraction loop of `create_control_flow_graph`, which is the loop `rescan`. -/
def front_end_block (ID : Nat) (name code : String) (predecessors successors : List Nat) :
    basicBlock :=
  { ID := ID, name := name.toList, code := code.toList,
    NumberOfInstructions := count_instructions code.toList,
    predecessors := predecessors, successors := successors,
    input_list := [], output_list := reg_union [] (rescan code.toList),
    BB_registerInterval := none }

/-- The state in which `main` calls pass one: the arena holds the blocks of the
front end, the globals are empty and `basicBlock::IDgenerator` has the value
`IDgenerator` the front end left. -/
def initial_state (blocks : List basicBlock) (IDgenerator : Nat) : State :=
  { blocks := blocks, intervals := [], basic_blocks := [], RegisterIntervals := [], WS := [],
    mark := [], registerInterval_mark := [], bbIDgenerator := IDgenerator, riIDgenerator := 0 }

/-- A single block with one statement that names one register. -/
def one_register : State :=
  initial_state [front_end_block 0 "BB0" " MOV R1;" [] []] 1

/-- A single block with three statements, each naming one register. -/
def three_statements : State :=
  initial_state [front_end_block 0 "BB0" " MOV R1; MOV R2; MOV R3;" [] []] 1

/-- A block with two statements between an entry block and an exit block. -/
def two_statements : State :=
  initial_state
    [front_end_block 0 "BB0" " NOP;" [] [1],
     front_end_block 1 "BB1" "MOV R1;MOV R2;" [0] [2],
     front_end_block 2 "BB2" " EXIT;" [1] []] 1

/-- The graph `A → B`, `B → C`, `C → B`. -/
def entry_and_loop : State :=
  initial_state
    [front_end_block 0 "A" " MOV R1;" [] [1],
     front_end_block 1 "B" " MOV R1;" [0, 2] [2],
     front_end_block 2 "C" " MOV R1;" [1] [1]] 1

/-- The graph `A → A2 → A3`, `A → B`, `A → C`, `B → C`, `C → B`, with `A3` placed
before `A2` in the block list. -/
def entry_chain_and_loop : State :=
  initial_state
    [front_end_block 0 "A" " MOV R1;" [] [2, 3, 4],
     front_end_block 1 "A3" " MOV R1;" [2] [],
     front_end_block 2 "A2" " MOV R1;" [0] [1],
     front_end_block 3 "B" " MOV R1;" [0, 4] [4],
     front_end_block 4 "C" " MOV R1;" [0, 3] [3]] 1

/-- An entry block `A` with three successors `B`, `C`, `D` that have no other
predecessor; every block names one register of its own. -/
def entry_and_three_leaves : State :=
  initial_state
    [front_end_block 0 "A" " MOV R1;" [] [1, 2, 3],
     front_end_block 1 "B" " MOV R2;" [0] [],
     front_end_block 2 "C" " MOV R3;" [0] [],
     front_end_block 3 "D" " MOV R4;" [0] []] 4

/-- A block named `BB1` whose second statement starts, one character after the
statement terminator, with the name of the block, and names it again later. -/
def name_at_start : State :=
  initial_state [front_end_block 0 "BB1" "MOV R1;_BB1 R2; BRA BB1;" [] []] 1

/-- A single block with one statement that names a register of three digits. -/
def three_digit_register : State :=
  initial_state [front_end_block 0 "BB0" " MOV R100;" [] []] 1

/-- A block whose first statement names two registers and whose input register
set holds `R9`, as the growth loop of pass one may leave it. -/
def first_overflow : State :=
  initial_state
    [{ front_end_block 0 "BB0" " ADD R1 R2;" [] [] with input_list := ["R9".toList] }] 1

/-- A single block with five statements, each starting with the one register it
names. -/
def five_registers : State :=
  initial_state [front_end_block 0 "BB0" "R1=0;R2=0;R3=0;R4=0;R5=0;" [] []] 1

/-- The diamond `A → B`, `A → C`, `B → D`, `C → D` with the register sets
`{R0, R1}`, `{R2}`, `{R3}`, `{R4}`. -/
def diamond : State :=
  initial_state
    [front_end_block 0 "A" " ADD R0 R1;" [] [1, 2],
     front_end_block 1 "B" " MOV R2;" [0] [3],
     front_end_block 2 "C" " MOV R3;" [0] [3],
     front_end_block 3 "D" " MOV R4;" [1, 2] []] 1

/-! ## Notions of the specification -/

/-- The register identifiers of a text in the sense of the specification: at
every position that holds `R` followed by a digit, the `R` with its whole run of
digits; the result is the set of these names. -/
def register_identifiers (code : Str) : List Str :=
  (List.range code.length).foldl
    (fun out i =>
      if charAt code i = 'R' ∧ isDigit (charAt code (i + 1)) = true then
        reg_insert ('R' :: (code.drop (i + 1)).takeWhile isDigit) out
      else out)
    []

/-- The name of the register of index `n`: `R` followed by the decimal digits
of `n`. -/
def register_name (n : Nat) : Str := 'R' :: to_string n

/-- The state of pass one on a block list with the single block `p`, once `p`
has been popped from the working set: `p` has no predecessor and no successor,
belongs to the register-interval `t`, which is the only element of
`RegisterIntervals`, and its identifier is an index of the mark vector as
`visit_all_predecessors` resizes it. -/
def Single (s : State) (p t : Nat) : Prop :=
  s.basic_blocks = [p] ∧ s.WS = [] ∧ s.RegisterIntervals = [t] ∧
  (∃ b : basicBlock, s.blocks[p]? = some b ∧ b.predecessors = [] ∧ b.successors = [] ∧
    b.BB_registerInterval = some t ∧ b.ID < s.mark.length + 1 ∧
    ∀ r ∈ b.output_list, ∃ n, n < 64 ∧ r = register_name n) ∧
  ∃ I : registerInterval, s.intervals[t]? = some I

/-- The register-interval pointer stored in the block `c`. -/
def interval_of (st : State) (c : Nat) : Option Nat :=
  (st.blocks[c]?).bind (fun b => b.BB_registerInterval)

/-- The predecessor list of the register-interval `i`. -/
def interval_predecessors (st : State) (i : Option Nat) : List (Option Nat) :=
  match i with
  | some t => ((st.intervals[t]?).map (fun I => I.predecessors)).getD []
  | none => []

/-- The successor list of the register-interval `i`. -/
def interval_successors (st : State) (i : Option Nat) : List (Option Nat) :=
  match i with
  | some t => ((st.intervals[t]?).map (fun I => I.successors)).getD []
  | none => []

/-- A block whose second statement starts, after a blank, with a register name. -/
def register_at_start : State :=
  initial_state [front_end_block 0 "BB0" "MOV R1; R2=R3;" [] []] 1

/-- The graph `A → B` in which `B` has two statements of two registers each, at
a moment when `basicBlock::IDgenerator` has the value 3. -/
def late_identifier : State :=
  initial_state
    [front_end_block 0 "A" " MOV R1;" [] [1],
     front_end_block 1 "B" " ADD R2 R3; ADD R4 R5;" [0] []] 3

/-- The twenty-four orders in which the four blocks of the diamond can stand in
the block list. -/
def diamond_orders : List (List Nat) :=
  [[0, 1, 2, 3],
   [0, 1, 3, 2],
   [0, 2, 1, 3],
   [0, 2, 3, 1],
   [0, 3, 1, 2],
   [0, 3, 2, 1],
   [1, 0, 2, 3],
   [1, 0, 3, 2],
   [1, 2, 0, 3],
   [1, 2, 3, 0],
   [1, 3, 0, 2],
   [1, 3, 2, 0],
   [2, 0, 1, 3],
   [2, 0, 3, 1],
   [2, 1, 0, 3],
   [2, 1, 3, 0],
   [2, 3, 0, 1],
   [2, 3, 1, 0],
   [3, 0, 1, 2],
   [3, 0, 2, 1],
   [3, 1, 0, 2],
   [3, 1, 2, 0],
   [3, 2, 0, 1],
   [3, 2, 1, 0]]

/-- The result expected on the diamond with blocks `0` (A), `1` (B), `2` (C) and
`3` (D): every block has a register-interval of the returned vector `l`, the one
of A differs from the three others, it is a predecessor of those of B and C,
which are predecessors of the one of D, and the successor lists agree. -/
def diamond_shape (st : State) (l : List Nat) : Bool :=
  let a := interval_of st 0
  let b := interval_of st 1
  let c := interval_of st 2
  let d := interval_of st 3
  decide ((∀ x ∈ [a, b, c, d], ∃ t ∈ l, x = some t) ∧ a ≠ b ∧ a ≠ c ∧ a ≠ d ∧
    a ∈ interval_predecessors st b ∧ a ∈ interval_predecessors st c ∧
    b ∈ interval_predecessors st d ∧ c ∈ interval_predecessors st d ∧
    b ∈ interval_successors st a ∧ c ∈ interval_successors st a ∧
    d ∈ interval_successors st b ∧ d ∈ interval_successors st c)

/-! ## Relations between states -/

/-- From `st` to `st'` every register-interval of the arena is still there, with
the same predecessor and successor lists, and a next-level pointer that was set
is unchanged. -/
def IFrame (st st' : State) : Prop :=
  ∀ (p : Nat) (I : registerInterval), st.intervals[p]? = some I →
    ∃ I' : registerInterval, st'.intervals[p]? = some I' ∧ I'.successors = I.successors ∧
      I'.predecessors = I.predecessors ∧
      ∀ t, I.next_level_registerInterval = some t → I'.next_level_registerInterval = some t

/-- The interval list `l` contains every predecessor and every successor of its
elements. -/
def Closed (st : State) (l : List Nat) : Prop :=
  ∀ i ∈ l, ∀ I : registerInterval, st.intervals[i]? = some I →
    (∀ s ∈ I.successors, ∃ q, s = some q ∧ q ∈ l) ∧
    (∀ s ∈ I.predecessors, ∃ q, s = some q ∧ q ∈ l)

/-- The invariant of pass two that bounds the number of output
register-intervals: the elements of `out` are distinct, allocated, and each is
the next-level register-interval of an element of the input list `l`, whose
elements are allocated and whose successors lie in `l`. -/
def OutInv (l : List Nat) (st : State) (out : List Nat) : Prop :=
  out.Nodup ∧ (∀ t ∈ out, t < st.intervals.length) ∧
  (∀ t ∈ out, ∃ i ∈ l, ∃ I : registerInterval,
    st.intervals[i]? = some I ∧ I.next_level_registerInterval = some t) ∧
  (∀ i ∈ l, i < st.intervals.length) ∧
  (∀ i ∈ l, ∀ I : registerInterval, st.intervals[i]? = some I →
    ∀ s ∈ I.successors, ∃ q, s = some q ∧ q ∈ l)

/-! ## Fuel -/

/-- Giving the computation `g` one more unit of fuel than `n` does not change a
result that is not the out-of-fuel fault. -/
def MonoAt {α : Type} (n : Nat) (g : Nat → M α) : Prop :=
  g n ≠ .error .fuel → g (n + 1) = g n

/-- More fuel never changes a result that is not the out-of-fuel fault. -/
def Mono {α : Type} (g : Nat → M α) : Prop := ∀ n, MonoAt n g

/-- With enough fuel the computation `g` stops by itself: its result is not the
out-of-fuel fault. -/
def Halts {α : Type} (g : Nat → M α) : Prop := ∃ F, g F ≠ .error .fuel

/-- The pointer `s` is null, dangling, or points to a register-interval without
next-level register-interval. -/
def unassigned (st : State) (s : Option Nat) : Bool :=
  match s with
  | none => true
  | some q =>
    match st.intervals[q]? with
    | none => true
    | some S => S.next_level_registerInterval.isNone

/-- Number of entries of the list `T` that are still unassigned: with the length
of the working set, the quantity that decreases in the main loop of pass two. -/
def pending (T : List (Option Nat)) (st : State) : Nat := (T.filter (unassigned st)).length

/-- The elements of the input list `l` are allocated and all their successors
occur in `T`. -/
def LInv (T : List (Option Nat)) (l : List Nat) (st : State) : Prop :=
  (∀ i ∈ l, i < st.intervals.length) ∧
  (∀ i ∈ l, ∀ I : registerInterval, st.intervals[i]? = some I → ∀ s ∈ I.successors, s ∈ T)

/-- Two register-intervals `0 → 1` as pass one leaves them, with one register
each. -/
def two_intervals : State :=
  { blocks := [],
    intervals := [
      { ID := 0, register_vector := [], next_level_registerInterval := none,
        code := " MOV R1;".toList, registerInterval_numberOfInstructions := 1,
        register_list := ["R1".toList], predecessors := [], successors := [some 1] },
      { ID := 1, register_vector := [], next_level_registerInterval := none,
        code := " MOV R2;".toList, registerInterval_numberOfInstructions := 1,
        register_list := ["R2".toList], predecessors := [some 0], successors := [] }],
    basic_blocks := [], RegisterIntervals := [0, 1], WS := [],
    mark := [], registerInterval_mark := [], bbIDgenerator := 2, riIDgenerator := 2 }

/-! ## Pass one with the scan of the texts replaced by a table

When no statement overflows, `traverse` only stores the registers it has read in
the output register set of the block.  The definitions below are pass one with
that effect read from a table `S` (block pointer to register set); they are used
to compare runs of pass one on blocks that differ in their names and texts
only. -/

/-- A block of a scenario of the specification: a named block with a text, the
register set the scenario gives it, and its edges. -/
def scenario_block (ID : Nat) (name code : Str) (registers : List Str)
    (predecessors successors : List Nat) : basicBlock :=
  { ID := ID, name := name, code := code,
    NumberOfInstructions := count_instructions code,
    predecessors := predecessors, successors := successors,
    input_list := [], output_list := registers,
    BB_registerInterval := none }

/-- The diamond `A → B`, `A → C`, `B → D`, `C → D` with the register sets
`{R0, R1}`, `{R2}`, `{R3}`, `{R4}`; each argument is the name and the text of a
block. -/
def diamond_with (A B C D : Str × Str) : State :=
  initial_state
    [scenario_block 0 A.1 A.2 ["R0".toList, "R1".toList] [] [1, 2],
     scenario_block 1 B.1 B.2 ["R2".toList] [0] [3],
     scenario_block 2 C.1 C.2 ["R3".toList] [0] [3],
     scenario_block 3 D.1 D.2 ["R4".toList] [1, 2] []] 1

/-- The blocks of the block list are allocated; the register-interval of a block
of the block list or of the working set is an element of `RegisterIntervals`,
every block of the working set has one, and the elements of `RegisterIntervals`
are allocated. -/
def Base (st : State) : Prop :=
  (∀ c ∈ st.basic_blocks, c < st.blocks.length) ∧
  (∀ c ∈ st.basic_blocks, ∀ cb : basicBlock, st.blocks[c]? = some cb →
    ∀ t, cb.BB_registerInterval = some t → t ∈ st.RegisterIntervals) ∧
  (∀ w ∈ st.WS, ∃ wb : basicBlock, st.blocks[w]? = some wb ∧
    ∃ t, wb.BB_registerInterval = some t ∧ t ∈ st.RegisterIntervals) ∧
  (∀ t ∈ st.RegisterIntervals, t < st.intervals.length)

/-- The invariant `Base` inside a turn of the main loop that works on the
register-interval `i`. -/
def BaseIn (i : Option Nat) (st : State) : Prop :=
  Base st ∧ ∃ t, i = some t ∧ t ∈ st.RegisterIntervals

/-- The invariant of the seeding loop: `Base`, and a block of the block list that
has a register-interval has no predecessor and is in the working set. -/
def SeedInv (st : State) : Prop :=
  Base st ∧ ∀ c ∈ st.basic_blocks, ∀ cb : basicBlock, st.blocks[c]? = some cb →
    cb.BB_registerInterval ≠ none → cb.predecessors = [] ∧ c ∈ st.WS

/-- Single entry: there is a map `entry` from register-intervals to blocks such
that every block of the block list that belongs to a register-interval `t` and
is not `entry t` has all its predecessors in `t`. -/
def Entry (st : State) : Prop :=
  ∃ entry : Nat → Nat, ∀ c ∈ st.basic_blocks, ∀ cb : basicBlock, st.blocks[c]? = some cb →
    ∀ t, cb.BB_registerInterval = some t → c ≠ entry t →
      ∀ p ∈ cb.predecessors, ∃ pb : basicBlock, st.blocks[p]? = some pb ∧
        pb.BB_registerInterval = some t

/-- The register-interval `t` is still to be processed: a block of the working
set belongs to it. -/
def Pending (st : State) (t : Nat) : Prop :=
  ∃ w ∈ st.WS, ∃ wb : basicBlock, st.blocks[w]? = some wb ∧ wb.BB_registerInterval = some t

/-- Every successor of the block with record `cb` has a register-interval. -/
def Done (st : State) (cb : basicBlock) : Prop :=
  ∀ s ∈ cb.successors, ∃ sb : basicBlock, st.blocks[s]? = some sb ∧
    sb.BB_registerInterval ≠ none

/-- Every block of the block list that has a register-interval `t` belongs to
the register-interval `i` being processed, or `t` is still to be processed, or
all the successors of the block have a register-interval. -/
def Covered (i : Option Nat) (st : State) : Prop :=
  ∀ c ∈ st.basic_blocks, ∀ cb : basicBlock, st.blocks[c]? = some cb →
    ∀ t, cb.BB_registerInterval = some t → some t = i ∨ Pending st t ∨ Done st cb

/-- Every block of the block list without predecessor has a register-interval. -/
def Seeded (st : State) : Prop :=
  ∀ c ∈ st.basic_blocks, ∀ cb : basicBlock, st.blocks[c]? = some cb →
    cb.predecessors = [] → cb.BB_registerInterval ≠ none

/-- The block `c` of the block list can be reached along successor edges, through
blocks of the block list, from a block of the block list without predecessor. -/
inductive Reach (st : State) : Nat → Prop where
  | entry (c : Nat) (cb : basicBlock) : c ∈ st.basic_blocks → st.blocks[c]? = some cb →
      cb.predecessors = [] → Reach st c
  | step (a c : Nat) (ab : basicBlock) : Reach st a → st.blocks[a]? = some ab →
      c ∈ ab.successors → c ∈ st.basic_blocks → Reach st c

/-- The bound on the register sets of the blocks `c` that satisfy `G`: every
block of the block list has an input list of at most `N` registers, and a block
`c` with `G c` has a statement terminator in its text as long as it has no
register-interval or waits in the working set, and an output list of at most
`N` registers once it has been scanned. -/
def Sized (N : Int) (G : Nat → Prop) (st : State) : Prop :=
  ∀ c ∈ st.basic_blocks, ∀ cb : basicBlock, st.blocks[c]? = some cb →
    cb.input_list.length ≤ to_size N ∧
    (G c →
      (cb.BB_registerInterval = none → ';' ∈ cb.code) ∧
      (cb.BB_registerInterval ≠ none →
        (c ∈ st.WS ∧ ';' ∈ cb.code) ∨ cb.output_list.length ≤ to_size N))

/-- The invariant `Sized` at the moment `traverse` is called on the block `BB`,
which has a register-interval and has left the working set. -/
def SizedAt (N : Int) (G : Nat → Prop) (BB : Nat) (st : State) : Prop :=
  ∀ c ∈ st.basic_blocks, ∀ cb : basicBlock, st.blocks[c]? = some cb →
    cb.input_list.length ≤ to_size N ∧
    (G c →
      (c ≠ BB →
        (cb.BB_registerInterval = none → ';' ∈ cb.code) ∧
        (cb.BB_registerInterval ≠ none →
          (c ∈ st.WS ∧ ';' ∈ cb.code) ∨ cb.output_list.length ≤ to_size N)) ∧
      (c = BB → cb.BB_registerInterval ≠ none ∧
        (';' ∈ cb.code ∨ cb.output_list.length ≤ to_size N)))

/-- The blocks created by splits, those of arena index `n0` or more: each is in
the block list, has a register-interval, has exactly one predecessor, which is
an older block, and is the only successor of some block. -/
def Frag (n0 : Nat) (st : State) : Prop :=
  n0 ≤ st.blocks.length ∧ ∀ c, n0 ≤ c → c < st.blocks.length →
    c ∈ st.basic_blocks ∧
    ∃ cb : basicBlock, st.blocks[c]? = some cb ∧ cb.BB_registerInterval ≠ none ∧
      (∃ p, p < c ∧ cb.predecessors = [p]) ∧
      ∃ (q : Nat) (qb : basicBlock), st.blocks[q]? = some qb ∧ qb.successors = [c]

/-- The entries of the block list that are members of the register-interval
`i`. -/
def members (st : State) (i : Nat) : List Nat :=
  st.basic_blocks.filter (fun c =>
    match st.blocks[c]? with
    | some cb => decide (cb.BB_registerInterval = some i)
    | none => false)

/-- The block `a` leads to `c`: `c` is a successor of `a`, or of a block reached
from `a` along successor edges through blocks of the block list. -/
inductive Link (st : State) : Nat → Nat → Prop where
  | last (a c : Nat) (ab : basicBlock) : st.blocks[a]? = some ab → c ∈ ab.successors →
      Link st a c
  | next (a f c : Nat) (ab : basicBlock) : st.blocks[a]? = some ab → f ∈ ab.successors →
      f ∈ st.basic_blocks → Link st f c → Link st a c

/-- The blocks of the list `V`, as they were in the state `st0`, are still in the
block list of `st`, with the same predecessor list, and each of them leads to
every block that was its successor in `st0`. -/
def Orig (st0 : State) (V : List Nat) (st : State) : Prop :=
  ∀ c ∈ V, c ∈ st.basic_blocks ∧ ∀ b0 : basicBlock, st0.blocks[c]? = some b0 →
    ∃ cb : basicBlock, st.blocks[c]? = some cb ∧ cb.predecessors = b0.predecessors ∧
      ∀ s ∈ b0.successors, Link st c s

/-- The invariant of pass two on the register lists: the arena has grown since
`st0`; every element of the input list `l` has the register list it had in `st0`,
successors in `l`, and a next-level register-interval, if any, that was allocated
after `st0`; the elements of `out` were allocated after `st0` and the working set
`ws` is part of `l`. -/
def Reg (st0 : State) (l : List Nat) (st : State) (out ws : List Nat) : Prop :=
  st0.intervals.length ≤ st.intervals.length ∧
  (∀ i ∈ l, ∃ I0 I : registerInterval, st0.intervals[i]? = some I0 ∧
    st.intervals[i]? = some I ∧ I.register_list = I0.register_list ∧
    (∀ s ∈ I.successors, ∃ q, s = some q ∧ q ∈ l) ∧
    ∀ t, I.next_level_registerInterval = some t →
      st0.intervals.length ≤ t ∧ t < st.intervals.length) ∧
  (∀ t ∈ out, st0.intervals.length ≤ t ∧ t < st.intervals.length) ∧
  (∀ w ∈ ws, w ∈ l)

/-- Whether, over the allocated blocks, `b` is in the successor list of `a`
exactly when `a` is in the predecessor list of `b`. -/
def edges_consistent (st : State) : Bool :=
  (List.range st.blocks.length).all fun a =>
    (List.range st.blocks.length).all fun b =>
      match st.blocks[a]?, st.blocks[b]? with
      | some ba, some bb => decide (b ∈ ba.successors ↔ a ∈ bb.predecessors)
      | _, _ => true

/-- Three blocks that `basicBlock(int)` numbered 0, 1, 2, at a moment when
`basicBlock::IDgenerator` has the value 2 (the front end has built two abstract
blocks): `A` has two statements of one register each, and `B → C`. -/
def shared_identifier : State :=
  initial_state
    [front_end_block 0 "A" " MOV R1; MOV R2;" [] [],
     front_end_block 1 "B" " NOP;" [] [2],
     front_end_block 2 "C" " NOP;" [1] []] 2

/-- A block with the empty name and two statements of one register each. -/
def empty_name : State :=
  initial_state [front_end_block 0 "" " MOV R1; MOV R2;" [] []] 1

/-- A block named `1` whose second statement names the register `R1`. -/
def digit_name : State :=
  initial_state [front_end_block 0 "1" " MOV R1; MOV R2 R1;" [] []] 1

/-- The graph `B → C`, `C → B`: a loop without an entry block. -/
def loop_without_entry : State :=
  initial_state
    [front_end_block 0 "B" " MOV R1;" [1] [1],
     front_end_block 1 "C" " MOV R2;" [0] [0]] 2

/-- The register tokens the statement loop of `traverse` reads at the indices
below `k` of the text: the value of `temporary_register_list` when the loop has
scanned the text up to index `k`. -/
def tokens_before (code : Str) (k : Nat) : List Str := scan_statement code 0 k []

/-- Two blocks `A` and `B` without predecessor and their common successor `C`. -/
def two_entries : State :=
  initial_state
    [front_end_block 0 "A" " MOV R1;" [] [2],
     front_end_block 1 "B" " MOV R2;" [] [2],
     front_end_block 2 "C" " MOV R3;" [0, 1] []] 3

/-- One turn of the seeding loop of pass one, for the block `b` of the block
list: the function `passOne_seed` folds over the block list. -/
def passOne_seed_turn (st : State) (b : Nat) : M State := do
  let blk ← getBlock st b
  if blk.predecessors.length = 0 then
    let (st, temp) := new_registerInterval st
    let st := { st with RegisterIntervals := st.RegisterIntervals ++ [temp] }
    let st := setBlock st b { blk with BB_registerInterval := some temp }
    return { st with WS := st.WS ++ [b] }
  else return st

/-! ## Pass one with a record of the creations of register-intervals -/

/-- The body of `split`, returning in addition the pair `(temp, BB1)`: the
register-interval that `new registerInterval()` creates here and the block `BB1`
that `BB1->set_registerInterval(temp)` gives it to. -/
def split_log (fuel : Nat) (st : State) (BB : Nat) (found1 : Nat) (register_list : List Str) :
    M (State × List (Nat × Nat)) := do
  let b ← getBlock st BB
  let code := b.code
  let code1 := code.take found1
  let code2 := code.drop (found1 + 1)
  let (st, BB1) := new_basicBlock st
  let st := { st with basic_blocks := st.basic_blocks ++ [BB1] }
  let old_name := b.name
  let new_name := old_name ++ to_string (b.ID + 1)
  let code2 ← rename_loop fuel code2 old_name new_name (find code2 old_name 1)
  let b1 ← getBlock st BB1
  let b1 := { b1 with name := new_name }
  let b1 := b1.set_code code2
  let b1 := { b1 with output_list := reg_union b1.output_list (rescan code2) }
  let b := b.set_code code1
  let b := { b with output_list := register_list }
  let b1 := { b1 with successors := b.successors }
  let b := { b with successors := [BB1] }
  let b1 := b1.add_predecessor BB
  let (st, temp) := new_registerInterval st
  let st := { st with RegisterIntervals := st.RegisterIntervals ++ [temp] }
  let b1 := { b1 with BB_registerInterval := some temp }
  let b1 := { b1 with input_list := [] }
  let st := setBlock (setBlock st BB b) BB1 b1
  return ({ st with WS := st.WS ++ [BB1] }, [(temp, BB1)])

/-- The function `traverse`, returning in addition the record of the
register-interval it creates, if it splits. -/
def traverse_log (fuel : Nat) (st : State) (BB : Nat) (N : Int) :
    M (State × List (Nat × Nat)) := do
  let b ← getBlock st BB
  match scan_loop b.code N (terminators b.code 0) 0 b.input_list [] none with
  | .overflow found1 register_list => split_log fuel st BB found1 register_list
  | .finished (some r) => return (setBlock st BB { b with output_list := r }, [])
  | .finished none => return (st, [])

/-- One turn of the growth loop, with the record of the creations. -/
def growth_step_log (fuel : Nat) (st : State) (i : Option Nat) (N : Int) (b : Nat) :
    M (State × List (Nat × Nat)) := do
  let st ← visit_all_predecessors fuel st b
  let blk ← getBlock st b
  let Union ← union_marked st i blk.output_list
  let C ← all_in_interval st i blk.predecessors
  if blk.BB_registerInterval = none ∧ C = true ∧ size_lt Union.length N = true then
    let st := setBlock st b { blk with BB_registerInterval := i, input_list := Union }
    traverse_log fuel st b N
  else return (st, [])

/-- The growth loop, with the record of the creations. -/
def growth_loop_log (i : Option Nat) (N : Int) :
    Nat → State → Nat → M (State × List (Nat × Nat))
  | 0, st, k => if k < st.basic_blocks.length then .error .fuel else .ok (st, [])
  | fuel + 1, st, k =>
    match st.basic_blocks[k]? with
    | none => .ok (st, [])
    | some b => do
      let r ← growth_step_log fuel st i N b
      let r' ← growth_loop_log i N fuel r.1 (k + 1)
      return (r'.1, r.2 ++ r'.2)

/-- The statement `if (BB->numberOfRegisters() < N) { ... }`, with the record of
the creations. -/
def passOne_growth_log (fuel : Nat) (st : State) (i : Option Nat) (N : Int) (BB : Nat) :
    M (State × List (Nat × Nat)) := do
  let b ← getBlock st BB
  if int_lt b.output_list.length N = true then growth_loop_log i N fuel st 0 else pure (st, [])

/-- One turn of the loop that gives a new register-interval to every successor
that has none, with the pair `(temp, s)` recorded where `temp` is created and
given to `s`. -/
def assign_successors_turn_log (r : State × List (Nat × Nat)) (s : Nat) :
    M (State × List (Nat × Nat)) := do
  let sb ← getBlock r.1 s
  if sb.BB_registerInterval = none then
    let (st, temp) := new_registerInterval r.1
    let st := { st with RegisterIntervals := st.RegisterIntervals ++ [temp] }
    let st := setBlock st s { sb with BB_registerInterval := some temp, input_list := [] }
    return ({ st with WS := st.WS ++ [s] }, r.2 ++ [(temp, s)])
  else return r

/-- The loop `assign_successors`, with the record of the creations. -/
def assign_successors_log (st : State) (Successors : List Nat) :
    M (State × List (Nat × Nat)) :=
  Successors.foldlM assign_successors_turn_log (st, [])

/-- The body of the main loop, with the record of the creations. -/
def passOne_body_log (fuel : Nat) (st : State) (BB : Nat) (N : Int) :
    M (State × List (Nat × Nat)) := do
  let b ← getBlock st BB
  let i := b.BB_registerInterval
  let r1 ← traverse_log fuel st BB N
  let r2 ← passOne_growth_log fuel r1.1 i N BB
  let Successors ← collect_successors r2.1 i
  let r3 ← assign_successors_log r2.1 Successors
  return (r3.1, r1.2 ++ r2.2 ++ r3.2)

/-- The main loop of pass one, with the record of the creations. -/
def passOne_loop_log (N : Int) : Nat → State → M (State × List (Nat × Nat))
  | fuel, st =>
    match st.WS with
    | [] => .ok (st, [])
    | BB :: rest =>
      match fuel with
      | 0 => .error .fuel
      | fuel + 1 => do
        let r ← passOne_body_log fuel { st with WS := rest } BB N
        let r' ← passOne_loop_log N fuel r.1
        return (r'.1, r.2 ++ r'.2)

/-- One turn of the seeding loop, with the pair `(temp, b)` recorded where
`temp` is created and given to `b`. -/
def passOne_seed_turn_log (r : State × List (Nat × Nat)) (b : Nat) :
    M (State × List (Nat × Nat)) := do
  let blk ← getBlock r.1 b
  if blk.predecessors.length = 0 then
    let (st, temp) := new_registerInterval r.1
    let st := { st with RegisterIntervals := st.RegisterIntervals ++ [temp] }
    let st := setBlock st b { blk with BB_registerInterval := some temp }
    return ({ st with WS := st.WS ++ [b] }, r.2 ++ [(temp, b)])
  else return r

/-- The seeding loop, with the record of the creations. -/
def passOne_seed_log (st : State) : M (State × List (Nat × Nat)) :=
  st.basic_blocks.foldlM passOne_seed_turn_log (st, [])

/-- The function `registerIntervalCreationPassOne`, returning in addition the
record of the creations: the list of the pairs `(temp, b)`, in the order of the
run, for every execution of `temp = new registerInterval()` followed by
`b->set_registerInterval(temp)` (in the seeding loop, in the loop that opens
register-intervals for the successors, and in a split). -/
def registerIntervalCreationPassOne_log (fuel : Nat) (st : State) (BB_vector : List Nat)
    (N : Int) : M (State × List Nat × List (Nat × Nat)) := do
  let st := { st with basic_blocks := BB_vector }
  let st ← passOne_init st
  let st := { st with RegisterIntervals := [] }
  let r ← passOne_seed_log st
  let r' ← passOne_loop_log N fuel r.1
  let st ← passOne_register_lists r'.1
  let st ← passOne_codes st
  let st ← passOne_edges st
  return (st, st.RegisterIntervals, r.2 ++ r'.2)


/-- The record `log` of the creations and the state agree: the register-intervals
of the record are, in order, those of `RegisterIntervals`, none of them twice,
and a block of the block list that belongs to a register-interval `t` either is
the block `t` was created for or has all its predecessors in `t`. -/
def Created (st : State) (log : List (Nat × Nat)) : Prop :=
  log.map Prod.fst = st.RegisterIntervals ∧ st.RegisterIntervals.Nodup ∧
  ∀ c ∈ st.basic_blocks, ∀ cb : basicBlock, st.blocks[c]? = some cb →
    ∀ t, cb.BB_registerInterval = some t →
      (t, c) ∈ log ∨ ∀ p ∈ cb.predecessors, ∃ pb : basicBlock, st.blocks[p]? = some pb ∧
        pb.BB_registerInterval = some t

/-- Every block of the record still belongs to the register-interval that was
created for it. -/
def Holds (st : State) (log : List (Nat × Nat)) : Prop :=
  ∀ t e, (t, e) ∈ log → ∃ eb : basicBlock, st.blocks[e]? = some eb ∧
    eb.BB_registerInterval = some t

/-- The block `z` is in the predecessor list of the block `y`. -/
def is_predecessor (st : State) (y z : Nat) : Prop :=
  ∃ b : basicBlock, st.blocks[y]? = some b ∧ z ∈ b.predecessors

/-- The block `x` is `c` or reaches `c` through a chain of predecessor edges: `x`
is obtained from `c` by going to a predecessor zero or more times. -/
def reaches (st : State) (x c : Nat) : Prop :=
  Relation.ReflTransGen (is_predecessor st) c x

/-- From `s` to `s'` every block that has a register-interval keeps it. -/
def Kept (s s' : State) : Prop :=
  ∀ (p : Nat) (b : basicBlock) (t : Nat), s.blocks[p]? = some b →
    b.BB_registerInterval = some t →
    ∃ b' : basicBlock, s'.blocks[p]? = some b' ∧ b'.BB_registerInterval = some t

/-- The register-intervals made since the arena had `n0` elements: the elements
of `RegisterIntervals` are among them, and each is as its constructor left it,
apart from its ID. -/
def Fresh (n0 : Nat) (st : State) : Prop :=
  n0 ≤ st.intervals.length ∧
  (∀ t ∈ st.RegisterIntervals, n0 ≤ t ∧ t < st.intervals.length) ∧
  ∀ (t : Nat) (I : registerInterval), n0 ≤ t → st.intervals[t]? = some I →
    I.register_vector = [] ∧ I.register_list = [] ∧ I.code = [] ∧
    I.predecessors = [] ∧ I.successors = []

/-- The text of the block `c`. -/
def code_of (st : State) (c : Nat) : Str :=
  ((st.blocks[c]?).map (fun cb => cb.code)).getD []

/-- The pointer `j` is the register-interval of a successor of a block of the
block list that belongs to the register-interval `t`, and differs from `t`. -/
def succ_target (st : State) (t : Nat) (j : Option Nat) : Prop :=
  j ≠ some t ∧ ∃ c ∈ st.basic_blocks, ∃ cb : basicBlock, st.blocks[c]? = some cb ∧
    cb.BB_registerInterval = some t ∧
    ∃ s ∈ cb.successors, ∃ sb : basicBlock, st.blocks[s]? = some sb ∧
      sb.BB_registerInterval = j

/-- The pointer `j` is the register-interval of a predecessor of a block of the
block list that belongs to the register-interval `t`, and differs from `t`. -/
def pred_target (st : State) (t : Nat) (j : Option Nat) : Prop :=
  j ≠ some t ∧ ∃ c ∈ st.basic_blocks, ∃ cb : basicBlock, st.blocks[c]? = some cb ∧
    cb.BB_registerInterval = some t ∧
    ∃ p ∈ cb.predecessors, ∃ pb : basicBlock, st.blocks[p]? = some pb ∧
      pb.BB_registerInterval = j

/-- From `s` to `s'` the blocks and the lists of the state are the same and the
edge lists of the register-intervals have only grown: nothing was removed, what
was added to the register-interval `k` is a target of `k` in the block graph of
`B`, and a list without repetition stays so. -/
def Adds (B s s' : State) : Prop :=
  s'.blocks = s.blocks ∧ s'.basic_blocks = s.basic_blocks ∧
  s'.RegisterIntervals = s.RegisterIntervals ∧
  ∀ (k : Nat) (I : registerInterval), s.intervals[k]? = some I →
    ∃ I' : registerInterval, s'.intervals[k]? = some I' ∧
      (∀ j ∈ I.successors, j ∈ I'.successors) ∧
      (∀ j ∈ I'.successors, j ∈ I.successors ∨ succ_target B k j) ∧
      (I.successors.Nodup → I'.successors.Nodup) ∧
      (∀ j ∈ I.predecessors, j ∈ I'.predecessors) ∧
      (∀ j ∈ I'.predecessors, j ∈ I.predecessors ∨ pred_target B k j) ∧
      (I.predecessors.Nodup → I'.predecessors.Nodup)

/-- The register-interval `k` has `j` in its successor list. -/
def HasS (k : Nat) (j : Option Nat) (s : State) : Prop :=
  ∃ I : registerInterval, s.intervals[k]? = some I ∧ j ∈ I.successors

/-- The register-interval `k` has `j` in its predecessor list. -/
def HasP (k : Nat) (j : Option Nat) (s : State) : Prop :=
  ∃ I : registerInterval, s.intervals[k]? = some I ∧ j ∈ I.predecessors

/-- The invariant of pass two when the growth loop folds nothing: the elements
of the input list `l` were allocated in `st0` and keep their register lists, their
successors lie in `l`, the elements of `out` were allocated after `st0`, each is
the next-level register-interval of an element of `l`, every next-level pointer
of an element of `l` is in `out`, no two elements of `l` have the same next-level
register-interval, and the working set holds elements of `l`. -/
def Solo (st0 : State) (l : List Nat) (st : State) (out ws : List Nat) : Prop :=
  st0.intervals.length ≤ st.intervals.length ∧
  (∀ i ∈ l, ∃ I0 I : registerInterval, st0.intervals[i]? = some I0 ∧
    st.intervals[i]? = some I ∧ I.register_list = I0.register_list ∧
    ∀ s ∈ I.successors, ∃ q, s = some q ∧ q ∈ l) ∧
  (∀ t ∈ out, st0.intervals.length ≤ t ∧ t < st.intervals.length ∧
    ∃ i ∈ l, ∃ I : registerInterval, st.intervals[i]? = some I ∧
      I.next_level_registerInterval = some t) ∧
  (∀ i ∈ l, ∀ I : registerInterval, st.intervals[i]? = some I →
    ∀ t, I.next_level_registerInterval = some t → t ∈ out) ∧
  (∀ i ∈ l, ∀ i' ∈ l, ∀ (I I' : registerInterval) (t : Nat),
    st.intervals[i]? = some I → st.intervals[i']? = some I' →
    I.next_level_registerInterval = some t → I'.next_level_registerInterval = some t →
    i = i') ∧
  (∀ w ∈ ws, w ∈ l)

/-! ## Basic facts about the model -/

theorem bind_eq_ok {α β : Type} (x : M α) (f : α → M β) (b : β) :
    (x >>= f) = .ok b ↔ ∃ a, x = .ok a ∧ f a = .ok b := by
  cases x with
  | error e => simp [bind, Except.bind]
  | ok a => simp [bind, Except.bind]

theorem getBlock_eq_ok (st : State) (p : Nat) (b : basicBlock) :
    getBlock st p = .ok b ↔ st.blocks[p]? = some b := by
  unfold getBlock
  cases h : st.blocks[p]? <;> simp

theorem getInterval_eq_ok (st : State) (p : Nat) (I : registerInterval) :
    getInterval st p = .ok I ↔ st.intervals[p]? = some I := by
  unfold getInterval
  cases h : st.intervals[p]? <;> simp

theorem traverse_cases (fuel : Nat) (st st' : State) (BB : Nat) (N : Int) (b : basicBlock)
    (hb : getBlock st BB = .ok b) (h : traverse fuel st BB N = .ok st') :
    (scan_loop b.code N (terminators b.code 0) 0 b.input_list [] none = .finished none ∧ st' = st) ∨
    (∃ r, scan_loop b.code N (terminators b.code 0) 0 b.input_list [] none = .finished (some r) ∧
      st' = setBlock st BB { b with output_list := r }) ∨
    (∃ found1 register_list,
      scan_loop b.code N (terminators b.code 0) 0 b.input_list [] none =
        .overflow found1 register_list ∧
      split fuel st BB found1 register_list = .ok st') := by
  unfold traverse at h
  rw [hb] at h
  simp only [bind, Except.bind] at h
  split at h
  · right; right; exact ⟨_, _, by assumption, h⟩
  · right; left
    refine ⟨_, by assumption, ?_⟩
    simp [pure, Except.pure] at h
    exact h.symm
  · left
    refine ⟨by assumption, ?_⟩
    simp [pure, Except.pure] at h
    exact h.symm

/-- The state after a split, written out. -/
theorem split_eq (fuel : Nat) (st st' : State) (BB found1 : Nat) (register_list : List Str)
    (b : basicBlock) (hb : getBlock st BB = .ok b)
    (h : split fuel st BB found1 register_list = .ok st') :
    ∃ code2,
      rename_loop fuel (b.code.drop (found1 + 1)) b.name (b.name ++ to_string (b.ID + 1))
        (find (b.code.drop (found1 + 1)) b.name 1) = .ok code2 ∧
      st' = split_state st b BB found1 register_list code2 := by
  have hlt : BB < st.blocks.length := by
    rw [getBlock_eq_ok] at hb
    exact (List.getElem?_eq_some_iff.mp hb).1
  unfold split at h
  rw [hb] at h
  simp only [bind, Except.bind, new_basicBlock, new_registerInterval] at h
  split at h
  · exact absurd h (by simp)
  · rename_i code2 hc
    refine ⟨code2, hc, ?_⟩
    have hlen : st.blocks.length < (st.blocks ++ [({
              ID := st.bbIDgenerator, name := [], code := [],
              NumberOfInstructions := 0, predecessors := [], successors := [],
              input_list := [], output_list := [], BB_registerInterval := none } : basicBlock)]).length := by simp
    simp only [getBlock, List.getElem?_eq_getElem hlen] at h
    simp [pure, Except.pure, setBlock, basicBlock.set_code, basicBlock.add_predecessor] at h
    rw [← h]
    simp only [split_state, split_old, split_new, fresh_interval]
    congr 1
    rw [List.set_append_left _ _ hlt, List.set_append_right _ _ (by simp)]
    simp

theorem ok_of_map_eq {α β : Type} (r : M α) (f : α → β) (v : β)
    (h : r.map f = .ok v) : ∃ a, r = .ok a ∧ f a = v := by
  cases r with
  | error e => simp [Except.map] at h
  | ok a => exact ⟨a, rfl, by simpa [Except.map] using h⟩

/-! ## Folds in the result monad -/

theorem foldlM_inv {α β : Type} (f : β → α → M β) (Inv : β → Prop) (l : List α)
    (hstep : ∀ b a b', a ∈ l → Inv b → f b a = .ok b' → Inv b') :
    ∀ b b', Inv b → l.foldlM f b = .ok b' → Inv b' := by
  induction l with
  | nil =>
    intro b b' hb h
    simp [List.foldlM, pure, Except.pure] at h
    exact h ▸ hb
  | cons a l ih =>
    intro b b' hb h
    rw [List.foldlM_cons] at h
    obtain ⟨b1, h1, h2⟩ := (bind_eq_ok _ _ _).mp h
    exact ih (fun b a' b' ha' => hstep b a' b' (List.mem_cons_of_mem _ ha')) b1 b'
      (hstep b a b1 (List.mem_cons_self _ _) hb h1) h2

/-! ## Frame of the marking functions -/

theorem setIntervalMark_ok (st st' : State) (id : Nat) (h : setIntervalMark st id = .ok st') :
    st' = { st with registerInterval_mark := st.registerInterval_mark.set id true } ∧
    id < st.registerInterval_mark.length := by
  unfold setIntervalMark at h
  split at h
  · simp at h; exact ⟨h.symm, by assumption⟩
  · simp at h

theorem registerInterval_visit_predecessors_intervals (fuel : Nat) :
    ∀ (st st' : State) (i : Nat), registerInterval_visit_predecessors fuel st i = .ok st' →
      st' = { st with registerInterval_mark := st'.registerInterval_mark } := by
  induction fuel with
  | zero => intro st st' i h; simp [registerInterval_visit_predecessors] at h
  | succ fuel ih =>
    intro st st' i h
    unfold registerInterval_visit_predecessors at h
    obtain ⟨I, _, h⟩ := (bind_eq_ok _ _ _).mp h
    obtain ⟨st1, h1, h⟩ := (bind_eq_ok _ _ _).mp h
    obtain ⟨rfl, _⟩ := setIntervalMark_ok _ _ _ h1
    refine foldlM_inv _ (fun s => s = { st with registerInterval_mark := s.registerInterval_mark })
      I.predecessors ?_ _ st' rfl h
    intro s p s' _ hs hstep
    obtain ⟨P, _, hstep⟩ := (bind_eq_ok _ _ _).mp hstep
    obtain ⟨m, _, hstep⟩ := (bind_eq_ok _ _ _).mp hstep
    cases p with
    | none => simp at hstep
    | some q =>
      simp only at hstep
      split at hstep
      · have := ih _ _ _ hstep
        rw [this, hs]
      · simp [pure, Except.pure] at hstep
        rw [← hstep]; exact hs

theorem visit_registerInterval_all_predecessors_intervals (fuel : Nat) (st st' : State) (i : Nat)
    (h : visit_registerInterval_all_predecessors fuel st i = .ok st') :
    st' = { st with registerInterval_mark := st'.registerInterval_mark } := by
  unfold visit_registerInterval_all_predecessors at h
  obtain ⟨st1, h1, h⟩ := (bind_eq_ok _ _ _).mp h
  have h2 := registerInterval_visit_predecessors_intervals fuel _ _ _ h
  unfold reset_interval_mark at h1
  split at h1
  · simp at h1
  · obtain ⟨I, _, h1⟩ := (bind_eq_ok _ _ _).mp h1
    simp [pure, Except.pure] at h1
    rw [h2, ← h1]

/-! ## Sets as lists -/

theorem mem_set_insert {α : Type} [DecidableEq α] (lt : α → α → Bool) (x y : α) (l : List α) :
    y ∈ set_insert lt x l ↔ y = x ∨ y ∈ l := by
  induction l with
  | nil => simp [set_insert]
  | cons z l ih =>
    unfold set_insert
    split
    · simp
    · split
      · rename_i h; subst h; simp
      · simp [ih]; tauto

theorem length_set_insert_le {α : Type} [DecidableEq α] (lt : α → α → Bool) (x : α)
    (l : List α) : (set_insert lt x l).length ≤ l.length + 1 := by
  induction l with
  | nil => simp [set_insert]
  | cons z l ih =>
    unfold set_insert
    split
    · simp
    · split
      · simp
      · simp; omega

theorem length_le_set_insert {α : Type} [DecidableEq α] (lt : α → α → Bool) (x : α)
    (l : List α) : l.length ≤ (set_insert lt x l).length := by
  induction l with
  | nil => simp [set_insert]
  | cons z l ih =>
    unfold set_insert
    split
    · simp
    · split
      · simp
      · simp; omega

theorem mem_foldl_set_insert {α : Type} [DecidableEq α] (lt : α → α → Bool) (y : α)
    (t : List α) : ∀ s : List α,
    y ∈ t.foldl (fun acc r => set_insert lt r acc) s ↔ y ∈ s ∨ y ∈ t := by
  induction t with
  | nil => simp
  | cons a t ih =>
    intro s
    simp only [List.foldl_cons, ih, mem_set_insert, List.mem_cons]
    tauto

theorem mem_reg_union (y : Str) (s t : List Str) : y ∈ reg_union s t ↔ y ∈ s ∨ y ∈ t := by
  unfold reg_union reg_insert
  exact mem_foldl_set_insert str_lt y t s

/-! ## The edge rewrite and the text split of `traverse`; runs on concrete inputs -/

/-- The arena has one more block after `traverse` exactly when the block was
split; otherwise it has the same length. -/
theorem traverse_blocks_length (fuel : Nat) (st st' : State) (BB : Nat) (N : Int)
    (h : traverse fuel st BB N = .ok st') :
    st'.blocks.length = st.blocks.length ∨ st'.blocks.length = st.blocks.length + 1 := by
  cases hb : getBlock st BB with
  | error e => simp [traverse, hb, bind, Except.bind] at h
  | ok b =>
    rcases traverse_cases fuel st st' BB N b hb h with ⟨_, rfl⟩ | ⟨r, _, rfl⟩ | ⟨f1, rl, _, hs⟩
    · exact Or.inl rfl
    · exact Or.inl (by simp [setBlock])
    · obtain ⟨code2, _, rfl⟩ := split_eq fuel st st' BB f1 rl b hb hs
      exact Or.inr (by simp [split_state])

/-- C9. When `traverse` splits the block `BB` (the arena gains a block), the new
block `BB1` is appended to the block list, the successor list of `BB1` is the
successor list `BB` had before the call, the successor list of `BB` is exactly
`[BB1]`, the predecessor list of `BB1` is exactly `[BB]` and the predecessor
list of `BB` is unchanged. -/
theorem traverse_split_edges (fuel : Nat) (st st' : State) (BB : Nat) (N : Int) (b : basicBlock)
    (hb : getBlock st BB = .ok b) (h : traverse fuel st BB N = .ok st')
    (hsplit : st'.blocks.length ≠ st.blocks.length) :
    ∃ b' b1, getBlock st' BB = .ok b' ∧ getBlock st' st.blocks.length = .ok b1 ∧
      st'.basic_blocks = st.basic_blocks ++ [st.blocks.length] ∧
      b1.successors = b.successors ∧
      b'.successors = [st.blocks.length] ∧
      b1.predecessors = [BB] ∧
      b'.predecessors = b.predecessors := by
  have hlt : BB < st.blocks.length := by
    rw [getBlock_eq_ok] at hb
    exact (List.getElem?_eq_some_iff.mp hb).1
  rcases traverse_cases fuel st st' BB N b hb h with ⟨_, rfl⟩ | ⟨r, _, rfl⟩ | ⟨f1, rl, _, hs⟩
  · exact absurd rfl hsplit
  · exact absurd (by simp [setBlock]) hsplit
  · obtain ⟨code2, _, rfl⟩ := split_eq fuel st st' BB f1 rl b hb hs
    refine ⟨split_old b f1 rl st.blocks.length, split_new st b BB code2, ?_, ?_, rfl, rfl, rfl,
      rfl, rfl⟩
    · rw [getBlock_eq_ok]
      simp only [split_state]
      rw [List.getElem?_append_left (by simpa using hlt)]
      simp [hlt]
    · rw [getBlock_eq_ok]
      simp only [split_state]
      rw [List.getElem?_append_right (by simp)]
      simp

/-- The edge rewrite on the block `BB1` of `two_statements`, split with budget 1. -/
theorem traverse_split_edges_witness :
    ∃ st', traverse 10 two_statements 1 1 = .ok st' ∧
      st'.blocks.length ≠ two_statements.blocks.length ∧
      ∃ b' b1, getBlock st' 1 = .ok b' ∧ getBlock st' two_statements.blocks.length = .ok b1 ∧
        st'.basic_blocks = two_statements.basic_blocks ++ [two_statements.blocks.length] ∧
        b1.successors = [2] ∧ b'.successors = [two_statements.blocks.length] ∧
        b1.predecessors = [1] ∧ b'.predecessors = [0] := by
  obtain ⟨st', hst', hlen⟩ :=
    ok_of_map_eq (traverse 10 two_statements 1 1) (fun s => s.blocks.length) 4 (by decide)
  have hne : st'.blocks.length ≠ two_statements.blocks.length := by
    rw [hlen]; decide
  exact ⟨st', hst', hne,
    traverse_split_edges 10 two_statements st' 1 1
      (front_end_block 1 "BB1" "MOV R1;MOV R2;" [0] [2]) rfl hst' hne⟩

/-- C10. On the block `MOV R1;MOV R2;` with budget 1 the second statement
overflows: the old block keeps `MOV R1;`, the new block receives `OV R2;`, and
the two pieces do not give back the original text, whose character at the split
point is lost. -/
theorem traverse_split_loses_a_character :
    (traverse 10 two_statements 1 1).map
        (fun s => (s.blocks[1]?.map (fun b => b.code), s.blocks[3]?.map (fun b => b.code))) =
      .ok (some "MOV R1;".toList, some "OV R2;".toList) ∧
    "MOV R1;".toList ++ "OV R2;".toList ≠ "MOV R1;MOV R2;".toList := by
  decide

/-- C5. On the graph `entry_and_loop` with budget 1 pass one returns three
register-intervals, pass two returns three register-intervals (the fixed point
at which the driver stops), and pass two applied to that output returns none. -/
theorem passTwo_fixed_point_not_stable :
    (do
      let (st, S) ← registerIntervalCreationPassOne 20 entry_and_loop [0, 1, 2] 1
      let (st, T) ← registerIntervalCreationPassTwo 20 st S 1
      let (_, U) ← registerIntervalCreationPassTwo 20 st T 1
      pure (S.length, T.length, U.length) : M (Nat × Nat × Nat)) = .ok (3, 3, 0) := by
  decide

/-- C7. On the graph `entry_chain_and_loop` with budget 2 pass one returns four
register-intervals and the successive calls of pass two in the driver return
three, none and none. -/
theorem convergence_reaches_zero_intervals :
    (registerIntervalCreationPassOne 20 entry_chain_and_loop [0, 1, 2, 3, 4] 2).map
        (fun r => r.2.length) = .ok 4 ∧
    (run 20 entry_chain_and_loop [0, 1, 2, 3, 4] 2).map (fun r => r.2.map List.length) =
      .ok [3, 0, 0] := by
  decide

/-- With budget 1 the single block ` MOV R1;` yields a register-interval whose
register list has one element, which is not fewer than 1: the size test of `traverse`
lets `N` registers through. -/
theorem passOne_interval_holds_N_registers :
    ¬ (∀ st' l, registerIntervalCreationPassOne 20 one_register [0] 1 = .ok (st', l) →
        ∀ i ∈ l, ∀ I, st'.intervals[i]? = some I → (I.register_list.length : Int) < 1) := by
  intro hall
  obtain ⟨⟨st', l⟩, hrun, hv⟩ :=
    ok_of_map_eq (registerIntervalCreationPassOne 20 one_register [0] 1)
      (fun r => (r.2, r.1.intervals[0]?.map (fun I => I.register_list.length)))
      ([0], some 1) (by decide)
  simp only [Prod.mk.injEq] at hv
  obtain ⟨hl, hI⟩ := hv
  cases hI0 : st'.intervals[0]? with
  | none => simp [hI0] at hI
  | some I =>
    simp [hI0] at hI
    have := hall st' l hrun 0 (by simp [hl]) I hI0
    omega

/-- C8, counterexample. With budget 2 the block ` MOV R1; MOV R2; MOV R3;`, whose
statements name one register each, is split, and the first fragment has an
output register set of two elements, which is not fewer than 2. -/
theorem passOne_fragment_holds_N_registers :
    ¬ (∀ st' l, registerIntervalCreationPassOne 20 three_statements [0] 2 = .ok (st', l) →
        ∀ c ∈ st'.basic_blocks, ∀ cb, st'.blocks[c]? = some cb →
          (cb.output_list.length : Int) < 2) := by
  intro hall
  obtain ⟨⟨st', l⟩, hrun, hv⟩ :=
    ok_of_map_eq (registerIntervalCreationPassOne 20 three_statements [0] 2)
      (fun r => (r.1.basic_blocks, r.1.blocks[0]?.map (fun b => b.output_list.length)))
      ([0, 1], some 2) (by decide)
  simp only [Prod.mk.injEq] at hv
  obtain ⟨hl, hI⟩ := hv
  cases hI0 : st'.blocks[0]? with
  | none => simp [hI0] at hI
  | some cb =>
    simp [hI0] at hI
    have := hall st' l hrun 0 (by simp [hl]) cb hI0
    omega

/-- C1. With budget 3 pass one puts the four blocks of `entry_and_three_leaves`
into one register-interval, whose register list has four elements, which is not
fewer than 3 and is more than the budget itself: the growth test bounds the
registers of a candidate block and of its ancestors only, so blocks side by side
each bring registers of their own. -/
theorem passOne_siblings_exceed_budget :
    (registerIntervalCreationPassOne 30 entry_and_three_leaves [0, 1, 2, 3] 3).map
      (fun r => (r.2, r.1.intervals.map (fun I => I.register_list.length))) =
      .ok ([0], [4]) := by
  decide

/-! ## Pass two: frame -/

theorem set_register_bit_fields (I I' : registerInterval) (str : Str)
    (h : set_register_bit I str = .ok I') :
    I'.successors = I.successors ∧ I'.predecessors = I.predecessors ∧
    I'.next_level_registerInterval = I.next_level_registerInterval ∧ I'.ID = I.ID ∧
    I'.code = I.code ∧ I'.register_list = I.register_list ∧
    I'.registerInterval_numberOfInstructions = I.registerInterval_numberOfInstructions := by
  unfold set_register_bit at h
  cases str with
  | nil => simp at h
  | cons c digits =>
    simp only at h
    obtain ⟨pos, _, h⟩ := (bind_eq_ok _ _ _).mp h
    split at h
    · simp [pure, Except.pure] at h
      subst h
      simp
    · simp at h

theorem set_register_list_fields (I I' : registerInterval) (s : List Str)
    (h : I.set_register_list s = .ok I') :
    I'.successors = I.successors ∧ I'.predecessors = I.predecessors ∧
    I'.next_level_registerInterval = I.next_level_registerInterval ∧ I'.ID = I.ID ∧
    I'.code = I.code ∧ I'.register_list = s ∧
    I'.registerInterval_numberOfInstructions = I.registerInterval_numberOfInstructions := by
  unfold registerInterval.set_register_list at h
  refine foldlM_inv set_register_bit
    (fun J => J.successors = I.successors ∧ J.predecessors = I.predecessors ∧
      J.next_level_registerInterval = I.next_level_registerInterval ∧ J.ID = I.ID ∧
      J.code = I.code ∧ J.register_list = s ∧
      J.registerInterval_numberOfInstructions = I.registerInterval_numberOfInstructions)
    s ?_ _ I' ?_ h
  · intro J str J' _ hJ hstep
    obtain ⟨h1, h2, h3, h4, h5, h6, h7⟩ := set_register_bit_fields J J' str hstep
    obtain ⟨g1, g2, g3, g4, g5, g6, g7⟩ := hJ
    exact ⟨h1.trans g1, h2.trans g2, h3.trans g3, h4.trans g4, h5.trans g5, h6.trans g6,
      h7.trans g7⟩
  · simp

theorem IFrame.refl (st : State) : IFrame st st :=
  fun _ I h => ⟨I, h, rfl, rfl, fun _ ht => ht⟩

theorem IFrame.trans {st1 st2 st3 : State} (h12 : IFrame st1 st2) (h23 : IFrame st2 st3) :
    IFrame st1 st3 := by
  intro p I hI
  obtain ⟨I2, hI2, hs2, hp2, hn2⟩ := h12 p I hI
  obtain ⟨I3, hI3, hs3, hp3, hn3⟩ := h23 p I2 hI2
  exact ⟨I3, hI3, hs3.trans hs2, hp3.trans hp2, fun t ht => hn3 t (hn2 t ht)⟩

/-- Changing only the mark vectors is a frame step. -/
theorem IFrame.of_intervals_eq {st st' : State} (h : st'.intervals = st.intervals) :
    IFrame st st' := by
  intro p I hI
  exact ⟨I, by rw [h]; exact hI, rfl, rfl, fun _ ht => ht⟩

/-- Overwriting one register-interval by a record with the same edges, whose
next-level pointer is kept if it was set, is a frame step. -/
theorem IFrame.setInterval {st : State} {q : Nat} {J J' : registerInterval}
    (hq : st.intervals[q]? = some J) (hs : J'.successors = J.successors)
    (hp : J'.predecessors = J.predecessors)
    (hn : ∀ t, J.next_level_registerInterval = some t → J'.next_level_registerInterval = some t) :
    IFrame st (setInterval st q J') := by
  intro p I hI
  have hqlt : q < st.intervals.length := (List.getElem?_eq_some_iff.mp hq).1
  by_cases hpq : q = p
  · subst hpq
    rw [hq] at hI
    cases hI
    exact ⟨J', by simp [RegisterInterval.setInterval, hqlt], hs, hp, hn⟩
  · exact ⟨I, by simp [RegisterInterval.setInterval, List.getElem?_set, hpq, hI], rfl, rfl,
      fun _ ht => ht⟩

/-- Appending a register-interval to the arena is a frame step. -/
theorem IFrame.append {st : State} (J : registerInterval) (st' : State)
    (h : st'.intervals = st.intervals ++ [J]) : IFrame st st' := by
  intro p I hI
  have hlt : p < st.intervals.length := (List.getElem?_eq_some_iff.mp hI).1
  exact ⟨I, by rw [h, List.getElem?_append_left hlt]; exact hI, rfl, rfl, fun _ ht => ht⟩

theorem getIntervalPtr_eq_ok (st : State) (p : Option Nat) (I : registerInterval)
    (h : getIntervalPtr st p = .ok I) : ∃ q, p = some q ∧ st.intervals[q]? = some I := by
  cases p with
  | none => simp [getIntervalPtr] at h
  | some q => exact ⟨q, rfl, (getInterval_eq_ok _ _ _).mp h⟩

theorem passTwo_growth_step_frame (fuel : Nat) (RegisterInterval_in : List Nat) (ii : Option Nat)
    (N : Int) (st st' : State) (Interval : Nat)
    (h : passTwo_growth_step fuel RegisterInterval_in ii N st Interval = .ok st') :
    IFrame st st' := by
  unfold passTwo_growth_step at h
  obtain ⟨I, hI, h⟩ := (bind_eq_ok _ _ _).mp h
  obtain ⟨st1, h1, h⟩ := (bind_eq_ok _ _ _).mp h
  have hv := visit_registerInterval_all_predecessors_intervals fuel _ _ _ h1
  have hf1 : IFrame st st1 := IFrame.of_intervals_eq (by rw [hv])
  refine hf1.trans ?_
  obtain ⟨C, _, h⟩ := (bind_eq_ok _ _ _).mp h
  obtain ⟨Union, _, h⟩ := (bind_eq_ok _ _ _).mp h
  obtain ⟨I1, hI1, h⟩ := (bind_eq_ok _ _ _).mp h
  rw [getInterval_eq_ok] at hI1
  split at h
  · rename_i hcond
    obtain ⟨I2, hI2, h⟩ := (bind_eq_ok _ _ _).mp h
    obtain ⟨II, hII, h⟩ := (bind_eq_ok _ _ _).mp h
    obtain ⟨II', hII', h⟩ := (bind_eq_ok _ _ _).mp h
    simp [pure, Except.pure] at h
    subst h
    obtain ⟨q, rfl, hq⟩ := getIntervalPtr_eq_ok _ _ _ hII
    obtain ⟨e1, e2, e3, _⟩ := set_register_list_fields _ _ _ hII'
    have hfa : IFrame st1 (RegisterInterval.setInterval st1 Interval
        { I1 with next_level_registerInterval := some q }) :=
      IFrame.setInterval hI1 rfl rfl (fun t ht => by rw [hcond.1] at ht; cases ht)
    refine hfa.trans ?_
    exact IFrame.setInterval hq e1 e2 (fun t ht => by rw [e3]; exact ht)
  · simp [pure, Except.pure] at h
    subst h
    exact IFrame.refl _

/-! ## Pass two: the number of output register-intervals -/

theorem OutInv.outinv_frame {l : List Nat} {st st' : State} {out : List Nat} (h : OutInv l st out)
    (hf : IFrame st st') : OutInv l st' out := by
  obtain ⟨h1, h2, h3, h4, h5⟩ := h
  have hvalid : ∀ p, p < st.intervals.length → p < st'.intervals.length := by
    intro p hp
    obtain ⟨I', hI', _⟩ := hf p st.intervals[p] (List.getElem?_eq_getElem hp)
    exact (List.getElem?_eq_some_iff.mp hI').1
  refine ⟨h1, fun t ht => hvalid t (h2 t ht), ?_, fun i hi => hvalid i (h4 i hi), ?_⟩
  · intro t ht
    obtain ⟨i, hi, I, hI, hn⟩ := h3 t ht
    obtain ⟨I', hI', _, _, hn'⟩ := hf i I hI
    exact ⟨i, hi, I', hI', hn' t hn⟩
  · intro i hi I' hI' s hs
    have hlt := h4 i hi
    obtain ⟨I2, hI2, hs2, _⟩ := hf i st.intervals[i] (List.getElem?_eq_getElem hlt)
    rw [hI'] at hI2
    cases hI2
    rw [hs2] at hs
    exact h5 i hi _ (List.getElem?_eq_getElem hlt) s hs

/-- The step of pass two that opens a new next-level register-interval for the
element `q` of the input list keeps the invariant. -/
theorem OutInv.outinv_assign {l : List Nat} {st : State} {out : List Nat} (h : OutInv l st out)
    {q : Nat} {S : registerInterval} (hq : q ∈ l) (hS : st.intervals[q]? = some S)
    (hnone : S.next_level_registerInterval = none) :
    OutInv l
      (setInterval (new_registerInterval st).1 q
        { S with next_level_registerInterval := some (new_registerInterval st).2 })
      (out ++ [(new_registerInterval st).2]) := by
  obtain ⟨h1, h2, h3, h4, h5⟩ := h
  have hqlt : q < st.intervals.length := (List.getElem?_eq_some_iff.mp hS).1
  simp only [new_registerInterval, RegisterInterval.setInterval]
  refine ⟨?_, ?_, ?_, ?_, ?_⟩
  · rw [List.nodup_append]
    refine ⟨h1, by simp, ?_⟩
    intro a ha hb
    simp at hb
    have := h2 a ha
    omega
  · intro t ht
    simp at ht ⊢
    rcases ht with ht | rfl
    · have := h2 t ht; omega
    · omega
  · intro t ht
    simp only [List.mem_append, List.mem_singleton] at ht
    rcases ht with ht | rfl
    · obtain ⟨i, hi, I, hI, hn⟩ := h3 t ht
      have hilt : i < st.intervals.length := (List.getElem?_eq_some_iff.mp hI).1
      have hne : q ≠ i := by
        rintro rfl
        rw [hS] at hI; cases hI
        rw [hnone] at hn; cases hn
      refine ⟨i, hi, I, ?_, hn⟩
      rw [List.getElem?_set_ne hne, List.getElem?_append_left hilt]
      exact hI
    · refine ⟨q, hq, { S with next_level_registerInterval := some st.intervals.length }, ?_, rfl⟩
      rw [List.getElem?_set_self (by simp; omega)]
  · intro i hi
    simp
    have := h4 i hi
    omega
  · intro i hi I hI s hs
    have hilt := h4 i hi
    by_cases hqi : q = i
    · subst hqi
      rw [List.getElem?_set_self (by simp; omega)] at hI
      cases hI
      exact h5 q hq S hS s hs
    · rw [List.getElem?_set_ne hqi, List.getElem?_append_left hilt] at hI
      exact h5 i hi I hI s hs

theorem passTwo_assign_successors_inv (l : List Nat) (Successors : List (Option Nat))
    (hS : ∀ s ∈ Successors, ∃ q, s = some q ∧ q ∈ l)
    (st : State) (out WorkingSet : List Nat) (r : State × List Nat × List Nat)
    (hinv : OutInv l st out)
    (h : passTwo_assign_successors st out WorkingSet Successors = .ok r) :
    OutInv l r.1 r.2.1 := by
  unfold passTwo_assign_successors at h
  refine foldlM_inv _ (fun acc : State × List Nat × List Nat => OutInv l acc.1 acc.2.1)
    Successors ?_ _ r hinv h
  rintro ⟨st1, out1, ws1⟩ s ⟨st2, out2, ws2⟩ hs hinv1 hstep
  obtain ⟨q, rfl, hq⟩ := hS s hs
  simp only at hstep
  obtain ⟨S, hS', hstep⟩ := (bind_eq_ok _ _ _).mp hstep
  obtain ⟨q', hq', hSq⟩ := getIntervalPtr_eq_ok _ _ _ hS'
  cases hq'
  split at hstep
  · rename_i hnone
    simp [pure, Except.pure] at hstep
    obtain ⟨h1, h2, _⟩ := hstep
    subst h1 h2
    exact OutInv.outinv_assign hinv1 hq hSq hnone
  · simp [pure, Except.pure] at hstep
    obtain ⟨h1, h2, _⟩ := hstep
    subst h1 h2
    exact hinv1

theorem passTwo_collect_successors_mem (l : List Nat) (st : State) (ii : Option Nat)
    (Successors : List (Option Nat))
    (hclosed : ∀ i ∈ l, ∀ I : registerInterval, st.intervals[i]? = some I →
      ∀ s ∈ I.successors, ∃ q, s = some q ∧ q ∈ l)
    (h : passTwo_collect_successors st l ii = .ok Successors) :
    ∀ s ∈ Successors, ∃ q, s = some q ∧ q ∈ l := by
  unfold passTwo_collect_successors at h
  refine foldlM_inv _ (fun S : List (Option Nat) => ∀ s ∈ S, ∃ q, s = some q ∧ q ∈ l)
    l ?_ _ Successors (by simp) h
  intro S i S' hi hS hstep
  obtain ⟨I, hI, hstep⟩ := (bind_eq_ok _ _ _).mp hstep
  rw [getInterval_eq_ok] at hI
  split at hstep
  · simp [pure, Except.pure] at hstep
    subst hstep
    intro s hs
    rw [mem_foldl_set_insert] at hs
    rcases hs with hs | hs
    · exact hS s hs
    · exact hclosed i hi I hI s hs
  · simp [pure, Except.pure] at hstep
    subst hstep
    exact hS

theorem passTwo_growth_loop_frame (fuel : Nat) (l l' : List Nat) (ii : Option Nat) (N : Int)
    (st st' : State)
    (h : l'.foldlM (passTwo_growth_step fuel l ii N) st = .ok st') : IFrame st st' := by
  refine foldlM_inv _ (fun s => IFrame st s) l' ?_ st st' (IFrame.refl st) h
  intro s a s' _ hs hstep
  exact hs.trans (passTwo_growth_step_frame fuel l ii N s s' a hstep)

theorem passTwo_growth_frame (fuel : Nat) (l : List Nat) (N : Int) (st st1 : State)
    (I : registerInterval) (h1 : passTwo_growth fuel l N st I = .ok st1) : IFrame st st1 := by
  unfold passTwo_growth at h1
  split at h1
  · obtain ⟨II, hII, h1⟩ := (bind_eq_ok _ _ _).mp h1
    obtain ⟨II', hII', h1⟩ := (bind_eq_ok _ _ _).mp h1
    obtain ⟨q, hq, hIIq⟩ := getIntervalPtr_eq_ok _ _ _ hII
    obtain ⟨e1, e2, e3, _⟩ := set_register_list_fields _ _ _ hII'
    rw [hq] at h1
    simp only [Option.getD_some] at h1
    exact (IFrame.setInterval hIIq e1 e2 (fun t ht => by rw [e3]; exact ht)).trans
      (passTwo_growth_loop_frame fuel l l _ N _ _ h1)
  · simp [pure, Except.pure] at h1
    subst h1
    exact IFrame.refl _

theorem passTwo_body_inv (fuel : Nat) (l : List Nat) (N : Int) (st : State)
    (out WorkingSet : List Nat) (i : Nat) (r : State × List Nat × List Nat)
    (hinv : OutInv l st out)
    (h : passTwo_body fuel l N st out WorkingSet i = .ok r) : OutInv l r.1 r.2.1 := by
  unfold passTwo_body at h
  obtain ⟨I, hI, h⟩ := (bind_eq_ok _ _ _).mp h
  obtain ⟨st1, h1, h⟩ := (bind_eq_ok _ _ _).mp h
  obtain ⟨Successors, hc, h⟩ := (bind_eq_ok _ _ _).mp h
  have hf : IFrame st st1 := passTwo_growth_frame fuel l N st st1 I h1
  have hinv1 := hinv.outinv_frame hf
  exact passTwo_assign_successors_inv l Successors
    (passTwo_collect_successors_mem l st1 _ Successors hinv1.2.2.2.2 hc) st1 out WorkingSet r
    hinv1 h

theorem passTwo_loop_inv (l : List Nat) (N : Int) (fuel : Nat) :
    ∀ (st : State) (out WorkingSet : List Nat) (r : State × List Nat),
      OutInv l st out → passTwo_loop l N fuel st out WorkingSet = .ok r → OutInv l r.1 r.2 := by
  induction fuel with
  | zero =>
    intro st out WorkingSet r hinv h
    unfold passTwo_loop at h
    cases WorkingSet with
    | nil => simp at h; subst h; exact hinv
    | cons i rest => simp at h
  | succ fuel ih =>
    intro st out WorkingSet r hinv h
    unfold passTwo_loop at h
    cases WorkingSet with
    | nil => simp at h; subst h; exact hinv
    | cons i rest =>
      simp only at h
      obtain ⟨⟨st1, out1, ws1⟩, hb, h⟩ := (bind_eq_ok _ _ _).mp h
      exact ih st1 out1 ws1 r (passTwo_body_inv fuel l N st out rest i _ hinv hb) h

theorem passTwo_init_spec (l : List Nat) : ∀ (st st1 : State), passTwo_init st l = .ok st1 →
    st1.intervals.length = st.intervals.length ∧
    (∀ (p : Nat) (I : registerInterval), st.intervals[p]? = some I →
      ∃ I' : registerInterval, st1.intervals[p]? = some I' ∧ I'.successors = I.successors ∧
        I'.predecessors = I.predecessors ∧
        ((p ∈ l ∨ I.next_level_registerInterval = none) →
          I'.next_level_registerInterval = none)) ∧
    (∀ i ∈ l, i < st.intervals.length) := by
  induction l with
  | nil =>
    intro st st1 h
    simp [passTwo_init, pure, Except.pure] at h
    subst h
    exact ⟨rfl, fun p I hI => ⟨I, hI, rfl, rfl, by simp⟩, by simp⟩
  | cons a l ih =>
    intro st st1 h
    unfold passTwo_init at h
    rw [List.foldlM_cons] at h
    obtain ⟨st0, h0, h⟩ := (bind_eq_ok _ _ _).mp h
    obtain ⟨A, hA, h0⟩ := (bind_eq_ok _ _ _).mp h0
    rw [getInterval_eq_ok] at hA
    have halt : a < st.intervals.length := (List.getElem?_eq_some_iff.mp hA).1
    simp [pure, Except.pure] at h0
    subst h0
    obtain ⟨ih1, ih2, ih3⟩ := ih _ st1 h
    simp only [RegisterInterval.setInterval, List.length_set] at ih1 ih3
    refine ⟨ih1, ?_, ?_⟩
    · intro p I hI
      by_cases hpa : a = p
      · subst hpa
        rw [hA] at hI; cases hI
        obtain ⟨I', hI', e1, e2, e3⟩ := ih2 a { A with next_level_registerInterval := none }
          (by simp [RegisterInterval.setInterval, halt])
        exact ⟨I', hI', e1, e2, fun _ => e3 (Or.inr rfl)⟩
      · obtain ⟨I', hI', e1, e2, e3⟩ := ih2 p I
          (by simp [RegisterInterval.setInterval, List.getElem?_set, hpa, hI])
        refine ⟨I', hI', e1, e2, fun hc => e3 ?_⟩
        rcases hc with hc | hc
        · simp only [List.mem_cons] at hc
          rcases hc with hc | hc
          · exact absurd hc.symm hpa
          · exact Or.inl hc
        · exact Or.inr hc
    · intro i hi
      simp only [List.mem_cons] at hi
      rcases hi with rfl | hi
      · exact halt
      · exact ih3 i hi

theorem passTwo_seed_inv (l : List Nat) (l' : List Nat) :
    ∀ (acc r : State × List Nat × List Nat),
      l'.foldlM
        (fun (acc : State × List Nat × List Nat) i => do
          let (st, out, WorkingSet) := acc
          let I ← getInterval st i
          if I.predecessors.length = 0 then
            let (st, temp) := new_registerInterval st
            let st := setInterval st i { I with next_level_registerInterval := some temp }
            return (st, out ++ [temp], WorkingSet ++ [i])
          else return (st, out, WorkingSet))
        acc = .ok r →
      OutInv l acc.1 acc.2.1 → l'.Nodup → (∀ j ∈ l', j ∈ l) →
      (∀ j ∈ l', ∀ I : registerInterval, acc.1.intervals[j]? = some I →
        I.next_level_registerInterval = none) →
      OutInv l r.1 r.2.1 := by
  induction l' with
  | nil =>
    intro acc r h hinv _ _ _
    simp [pure, Except.pure] at h
    subst h
    exact hinv
  | cons a l' ih =>
    rintro ⟨st, out, ws⟩ r h hinv hnd hsub hnone
    rw [List.foldlM_cons] at h
    obtain ⟨⟨st1, out1, ws1⟩, h1, h⟩ := (bind_eq_ok _ _ _).mp h
    simp only at h1
    obtain ⟨A, hA, h1⟩ := (bind_eq_ok _ _ _).mp h1
    rw [getInterval_eq_ok] at hA
    have halt : a < st.intervals.length := (List.getElem?_eq_some_iff.mp hA).1
    rw [List.nodup_cons] at hnd
    have hsub' : ∀ j ∈ l', j ∈ l := fun j hj => hsub j (List.mem_cons_of_mem _ hj)
    split at h1
    · simp [pure, Except.pure] at h1
      obtain ⟨e1, e2, _⟩ := h1
      subst e1 e2
      refine ih _ r h ?_ hnd.2 hsub' ?_
      · exact OutInv.outinv_assign hinv (hsub a (List.mem_cons_self _ _)) hA
          (hnone a (List.mem_cons_self _ _) A hA)
      · intro j hj I hI
        have hja : a ≠ j := fun e => hnd.1 (e ▸ hj)
        simp only [new_registerInterval, RegisterInterval.setInterval] at hI
        rw [List.getElem?_set_ne hja] at hI
        have hjlt : j < st.intervals.length := hinv.2.2.2.1 j (hsub' j hj)
        rw [List.getElem?_append_left hjlt] at hI
        exact hnone j (List.mem_cons_of_mem _ hj) I hI
    · simp [pure, Except.pure] at h1
      obtain ⟨e1, e2, _⟩ := h1
      subst e1 e2
      exact ih _ r h hinv hnd.2 hsub'
        (fun j hj I hI => hnone j (List.mem_cons_of_mem _ hj) I hI)

/-- A duplicate-free list whose elements are all images of elements of `l` under
a partial map is no longer than `l`. -/
theorem length_le_of_image {α : Type} [DecidableEq α] (out l : List α) (g : α → Option α)
    (hnd : out.Nodup) (h : ∀ t ∈ out, ∃ i ∈ l, g i = some t) : out.length ≤ l.length := by
  have hsub : out ⊆ l.filterMap g := by
    intro t ht
    obtain ⟨i, hi, hg⟩ := h t ht
    exact List.mem_filterMap.mpr ⟨i, hi, hg⟩
  calc out.length ≤ (l.filterMap g).length := (hnd.subperm hsub).length_le
    _ ≤ l.length := List.length_filterMap_le g l

theorem OutInv.length_le {l : List Nat} {st : State} {out : List Nat} (h : OutInv l st out) :
    out.length ≤ l.length := by
  obtain ⟨h1, _, h3, _, _⟩ := h
  refine length_le_of_image out l
    (fun i => (st.intervals[i]?).bind (fun I => I.next_level_registerInterval)) h1 ?_
  intro t ht
  obtain ⟨i, hi, I, hI, hn⟩ := h3 t ht
  exact ⟨i, hi, by simp [hI, hn]⟩

/-- The vector returned by pass two is the vector `out` the main loop built,
which satisfies the invariant. -/
theorem passTwo_OutInv (fuel : Nat) (st st' : State) (l out : List Nat) (N : Int)
    (hnodup : l.Nodup) (hclosed : Closed st l)
    (h : registerIntervalCreationPassTwo fuel st l N = .ok (st', out)) :
    ∃ st2, OutInv l st2 out := by
  unfold registerIntervalCreationPassTwo at h
  obtain ⟨st1, h1, h⟩ := (bind_eq_ok _ _ _).mp h
  obtain ⟨⟨st2, out2, ws2⟩, h2, h⟩ := (bind_eq_ok _ _ _).mp h
  simp only at h
  obtain ⟨⟨st3, out3⟩, h3, h⟩ := (bind_eq_ok _ _ _).mp h
  simp only at h
  obtain ⟨st4, _, h⟩ := (bind_eq_ok _ _ _).mp h
  obtain ⟨st5, _, h⟩ := (bind_eq_ok _ _ _).mp h
  obtain ⟨st6, _, h⟩ := (bind_eq_ok _ _ _).mp h
  simp [pure, Except.pure] at h
  obtain ⟨_, rfl⟩ := h
  obtain ⟨i1, i2, i3⟩ := passTwo_init_spec l st st1 h1
  have hinv1 : OutInv l st1 [] := by
    refine ⟨List.nodup_nil, by simp, by simp, fun i hi => i1 ▸ i3 i hi, ?_⟩
    intro i hi I' hI' s hs
    have hlt := i3 i hi
    obtain ⟨I2, hI2, e1, _, _⟩ := i2 i st.intervals[i] (List.getElem?_eq_getElem hlt)
    rw [hI'] at hI2; cases hI2
    rw [e1] at hs
    exact (hclosed i hi _ (List.getElem?_eq_getElem hlt)).1 s hs
  have hinv2 : OutInv l st2 out2 := by
    unfold passTwo_seed at h2
    refine passTwo_seed_inv l l (st1, [], []) (st2, out2, ws2) h2 hinv1 hnodup (fun _ hj => hj) ?_
    intro j hj I hI
    have hlt := i3 j hj
    obtain ⟨I2, hI2, _, _, e3⟩ := i2 j st.intervals[j] (List.getElem?_eq_getElem hlt)
    simp only at hI
    rw [hI] at hI2; cases hI2
    exact e3 (Or.inl hj)
  exact ⟨st3, passTwo_loop_inv l N fuel st2 out2 ws2 (st3, out3) hinv2 h3⟩

/-! ## Fuel: monotonicity -/

theorem MonoAt.const {α : Type} (n : Nat) (x : M α) : MonoAt n (fun _ => x) := fun _ => rfl

theorem MonoAt.monoat_bind {α β : Type} {n : Nat} {g : Nat → M α} {h : Nat → α → M β}
    (hg : MonoAt n g) (hh : ∀ a, MonoAt n (fun k => h k a)) :
    MonoAt n (fun k => g k >>= h k) := by
  intro hne
  simp only at hne ⊢
  cases hgn : g n with
  | error e =>
    rw [hgn] at hne
    have he : e ≠ .fuel := by
      intro he; subst he; exact hne rfl
    have := hg (by rw [hgn]; intro hc; cases hc; exact he rfl)
    rw [this, hgn]
    rfl
  | ok a =>
    rw [hgn] at hne
    have := hg (by rw [hgn]; intro hc; cases hc)
    rw [this, hgn]
    exact hh a hne

theorem MonoAt.monoat_foldlM {α β : Type} {n : Nat} (f : Nat → β → α → M β) (l : List α)
    (hf : ∀ b a, MonoAt n (fun k => f k b a)) :
    ∀ b, MonoAt n (fun k => l.foldlM (f k) b) := by
  induction l with
  | nil => intro b; exact MonoAt.const n _
  | cons a l ih =>
    intro b
    simp only [List.foldlM_cons]
    exact MonoAt.monoat_bind (hf b a) (fun b' => ih b')

theorem MonoAt.ite {α : Type} {n : Nat} (c : Prop) [Decidable c] {g1 g2 : Nat → M α}
    (h1 : MonoAt n g1) (h2 : MonoAt n g2) : MonoAt n (fun k => if c then g1 k else g2 k) := by
  by_cases hc : c
  · simpa [hc] using h1
  · simpa [hc] using h2

/-- Once a monotone computation has stopped, more fuel gives the same result. -/
theorem Mono.stable {α : Type} {g : Nat → M α} (hg : Mono g) {F : Nat}
    (hF : g F ≠ .error .fuel) : ∀ n, F ≤ n → g n = g F := by
  intro n hn
  induction n with
  | zero =>
    have : F = 0 := by omega
    subst this; rfl
  | succ n ih =>
    by_cases hFn : F = n + 1
    · subst hFn; rfl
    · have hle : F ≤ n := by omega
      have h1 := ih hle
      have := hg n (by rw [h1]; exact hF)
      rw [this, h1]

theorem registerInterval_visit_predecessors_mono :
    ∀ (n : Nat) (st : State) (i : Nat),
      MonoAt n (fun k => registerInterval_visit_predecessors k st i) := by
  intro n
  induction n with
  | zero => intro st i h; exact absurd rfl h
  | succ n ih =>
    intro st i
    have key : MonoAt n (fun k => (do
        let I ← getInterval st i
        let st ← setIntervalMark st I.ID
        I.predecessors.foldlM
          (fun st p => do
            let P ← getIntervalPtr st p
            let m ← getIntervalMark st P.ID
            match p with
            | some q =>
              if m = false then registerInterval_visit_predecessors k st q else return st
            | none => .error .ub)
          st : M State)) := by
      refine @MonoAt.monoat_bind _ _ n (fun _ => getInterval st i) _ (MonoAt.const n _) ?_
      intro I
      refine @MonoAt.monoat_bind _ _ n (fun _ => setIntervalMark st I.ID) _ (MonoAt.const n _) ?_
      intro st1
      refine MonoAt.monoat_foldlM _ I.predecessors ?_ st1
      intro s p
      refine @MonoAt.monoat_bind _ _ n (fun _ => getIntervalPtr s p) _ (MonoAt.const n _) ?_
      intro P
      refine @MonoAt.monoat_bind _ _ n (fun _ => getIntervalMark s P.ID) _ (MonoAt.const n _) ?_
      intro m
      cases p with
      | none => exact MonoAt.const n _
      | some q =>
        simp only
        exact MonoAt.ite _ (ih s q) (MonoAt.const n _)
    exact key

theorem visit_registerInterval_all_predecessors_mono (n : Nat) (st : State) (i : Nat) :
    MonoAt n (fun k => visit_registerInterval_all_predecessors k st i) := by
  unfold visit_registerInterval_all_predecessors
  refine @MonoAt.monoat_bind _ _ n (fun _ => reset_interval_mark st) _ (MonoAt.const n _) ?_
  intro st1
  exact registerInterval_visit_predecessors_mono n st1 i

theorem passTwo_growth_step_mono (n : Nat) (l : List Nat) (ii : Option Nat) (N : Int)
    (st : State) (Interval : Nat) :
    MonoAt n (fun k => passTwo_growth_step k l ii N st Interval) := by
  unfold passTwo_growth_step
  refine @MonoAt.monoat_bind _ _ n (fun _ => getInterval st Interval) _ (MonoAt.const n _) ?_
  intro I
  refine MonoAt.monoat_bind (visit_registerInterval_all_predecessors_mono n st Interval) ?_
  intro st1
  exact MonoAt.const n _

theorem passTwo_growth_mono (n : Nat) (l : List Nat) (N : Int) (st : State)
    (I : registerInterval) : MonoAt n (fun k => passTwo_growth k l N st I) := by
  unfold passTwo_growth
  refine MonoAt.ite _ ?_ (MonoAt.const n _)
  refine @MonoAt.monoat_bind _ _ n (fun _ => getIntervalPtr st I.next_level_registerInterval) _
    (MonoAt.const n _) ?_
  intro II
  refine @MonoAt.monoat_bind _ _ n (fun _ => II.set_register_list I.register_list) _
    (MonoAt.const n _) ?_
  intro II'
  exact MonoAt.monoat_foldlM _ l (fun b a => passTwo_growth_step_mono n l _ N b a) _

theorem passTwo_body_mono (n : Nat) (l : List Nat) (N : Int) (st : State)
    (out WorkingSet : List Nat) (i : Nat) :
    MonoAt n (fun k => passTwo_body k l N st out WorkingSet i) := by
  unfold passTwo_body
  refine @MonoAt.monoat_bind _ _ n (fun _ => getInterval st i) _ (MonoAt.const n _) ?_
  intro I
  refine MonoAt.monoat_bind (passTwo_growth_mono n l N st I) ?_
  intro st1
  exact MonoAt.const n _

theorem passTwo_loop_mono (l : List Nat) (N : Int) :
    ∀ (n : Nat) (st : State) (out WorkingSet : List Nat),
      MonoAt n (fun k => passTwo_loop l N k st out WorkingSet) := by
  intro n
  induction n with
  | zero =>
    intro st out WorkingSet h
    cases WorkingSet with
    | nil => simp [passTwo_loop]
    | cons i rest => simp [passTwo_loop] at h
  | succ n ih =>
    intro st out WorkingSet
    cases WorkingSet with
    | nil => intro _; simp [passTwo_loop]
    | cons i rest =>
      have key : MonoAt n (fun k => (do
          let (st, out, WorkingSet) ← passTwo_body k l N st out rest i
          passTwo_loop l N k st out WorkingSet : M (State × List Nat))) := by
        refine MonoAt.monoat_bind (passTwo_body_mono n l N st out rest i) ?_
        rintro ⟨st1, out1, ws1⟩
        exact ih st1 out1 ws1
      exact key

theorem registerIntervalCreationPassTwo_mono (n : Nat) (st : State) (l : List Nat) (N : Int) :
    MonoAt n (fun k => registerIntervalCreationPassTwo k st l N) := by
  unfold registerIntervalCreationPassTwo
  refine @MonoAt.monoat_bind _ _ n (fun _ => passTwo_init st l) _ (MonoAt.const n _) ?_
  intro st1
  refine @MonoAt.monoat_bind _ _ n (fun _ => passTwo_seed st1 l) _ (MonoAt.const n _) ?_
  rintro ⟨st2, out, ws⟩
  refine MonoAt.monoat_bind (passTwo_loop_mono l N n st2 out ws) ?_
  rintro ⟨st3, out3⟩
  exact MonoAt.const n _

theorem convergence_loop_mono (N : Int) :
    ∀ (n : Nat) (st : State) (intervals : List Nat),
      MonoAt n (fun k => convergence_loop N k st intervals) := by
  intro n
  induction n with
  | zero => intro st intervals h; exact absurd rfl h
  | succ n ih =>
    intro st intervals
    have key : MonoAt n (fun k => (do
        let (st, intervals') ← registerIntervalCreationPassTwo k st intervals N
        if intervals'.length < intervals.length then do
          let (st, later) ← convergence_loop N k st intervals'
          return (st, intervals' :: later)
        else return (st, [intervals']) : M (State × List (List Nat)))) := by
      refine MonoAt.monoat_bind (registerIntervalCreationPassTwo_mono n st intervals N) ?_
      rintro ⟨st1, out⟩
      refine MonoAt.ite _ ?_ (MonoAt.const n _)
      refine MonoAt.monoat_bind (ih st1 out) ?_
      rintro ⟨st2, later⟩
      exact MonoAt.const n _
    exact key

/-! ## Fuel: halting -/

theorem error_bind {α β : Type} (e : Fault) (f : α → M β) :
    ((Except.error e : M α) >>= f) = Except.error e := rfl

theorem ok_bind {α β : Type} (a : α) (f : α → M β) :
    ((Except.ok a : M α) >>= f) = f a := rfl

theorem Halts.of_ne {α : Type} {x : M α} (h : x ≠ .error .fuel) : Halts (fun _ => x) := ⟨0, h⟩

theorem Halts.shift {α : Type} {g : Nat → M α} (h : Halts (fun k => g (k + 1))) : Halts g := by
  obtain ⟨F, hF⟩ := h
  exact ⟨F + 1, hF⟩

theorem Halts.halts_bind {α β : Type} {g : Nat → M α} {h : Nat → α → M β}
    (hg : Halts g) (mg : Mono g) (mh : ∀ a, Mono (fun k => h k a))
    (hh : ∀ a F, g F = .ok a → Halts (fun k => h k a)) :
    Halts (fun k => g k >>= h k) := by
  obtain ⟨F1, hF1⟩ := hg
  cases hr : g F1 with
  | error e =>
    refine ⟨F1, ?_⟩
    simp only [hr]
    intro hc
    apply hF1
    rw [hr]
    rw [error_bind] at hc
    cases hc
    rfl
  | ok a =>
    obtain ⟨F2, hF2⟩ := hh a F1 hr
    refine ⟨max F1 F2, ?_⟩
    have e1 : g (max F1 F2) = g F1 := mg.stable hF1 _ (le_max_left _ _)
    have e2 : h (max F1 F2) a = h F2 a :=
      Mono.stable (g := fun k => h k a) (mh a) hF2 _ (le_max_right _ _)
    simp only [e1, hr]
    show h (max F1 F2) a ≠ _
    rw [e2]
    exact hF2

theorem Halts.bind_const {α β : Type} {x : M α} {h : Nat → α → M β}
    (hx : x ≠ .error .fuel) (hh : ∀ a, x = .ok a → Halts (fun k => h k a)) :
    Halts (fun k => x >>= h k) := by
  cases hr : x with
  | error e =>
    refine ⟨0, ?_⟩
    intro hc
    apply hx
    rw [hr]
    simp only [error_bind] at hc
    cases hc
    rfl
  | ok a =>
    obtain ⟨F, hF⟩ := hh a hr
    exact ⟨F, hF⟩

theorem Halts.halts_foldlM {α β : Type} (Inv : β → Prop) (f : Nat → β → α → M β)
    (mono : ∀ b a, Mono (fun k => f k b a))
    (halts : ∀ b a, Inv b → Halts (fun k => f k b a))
    (pres : ∀ k b a b', Inv b → f k b a = .ok b' → Inv b') :
    ∀ (l : List α) (b : β), Inv b → Halts (fun k => l.foldlM (f k) b) := by
  intro l
  induction l with
  | nil => intro b _; exact ⟨0, by simp [pure, Except.pure]⟩
  | cons a l ih =>
    intro b hb
    simp only [List.foldlM_cons]
    refine Halts.halts_bind (halts b a hb) (mono b a) ?_ ?_
    · intro b' n
      exact MonoAt.monoat_foldlM f l (fun b a => mono b a n) b'
    · intro b' F hF
      exact ih b' (pres F b a b' hb hF)

/-! ## Functions that use no fuel -/

theorem bind_ne_fuel {α β : Type} {x : M α} {f : α → M β} (hx : x ≠ .error .fuel)
    (hf : ∀ a, x = .ok a → f a ≠ .error .fuel) : (x >>= f) ≠ .error .fuel := by
  cases hr : x with
  | error e =>
    intro hc
    apply hx
    rw [hr]
    rw [error_bind] at hc
    cases hc
    rfl
  | ok a => exact hf a hr

theorem foldlM_ne_fuel {α β : Type} (f : β → α → M β) (hf : ∀ b a, f b a ≠ .error .fuel) :
    ∀ (l : List α) (b : β), l.foldlM f b ≠ .error .fuel := by
  intro l
  induction l with
  | nil => intro b; simp [pure, Except.pure]
  | cons a l ih =>
    intro b
    rw [List.foldlM_cons]
    exact bind_ne_fuel (hf b a) (fun b' _ => ih b')

theorem getInterval_ne_fuel (st : State) (p : Nat) : getInterval st p ≠ .error .fuel := by
  unfold getInterval; split <;> simp

theorem getIntervalPtr_ne_fuel (st : State) (p : Option Nat) :
    getIntervalPtr st p ≠ .error .fuel := by
  unfold getIntervalPtr; split
  · exact getInterval_ne_fuel _ _
  · simp

theorem getIntervalMark_ne_fuel (st : State) (p : Nat) :
    getIntervalMark st p ≠ .error .fuel := by
  unfold getIntervalMark; split <;> simp

theorem setIntervalMark_ne_fuel (st : State) (p : Nat) :
    setIntervalMark st p ≠ .error .fuel := by
  unfold setIntervalMark; split <;> simp

theorem reset_interval_mark_ne_fuel (st : State) : reset_interval_mark st ≠ .error .fuel := by
  unfold reset_interval_mark
  split
  · simp
  · exact bind_ne_fuel (getInterval_ne_fuel _ _) (fun _ _ => by simp [pure, Except.pure])

theorem stoi_ne_fuel (s : Str) : stoi s ≠ .error .fuel := by
  unfold stoi
  dsimp only
  split_ifs <;> simp

theorem set_register_bit_ne_fuel (I : registerInterval) (s : Str) :
    set_register_bit I s ≠ .error .fuel := by
  unfold set_register_bit
  split
  · simp
  · refine bind_ne_fuel (stoi_ne_fuel _) (fun pos _ => ?_)
    split <;> simp [pure, Except.pure]

theorem set_register_list_ne_fuel (I : registerInterval) (s : List Str) :
    I.set_register_list s ≠ .error .fuel := by
  unfold registerInterval.set_register_list
  exact foldlM_ne_fuel _ set_register_bit_ne_fuel _ _

theorem all_in_next_level_ne_fuel (st : State) (ii : Option Nat) (Interval : Nat)
    (P : List (Option Nat)) : all_in_next_level st ii Interval P ≠ .error .fuel := by
  unfold all_in_next_level
  refine foldlM_ne_fuel _ (fun C p => ?_) _ _
  refine bind_ne_fuel (getIntervalPtr_ne_fuel _ _) (fun _ _ => ?_)
  split <;> simp [pure, Except.pure]

theorem union_all_ne_fuel (st : State) (l : List Nat) : union_all st l ≠ .error .fuel := by
  unfold union_all
  refine foldlM_ne_fuel _ (fun U i => ?_) _ _
  exact bind_ne_fuel (getInterval_ne_fuel _ _) (fun _ _ => by simp [pure, Except.pure])

theorem passTwo_init_ne_fuel (st : State) (l : List Nat) : passTwo_init st l ≠ .error .fuel := by
  unfold passTwo_init
  refine foldlM_ne_fuel _ (fun s i => ?_) _ _
  exact bind_ne_fuel (getInterval_ne_fuel _ _) (fun _ _ => by simp [pure, Except.pure])

theorem passTwo_seed_ne_fuel (st : State) (l : List Nat) : passTwo_seed st l ≠ .error .fuel := by
  unfold passTwo_seed
  refine foldlM_ne_fuel _ (fun acc i => ?_) _ _
  obtain ⟨s, out, ws⟩ := acc
  refine bind_ne_fuel (getInterval_ne_fuel _ _) (fun _ _ => ?_)
  split <;> simp [pure, Except.pure]

theorem passTwo_collect_successors_ne_fuel (st : State) (l : List Nat) (ii : Option Nat) :
    passTwo_collect_successors st l ii ≠ .error .fuel := by
  unfold passTwo_collect_successors
  refine foldlM_ne_fuel _ (fun S i => ?_) _ _
  refine bind_ne_fuel (getInterval_ne_fuel _ _) (fun _ _ => ?_)
  split <;> simp [pure, Except.pure]

theorem passTwo_assign_successors_ne_fuel (st : State) (out ws : List Nat)
    (S : List (Option Nat)) : passTwo_assign_successors st out ws S ≠ .error .fuel := by
  unfold passTwo_assign_successors
  refine foldlM_ne_fuel _ (fun acc s => ?_) _ _
  obtain ⟨s1, out1, ws1⟩ := acc
  refine bind_ne_fuel (getIntervalPtr_ne_fuel _ _) (fun _ _ => ?_)
  split <;> simp [pure, Except.pure]

theorem folded_registers_ne_fuel (st : State) (l : List Nat) (i : Nat) :
    folded_registers st l i ≠ .error .fuel := by
  unfold folded_registers
  refine foldlM_ne_fuel _ (fun S i => ?_) _ _
  refine bind_ne_fuel (getInterval_ne_fuel _ _) (fun _ _ => ?_)
  split <;> simp [pure, Except.pure]

theorem folded_code_ne_fuel (st : State) (l : List Nat) (i : Nat) :
    folded_code st l i ≠ .error .fuel := by
  unfold folded_code
  refine foldlM_ne_fuel _ (fun S i => ?_) _ _
  refine bind_ne_fuel (getInterval_ne_fuel _ _) (fun _ _ => ?_)
  split <;> simp [pure, Except.pure]

theorem passTwo_register_lists_ne_fuel (st : State) (l out : List Nat) :
    passTwo_register_lists st l out ≠ .error .fuel := by
  unfold passTwo_register_lists
  refine foldlM_ne_fuel _ (fun s i => ?_) _ _
  refine bind_ne_fuel (folded_registers_ne_fuel _ _ _) (fun _ _ => ?_)
  refine bind_ne_fuel (getInterval_ne_fuel _ _) (fun _ _ => ?_)
  exact bind_ne_fuel (set_register_list_ne_fuel _ _) (fun _ _ => by simp [pure, Except.pure])

theorem passTwo_codes_ne_fuel (st : State) (l out : List Nat) :
    passTwo_codes st l out ≠ .error .fuel := by
  unfold passTwo_codes
  refine foldlM_ne_fuel _ (fun s i => ?_) _ _
  refine bind_ne_fuel (folded_code_ne_fuel _ _ _) (fun _ _ => ?_)
  exact bind_ne_fuel (getInterval_ne_fuel _ _) (fun _ _ => by simp [pure, Except.pure])

theorem passTwo_interval_edges_ne_fuel (st : State) (Interval i : Nat) :
    passTwo_interval_edges st Interval i ≠ .error .fuel := by
  unfold passTwo_interval_edges
  refine bind_ne_fuel (getInterval_ne_fuel _ _) (fun I _ => ?_)
  split
  · refine bind_ne_fuel ?_ (fun _ _ => ?_)
    · refine foldlM_ne_fuel _ (fun s p => ?_) _ _
      refine bind_ne_fuel (getIntervalPtr_ne_fuel _ _) (fun _ _ => ?_)
      split
      · exact bind_ne_fuel (getInterval_ne_fuel _ _) (fun _ _ => by simp [pure, Except.pure])
      · simp [pure, Except.pure]
    · refine foldlM_ne_fuel _ (fun s p => ?_) _ _
      refine bind_ne_fuel (getIntervalPtr_ne_fuel _ _) (fun _ _ => ?_)
      split
      · exact bind_ne_fuel (getInterval_ne_fuel _ _) (fun _ _ => by simp [pure, Except.pure])
      · simp [pure, Except.pure]
  · simp [pure, Except.pure]

theorem passTwo_edges_ne_fuel (st : State) (l out : List Nat) :
    passTwo_edges st l out ≠ .error .fuel := by
  unfold passTwo_edges
  refine foldlM_ne_fuel _ (fun s i => ?_) _ _
  exact foldlM_ne_fuel _ (fun s j => passTwo_interval_edges_ne_fuel _ _ _) _ _

/-! ## The depth-first marking of register-intervals stops -/

theorem count_false_set_true_le (l : List Bool) (id : Nat) :
    (l.set id true).count false ≤ l.count false := by
  induction l generalizing id with
  | nil => simp
  | cons b l ih =>
    cases id with
    | zero => cases b <;> simp [List.count_cons]
    | succ id =>
      simp only [List.set_cons_succ, List.count_cons]
      have := ih id
      omega

theorem count_false_set_true_lt (l : List Bool) (id : Nat) (h : l[id]? = some false) :
    (l.set id true).count false < l.count false := by
  induction l generalizing id with
  | nil => simp at h
  | cons b l ih =>
    cases id with
    | zero =>
      simp at h
      subst h
      simp [List.count_cons]
    | succ id =>
      simp only [List.set_cons_succ, List.count_cons]
      have := ih id (by simpa using h)
      omega

theorem registerInterval_visit_predecessors_count (fuel : Nat) :
    ∀ (st st' : State) (i : Nat), registerInterval_visit_predecessors fuel st i = .ok st' →
      st'.registerInterval_mark.count false ≤ st.registerInterval_mark.count false := by
  induction fuel with
  | zero => intro st st' i h; simp [registerInterval_visit_predecessors] at h
  | succ fuel ih =>
    intro st st' i h
    unfold registerInterval_visit_predecessors at h
    obtain ⟨I, _, h⟩ := (bind_eq_ok _ _ _).mp h
    obtain ⟨st1, h1, h⟩ := (bind_eq_ok _ _ _).mp h
    obtain ⟨rfl, _⟩ := setIntervalMark_ok _ _ _ h1
    have h0 := count_false_set_true_le st.registerInterval_mark I.ID
    refine foldlM_inv _
      (fun s => s.registerInterval_mark.count false ≤ st.registerInterval_mark.count false)
      I.predecessors ?_ _ st' h0 h
    intro s p s' _ hs hstep
    obtain ⟨P, _, hstep⟩ := (bind_eq_ok _ _ _).mp hstep
    obtain ⟨m, _, hstep⟩ := (bind_eq_ok _ _ _).mp hstep
    cases p with
    | none => simp at hstep
    | some q =>
      simp only at hstep
      split at hstep
      · exact (ih _ _ _ hstep).trans hs
      · simp [pure, Except.pure] at hstep
        rw [← hstep]; exact hs

theorem getIntervalMark_eq_ok (st : State) (id : Nat) (m : Bool)
    (h : getIntervalMark st id = .ok m) : st.registerInterval_mark[id]? = some m := by
  unfold getIntervalMark at h
  split at h
  · simp at h; subst h; assumption
  · simp at h

/-- The step of the loop over the predecessors in
`registerInterval_visit_predecessors`, with fuel `k` for the recursive call. -/
theorem visit_step_halts (m : Nat)
    (ih : ∀ (st : State) (i : Nat), st.registerInterval_mark.count false ≤ m →
      (∀ I : registerInterval, st.intervals[i]? = some I →
        st.registerInterval_mark[I.ID]? = some false) →
      Halts (fun k => registerInterval_visit_predecessors k st i))
    (s : State) (p : Option Nat) (hs : s.registerInterval_mark.count false ≤ m) :
    Halts (fun k => (do
      let P ← getIntervalPtr s p
      let mk ← getIntervalMark s P.ID
      match p with
      | some q => if mk = false then registerInterval_visit_predecessors k s q else return s
      | none => .error .ub : M State)) := by
  refine Halts.bind_const (getIntervalPtr_ne_fuel _ _) (fun P hP => ?_)
  refine Halts.bind_const (getIntervalMark_ne_fuel _ _) (fun mk hmk => ?_)
  obtain ⟨q, rfl, hq⟩ := getIntervalPtr_eq_ok _ _ _ hP
  simp only
  by_cases hm : mk = false
  · simp only [hm, if_true]
    refine ih s q hs ?_
    intro I hI
    rw [hq] at hI; cases hI
    rw [← hm]
    exact getIntervalMark_eq_ok _ _ _ hmk
  · simp only [hm, if_false]
    exact ⟨0, by simp [pure, Except.pure]⟩

theorem visit_step_mono (s : State) (p : Option Nat) :
    Mono (fun k => (do
      let P ← getIntervalPtr s p
      let mk ← getIntervalMark s P.ID
      match p with
      | some q => if mk = false then registerInterval_visit_predecessors k s q else return s
      | none => .error .ub : M State)) := by
  intro n
  refine @MonoAt.monoat_bind _ _ n (fun _ => getIntervalPtr s p) _ (MonoAt.const n _) ?_
  intro P
  refine @MonoAt.monoat_bind _ _ n (fun _ => getIntervalMark s P.ID) _ (MonoAt.const n _) ?_
  intro m
  cases p with
  | none => exact MonoAt.const n _
  | some q =>
    simp only
    exact MonoAt.ite _ (registerInterval_visit_predecessors_mono n s q) (MonoAt.const n _)

theorem visit_step_count (k : Nat) (s s' : State) (p : Option Nat) (m : Nat)
    (hs : s.registerInterval_mark.count false ≤ m)
    (h : (do
      let P ← getIntervalPtr s p
      let mk ← getIntervalMark s P.ID
      match p with
      | some q => if mk = false then registerInterval_visit_predecessors k s q else return s
      | none => .error .ub : M State) = .ok s') :
    s'.registerInterval_mark.count false ≤ m := by
  obtain ⟨P, _, h⟩ := (bind_eq_ok _ _ _).mp h
  obtain ⟨mk, _, h⟩ := (bind_eq_ok _ _ _).mp h
  cases p with
  | none => simp at h
  | some q =>
    simp only at h
    split at h
    · exact (registerInterval_visit_predecessors_count k _ _ _ h).trans hs
    · simp [pure, Except.pure] at h
      rw [← h]; exact hs

/-- A visit that starts on an unmarked register-interval stops. -/
theorem registerInterval_visit_predecessors_halts_unmarked (m : Nat) :
    ∀ (st : State) (i : Nat), st.registerInterval_mark.count false ≤ m →
      (∀ I : registerInterval, st.intervals[i]? = some I →
        st.registerInterval_mark[I.ID]? = some false) →
      Halts (fun k => registerInterval_visit_predecessors k st i) := by
  induction m with
  | zero =>
    intro st i hcount hmark
    refine Halts.shift ?_
    show Halts (fun k => (do
        let I ← getInterval st i
        let st ← setIntervalMark st I.ID
        I.predecessors.foldlM
          (fun st p => do
            let P ← getIntervalPtr st p
            let m ← getIntervalMark st P.ID
            match p with
            | some q =>
              if m = false then registerInterval_visit_predecessors k st q else return st
            | none => .error .ub)
          st : M State))
    refine Halts.bind_const (getInterval_ne_fuel _ _) (fun I hI => ?_)
    rw [getInterval_eq_ok] at hI
    have h1 := hmark I hI
    have h2 : false ∈ st.registerInterval_mark := by
      obtain ⟨hlt, he⟩ := List.getElem?_eq_some_iff.mp h1
      exact he ▸ List.getElem_mem hlt
    have h3 := List.count_pos_iff.mpr h2
    omega
  | succ m ih =>
    intro st i hcount hmark
    refine Halts.shift ?_
    show Halts (fun k => (do
        let I ← getInterval st i
        let st ← setIntervalMark st I.ID
        I.predecessors.foldlM
          (fun st p => do
            let P ← getIntervalPtr st p
            let m ← getIntervalMark st P.ID
            match p with
            | some q =>
              if m = false then registerInterval_visit_predecessors k st q else return st
            | none => .error .ub)
          st : M State))
    refine Halts.bind_const (getInterval_ne_fuel _ _) (fun I hI => ?_)
    rw [getInterval_eq_ok] at hI
    refine Halts.bind_const (setIntervalMark_ne_fuel _ _) (fun st1 hst1 => ?_)
    obtain ⟨rfl, _⟩ := setIntervalMark_ok _ _ _ hst1
    have hlt := count_false_set_true_lt st.registerInterval_mark I.ID (hmark I hI)
    refine Halts.halts_foldlM (fun s => s.registerInterval_mark.count false ≤ m) _
      (fun s p => visit_step_mono s p) (fun s p hs => visit_step_halts m ih s p hs)
      (fun k s p s' hs hstep => visit_step_count k s s' p m hs hstep) I.predecessors _ ?_
    simp only
    omega

/-- Every visit stops. -/
theorem registerInterval_visit_predecessors_halts (st : State) (i : Nat) :
    Halts (fun k => registerInterval_visit_predecessors k st i) := by
  refine Halts.shift ?_
  show Halts (fun k => (do
      let I ← getInterval st i
      let st ← setIntervalMark st I.ID
      I.predecessors.foldlM
        (fun st p => do
          let P ← getIntervalPtr st p
          let m ← getIntervalMark st P.ID
          match p with
          | some q =>
            if m = false then registerInterval_visit_predecessors k st q else return st
          | none => .error .ub)
        st : M State))
  refine Halts.bind_const (getInterval_ne_fuel _ _) (fun I hI => ?_)
  refine Halts.bind_const (setIntervalMark_ne_fuel _ _) (fun st1 hst1 => ?_)
  exact Halts.halts_foldlM
    (fun s => s.registerInterval_mark.count false ≤ st1.registerInterval_mark.count false) _
    (fun s p => visit_step_mono s p)
    (fun s p hs => visit_step_halts _
      (registerInterval_visit_predecessors_halts_unmarked _) s p hs)
    (fun k s p s' hs hstep => visit_step_count k s s' p _ hs hstep) I.predecessors _
    (le_refl _)

/-! ## The main loop of pass two stops -/

theorem length_filter_le_of_imp {α : Type} (p q : α → Bool) (l : List α)
    (h : ∀ a, p a = true → q a = true) : (l.filter p).length ≤ (l.filter q).length := by
  induction l with
  | nil => simp
  | cons a l ih =>
    by_cases hp : p a = true
    · simp [List.filter_cons, hp, h a hp, ih]
    · by_cases hq : q a = true
      · simp [List.filter_cons, hp, hq]; omega
      · simp [List.filter_cons, hp, hq, ih]

theorem length_filter_lt_of_imp {α : Type} (p q : α → Bool) (l : List α)
    (h : ∀ a, p a = true → q a = true) (x : α) (hx : x ∈ l) (hqx : q x = true)
    (hpx : p x = false) : (l.filter p).length < (l.filter q).length := by
  induction l with
  | nil => simp at hx
  | cons a l ih =>
    simp only [List.mem_cons] at hx
    by_cases hax : x = a
    · subst hax
      have := length_filter_le_of_imp p q l h
      simp [List.filter_cons, hpx, hqx]
      omega
    · have hx' : x ∈ l := by
        rcases hx with hx | hx
        · exact absurd hx hax
        · exact hx
      have := ih hx'
      by_cases hp : p a = true
      · simp [List.filter_cons, hp, h a hp]; omega
      · by_cases hq : q a = true
        · simp [List.filter_cons, hp, hq]; omega
        · simp [List.filter_cons, hp, hq]; omega

theorem unassigned_of_frame {st st' : State} (hf : IFrame st st') (s : Option Nat)
    (h : unassigned st' s = true) : unassigned st s = true := by
  cases s with
  | none => rfl
  | some q =>
    unfold unassigned
    simp only
    cases hq : st.intervals[q]? with
    | none => rfl
    | some S =>
      simp only
      obtain ⟨S', hS', _, _, hn⟩ := hf q S hq
      unfold unassigned at h
      simp only [hS'] at h
      cases hnext : S.next_level_registerInterval with
      | none => rfl
      | some t =>
        rw [hn t hnext] at h
        simp at h

theorem pending_le_of_frame {st st' : State} (hf : IFrame st st') (T : List (Option Nat)) :
    pending T st' ≤ pending T st :=
  length_filter_le_of_imp _ _ T (fun s hs => unassigned_of_frame hf s hs)

theorem LInv.linv_frame {T : List (Option Nat)} {l : List Nat} {st st' : State}
    (h : LInv T l st) (hf : IFrame st st') : LInv T l st' := by
  obtain ⟨h1, h2⟩ := h
  have hvalid : ∀ p, p < st.intervals.length → p < st'.intervals.length := by
    intro p hp
    obtain ⟨I', hI', _⟩ := hf p st.intervals[p] (List.getElem?_eq_getElem hp)
    exact (List.getElem?_eq_some_iff.mp hI').1
  refine ⟨fun i hi => hvalid i (h1 i hi), ?_⟩
  intro i hi I' hI' s hs
  have hlt := h1 i hi
  obtain ⟨I2, hI2, hs2, _⟩ := hf i st.intervals[i] (List.getElem?_eq_getElem hlt)
  rw [hI'] at hI2
  cases hI2
  rw [hs2] at hs
  exact h2 i hi _ (List.getElem?_eq_getElem hlt) s hs

/-- The step that opens a next-level register-interval for `q` is a frame step. -/
theorem assign_frame {st : State} {q : Nat} {S : registerInterval}
    (hS : st.intervals[q]? = some S) (hnone : S.next_level_registerInterval = none) :
    IFrame st (setInterval (new_registerInterval st).1 q
      { S with next_level_registerInterval := some (new_registerInterval st).2 }) := by
  have hqlt : q < st.intervals.length := (List.getElem?_eq_some_iff.mp hS).1
  refine (IFrame.append _ (new_registerInterval st).1 rfl).trans ?_
  refine IFrame.setInterval (J := S) ?_ rfl rfl (fun t ht => by rw [hnone] at ht; cases ht)
  simp only [new_registerInterval]
  rw [List.getElem?_append_left hqlt]
  exact hS

theorem assign_pending_lt {st : State} {q : Nat} {S : registerInterval}
    (hS : st.intervals[q]? = some S) (hnone : S.next_level_registerInterval = none)
    (T : List (Option Nat)) (hT : some q ∈ T) :
    pending T (setInterval (new_registerInterval st).1 q
      { S with next_level_registerInterval := some (new_registerInterval st).2 }) <
    pending T st := by
  have hqlt : q < st.intervals.length := (List.getElem?_eq_some_iff.mp hS).1
  refine length_filter_lt_of_imp _ _ T
    (fun s hs => unassigned_of_frame (assign_frame hS hnone) s hs) (some q) hT ?_ ?_
  · simp [unassigned, hS, hnone]
  · simp only [unassigned, new_registerInterval, RegisterInterval.setInterval]
    rw [List.getElem?_set_self (by simp; omega)]
    rfl

theorem passTwo_assign_successors_measure (T : List (Option Nat))
    (Successors : List (Option Nat)) (hS : ∀ s ∈ Successors, s ∈ T)
    (st : State) (out WorkingSet : List Nat) (r : State × List Nat × List Nat)
    (h : passTwo_assign_successors st out WorkingSet Successors = .ok r) :
    IFrame st r.1 ∧ r.2.2.length + pending T r.1 ≤ WorkingSet.length + pending T st := by
  unfold passTwo_assign_successors at h
  refine foldlM_inv _
    (fun acc : State × List Nat × List Nat =>
      IFrame st acc.1 ∧ acc.2.2.length + pending T acc.1 ≤ WorkingSet.length + pending T st)
    Successors ?_ _ r ⟨IFrame.refl st, le_refl _⟩ h
  rintro ⟨st1, out1, ws1⟩ s ⟨st2, out2, ws2⟩ hs ⟨hf1, hm1⟩ hstep
  simp only at hstep hf1 hm1 ⊢
  obtain ⟨S, hS', hstep⟩ := (bind_eq_ok _ _ _).mp hstep
  obtain ⟨q, rfl, hSq⟩ := getIntervalPtr_eq_ok _ _ _ hS'
  split at hstep
  · rename_i hnone
    simp [pure, Except.pure] at hstep
    obtain ⟨e1, _, e3⟩ := hstep
    subst e1 e3
    refine ⟨hf1.trans (assign_frame hSq hnone), ?_⟩
    have := assign_pending_lt hSq hnone T (hS _ hs)
    simp only [List.length_append, List.length_singleton]
    omega
  · simp [pure, Except.pure] at hstep
    obtain ⟨e1, _, e3⟩ := hstep
    subst e1 e3
    exact ⟨hf1, hm1⟩

theorem passTwo_collect_successors_sub (T : List (Option Nat)) (l : List Nat) (st : State)
    (ii : Option Nat) (Successors : List (Option Nat)) (hinv : LInv T l st)
    (h : passTwo_collect_successors st l ii = .ok Successors) :
    ∀ s ∈ Successors, s ∈ T := by
  unfold passTwo_collect_successors at h
  refine foldlM_inv _ (fun S : List (Option Nat) => ∀ s ∈ S, s ∈ T)
    l ?_ _ Successors (by simp) h
  intro S i S' hi hS hstep
  obtain ⟨I, hI, hstep⟩ := (bind_eq_ok _ _ _).mp hstep
  rw [getInterval_eq_ok] at hI
  split at hstep
  · simp [pure, Except.pure] at hstep
    subst hstep
    intro s hs
    rw [mem_foldl_set_insert] at hs
    rcases hs with hs | hs
    · exact hS s hs
    · exact hinv.2 i hi I hI s hs
  · simp [pure, Except.pure] at hstep
    subst hstep
    exact hS

theorem passTwo_body_measure (T : List (Option Nat)) (fuel : Nat) (l : List Nat) (N : Int)
    (st : State) (out WorkingSet : List Nat) (i : Nat) (r : State × List Nat × List Nat)
    (hinv : LInv T l st) (h : passTwo_body fuel l N st out WorkingSet i = .ok r) :
    LInv T l r.1 ∧ r.2.2.length + pending T r.1 ≤ WorkingSet.length + pending T st := by
  unfold passTwo_body at h
  obtain ⟨I, hI, h⟩ := (bind_eq_ok _ _ _).mp h
  obtain ⟨st1, h1, h⟩ := (bind_eq_ok _ _ _).mp h
  obtain ⟨Successors, hc, h⟩ := (bind_eq_ok _ _ _).mp h
  have hf : IFrame st st1 := passTwo_growth_frame fuel l N st st1 I h1
  have hinv1 := hinv.linv_frame hf
  obtain ⟨hf2, hm⟩ := passTwo_assign_successors_measure T Successors
    (passTwo_collect_successors_sub T l st1 _ Successors hinv1 hc) st1 out WorkingSet r h
  refine ⟨hinv1.linv_frame hf2, ?_⟩
  have := pending_le_of_frame hf T
  omega

theorem passTwo_growth_step_halts (l : List Nat) (ii : Option Nat) (N : Int) (st : State)
    (Interval : Nat) : Halts (fun k => passTwo_growth_step k l ii N st Interval) := by
  unfold passTwo_growth_step
  refine Halts.bind_const (getInterval_ne_fuel _ _) (fun I _ => ?_)
  refine Halts.halts_bind ?_ (fun n => visit_registerInterval_all_predecessors_mono n st Interval)
    (fun _ n => MonoAt.const n _) ?_
  · unfold visit_registerInterval_all_predecessors
    exact Halts.bind_const (reset_interval_mark_ne_fuel _)
      (fun st1 _ => registerInterval_visit_predecessors_halts st1 Interval)
  · intro st1 F _
    refine Halts.of_ne ?_
    refine bind_ne_fuel (all_in_next_level_ne_fuel _ _ _ _) (fun _ _ => ?_)
    refine bind_ne_fuel (union_all_ne_fuel _ _) (fun _ _ => ?_)
    refine bind_ne_fuel (getInterval_ne_fuel _ _) (fun _ _ => ?_)
    split
    · refine bind_ne_fuel (getInterval_ne_fuel _ _) (fun _ _ => ?_)
      refine bind_ne_fuel (getIntervalPtr_ne_fuel _ _) (fun _ _ => ?_)
      exact bind_ne_fuel (set_register_list_ne_fuel _ _) (fun _ _ => by simp [pure, Except.pure])
    · simp [pure, Except.pure]

theorem passTwo_growth_halts (l : List Nat) (N : Int) (st : State) (I : registerInterval) :
    Halts (fun k => passTwo_growth k l N st I) := by
  unfold passTwo_growth
  split
  · refine Halts.bind_const (getIntervalPtr_ne_fuel _ _) (fun II _ => ?_)
    refine Halts.bind_const (set_register_list_ne_fuel _ _) (fun II' _ => ?_)
    exact Halts.halts_foldlM (fun _ => True) _
      (fun b a n => passTwo_growth_step_mono n l _ N b a)
      (fun b a _ => passTwo_growth_step_halts l _ N b a) (fun _ _ _ _ _ _ => trivial) l _ trivial
  · exact ⟨0, by simp [pure, Except.pure]⟩

theorem passTwo_body_halts (l : List Nat) (N : Int) (st : State) (out WorkingSet : List Nat)
    (i : Nat) : Halts (fun k => passTwo_body k l N st out WorkingSet i) := by
  unfold passTwo_body
  refine Halts.bind_const (getInterval_ne_fuel _ _) (fun I _ => ?_)
  refine Halts.halts_bind (passTwo_growth_halts l N st I) (fun n => passTwo_growth_mono n l N st I)
    (fun _ n => MonoAt.const n _) ?_
  intro st1 F _
  refine Halts.of_ne ?_
  exact bind_ne_fuel (passTwo_collect_successors_ne_fuel _ _ _)
    (fun _ _ => passTwo_assign_successors_ne_fuel _ _ _ _)

theorem passTwo_loop_halts (T : List (Option Nat)) (l : List Nat) (N : Int) (μ : Nat) :
    ∀ (st : State) (out WorkingSet : List Nat), LInv T l st →
      WorkingSet.length + pending T st ≤ μ →
      Halts (fun k => passTwo_loop l N k st out WorkingSet) := by
  induction μ with
  | zero =>
    intro st out WorkingSet _ hμ
    cases WorkingSet with
    | nil => exact ⟨0, by simp [passTwo_loop]⟩
    | cons i rest => simp at hμ
  | succ μ ih =>
    intro st out WorkingSet hinv hμ
    cases WorkingSet with
    | nil => exact ⟨0, by simp [passTwo_loop]⟩
    | cons i rest =>
      refine Halts.shift ?_
      show Halts (fun k => (do
          let (st, out, WorkingSet) ← passTwo_body k l N st out rest i
          passTwo_loop l N k st out WorkingSet : M (State × List Nat)))
      refine Halts.halts_bind (passTwo_body_halts l N st out rest i)
        (fun n => passTwo_body_mono n l N st out rest i) ?_ ?_
      · rintro ⟨st1, out1, ws1⟩ n
        exact passTwo_loop_mono l N n st1 out1 ws1
      · rintro ⟨st1, out1, ws1⟩ F hF
        obtain ⟨hinv1, hm⟩ := passTwo_body_measure T F l N st out rest i _ hinv hF
        refine ih st1 out1 ws1 hinv1 ?_
        simp only [List.length_cons] at hμ
        simp only at hm
        omega

/-! ## Pass two and the convergence loop stop -/

theorem passTwo_seed_length (st : State) (l : List Nat) (r : State × List Nat × List Nat)
    (h : passTwo_seed st l = .ok r) : st.intervals.length ≤ r.1.intervals.length := by
  unfold passTwo_seed at h
  refine foldlM_inv _
    (fun acc : State × List Nat × List Nat => st.intervals.length ≤ acc.1.intervals.length)
    l ?_ _ r (le_refl _) h
  rintro ⟨st1, out1, ws1⟩ i ⟨st2, out2, ws2⟩ _ hle hstep
  simp only at hstep hle ⊢
  obtain ⟨I, _, hstep⟩ := (bind_eq_ok _ _ _).mp hstep
  split at hstep
  · simp [pure, Except.pure] at hstep
    obtain ⟨e1, _, _⟩ := hstep
    subst e1
    simp [new_registerInterval, RegisterInterval.setInterval]
    omega
  · simp [pure, Except.pure] at hstep
    obtain ⟨e1, _, _⟩ := hstep
    subst e1
    exact hle

theorem registerIntervalCreationPassTwo_halts (st : State) (l : List Nat) (N : Int) :
    Halts (fun k => registerIntervalCreationPassTwo k st l N) := by
  unfold registerIntervalCreationPassTwo
  refine Halts.bind_const (passTwo_init_ne_fuel _ _) (fun st1 h1 => ?_)
  refine Halts.bind_const (passTwo_seed_ne_fuel _ _) (fun r h2 => ?_)
  obtain ⟨st2, out, ws⟩ := r
  simp only
  obtain ⟨i1, _, i3⟩ := passTwo_init_spec l st st1 h1
  have hlen := passTwo_seed_length st1 l _ h2
  simp only at hlen
  have hinv : LInv
      (l.flatMap (fun i => match st2.intervals[i]? with
        | some I => I.successors
        | none => []))
      l st2 := by
    refine ⟨fun i hi => ?_, ?_⟩
    · have := i3 i hi
      omega
    · intro i hi I hI s hs
      exact List.mem_flatMap.mpr ⟨i, hi, by simp only [hI]; exact hs⟩
  refine Halts.halts_bind (passTwo_loop_halts _ l N _ st2 out ws hinv (le_refl _))
    (fun n => passTwo_loop_mono l N n st2 out ws) (fun _ n => MonoAt.const n _) ?_
  rintro ⟨st3, out3⟩ F _
  refine Halts.of_ne ?_
  simp only
  refine bind_ne_fuel (passTwo_register_lists_ne_fuel _ _ _) (fun _ _ => ?_)
  refine bind_ne_fuel (passTwo_codes_ne_fuel _ _ _) (fun _ _ => ?_)
  exact bind_ne_fuel (passTwo_edges_ne_fuel _ _ _) (fun _ _ => by simp [pure, Except.pure])

/-- A computation that stops and is monotone in the fuel has, from some amount
of fuel on, a result other than the out-of-fuel fault. -/
theorem Halts.eventually {α : Type} {g : Nat → M α} (h : Halts g) (m : Mono g) :
    ∃ F, ∀ fuel, F ≤ fuel → g fuel ≠ .error .fuel := by
  obtain ⟨F, hF⟩ := h
  exact ⟨F, fun fuel hle => by rw [m.stable hF fuel hle]; exact hF⟩

theorem convergence_loop_halts (N : Int) (n : Nat) :
    ∀ (st : State) (intervals : List Nat), intervals.length ≤ n →
      Halts (fun k => convergence_loop N k st intervals) := by
  induction n with
  | zero =>
    intro st intervals hlen
    refine Halts.shift ?_
    show Halts (fun k => (do
        let (st, intervals') ← registerIntervalCreationPassTwo k st intervals N
        if intervals'.length < intervals.length then do
          let (st, later) ← convergence_loop N k st intervals'
          return (st, intervals' :: later)
        else return (st, [intervals']) : M (State × List (List Nat))))
    refine Halts.halts_bind (registerIntervalCreationPassTwo_halts st intervals N)
      (fun n => registerIntervalCreationPassTwo_mono n st intervals N) ?_ ?_
    · rintro ⟨st1, out⟩ n
      refine MonoAt.ite _ ?_ (MonoAt.const n _)
      refine MonoAt.monoat_bind (convergence_loop_mono N n st1 out) ?_
      rintro ⟨st2, later⟩
      exact MonoAt.const n _
    · rintro ⟨st1, out⟩ F _
      have : ¬ out.length < intervals.length := by omega
      simp only [this, if_false]
      exact ⟨0, by simp [pure, Except.pure]⟩
  | succ n ih =>
    intro st intervals hlen
    refine Halts.shift ?_
    show Halts (fun k => (do
        let (st, intervals') ← registerIntervalCreationPassTwo k st intervals N
        if intervals'.length < intervals.length then do
          let (st, later) ← convergence_loop N k st intervals'
          return (st, intervals' :: later)
        else return (st, [intervals']) : M (State × List (List Nat))))
    refine Halts.halts_bind (registerIntervalCreationPassTwo_halts st intervals N)
      (fun n => registerIntervalCreationPassTwo_mono n st intervals N) ?_ ?_
    · rintro ⟨st1, out⟩ n
      refine MonoAt.ite _ ?_ (MonoAt.const n _)
      refine MonoAt.monoat_bind (convergence_loop_mono N n st1 out) ?_
      rintro ⟨st2, later⟩
      exact MonoAt.const n _
    · rintro ⟨st1, out⟩ F _
      by_cases hlt : out.length < intervals.length
      · simp only [hlt, if_true]
        refine Halts.halts_bind (ih st1 out (by omega)) (fun n => convergence_loop_mono N n st1 out)
          (fun _ n => MonoAt.const n _) ?_
        rintro ⟨st2, later⟩ _ _
        exact ⟨0, by simp [pure, Except.pure]⟩
      · simp only [hlt, if_false]
        exact ⟨0, by simp [pure, Except.pure]⟩

/-- The interval sets the convergence loop produces: there is at least one, at
most one more than the initial interval count, and every set but the last is
strictly smaller than the one pass two was given. -/
theorem convergence_loop_trace (N : Int) (fuel : Nat) :
    ∀ (st st' : State) (intervals : List Nat) (tr : List (List Nat)),
      convergence_loop N fuel st intervals = .ok (st', tr) →
      1 ≤ tr.length ∧ tr.length ≤ intervals.length + 1 ∧
      List.Chain (fun a b : List Nat => b.length < a.length) intervals tr.dropLast := by
  induction fuel with
  | zero => intro st st' intervals tr h; simp [convergence_loop] at h
  | succ fuel ih =>
    intro st st' intervals tr h
    unfold convergence_loop at h
    obtain ⟨⟨st1, out⟩, h1, h⟩ := (bind_eq_ok _ _ _).mp h
    simp only at h
    split at h
    · rename_i hlt
      obtain ⟨⟨st2, later⟩, h2, h⟩ := (bind_eq_ok _ _ _).mp h
      simp [pure, Except.pure] at h
      obtain ⟨_, rfl⟩ := h
      obtain ⟨g1, g2, g3⟩ := ih st1 st2 out later h2
      have hne : later ≠ [] := by
        intro hc; subst hc; simp at g1
      refine ⟨by simp, by simp; omega, ?_⟩
      rw [List.dropLast_cons_of_ne_nil hne]
      exact List.Chain.cons hlt g3
    · simp [pure, Except.pure] at h
      obtain ⟨_, rfl⟩ := h
      exact ⟨by simp, by simp, by simp⟩

/-- C6. The convergence loop stops for every starting interval set: every call
of pass two stops, and from some amount of fuel on the loop does not run out of
fuel; when it returns, pass two was called at least once, at most (initial
interval count + 1) times, and each call but the last returned strictly fewer
register-intervals than it was given. -/
theorem convergence_loop_terminates (N : Int) (st : State) (intervals : List Nat) :
    (∀ (st0 : State) (l : List Nat), ∃ F, ∀ fuel, F ≤ fuel →
      registerIntervalCreationPassTwo fuel st0 l N ≠ .error .fuel) ∧
    ∃ F, ∀ fuel, F ≤ fuel →
      convergence_loop N fuel st intervals ≠ .error .fuel ∧
      ∀ (st' : State) (tr : List (List Nat)),
        convergence_loop N fuel st intervals = .ok (st', tr) →
        1 ≤ tr.length ∧ tr.length ≤ intervals.length + 1 ∧
        List.Chain (fun a b : List Nat => b.length < a.length) intervals tr.dropLast := by
  refine ⟨fun st0 l => ?_, ?_⟩
  · exact (registerIntervalCreationPassTwo_halts st0 l N).eventually
      (fun n => registerIntervalCreationPassTwo_mono n st0 l N)
  · obtain ⟨F, hF⟩ := (convergence_loop_halts N intervals.length st intervals
      (le_refl _)).eventually (fun n => convergence_loop_mono N n st intervals)
    exact ⟨F, fun fuel hle =>
      ⟨hF fuel hle, fun st' tr h => convergence_loop_trace N fuel st st' intervals tr h⟩⟩

/-- C4. For an input list without repeated element that contains every
predecessor and successor of its elements, pass two does not run out of fuel
from some amount of fuel on, and the vector it returns is at most as long as
the input list. -/
theorem passTwo_length_le (st : State) (l : List Nat) (N : Int) (hnodup : l.Nodup)
    (hclosed : Closed st l) :
    (∃ F, ∀ fuel, F ≤ fuel → registerIntervalCreationPassTwo fuel st l N ≠ .error .fuel) ∧
    ∀ (fuel : Nat) (st' : State) (out : List Nat),
      registerIntervalCreationPassTwo fuel st l N = .ok (st', out) → out.length ≤ l.length := by
  refine ⟨(registerIntervalCreationPassTwo_halts st l N).eventually
      (fun n => registerIntervalCreationPassTwo_mono n st l N), ?_⟩
  intro fuel st' out h
  obtain ⟨st2, hinv⟩ := passTwo_OutInv fuel st st' l out N hnodup hclosed h
  exact hinv.length_le

theorem two_intervals_closed : Closed two_intervals [0, 1] := by
  intro i hi I hI
  simp only [List.mem_cons, List.mem_singleton, List.not_mem_nil, or_false] at hi
  rcases hi with rfl | rfl
  · simp [two_intervals] at hI
    subst hI
    simp
  · simp [two_intervals] at hI
    subst hI
    simp

/-- Pass two on `two_intervals` with budget 5 folds both register-intervals into
one. -/
theorem passTwo_length_le_witness :
    ([0, 1] : List Nat).Nodup ∧ Closed two_intervals [0, 1] ∧
    ∃ st' out, registerIntervalCreationPassTwo 10 two_intervals [0, 1] 5 = .ok (st', out) ∧
      out.length = 1 ∧ out.length ≤ ([0, 1] : List Nat).length := by
  obtain ⟨⟨st', out⟩, hrun, hlen⟩ :=
    ok_of_map_eq (registerIntervalCreationPassTwo 10 two_intervals [0, 1] 5)
      (fun r => r.2.length) 1 (by decide)
  exact ⟨by decide, two_intervals_closed, st', out, hrun, hlen,
    (passTwo_length_le two_intervals [0, 1] 5 (by decide) two_intervals_closed).2 10 st' out hrun⟩

/-! ## Pass one: the shape of a run of the main loop -/

theorem setMark_ok (st st' : State) (id : Nat) (h : setMark st id = .ok st') :
    st' = { st with mark := st.mark.set id true } ∧ id < st.mark.length := by
  unfold setMark at h
  split at h
  · simp at h; exact ⟨h.symm, by assumption⟩
  · simp at h

theorem visit_predecessors_frame (fuel : Nat) :
    ∀ (st st' : State) (BB : Nat), visit_predecessors fuel st BB = .ok st' →
      st' = { st with mark := st'.mark } := by
  induction fuel with
  | zero => intro st st' i h; simp [visit_predecessors] at h
  | succ fuel ih =>
    intro st st' i h
    unfold visit_predecessors at h
    obtain ⟨b, _, h⟩ := (bind_eq_ok _ _ _).mp h
    obtain ⟨st1, h1, h⟩ := (bind_eq_ok _ _ _).mp h
    obtain ⟨rfl, _⟩ := setMark_ok _ _ _ h1
    refine foldlM_inv _ (fun s => s = { st with mark := s.mark })
      b.predecessors ?_ _ st' rfl h
    intro s p s' _ hs hstep
    obtain ⟨pb, _, hstep⟩ := (bind_eq_ok _ _ _).mp hstep
    obtain ⟨m, _, hstep⟩ := (bind_eq_ok _ _ _).mp hstep
    split at hstep
    · have := ih _ _ _ hstep
      rw [this, hs]
    · simp [pure, Except.pure] at hstep
      rw [← hstep]; exact hs

theorem visit_all_predecessors_frame (fuel : Nat) (st st' : State) (BB : Nat)
    (h : visit_all_predecessors fuel st BB = .ok st') : st' = { st with mark := st'.mark } := by
  unfold visit_all_predecessors at h
  have := visit_predecessors_frame fuel _ _ _ h
  rw [this]
  simp [reset_mark]

theorem all_in_interval_true (st : State) (i : Option Nat) (P : List Nat) :
    ∀ C0 : Bool, P.foldlM
      (fun (C : Bool) p => do
        let pb ← getBlock st p
        if pb.BB_registerInterval ≠ i then return false else return C) C0 = .ok true →
    C0 = true ∧ ∀ p ∈ P, ∃ pb, getBlock st p = .ok pb ∧ pb.BB_registerInterval = i := by
  induction P with
  | nil =>
    intro C0 h
    simp [pure, Except.pure] at h
    exact ⟨h, by simp⟩
  | cons p P ih =>
    intro C0 h
    rw [List.foldlM_cons] at h
    obtain ⟨C1, h1, h⟩ := (bind_eq_ok _ _ _).mp h
    obtain ⟨pb, hpb, h1⟩ := (bind_eq_ok _ _ _).mp h1
    obtain ⟨hC1, hrest⟩ := ih C1 h
    subst hC1
    split at h1
    · simp [pure, Except.pure] at h1
    · rename_i hne
      simp [pure, Except.pure] at h1
      refine ⟨h1, ?_⟩
      intro q hq
      simp only [List.mem_cons] at hq
      rcases hq with rfl | hq
      · exact ⟨pb, hpb, by simpa using hne⟩
      · exact hrest q hq

theorem frontier_step_eq (st : State) (s : Nat) (sb : basicBlock) :
    ({ (setBlock
        { (new_registerInterval st).1 with
          RegisterIntervals :=
            (new_registerInterval st).1.RegisterIntervals ++ [(new_registerInterval st).2] }
        s { sb with BB_registerInterval := some (new_registerInterval st).2, input_list := [] })
      with WS :=
        (setBlock
          { (new_registerInterval st).1 with
            RegisterIntervals :=
              (new_registerInterval st).1.RegisterIntervals ++ [(new_registerInterval st).2] }
          s { sb with BB_registerInterval := some (new_registerInterval st).2,
                      input_list := [] }).WS ++ [s] } : State) =
    frontier_state st s sb := rfl

/-- The rule for the main loop of pass one.  `Outer` holds between two turns of
the `while` loop; `Inner i` holds inside a turn that works on the
register-interval `i`, from the first call of `traverse` to the end of the
loop that opens register-intervals for the successors. -/
theorem passOne_loop_rule (N : Int) (Outer : State → Prop)
    (Inner : Option Nat → State → Prop)
    (enter : ∀ (fuel : Nat) (st : State) (BB : Nat) (rest : List Nat) (b : basicBlock)
      (st' : State), Outer st → st.WS = BB :: rest → getBlock st BB = .ok b →
      traverse fuel { st with WS := rest } BB N = .ok st' → Inner b.BB_registerInterval st')
    (marks : ∀ (i : Option Nat) (st : State) (m : List Bool), Inner i st →
      Inner i { st with mark := m })
    (grow : ∀ (fuel : Nat) (i : Option Nat) (st : State) (b : Nat) (blk : basicBlock)
      (Union : List Str) (st' : State), Inner i st → b ∈ st.basic_blocks →
      getBlock st b = .ok blk → blk.BB_registerInterval = none →
      (∀ p ∈ blk.predecessors, ∃ pb, getBlock st p = .ok pb ∧ pb.BB_registerInterval = i) →
      size_lt Union.length N = true →
      traverse fuel (setBlock st b { blk with BB_registerInterval := i, input_list := Union })
        b N = .ok st' →
      Inner i st')
    (frontier : ∀ (i : Option Nat) (st : State) (s : Nat) (sb : basicBlock), Inner i st →
      getBlock st s = .ok sb → sb.BB_registerInterval = none →
      Inner i (frontier_state st s sb))
    (exit : ∀ (i : Option Nat) (st0 st : State) (Successors : List Nat), Inner i st0 →
      collect_successors st0 i = .ok Successors → assign_successors st0 Successors = .ok st →
      Inner i st → Outer st) :
    ∀ (fuel : Nat) (st st' : State), Outer st → passOne_loop N fuel st = .ok st' →
      Outer st' ∧ st'.WS = [] := by
  have hgrowth_step : ∀ (fuel : Nat) (i : Option Nat) (st st' : State) (b : Nat),
      Inner i st → b ∈ st.basic_blocks → growth_step fuel st i N b = .ok st' → Inner i st' := by
    intro fuel i st st' b hinv hb h
    unfold growth_step at h
    obtain ⟨st1, h1, h⟩ := (bind_eq_ok _ _ _).mp h
    have hf := visit_all_predecessors_frame fuel st st1 b h1
    have hinv1 : Inner i st1 := by
      rw [hf]; exact marks i st _ hinv
    have hb1 : b ∈ st1.basic_blocks := by rw [hf]; exact hb
    obtain ⟨blk, hblk, h⟩ := (bind_eq_ok _ _ _).mp h
    obtain ⟨Union, _, h⟩ := (bind_eq_ok _ _ _).mp h
    obtain ⟨C, hC, h⟩ := (bind_eq_ok _ _ _).mp h
    split at h
    · rename_i hcond
      obtain ⟨c1, c2, c3⟩ := hcond
      subst c2
      exact grow fuel i st1 b blk Union st' hinv1 hb1 hblk c1
        (all_in_interval_true st1 i blk.predecessors true hC).2 c3 h
    · simp [pure, Except.pure] at h
      subst h
      exact hinv1
  have hgrowth_loop : ∀ (fuel : Nat) (i : Option Nat) (st st' : State) (k : Nat),
      Inner i st → growth_loop i N fuel st k = .ok st' → Inner i st' := by
    intro fuel
    induction fuel with
    | zero =>
      intro i st st' k hinv h
      unfold growth_loop at h
      split at h
      · simp at h
      · simp at h; subst h; exact hinv
    | succ fuel ih =>
      intro i st st' k hinv h
      unfold growth_loop at h
      cases hk : st.basic_blocks[k]? with
      | none =>
        simp only [hk] at h
        simp at h; subst h; exact hinv
      | some b =>
        simp only [hk] at h
        obtain ⟨st1, h1, h⟩ := (bind_eq_ok _ _ _).mp h
        have hb : b ∈ st.basic_blocks := by
          obtain ⟨hlt, he⟩ := List.getElem?_eq_some_iff.mp hk
          exact he ▸ List.getElem_mem hlt
        exact ih i st1 st' (k + 1) (hgrowth_step fuel i st st1 b hinv hb h1) h
  have hassign : ∀ (i : Option Nat) (Successors : List Nat) (st st' : State),
      Inner i st → assign_successors st Successors = .ok st' → Inner i st' := by
    intro i Successors st st' hinv h
    unfold assign_successors at h
    refine foldlM_inv _ (fun s => Inner i s) Successors ?_ st st' hinv h
    intro s1 s s2 _ hs1 hstep
    obtain ⟨sb, hsb, hstep⟩ := (bind_eq_ok _ _ _).mp hstep
    split at hstep
    · rename_i hnone
      simp only [pure, Except.pure, Except.ok.injEq] at hstep
      rw [frontier_step_eq] at hstep
      subst hstep
      exact frontier i s1 s sb hs1 hsb hnone
    · simp [pure, Except.pure] at hstep
      subst hstep
      exact hs1
  have hbody : ∀ (fuel : Nat) (st st' : State) (BB : Nat) (rest : List Nat),
      Outer st → st.WS = BB :: rest → passOne_body fuel { st with WS := rest } BB N = .ok st' →
      Outer st' := by
    intro fuel st st' BB rest hout hws h
    unfold passOne_body at h
    obtain ⟨b, hb, h⟩ := (bind_eq_ok _ _ _).mp h
    obtain ⟨st1, h1, h⟩ := (bind_eq_ok _ _ _).mp h
    have hinv1 := enter fuel st BB rest b st1 hout hws hb h1
    obtain ⟨st2, h2, h⟩ := (bind_eq_ok _ _ _).mp h
    have hinv2 : Inner b.BB_registerInterval st2 := by
      unfold passOne_growth at h2
      obtain ⟨b', _, h2⟩ := (bind_eq_ok _ _ _).mp h2
      split at h2
      · exact hgrowth_loop fuel _ st1 st2 0 hinv1 h2
      · simp [pure, Except.pure] at h2
        subst h2
        exact hinv1
    obtain ⟨Successors, hc, h⟩ := (bind_eq_ok _ _ _).mp h
    exact exit _ st2 st' Successors hinv2 hc h (hassign _ Successors st2 st' hinv2 h)
  intro fuel
  induction fuel with
  | zero =>
    intro st st' hout h
    unfold passOne_loop at h
    cases hws : st.WS with
    | nil => simp [hws] at h; subst h; exact ⟨hout, hws⟩
    | cons BB rest => simp [hws] at h
  | succ fuel ih =>
    intro st st' hout h
    unfold passOne_loop at h
    cases hws : st.WS with
    | nil => simp [hws] at h; subst h; exact ⟨hout, hws⟩
    | cons BB rest =>
      simp only [hws] at h
      obtain ⟨st1, h1, h⟩ := (bind_eq_ok _ _ _).mp h
      exact ih st1 st' (hbody fuel st st1 BB rest hout hws h1) h

/-! ## The scan of `traverse` -/

theorem mem_terminators (code : Str) (pos x : Nat) (h : x ∈ terminators code pos) :
    pos ≤ x ∧ x < code.length ∧ code[x]? = some ';' := by
  unfold terminators at h
  rw [List.mem_filter, List.mem_range'_1] at h
  obtain ⟨⟨h1, h2⟩, h3⟩ := h
  have hlt : x < code.length := by omega
  refine ⟨h1, hlt, ?_⟩
  simp only [charAt, decide_eq_true_eq] at h3
  rw [List.getD_eq_getElem?_getD] at h3
  rw [List.getElem?_eq_getElem hlt] at h3 ⊢
  simpa using h3

theorem terminators_pairwise (code : Str) (pos : Nat) :
    (terminators code pos).Pairwise (· < ·) := by
  unfold terminators
  exact (List.pairwise_lt_range' pos (code.length - pos)).filter _

theorem terminators_ne_nil (code : Str) (h : ';' ∈ code) : terminators code 0 ≠ [] := by
  obtain ⟨n, hn, he⟩ := List.mem_iff_getElem.mp h
  intro hc
  have : n ∈ terminators code 0 := by
    unfold terminators
    rw [List.mem_filter, List.mem_range'_1]
    refine ⟨⟨Nat.zero_le _, by omega⟩, ?_⟩
    simp only [charAt, decide_eq_true_eq]
    rw [List.getD_eq_getElem?_getD, List.getElem?_eq_getElem hn]
    simpa using he
  rw [hc] at this
  simp at this

theorem scan_statement_empty (code : Str) (found1 found2 : Nat) (temp : List Str)
    (h : found2 ≤ found1) : scan_statement code found1 found2 temp = temp := by
  unfold scan_statement
  have : found2 - found1 = 0 := by omega
  rw [this]
  simp

theorem scan_loop_spec (code : Str) (N : Int) :
    ∀ (ts : List Nat) (found1 : Nat) (register_list temp : List Str)
      (last : Option (List Str)),
      (∀ x ∈ ts, found1 ≤ x) → ts.Pairwise (· < ·) → temp.length ≤ to_size N →
      (∀ L, scan_loop code N ts found1 register_list temp last = .finished L →
        (ts = [] ∧ L = last) ∨ (ts ≠ [] ∧ ∃ r, L = some r ∧ r.length ≤ to_size N)) ∧
      (∀ f1 rl, scan_loop code N ts found1 register_list temp last = .overflow f1 rl →
        (rl = register_list ∨ rl.length ≤ to_size N) ∧ ∃ x ∈ ts, f1 < x) := by
  intro ts
  induction ts with
  | nil =>
    intro found1 register_list temp last _ _ _
    simp [scan_loop]
  | cons found2 rest ih =>
    intro found1 register_list temp last hge hpw htemp
    rw [List.pairwise_cons] at hpw
    unfold scan_loop
    simp only
    by_cases hover : size_gt (scan_statement code found1 found2 temp).length N = true
    · simp only [hover, if_true]
      refine ⟨fun L h => by simp at h, ?_⟩
      intro f1 rl h
      simp only [Scan.overflow.injEq] at h
      obtain ⟨rfl, rfl⟩ := h
      refine ⟨Or.inl rfl, found2, List.mem_cons_self _ _, ?_⟩
      by_contra hle
      rw [scan_statement_empty code found1 found2 temp (by omega)] at hover
      simp only [size_gt, decide_eq_true_eq] at hover
      omega
    · simp only [hover, if_false]
      have ht : (scan_statement code found1 found2 temp).length ≤ to_size N := by
        simp only [size_gt, decide_eq_true_eq] at hover
        omega
      obtain ⟨ih1, ih2⟩ := ih (found2 + 1) (scan_statement code found1 found2 temp)
        (scan_statement code found1 found2 temp)
        (some (scan_statement code found1 found2 temp))
        (fun x hx => hpw.1 x hx) hpw.2 ht
      refine ⟨?_, ?_⟩
      · intro L h
        right
        refine ⟨by simp, ?_⟩
        rcases ih1 L h with ⟨_, rfl⟩ | ⟨_, r, rfl, hr⟩
        · exact ⟨_, rfl, ht⟩
        · exact ⟨r, rfl, hr⟩
      · intro f1 rl h
        obtain ⟨h1, x, hx, hfx⟩ := ih2 f1 rl h
        refine ⟨Or.inr ?_, x, List.mem_cons_of_mem _ hx, hfx⟩
        rcases h1 with rfl | h1
        · exact ht
        · exact h1

/-! ## The renaming loop of `traverse` -/

theorem find_aux_spec (pat : Str) : ∀ (s : Str) (i j : Nat), find_aux pat s i = some j →
    i ≤ j ∧ pat <+: s.drop (j - i) := by
  intro s
  induction s with
  | nil =>
    intro i j h
    unfold find_aux at h
    split at h
    · rename_i hp
      simp at h
      subst h hp
      simp
    · simp at h
  | cons c cs ih =>
    intro i j h
    unfold find_aux at h
    split at h
    · rename_i hp
      simp at h
      subst h
      simp only [le_refl, Nat.sub_self, List.drop_zero, true_and]
      exact List.isPrefixOf_iff_prefix.mp hp
    · obtain ⟨h1, h2⟩ := ih (i + 1) j h
      refine ⟨by omega, ?_⟩
      have : j - i = (j - (i + 1)) + 1 := by omega
      rw [this, List.drop_succ_cons]
      exact h2

theorem find_spec (s pat : Str) (pos j : Nat) (h : find s pat pos = some j) :
    pat <+: s.drop j := by
  unfold find at h
  split at h
  · obtain ⟨h1, h2⟩ := find_aux_spec pat _ _ _ h
    rw [List.drop_drop] at h2
    have : pos + (j - pos) = j := by omega
    rw [this] at h2
    exact h2
  · simp at h

theorem replace_mem (code2 old sfx : Str) (i : Nat) (c : Char) (hp : old <+: code2.drop i)
    (hc : c ∈ code2) : c ∈ replace code2 i old.length (old ++ sfx) := by
  unfold replace
  obtain ⟨rest, hrest⟩ := hp
  have hdrop : code2.drop (i + old.length) = rest := by
    rw [← List.drop_drop, ← hrest]
    simp
  rw [hdrop]
  have hsplit : code2 = code2.take i ++ (old ++ rest) := by
    rw [hrest]; exact (List.take_append_drop i code2).symm
  rw [hsplit] at hc
  simp only [List.mem_append] at hc ⊢
  tauto

theorem rename_loop_mem (old sfx : Str) (c : Char) :
    ∀ (fuel : Nat) (code2 code2' : Str) (found : Option Nat),
      (∀ i, found = some i → old <+: code2.drop i) → c ∈ code2 →
      rename_loop fuel code2 old (old ++ sfx) found = .ok code2' → c ∈ code2' := by
  intro fuel
  induction fuel with
  | zero =>
    intro code2 code2' found hf hc h
    cases found with
    | none => simp [rename_loop] at h; subst h; exact hc
    | some i => simp [rename_loop] at h
  | succ fuel ih =>
    intro code2 code2' found hf hc h
    cases found with
    | none => simp [rename_loop] at h; subst h; exact hc
    | some i =>
      unfold rename_loop at h
      simp only at h
      refine ih _ code2' _ ?_ (replace_mem code2 old sfx i c (hf i rfl) hc) h
      intro j hj
      exact find_spec _ _ _ _ hj

/-- What a call of `traverse` does to the state: nothing (the text has no
statement terminator), or a new output list for `BB`, or a split. -/
theorem traverse_effect (fuel : Nat) (st st' : State) (BB : Nat) (N : Int) (b : basicBlock)
    (hb : getBlock st BB = .ok b) (h : traverse fuel st BB N = .ok st') :
    (st' = st ∧ ';' ∉ b.code) ∨
    (∃ r : List Str, r.length ≤ to_size N ∧ st' = setBlock st BB { b with output_list := r }) ∨
    (∃ (found1 : Nat) (register_list : List Str) (code2 : Str),
      (register_list = b.input_list ∨ register_list.length ≤ to_size N) ∧ ';' ∈ code2 ∧
      st' = split_state st b BB found1 register_list code2) := by
  obtain ⟨hfin, hover⟩ := scan_loop_spec b.code N (terminators b.code 0) 0 b.input_list [] none
    (fun x _ => Nat.zero_le x) (terminators_pairwise _ _) (by simp)
  rcases traverse_cases fuel st st' BB N b hb h with ⟨hs, rfl⟩ | ⟨r, hs, rfl⟩ | ⟨f1, rl, hs, hsp⟩
  · left
    refine ⟨rfl, ?_⟩
    intro hmem
    rcases hfin _ hs with ⟨h1, _⟩ | ⟨_, r, h2, _⟩
    · exact terminators_ne_nil _ hmem h1
    · cases h2
  · right; left
    rcases hfin _ hs with ⟨_, h2⟩ | ⟨_, r', h2, h3⟩
    · cases h2
    · cases h2
      exact ⟨r, h3, rfl⟩
  · right; right
    obtain ⟨code2, hren, rfl⟩ := split_eq fuel st st' BB f1 rl b hb hsp
    obtain ⟨h1, x, hx, hfx⟩ := hover f1 rl hs
    refine ⟨f1, rl, code2, h1, ?_, rfl⟩
    obtain ⟨_, hxlt, hxc⟩ := mem_terminators _ _ _ hx
    have hmem : ';' ∈ b.code.drop (f1 + 1) := by
      rw [List.mem_iff_getElem?]
      refine ⟨x - (f1 + 1), ?_⟩
      rw [List.getElem?_drop]
      have : f1 + 1 + (x - (f1 + 1)) = x := by omega
      rw [this]
      exact hxc
    exact rename_loop_mem b.name (to_string (b.ID + 1)) ';' fuel _ code2 _
      (fun j hj => find_spec _ _ _ _ hj) hmem hren

/-! ## Lookups in the states pass one builds -/

theorem setBlock_lookup (st : State) (BB : Nat) (b' x : basicBlock) (p : Nat)
    (h : (setBlock st BB b').blocks[p]? = some x) :
    (p = BB ∧ x = b') ∨ (p ≠ BB ∧ st.blocks[p]? = some x) := by
  simp only [setBlock] at h
  by_cases hp : BB = p
  · subst hp
    left
    rw [List.getElem?_set_self'] at h
    cases hx : st.blocks[BB]? with
    | none => simp [hx] at h
    | some y => simp [hx] at h; exact ⟨rfl, h.symm⟩
  · right
    rw [List.getElem?_set_ne hp] at h
    exact ⟨fun e => hp e.symm, h⟩

theorem setBlock_lookup_self (st : State) (BB : Nat) (b b' : basicBlock)
    (hb : st.blocks[BB]? = some b) : (setBlock st BB b').blocks[BB]? = some b' := by
  have hlt : BB < st.blocks.length := (List.getElem?_eq_some_iff.mp hb).1
  simp [setBlock, hlt]

theorem setBlock_lookup_ne (st : State) (BB : Nat) (b' : basicBlock) (p : Nat) (hp : p ≠ BB) :
    (setBlock st BB b').blocks[p]? = st.blocks[p]? := by
  simp only [setBlock]
  exact List.getElem?_set_ne (fun e => hp e.symm)

theorem split_state_lookup (st : State) (b : basicBlock) (BB found1 : Nat) (rl : List Str)
    (code2 : Str) (x : basicBlock) (p : Nat) (hb : st.blocks[BB]? = some b)
    (h : (split_state st b BB found1 rl code2).blocks[p]? = some x) :
    (p = BB ∧ x = split_old b found1 rl st.blocks.length) ∨
    (p = st.blocks.length ∧ x = split_new st b BB code2) ∨
    (p ≠ BB ∧ p < st.blocks.length ∧ st.blocks[p]? = some x) := by
  have hlt : BB < st.blocks.length := (List.getElem?_eq_some_iff.mp hb).1
  simp only [split_state] at h
  by_cases hpl : p < st.blocks.length
  · rw [List.getElem?_append_left (by simpa using hpl)] at h
    by_cases hp : BB = p
    · subst hp
      left
      rw [List.getElem?_set_self hlt] at h
      exact ⟨rfl, by simpa using h.symm⟩
    · right; right
      rw [List.getElem?_set_ne hp] at h
      exact ⟨fun e => hp e.symm, hpl, h⟩
  · right; left
    rw [List.getElem?_append_right (by simpa using hpl)] at h
    simp only [List.length_set] at h
    have hp : p = st.blocks.length := by
      by_contra hne
      have : p - st.blocks.length ≥ 1 := by omega
      rw [List.getElem?_eq_none (by simp; omega)] at h
      cases h
    subst hp
    simp at h
    exact ⟨rfl, h.symm⟩

theorem split_state_lookup_old (st : State) (b : basicBlock) (BB found1 : Nat) (rl : List Str)
    (code2 : Str) (hb : st.blocks[BB]? = some b) :
    (split_state st b BB found1 rl code2).blocks[BB]? =
      some (split_old b found1 rl st.blocks.length) := by
  have hlt : BB < st.blocks.length := (List.getElem?_eq_some_iff.mp hb).1
  simp only [split_state]
  rw [List.getElem?_append_left (by simpa using hlt), List.getElem?_set_self hlt]

theorem split_state_lookup_new (st : State) (b : basicBlock) (BB found1 : Nat) (rl : List Str)
    (code2 : Str) :
    (split_state st b BB found1 rl code2).blocks[st.blocks.length]? =
      some (split_new st b BB code2) := by
  simp only [split_state]
  rw [List.getElem?_append_right (by simp)]
  simp

theorem split_state_lookup_ne (st : State) (b : basicBlock) (BB found1 : Nat) (rl : List Str)
    (code2 : Str) (p : Nat) (hp : p ≠ BB) (hlt : p < st.blocks.length) :
    (split_state st b BB found1 rl code2).blocks[p]? = st.blocks[p]? := by
  simp only [split_state]
  rw [List.getElem?_append_left (by simpa using hlt), List.getElem?_set_ne (fun e => hp e.symm)]

theorem frontier_state_lookup (st : State) (s : Nat) (sb x : basicBlock) (p : Nat)
    (h : (frontier_state st s sb).blocks[p]? = some x) :
    (p = s ∧ x = { sb with BB_registerInterval := some st.intervals.length,
                           input_list := [] }) ∨
    (p ≠ s ∧ st.blocks[p]? = some x) := by
  have := setBlock_lookup st s
    { sb with BB_registerInterval := some st.intervals.length, input_list := [] } x p
    (by simpa [frontier_state, setBlock] using h)
  exact this

theorem frontier_state_lookup_self (st : State) (s : Nat) (sb : basicBlock)
    (hs : st.blocks[s]? = some sb) :
    (frontier_state st s sb).blocks[s]? =
      some { sb with BB_registerInterval := some st.intervals.length, input_list := [] } := by
  have hlt : s < st.blocks.length := (List.getElem?_eq_some_iff.mp hs).1
  simp [frontier_state, hlt]

theorem frontier_state_lookup_ne (st : State) (s : Nat) (sb : basicBlock) (p : Nat)
    (hp : p ≠ s) : (frontier_state st s sb).blocks[p]? = st.blocks[p]? := by
  simp only [frontier_state]
  exact List.getElem?_set_ne (fun e => hp e.symm)

/-! ## The invariant `Base` -/

theorem Base.base_marks {st : State} (h : Base st) (m : List Bool) : Base { st with mark := m } := h

theorem Base.base_pop {st : State} (h : Base st) {BB : Nat} {rest : List Nat}
    (hws : st.WS = BB :: rest) :
    Base { st with WS := rest } ∧
    ∃ wb : basicBlock, st.blocks[BB]? = some wb ∧
      ∃ t, wb.BB_registerInterval = some t ∧ t ∈ st.RegisterIntervals := by
  obtain ⟨h1, h2, h3, h4⟩ := h
  refine ⟨⟨h1, h2, fun w hw => h3 w (by rw [hws]; exact List.mem_cons_of_mem _ hw), h4⟩, ?_⟩
  exact h3 BB (by rw [hws]; exact List.mem_cons_self _ _)

/-- Writing a record whose register-interval, if any, is an element of
`RegisterIntervals` keeps `Base`, provided a block of the working set keeps a
register-interval. -/
theorem Base.base_setBlock {st : State} (h : Base st) {BB : Nat} {b b' : basicBlock}
    (hb : st.blocks[BB]? = some b)
    (hi : BB ∈ st.basic_blocks ∨ BB ∈ st.WS →
      ∀ t, b'.BB_registerInterval = some t → t ∈ st.RegisterIntervals)
    (hw : BB ∈ st.WS → b'.BB_registerInterval ≠ none) :
    Base (RegisterInterval.setBlock st BB b') := by
  obtain ⟨h1, h2, h3, h4⟩ := h
  refine ⟨?_, ?_, ?_, h4⟩
  · intro c hc
    simpa [RegisterInterval.setBlock] using h1 c hc
  · intro c hc cb hcb t ht
    rcases setBlock_lookup st BB b' cb c hcb with ⟨rfl, rfl⟩ | ⟨_, hcb'⟩
    · exact hi (Or.inl hc) t ht
    · exact h2 c hc cb hcb' t ht
  · intro w hw'
    by_cases hwb : w = BB
    · subst hwb
      refine ⟨b', setBlock_lookup_self st w b b' hb, ?_⟩
      cases hbi : b'.BB_registerInterval with
      | none => exact absurd hbi (hw hw')
      | some t => exact ⟨t, rfl, hi (Or.inr hw') t hbi⟩
    · obtain ⟨wb, hwb', t, ht, htm⟩ := h3 w hw'
      exact ⟨wb, by rw [setBlock_lookup_ne st BB b' w hwb]; exact hwb', t, ht, htm⟩

/-- Writing a record with the same register-interval keeps `Base`. -/
theorem Base.base_setBlock_same {st : State} (h : Base st) {BB : Nat} {b b' : basicBlock}
    (hb : st.blocks[BB]? = some b) (hsame : b'.BB_registerInterval = b.BB_registerInterval) :
    Base (RegisterInterval.setBlock st BB b') := by
  refine h.base_setBlock hb ?_ ?_
  · intro hmem t ht
    rw [hsame] at ht
    rcases hmem with hmem | hmem
    · exact h.2.1 BB hmem b hb t ht
    · obtain ⟨wb, hwb, t', ht', htm⟩ := h.2.2.1 BB hmem
      rw [hb] at hwb; cases hwb
      rw [ht] at ht'; cases ht'
      exact htm
  · intro hmem
    obtain ⟨wb, hwb, t', ht', _⟩ := h.2.2.1 BB hmem
    rw [hb] at hwb; cases hwb
    rw [hsame, ht']
    simp

theorem Base.base_split {st : State} (h : Base st) {BB : Nat} {b : basicBlock}
    (hb : st.blocks[BB]? = some b) (found1 : Nat) (rl : List Str) (code2 : Str) :
    Base (split_state st b BB found1 rl code2) := by
  obtain ⟨h1, h2, h3, h4⟩ := h
  have hlt : BB < st.blocks.length := (List.getElem?_eq_some_iff.mp hb).1
  refine ⟨?_, ?_, ?_, ?_⟩
  · intro c hc
    simp only [split_state, List.mem_append, List.mem_singleton, List.length_append,
      List.length_set, List.length_singleton] at hc ⊢
    rcases hc with hc | rfl
    · have := h1 c hc; omega
    · omega
  · intro c hc cb hcb t ht
    simp only [split_state, List.mem_append, List.mem_singleton] at hc
    show t ∈ st.RegisterIntervals ++ [st.intervals.length]
    rcases split_state_lookup st b BB found1 rl code2 cb c hb hcb with
      ⟨rfl, rfl⟩ | ⟨rfl, rfl⟩ | ⟨hne, hclt, hcb'⟩
    · rcases hc with hc | hc
      · exact List.mem_append_left _ (h2 c hc b hb t ht)
      · omega
    · simp only [split_new, Option.some.injEq] at ht
      subst ht
      simp
    · rcases hc with hc | hc
      · exact List.mem_append_left _ (h2 c hc cb hcb' t ht)
      · omega
  · intro w hw
    simp only [split_state, List.mem_append, List.mem_singleton] at hw
    rcases hw with hw | rfl
    · obtain ⟨wb, hwb, t, ht, htm⟩ := h3 w hw
      have hwlt : w < st.blocks.length := (List.getElem?_eq_some_iff.mp hwb).1
      by_cases hwB : w = BB
      · subst hwB
        rw [hb] at hwb; cases hwb
        exact ⟨_, split_state_lookup_old st b w found1 rl code2 hb, t, ht,
          List.mem_append_left _ htm⟩
      · exact ⟨wb, by rw [split_state_lookup_ne st b BB found1 rl code2 w hwB hwlt]; exact hwb,
          t, ht, List.mem_append_left _ htm⟩
    · exact ⟨_, split_state_lookup_new st b BB found1 rl code2, st.intervals.length, rfl,
        by simp [split_state]⟩
  · intro t ht
    simp only [split_state, List.mem_append, List.mem_singleton, List.length_append,
      List.length_singleton] at ht ⊢
    rcases ht with ht | rfl
    · have := h4 t ht; omega
    · omega

theorem Base.base_traverse {st st' : State} (h : Base st) (fuel : Nat) (BB : Nat) (N : Int)
    (ht : RegisterInterval.traverse fuel st BB N = .ok st') : Base st' := by
  cases hb : getBlock st BB with
  | error e => simp [RegisterInterval.traverse, hb, bind, Except.bind] at ht
  | ok b =>
    have hb' := (getBlock_eq_ok _ _ _).mp hb
    rcases traverse_effect fuel st st' BB N b hb ht with
      ⟨rfl, _⟩ | ⟨r, _, rfl⟩ | ⟨f1, rl, code2, _, _, rfl⟩
    · exact h
    · exact h.base_setBlock_same hb' rfl
    · exact h.base_split hb' f1 rl code2

theorem Base.base_frontier {st : State} (h : Base st) {s : Nat} {sb : basicBlock}
    (hs : st.blocks[s]? = some sb) : Base (frontier_state st s sb) := by
  obtain ⟨h1, h2, h3, h4⟩ := h
  refine ⟨?_, ?_, ?_, ?_⟩
  · intro c hc
    simpa [frontier_state] using h1 c hc
  · intro c hc cb hcb t ht
    show t ∈ st.RegisterIntervals ++ [st.intervals.length]
    rcases frontier_state_lookup st s sb cb c hcb with ⟨_, rfl⟩ | ⟨_, hcb'⟩
    · simp only [Option.some.injEq] at ht
      subst ht
      simp
    · exact List.mem_append_left _ (h2 c hc cb hcb' t ht)
  · intro w hw
    simp only [frontier_state, List.mem_append, List.mem_singleton] at hw
    by_cases hws : w = s
    · subst hws
      exact ⟨_, frontier_state_lookup_self st w sb hs, st.intervals.length, rfl,
        by simp [frontier_state]⟩
    · rcases hw with hw | hw
      · obtain ⟨wb, hwb, t, ht, htm⟩ := h3 w hw
        exact ⟨wb, by rw [frontier_state_lookup_ne st s sb w hws]; exact hwb, t, ht,
          List.mem_append_left _ htm⟩
      · exact absurd hw hws
  · intro t ht
    simp only [frontier_state, List.mem_append, List.mem_singleton, List.length_append,
      List.length_singleton] at ht ⊢
    rcases ht with ht | rfl
    · have := h4 t ht; omega
    · omega

theorem traverse_RegisterIntervals (fuel : Nat) (st st' : State) (BB : Nat) (N : Int)
    (ht : traverse fuel st BB N = .ok st') :
    ∀ t ∈ st.RegisterIntervals, t ∈ st'.RegisterIntervals := by
  cases hb : getBlock st BB with
  | error e => simp [traverse, hb, bind, Except.bind] at ht
  | ok b =>
    rcases traverse_effect fuel st st' BB N b hb ht with
      ⟨rfl, _⟩ | ⟨r, _, rfl⟩ | ⟨f1, rl, code2, _, _, rfl⟩
    · exact fun t ht => ht
    · exact fun t ht => ht
    · exact fun t ht => List.mem_append_left _ ht

theorem BaseIn.enter {st st' : State} (h : Base st) {BB : Nat} {rest : List Nat}
    {b : basicBlock} (fuel : Nat) (N : Int) (hws : st.WS = BB :: rest)
    (hb : getBlock st BB = .ok b) (ht : traverse fuel { st with WS := rest } BB N = .ok st') :
    BaseIn b.BB_registerInterval st' := by
  obtain ⟨hpop, wb, hwb, t, hti, htm⟩ := h.base_pop hws
  rw [(getBlock_eq_ok _ _ _).mp hb] at hwb
  cases hwb
  exact ⟨hpop.base_traverse fuel BB N ht, t, hti,
    traverse_RegisterIntervals fuel _ st' BB N ht t htm⟩

theorem BaseIn.basein_marks {i : Option Nat} {st : State} (h : BaseIn i st) (m : List Bool) :
    BaseIn i { st with mark := m } := h

theorem BaseIn.grow {i : Option Nat} {st st' : State} (h : BaseIn i st) {b : Nat}
    {blk : basicBlock} (fuel : Nat) (N : Int) (Union : List Str)
    (hblk : getBlock st b = .ok blk)
    (ht : traverse fuel
      (setBlock st b { blk with BB_registerInterval := i, input_list := Union }) b N = .ok st') :
    BaseIn i st' := by
  obtain ⟨hbase, t, rfl, htm⟩ := h
  have hblk' := (getBlock_eq_ok _ _ _).mp hblk
  have h1 : Base (setBlock st b
      { blk with BB_registerInterval := some t, input_list := Union }) := by
    refine hbase.base_setBlock hblk' ?_ ?_
    · intro _ t' ht'
      simp only [Option.some.injEq] at ht'
      subst ht'
      exact htm
    · intro _
      simp
  exact ⟨h1.base_traverse fuel b N ht, t, rfl, traverse_RegisterIntervals fuel _ st' b N ht t htm⟩

theorem BaseIn.basein_frontier {i : Option Nat} {st : State} (h : BaseIn i st) {s : Nat}
    {sb : basicBlock} (hs : getBlock st s = .ok sb) : BaseIn i (frontier_state st s sb) := by
  obtain ⟨hbase, t, rfl, htm⟩ := h
  exact ⟨hbase.base_frontier ((getBlock_eq_ok _ _ _).mp hs), t, rfl,
    by simp [frontier_state, htm]⟩

/-! ## Pass one: initialisation and seeding -/

theorem passOne_init_spec (l : List Nat) : ∀ (st st1 : State),
    l.foldlM
      (fun (st : State) b => do
        let blk ← getBlock st b
        return setBlock st b { blk with input_list := [], BB_registerInterval := none })
      st = .ok st1 →
    st1 = { st with blocks := st1.blocks } ∧
    st1.blocks.length = st.blocks.length ∧
    (∀ c ∈ l, c < st.blocks.length) ∧
    (∀ (p : Nat) (b : basicBlock), st.blocks[p]? = some b →
      st1.blocks[p]? = some (if p ∈ l then
        { b with input_list := [], BB_registerInterval := none } else b)) := by
  induction l with
  | nil =>
    intro st st1 h
    simp [pure, Except.pure] at h
    subst h
    exact ⟨rfl, rfl, by simp, by simp⟩
  | cons a l ih =>
    intro st st1 h
    rw [List.foldlM_cons] at h
    obtain ⟨st0, h0, h⟩ := (bind_eq_ok _ _ _).mp h
    obtain ⟨A, hA, h0⟩ := (bind_eq_ok _ _ _).mp h0
    rw [getBlock_eq_ok] at hA
    have halt : a < st.blocks.length := (List.getElem?_eq_some_iff.mp hA).1
    simp only [pure, Except.pure, Except.ok.injEq] at h0
    subst h0
    obtain ⟨ih1, ih2, ih3, ih4⟩ := ih _ st1 h
    refine ⟨?_, ?_, ?_, ?_⟩
    · rw [ih1]; simp [setBlock]
    · rw [ih2]; simp [setBlock]
    · intro c hc
      simp only [List.mem_cons] at hc
      rcases hc with rfl | hc
      · exact halt
      · simpa [setBlock] using ih3 c hc
    · intro p b hb
      by_cases hpa : p = a
      · subst hpa
        rw [hA] at hb; cases hb
        rw [ih4 p _ (setBlock_lookup_self st p A _ hA)]
        by_cases hpl : p ∈ l <;> simp [hpl]
      · rw [ih4 p b (by rw [setBlock_lookup_ne st a _ p hpa]; exact hb)]
        simp [hpa]

/-- The state after the seeding loop has given the block `b`, whose record is
`blk`, a new register-interval. -/
theorem seed_step_eq (st : State) (b : Nat) (blk : basicBlock) (hin : blk.input_list = []) :
    ({ (setBlock
        { (new_registerInterval st).1 with
          RegisterIntervals :=
            (new_registerInterval st).1.RegisterIntervals ++ [(new_registerInterval st).2] }
        b { blk with BB_registerInterval := some (new_registerInterval st).2 })
      with WS :=
        (setBlock
          { (new_registerInterval st).1 with
            RegisterIntervals :=
              (new_registerInterval st).1.RegisterIntervals ++ [(new_registerInterval st).2] }
          b { blk with BB_registerInterval := some (new_registerInterval st).2 }).WS ++ [b] } :
        State) =
    frontier_state st b blk := by
  simp only [frontier_state, setBlock, new_registerInterval, fresh_interval]
  rw [← hin]

/-- The rule for the seeding loop of pass one: a property kept by every seeding
step holds after the loop, and then every block of the list without
predecessor has a register-interval. -/
theorem passOne_seed_rule (P : State → Prop)
    (step : ∀ (st : State) (b : Nat) (blk : basicBlock), P st → b ∈ st.basic_blocks →
      st.blocks[b]? = some blk → blk.input_list = [] → blk.predecessors = [] →
      P (frontier_state st b blk))
    (l : List Nat) :
    ∀ (st st' : State),
      l.foldlM
        (fun (st : State) b => do
          let blk ← getBlock st b
          if blk.predecessors.length = 0 then
            let (st, temp) := new_registerInterval st
            let st := { st with RegisterIntervals := st.RegisterIntervals ++ [temp] }
            let st := setBlock st b { blk with BB_registerInterval := some temp }
            return { st with WS := st.WS ++ [b] }
          else return st)
        st = .ok st' →
      P st → (∀ c ∈ l, c ∈ st.basic_blocks) →
      (∀ c ∈ st.basic_blocks, ∀ cb : basicBlock, st.blocks[c]? = some cb →
        cb.input_list = []) →
      P st' ∧ st'.basic_blocks = st.basic_blocks ∧ st'.blocks.length = st.blocks.length ∧
      (∀ c ∈ st.basic_blocks, ∀ cb : basicBlock, st'.blocks[c]? = some cb →
        cb.input_list = []) ∧
      (∀ (p : Nat) (b' : basicBlock), st'.blocks[p]? = some b' →
        ∃ b : basicBlock, st.blocks[p]? = some b ∧
          b' = { b with BB_registerInterval := b'.BB_registerInterval } ∧
          (b.BB_registerInterval ≠ none ∨ (p ∈ l ∧ b.predecessors = []) →
            b'.BB_registerInterval ≠ none)) := by
  induction l with
  | nil =>
    intro st st' h hP _ hin
    simp [pure, Except.pure] at h
    subst h
    refine ⟨hP, rfl, rfl, hin, ?_⟩
    intro p b' hb'
    exact ⟨b', hb', rfl, by simp⟩
  | cons a l ih =>
    intro st st' h hP hsub hin
    rw [List.foldlM_cons] at h
    obtain ⟨st0, h0, h⟩ := (bind_eq_ok _ _ _).mp h
    obtain ⟨A, hA, h0⟩ := (bind_eq_ok _ _ _).mp h0
    rw [getBlock_eq_ok] at hA
    have hain : a ∈ st.basic_blocks := hsub a (List.mem_cons_self _ _)
    have hsub' : ∀ c ∈ l, c ∈ st.basic_blocks := fun c hc => hsub c (List.mem_cons_of_mem _ hc)
    split at h0
    · rename_i hpred
      simp only [pure, Except.pure, Except.ok.injEq] at h0
      rw [seed_step_eq st a A (hin a hain A hA)] at h0
      subst h0
      have hpred' : A.predecessors = [] := List.length_eq_zero.mp hpred
      have hP0 := step st a A hP hain hA (hin a hain A hA) hpred'
      have hin0 : ∀ c ∈ (frontier_state st a A).basic_blocks, ∀ cb : basicBlock,
          (frontier_state st a A).blocks[c]? = some cb → cb.input_list = [] := by
        intro c hc cb hcb
        rcases frontier_state_lookup st a A cb c hcb with ⟨_, rfl⟩ | ⟨_, hcb'⟩
        · rfl
        · exact hin c hc cb hcb'
      obtain ⟨r1, r2, rl, r3, r4⟩ := ih _ st' h hP0 hsub' hin0
      refine ⟨r1, r2, by rw [rl]; simp [frontier_state], r3, ?_⟩
      intro p b' hb'
      obtain ⟨b0, hb0, e1, e2⟩ := r4 p b' hb'
      rcases frontier_state_lookup st a A b0 p hb0 with ⟨rfl, rfl⟩ | ⟨hne, hb0'⟩
      · refine ⟨A, hA, ?_, fun _ => e2 (Or.inl (by simp))⟩
        rw [e1]
        simp [hin p hain A hA]
      · refine ⟨b0, hb0', e1, ?_⟩
        intro hc
        apply e2
        rcases hc with hc | ⟨hc1, hc2⟩
        · exact Or.inl hc
        · simp only [List.mem_cons] at hc1
          rcases hc1 with hc1 | hc1
          · exact absurd hc1 hne
          · exact Or.inr ⟨hc1, hc2⟩
    · rename_i hpred
      simp only [pure, Except.pure, Except.ok.injEq] at h0
      subst h0
      obtain ⟨r1, r2, rl, r3, r4⟩ := ih _ st' h hP hsub' hin
      refine ⟨r1, r2, rl, r3, ?_⟩
      intro p b' hb'
      obtain ⟨b0, hb0, e1, e2⟩ := r4 p b' hb'
      refine ⟨b0, hb0, e1, ?_⟩
      intro hc
      apply e2
      rcases hc with hc | ⟨hc1, hc2⟩
      · exact Or.inl hc
      · simp only [List.mem_cons] at hc1
        rcases hc1 with hc1 | hc1
        · subst hc1
          rw [hA] at hb0; cases hb0
          rw [hc2] at hpred
          simp at hpred
        · exact Or.inr ⟨hc1, hc2⟩

/-! ## Pass one: finalisation -/

theorem passOne_register_lists_frame (st st' : State) (h : passOne_register_lists st = .ok st') :
    st' = { st with intervals := st'.intervals } := by
  unfold passOne_register_lists at h
  refine foldlM_inv _ (fun s => s = { st with intervals := s.intervals })
    st.RegisterIntervals ?_ st st' rfl h
  intro s i s' _ hs hstep
  obtain ⟨regList, _, hstep⟩ := (bind_eq_ok _ _ _).mp hstep
  obtain ⟨I, _, hstep⟩ := (bind_eq_ok _ _ _).mp hstep
  obtain ⟨I', _, hstep⟩ := (bind_eq_ok _ _ _).mp hstep
  simp only [pure, Except.pure, Except.ok.injEq] at hstep
  subst hstep
  rw [hs]
  rfl

theorem passOne_codes_frame (st st' : State) (h : passOne_codes st = .ok st') :
    st' = { st with intervals := st'.intervals } := by
  unfold passOne_codes at h
  refine foldlM_inv _ (fun s => s = { st with intervals := s.intervals })
    st.RegisterIntervals ?_ st st' rfl h
  intro s i s' _ hs hstep
  obtain ⟨code, _, hstep⟩ := (bind_eq_ok _ _ _).mp hstep
  obtain ⟨I, _, hstep⟩ := (bind_eq_ok _ _ _).mp hstep
  simp only [pure, Except.pure, Except.ok.injEq] at hstep
  subst hstep
  rw [hs]
  rfl

theorem passOne_block_edges_frame (st st' : State) (i b : Nat)
    (h : passOne_block_edges st i b = .ok st') :
    st' = { st with intervals := st'.intervals } := by
  unfold passOne_block_edges at h
  obtain ⟨blk, _, h⟩ := (bind_eq_ok _ _ _).mp h
  split at h
  · obtain ⟨st1, h1, h⟩ := (bind_eq_ok _ _ _).mp h
    have e1 : st1 = { st with intervals := st1.intervals } := by
      refine foldlM_inv _ (fun s => s = { st with intervals := s.intervals })
        blk.predecessors ?_ st st1 rfl h1
      intro s p s' _ hs hstep
      obtain ⟨pb, _, hstep⟩ := (bind_eq_ok _ _ _).mp hstep
      split at hstep
      · obtain ⟨I, _, hstep⟩ := (bind_eq_ok _ _ _).mp hstep
        simp only [pure, Except.pure, Except.ok.injEq] at hstep
        subst hstep
        rw [hs]; rfl
      · simp only [pure, Except.pure, Except.ok.injEq] at hstep
        subst hstep
        exact hs
    refine foldlM_inv _ (fun s => s = { st with intervals := s.intervals })
      blk.successors ?_ st1 st' e1 h
    intro s p s' _ hs hstep
    obtain ⟨pb, _, hstep⟩ := (bind_eq_ok _ _ _).mp hstep
    split at hstep
    · obtain ⟨I, _, hstep⟩ := (bind_eq_ok _ _ _).mp hstep
      simp only [pure, Except.pure, Except.ok.injEq] at hstep
      subst hstep
      rw [hs]; rfl
    · simp only [pure, Except.pure, Except.ok.injEq] at hstep
      subst hstep
      exact hs
  · simp only [pure, Except.pure, Except.ok.injEq] at h
    subst h
    rfl

theorem passOne_edges_frame (st st' : State) (h : passOne_edges st = .ok st') :
    st' = { st with intervals := st'.intervals } := by
  unfold passOne_edges at h
  refine foldlM_inv _ (fun s => s = { st with intervals := s.intervals })
    st.RegisterIntervals ?_ st st' rfl h
  intro s i s' _ hs hstep
  have hbb : s.basic_blocks = st.basic_blocks := by rw [hs]
  refine foldlM_inv _ (fun s => s = { st with intervals := s.intervals })
    s.basic_blocks ?_ s s' hs hstep
  intro s1 b s2 _ hs1 hstep1
  have := passOne_block_edges_frame s1 s2 i b hstep1
  rw [this, hs1]

theorem setInterval_lookup (st : State) (q : Nat) (J x : registerInterval) (p : Nat)
    (h : (setInterval st q J).intervals[p]? = some x) :
    (p = q ∧ x = J) ∨ (p ≠ q ∧ st.intervals[p]? = some x) := by
  simp only [setInterval] at h
  by_cases hp : q = p
  · subst hp
    left
    rw [List.getElem?_set_self'] at h
    cases hx : st.intervals[q]? with
    | none => simp [hx] at h
    | some y => simp [hx] at h; exact ⟨rfl, h.symm⟩
  · right
    rw [List.getElem?_set_ne hp] at h
    exact ⟨fun e => hp e.symm, h⟩

/-- Overwriting a register-interval by a record with the same register list
keeps every register list of the arena. -/
theorem setInterval_register_list (st : State) (q : Nat) (J J' : registerInterval)
    (hq : st.intervals[q]? = some J) (hr : J'.register_list = J.register_list)
    (i : Nat) (I : registerInterval) (hI : st.intervals[i]? = some I) :
    ∃ I' : registerInterval, (setInterval st q J').intervals[i]? = some I' ∧
      I'.register_list = I.register_list := by
  have hqlt : q < st.intervals.length := (List.getElem?_eq_some_iff.mp hq).1
  by_cases hiq : q = i
  · subst hiq
    rw [hq] at hI; cases hI
    exact ⟨J', by simp [setInterval, hqlt], hr⟩
  · exact ⟨I, by simp [setInterval, List.getElem?_set, hiq, hI], rfl⟩

theorem passOne_codes_register_list (st st' : State) (h : passOne_codes st = .ok st') :
    ∀ (i : Nat) (I : registerInterval), st.intervals[i]? = some I →
      ∃ I' : registerInterval, st'.intervals[i]? = some I' ∧
        I'.register_list = I.register_list := by
  unfold passOne_codes at h
  refine foldlM_inv _
    (fun s => ∀ (i : Nat) (I : registerInterval), st.intervals[i]? = some I →
      ∃ I' : registerInterval, s.intervals[i]? = some I' ∧ I'.register_list = I.register_list)
    st.RegisterIntervals ?_ st st' (fun i I hI => ⟨I, hI, rfl⟩) h
  intro s j s' _ hs hstep
  obtain ⟨code, _, hstep⟩ := (bind_eq_ok _ _ _).mp hstep
  obtain ⟨J, hJ, hstep⟩ := (bind_eq_ok _ _ _).mp hstep
  rw [getInterval_eq_ok] at hJ
  simp only [pure, Except.pure, Except.ok.injEq] at hstep
  subst hstep
  intro i I hI
  obtain ⟨I1, hI1, e1⟩ := hs i I hI
  obtain ⟨I2, hI2, e2⟩ := setInterval_register_list s j J (J.set_code code) hJ rfl i I1 hI1
  exact ⟨I2, hI2, e2.trans e1⟩

theorem add_predecessor_register_list (J : registerInterval) (p : Option Nat) :
    (J.add_predecessor p).register_list = J.register_list := by
  unfold registerInterval.add_predecessor
  split <;> rfl

theorem add_successors_register_list (J : registerInterval) (p : Option Nat) :
    (J.add_successors p).register_list = J.register_list := by
  unfold registerInterval.add_successors
  split <;> rfl

theorem passOne_block_edges_register_list (st st' : State) (k b : Nat)
    (h : passOne_block_edges st k b = .ok st') :
    ∀ (i : Nat) (I : registerInterval), st.intervals[i]? = some I →
      ∃ I' : registerInterval, st'.intervals[i]? = some I' ∧
        I'.register_list = I.register_list := by
  unfold passOne_block_edges at h
  obtain ⟨blk, _, h⟩ := (bind_eq_ok _ _ _).mp h
  split at h
  · obtain ⟨st1, h1, h⟩ := (bind_eq_ok _ _ _).mp h
    have e1 : ∀ (i : Nat) (I : registerInterval), st.intervals[i]? = some I →
        ∃ I' : registerInterval, st1.intervals[i]? = some I' ∧
          I'.register_list = I.register_list := by
      refine foldlM_inv _
        (fun s => ∀ (i : Nat) (I : registerInterval), st.intervals[i]? = some I →
          ∃ I' : registerInterval, s.intervals[i]? = some I' ∧
            I'.register_list = I.register_list)
        blk.predecessors ?_ st st1 (fun i I hI => ⟨I, hI, rfl⟩) h1
      intro s p s' _ hs hstep
      obtain ⟨pb, _, hstep⟩ := (bind_eq_ok _ _ _).mp hstep
      split at hstep
      · obtain ⟨J, hJ, hstep⟩ := (bind_eq_ok _ _ _).mp hstep
        rw [getInterval_eq_ok] at hJ
        simp only [pure, Except.pure, Except.ok.injEq] at hstep
        subst hstep
        intro i I hI
        obtain ⟨I1, hI1, e1⟩ := hs i I hI
        obtain ⟨I2, hI2, e2⟩ := setInterval_register_list s k J _ hJ
          (add_predecessor_register_list J pb.BB_registerInterval) i I1 hI1
        exact ⟨I2, hI2, e2.trans e1⟩
      · simp only [pure, Except.pure, Except.ok.injEq] at hstep
        subst hstep
        exact hs
    refine foldlM_inv _
      (fun s => ∀ (i : Nat) (I : registerInterval), st.intervals[i]? = some I →
        ∃ I' : registerInterval, s.intervals[i]? = some I' ∧
          I'.register_list = I.register_list)
      blk.successors ?_ st1 st' e1 h
    intro s p s' _ hs hstep
    obtain ⟨pb, _, hstep⟩ := (bind_eq_ok _ _ _).mp hstep
    split at hstep
    · obtain ⟨J, hJ, hstep⟩ := (bind_eq_ok _ _ _).mp hstep
      rw [getInterval_eq_ok] at hJ
      simp only [pure, Except.pure, Except.ok.injEq] at hstep
      subst hstep
      intro i I hI
      obtain ⟨I1, hI1, e1⟩ := hs i I hI
      obtain ⟨I2, hI2, e2⟩ := setInterval_register_list s k J _ hJ
        (add_successors_register_list J pb.BB_registerInterval) i I1 hI1
      exact ⟨I2, hI2, e2.trans e1⟩
    · simp only [pure, Except.pure, Except.ok.injEq] at hstep
      subst hstep
      exact hs
  · simp only [pure, Except.pure, Except.ok.injEq] at h
    subst h
    exact fun i I hI => ⟨I, hI, rfl⟩

theorem passOne_edges_register_list (st st' : State) (h : passOne_edges st = .ok st') :
    ∀ (i : Nat) (I : registerInterval), st.intervals[i]? = some I →
      ∃ I' : registerInterval, st'.intervals[i]? = some I' ∧
        I'.register_list = I.register_list := by
  unfold passOne_edges at h
  refine foldlM_inv _
    (fun s => ∀ (i : Nat) (I : registerInterval), st.intervals[i]? = some I →
      ∃ I' : registerInterval, s.intervals[i]? = some I' ∧ I'.register_list = I.register_list)
    st.RegisterIntervals ?_ st st' (fun i I hI => ⟨I, hI, rfl⟩) h
  intro s k s' _ hs hstep
  refine foldlM_inv _
    (fun s => ∀ (i : Nat) (I : registerInterval), st.intervals[i]? = some I →
      ∃ I' : registerInterval, s.intervals[i]? = some I' ∧ I'.register_list = I.register_list)
    s.basic_blocks ?_ s s' hs hstep
  intro s1 b s2 _ hs1 hstep1
  intro i I hI
  obtain ⟨I1, hI1, e1⟩ := hs1 i I hI
  obtain ⟨I2, hI2, e2⟩ := passOne_block_edges_register_list s1 s2 k b hstep1 i I1 hI1
  exact ⟨I2, hI2, e2.trans e1⟩

/-- The phases of pass one: the initialisation, the seeding loop, the main loop,
and the finalisation, which changes the register-intervals only. -/
theorem passOne_phases (fuel : Nat) (st st' : State) (BB_vector l : List Nat) (N : Int)
    (h : registerIntervalCreationPassOne fuel st BB_vector N = .ok (st', l)) :
    ∃ st1 st2 st3 st4 : State,
      passOne_init { st with basic_blocks := BB_vector } = .ok st1 ∧
      passOne_seed { st1 with RegisterIntervals := [] } = .ok st2 ∧
      passOne_loop N fuel st2 = .ok st3 ∧
      passOne_register_lists st3 = .ok st4 ∧
      st4 = { st3 with intervals := st4.intervals } ∧
      st' = { st3 with intervals := st'.intervals } ∧
      (∀ (i : Nat) (I : registerInterval), st4.intervals[i]? = some I →
        ∃ I' : registerInterval, st'.intervals[i]? = some I' ∧
          I'.register_list = I.register_list) ∧
      l = st3.RegisterIntervals := by
  unfold registerIntervalCreationPassOne at h
  obtain ⟨st1, h1, h⟩ := (bind_eq_ok _ _ _).mp h
  obtain ⟨st2, h2, h⟩ := (bind_eq_ok _ _ _).mp h
  obtain ⟨st3, h3, h⟩ := (bind_eq_ok _ _ _).mp h
  obtain ⟨st4, h4, h⟩ := (bind_eq_ok _ _ _).mp h
  obtain ⟨st5, h5, h⟩ := (bind_eq_ok _ _ _).mp h
  obtain ⟨st6, h6, h⟩ := (bind_eq_ok _ _ _).mp h
  simp only [pure, Except.pure, Except.ok.injEq, Prod.mk.injEq] at h
  obtain ⟨rfl, rfl⟩ := h
  have e4 := passOne_register_lists_frame st3 st4 h4
  have e5 := passOne_codes_frame st4 st5 h5
  have e6 := passOne_edges_frame st5 st6 h6
  refine ⟨st1, st2, st3, st4, h1, h2, h3, h4, e4, ?_, ?_, ?_⟩
  · rw [e6, e5, e4]
  · intro i I hI
    obtain ⟨I1, hI1, g1⟩ := passOne_codes_register_list st4 st5 h5 i I hI
    obtain ⟨I2, hI2, g2⟩ := passOne_edges_register_list st5 st6 h6 i I1 hI1
    exact ⟨I2, hI2, g2.trans g1⟩
  · rw [e6, e5, e4]

/-! ## Pass one: the start of the main loop -/

theorem SeedInv.step {st : State} (h : SeedInv st) {b : Nat} {blk : basicBlock}
    (hb : st.blocks[b]? = some blk) (hpred : blk.predecessors = []) :
    SeedInv (frontier_state st b blk) := by
  obtain ⟨hbase, hs⟩ := h
  refine ⟨hbase.base_frontier hb, ?_⟩
  intro c hc cb hcb hne
  rcases frontier_state_lookup st b blk cb c hcb with ⟨rfl, rfl⟩ | ⟨_, hcb'⟩
  · exact ⟨hpred, by simp [frontier_state]⟩
  · obtain ⟨g1, g2⟩ := hs c hc cb hcb' hne
    exact ⟨g1, by simp [frontier_state, g2]⟩

/-- The state at the start of the main loop of pass one, when the working set is
empty at the call: the invariant of the seeding loop holds, the blocks of the
block list have an empty input list and differ from the blocks at the call in
their input list and register-interval only, and every block of the list without
predecessor has a register-interval. -/
theorem passOne_start (st st1 st2 : State) (BB_vector : List Nat) (hws : st.WS = [])
    (h1 : passOne_init { st with basic_blocks := BB_vector } = .ok st1)
    (h2 : passOne_seed { st1 with RegisterIntervals := [] } = .ok st2) :
    SeedInv st2 ∧ st2.basic_blocks = BB_vector ∧ st2.blocks.length = st.blocks.length ∧
    (∀ c ∈ BB_vector, ∀ cb : basicBlock, st2.blocks[c]? = some cb → cb.input_list = []) ∧
    (∀ c ∈ BB_vector, ∀ cb : basicBlock, st2.blocks[c]? = some cb →
      ∃ b : basicBlock, st.blocks[c]? = some b ∧
        cb = { b with input_list := [], BB_registerInterval := cb.BB_registerInterval } ∧
        (b.predecessors = [] → cb.BB_registerInterval ≠ none)) := by
  unfold passOne_init at h1
  obtain ⟨i1, i2, i3, i4⟩ := passOne_init_spec BB_vector _ st1 h1
  simp only at i1 i2 i3 i4
  have hbb1 : st1.basic_blocks = BB_vector := by rw [i1]
  have hws1 : st1.WS = [] := by rw [i1]; exact hws
  have hreset : ∀ c ∈ BB_vector, ∀ cb : basicBlock, st1.blocks[c]? = some cb →
      cb.input_list = [] ∧ cb.BB_registerInterval = none ∧
      ∃ b : basicBlock, st.blocks[c]? = some b ∧
        cb = { b with input_list := [], BB_registerInterval := none } := by
    intro c hc cb hcb
    have hlt := i3 c hc
    have := i4 c st.blocks[c] (List.getElem?_eq_getElem hlt)
    rw [hcb] at this
    simp only [hc, if_true, Option.some.injEq] at this
    subst this
    exact ⟨rfl, rfl, _, List.getElem?_eq_getElem hlt, rfl⟩
  have hseed0 : SeedInv { st1 with RegisterIntervals := [] } := by
    refine ⟨⟨?_, ?_, ?_, ?_⟩, ?_⟩
    · intro c hc
      simp only [hbb1] at hc
      rw [i2]; exact i3 c hc
    · intro c hc cb hcb t ht
      simp only [hbb1] at hc
      rw [(hreset c hc cb hcb).2.1] at ht
      cases ht
    · intro w hw
      simp only [hws1] at hw
      cases hw
    · intro t ht
      cases ht
    · intro c hc cb hcb hne
      simp only [hbb1] at hc
      exact absurd (hreset c hc cb hcb).2.1 hne
  unfold passOne_seed at h2
  obtain ⟨r1, r2, rl, r3, r4⟩ := passOne_seed_rule SeedInv
    (fun s b blk hP _ hb _ hpred => hP.step hb hpred) BB_vector
    { st1 with RegisterIntervals := [] } st2 (by simpa [hbb1] using h2) hseed0
    (by simp [hbb1])
    (by
      intro c hc cb hcb
      simp only [hbb1] at hc
      exact (hreset c hc cb hcb).1)
  simp only [hbb1] at r2 r3
  refine ⟨r1, r2, ?_, r3, ?_⟩
  · rw [rl]; exact i2
  · intro c hc cb hcb
    obtain ⟨b1, hb1, e1, e2⟩ := r4 c cb hcb
    obtain ⟨g1, g2, b, hb, g3⟩ := hreset c hc b1 hb1
    refine ⟨b, hb, ?_, ?_⟩
    · rw [e1, g3]
    · intro hp
      apply e2
      right
      refine ⟨hc, ?_⟩
      rw [g3]
      exact hp

/-! ## Pass one: single entry -/

theorem Base.fresh {st : State} (h : Base st) {c : Nat} {cb : basicBlock} {t : Nat}
    (hc : c ∈ st.basic_blocks) (hcb : st.blocks[c]? = some cb)
    (ht : cb.BB_registerInterval = some t) : t < st.intervals.length :=
  h.2.2.2 t (h.2.1 c hc cb hcb t ht)

/-- Writing a record with the same register-interval and the same predecessors
keeps `Entry`. -/
theorem Entry.entry_setBlock_same {st : State} (h : Entry st) {BB : Nat} {b b' : basicBlock}
    (hb : st.blocks[BB]? = some b) (hi : b'.BB_registerInterval = b.BB_registerInterval)
    (hp : b'.predecessors = b.predecessors) : Entry (setBlock st BB b') := by
  obtain ⟨entry, he⟩ := h
  refine ⟨entry, ?_⟩
  intro c hc cb hcb t ht hne p hpm
  have key : ∀ (p : Nat) (pb : basicBlock), st.blocks[p]? = some pb → pb.BB_registerInterval = some t →
      ∃ pb' : basicBlock, (setBlock st BB b').blocks[p]? = some pb' ∧
        pb'.BB_registerInterval = some t := by
    intro p pb hpb hpt
    by_cases hpB : p = BB
    · subst hpB
      rw [hb] at hpb; cases hpb
      exact ⟨b', setBlock_lookup_self st _ _ b' hb, by rw [hi]; exact hpt⟩
    · exact ⟨pb, by rw [setBlock_lookup_ne st BB b' p hpB]; exact hpb, hpt⟩
  rcases setBlock_lookup st BB b' cb c hcb with ⟨rfl, rfl⟩ | ⟨_, hcb'⟩
  · rw [hi] at ht
    rw [hp] at hpm
    obtain ⟨pb, hpb, hpt⟩ := he c hc b hb t ht hne p hpm
    exact key p pb hpb hpt
  · obtain ⟨pb, hpb, hpt⟩ := he c hc cb hcb' t ht hne p hpm
    exact key p pb hpb hpt

theorem Entry.entry_split {st : State} (h : Entry st) (hbase : Base st) {BB : Nat} {b : basicBlock}
    (hb : st.blocks[BB]? = some b) (found1 : Nat) (rl : List Str) (code2 : Str) :
    Entry (split_state st b BB found1 rl code2) := by
  obtain ⟨entry, he⟩ := h
  refine ⟨Function.update entry st.intervals.length st.blocks.length, ?_⟩
  intro c hc cb hcb t ht hne p hpm
  have hBlt : BB < st.blocks.length := (List.getElem?_eq_some_iff.mp hb).1
  have key : ∀ (p : Nat) (pb : basicBlock), st.blocks[p]? = some pb → pb.BB_registerInterval = some t →
      ∃ pb' : basicBlock, (split_state st b BB found1 rl code2).blocks[p]? = some pb' ∧
        pb'.BB_registerInterval = some t := by
    intro p pb hpb hpt
    have hplt : p < st.blocks.length := (List.getElem?_eq_some_iff.mp hpb).1
    by_cases hpB : p = BB
    · subst hpB
      rw [hb] at hpb; cases hpb
      exact ⟨_, split_state_lookup_old st _ _ found1 rl code2 hb, hpt⟩
    · exact ⟨pb, by rw [split_state_lookup_ne st b BB found1 rl code2 p hpB hplt]; exact hpb,
        hpt⟩
  simp only [split_state, List.mem_append, List.mem_singleton] at hc
  rcases split_state_lookup st b BB found1 rl code2 cb c hb hcb with
    ⟨rfl, rfl⟩ | ⟨rfl, rfl⟩ | ⟨hcne, hclt, hcb'⟩
  · have hcin : c ∈ st.basic_blocks := by
      rcases hc with hc | hc
      · exact hc
      · omega
    have ht' : b.BB_registerInterval = some t := ht
    have hfresh := hbase.fresh hcin hb ht'
    rw [Function.update_noteq (by omega)] at hne
    obtain ⟨pb, hpb, hpt⟩ := he c hcin b hb t ht' hne p hpm
    exact key p pb hpb hpt
  · simp only [split_new, Option.some.injEq] at ht
    subst ht
    simp at hne
  · have hcin : c ∈ st.basic_blocks := by
      rcases hc with hc | hc
      · exact hc
      · omega
    have hfresh := hbase.fresh hcin hcb' ht
    rw [Function.update_noteq (by omega)] at hne
    obtain ⟨pb, hpb, hpt⟩ := he c hcin cb hcb' t ht hne p hpm
    exact key p pb hpb hpt

theorem Entry.entry_traverse {st st' : State} (h : Entry st) (hbase : Base st) (fuel : Nat)
    (BB : Nat) (N : Int) (ht : RegisterInterval.traverse fuel st BB N = .ok st') :
    Entry st' := by
  cases hb : getBlock st BB with
  | error e => simp [RegisterInterval.traverse, hb, bind, Except.bind] at ht
  | ok b =>
    have hb' := (getBlock_eq_ok _ _ _).mp hb
    rcases traverse_effect fuel st st' BB N b hb ht with
      ⟨rfl, _⟩ | ⟨r, _, rfl⟩ | ⟨f1, rl, code2, _, _, rfl⟩
    · exact h
    · exact h.entry_setBlock_same hb' rfl rfl
    · exact h.entry_split hbase hb' f1 rl code2

/-- Giving a block without register-interval the register-interval `i` of all
its predecessors keeps `Entry`. -/
theorem Entry.entry_assign {st : State} (h : Entry st) {b : Nat} {blk : basicBlock}
    (hb : st.blocks[b]? = some blk) (hnone : blk.BB_registerInterval = none)
    (i : Option Nat) (Union : List Str)
    (hpred : ∀ p ∈ blk.predecessors, ∃ pb : basicBlock, st.blocks[p]? = some pb ∧
      pb.BB_registerInterval = i) :
    Entry (setBlock st b { blk with BB_registerInterval := i, input_list := Union }) := by
  obtain ⟨entry, he⟩ := h
  refine ⟨entry, ?_⟩
  intro c hc cb hcb t ht hne p hpm
  have key : ∀ (p : Nat) (pb : basicBlock), st.blocks[p]? = some pb → pb.BB_registerInterval = some t →
      ∃ pb' : basicBlock,
        (setBlock st b { blk with BB_registerInterval := i, input_list := Union }).blocks[p]? =
          some pb' ∧ pb'.BB_registerInterval = some t := by
    intro p pb hpb hpt
    have hpb_ne : p ≠ b := by
      rintro rfl
      rw [hb] at hpb; cases hpb
      rw [hnone] at hpt; cases hpt
    exact ⟨pb, by rw [setBlock_lookup_ne st b _ p hpb_ne]; exact hpb, hpt⟩
  rcases setBlock_lookup st b _ cb c hcb with ⟨rfl, rfl⟩ | ⟨_, hcb'⟩
  · simp only at ht hpm
    obtain ⟨pb, hpb, hpt⟩ := hpred p hpm
    exact key p pb hpb (hpt.trans ht)
  · obtain ⟨pb, hpb, hpt⟩ := he c hc cb hcb' t ht hne p hpm
    exact key p pb hpb hpt

theorem Entry.entry_frontier {st : State} (h : Entry st) (hbase : Base st) {s : Nat}
    {sb : basicBlock} (hs : st.blocks[s]? = some sb) (hnone : sb.BB_registerInterval = none) :
    Entry (frontier_state st s sb) := by
  obtain ⟨entry, he⟩ := h
  refine ⟨Function.update entry st.intervals.length s, ?_⟩
  intro c hc cb hcb t ht hne p hpm
  have hcin : c ∈ st.basic_blocks := hc
  rcases frontier_state_lookup st s sb cb c hcb with ⟨rfl, rfl⟩ | ⟨hcs, hcb'⟩
  · simp only [Option.some.injEq] at ht
    subst ht
    simp at hne
  · have hfresh := hbase.fresh hcin hcb' ht
    rw [Function.update_noteq (by omega)] at hne
    obtain ⟨pb, hpb, hpt⟩ := he c hcin cb hcb' t ht hne p hpm
    have hps : p ≠ s := by
      rintro rfl
      rw [hs] at hpb; cases hpb
      rw [hnone] at hpt; cases hpt
    exact ⟨pb, by rw [frontier_state_lookup_ne st s sb p hps]; exact hpb, hpt⟩

theorem SeedInv.entry {st : State} (h : SeedInv st) : Entry st := by
  refine ⟨fun _ => 0, ?_⟩
  intro c hc cb hcb t ht _ p hpm
  have := (h.2 c hc cb hcb (by rw [ht]; simp)).1
  rw [this] at hpm
  cases hpm

/-- When pass one, called with an empty working set, returns, every
register-interval `t` of the returned vector has a block `e` such that every
block of the block list that belongs to `t` and is not `e` has all the
predecessors of its predecessor list in `t` (which block `e` is, is the matter
of `passOne_single_entry`). -/
theorem passOne_entry_exists (fuel : Nat) (st st' : State) (BB_vector l : List Nat) (N : Int)
    (hws : st.WS = [])
    (h : registerIntervalCreationPassOne fuel st BB_vector N = .ok (st', l)) :
    ∀ t ∈ l, ∃ e : Nat, ∀ c ∈ st'.basic_blocks, ∀ cb : basicBlock, st'.blocks[c]? = some cb →
      cb.BB_registerInterval = some t → c ≠ e →
      ∀ p ∈ cb.predecessors, ∃ pb : basicBlock, st'.blocks[p]? = some pb ∧
        pb.BB_registerInterval = some t := by
  obtain ⟨st1, st2, st3, st4, h1, h2, h3, _, _, e', _, _⟩ :=
    passOne_phases fuel st st' BB_vector l N h
  obtain ⟨hseed, _⟩ := passOne_start st st1 st2 BB_vector hws h1 h2
  have hloop := passOne_loop_rule N (fun s => Base s ∧ Entry s)
    (fun i s => BaseIn i s ∧ Entry s)
    (fun fuel s BB rest b s' hout hws hb ht =>
      ⟨BaseIn.enter hout.1 fuel N hws hb ht,
        Entry.entry_traverse (show Entry { s with WS := rest } from hout.2)
          (hout.1.base_pop hws).1 fuel BB N ht⟩)
    (fun i s m hin => ⟨hin.1.basein_marks m, hin.2⟩)
    (fun fuel i s b blk Union s' hin _ hblk hnone hpred _ ht =>
      ⟨hin.1.grow fuel N Union hblk ht,
        Entry.entry_traverse
          (hin.2.entry_assign ((getBlock_eq_ok _ _ _).mp hblk) hnone i Union
            (fun p hp => by
              obtain ⟨pb, hpb, hpi⟩ := hpred p hp
              exact ⟨pb, (getBlock_eq_ok _ _ _).mp hpb, hpi⟩))
          (by
            obtain ⟨hb0, t, rfl, htm⟩ := hin.1
            refine hb0.base_setBlock ((getBlock_eq_ok _ _ _).mp hblk) ?_ ?_
            · intro _ t' ht'
              simp only [Option.some.injEq] at ht'
              subst ht'
              exact htm
            · intro _; simp)
          fuel b N ht⟩)
    (fun i s x sb hin hx hnone =>
      ⟨hin.1.basein_frontier hx,
        hin.2.entry_frontier hin.1.1 ((getBlock_eq_ok _ _ _).mp hx) hnone⟩)
    (fun i s0 s S _ _ _ hin => ⟨hin.1.1, hin.2⟩)
    fuel st2 st3 ⟨hseed.1, hseed.entry⟩ h3
  obtain ⟨⟨_, entry, he⟩, _⟩ := hloop
  intro t _
  refine ⟨entry t, ?_⟩
  have hblocks : st'.blocks = st3.blocks := by rw [e']
  have hbbs : st'.basic_blocks = st3.basic_blocks := by rw [e']
  rw [hblocks, hbbs]
  intro c hc cb hcb ht hne p hp
  exact he c hc cb hcb t ht hne p hp

/-! ## Pass one: the loops over the successors -/

theorem collect_inner_spec (st : State) (i : Option Nat) (succs : List Nat) :
    ∀ (S0 S1 : List Nat),
      succs.foldlM
        (fun Successors s => do
          let sb ← getBlock st s
          if sb.BB_registerInterval ≠ i then return set_insert ptr_lt s Successors
          else return Successors)
        S0 = .ok S1 →
      (∀ x ∈ S0, x ∈ S1) ∧
      ∀ s ∈ succs, ∃ sb : basicBlock, st.blocks[s]? = some sb ∧
        (sb.BB_registerInterval = i ∨ s ∈ S1) := by
  induction succs with
  | nil =>
    intro S0 S1 h
    simp [pure, Except.pure] at h
    subst h
    exact ⟨fun x hx => hx, by simp⟩
  | cons a succs ih =>
    intro S0 S1 h
    rw [List.foldlM_cons] at h
    obtain ⟨S, hS, h⟩ := (bind_eq_ok _ _ _).mp h
    obtain ⟨sb, hsb, hS⟩ := (bind_eq_ok _ _ _).mp hS
    rw [getBlock_eq_ok] at hsb
    obtain ⟨ih1, ih2⟩ := ih S S1 h
    split at hS
    · simp only [pure, Except.pure, Except.ok.injEq] at hS
      subst hS
      refine ⟨fun x hx => ih1 x ((mem_set_insert _ _ _ _).mpr (Or.inr hx)), ?_⟩
      intro s hs
      simp only [List.mem_cons] at hs
      rcases hs with rfl | hs
      · exact ⟨sb, hsb, Or.inr (ih1 s ((mem_set_insert _ _ _ _).mpr (Or.inl rfl)))⟩
      · exact ih2 s hs
    · rename_i hne
      simp only [pure, Except.pure, Except.ok.injEq] at hS
      subst hS
      refine ⟨ih1, ?_⟩
      intro s hs
      simp only [List.mem_cons] at hs
      rcases hs with rfl | hs
      · exact ⟨sb, hsb, Or.inl (by simpa using hne)⟩
      · exact ih2 s hs

theorem collect_outer_spec (st : State) (i : Option Nat) (l : List Nat) :
    ∀ (S0 S1 : List Nat),
      l.foldlM
        (fun Successors b => do
          let blk ← getBlock st b
          if blk.BB_registerInterval = i then
            blk.successors.foldlM
              (fun Successors s => do
                let sb ← getBlock st s
                if sb.BB_registerInterval ≠ i then return set_insert ptr_lt s Successors
                else return Successors)
              Successors
          else return Successors)
        S0 = .ok S1 →
      (∀ x ∈ S0, x ∈ S1) ∧
      ∀ c ∈ l, ∀ cb : basicBlock, st.blocks[c]? = some cb → cb.BB_registerInterval = i →
        ∀ s ∈ cb.successors, ∃ sb : basicBlock, st.blocks[s]? = some sb ∧
          (sb.BB_registerInterval = i ∨ s ∈ S1) := by
  induction l with
  | nil =>
    intro S0 S1 h
    simp [pure, Except.pure] at h
    subst h
    exact ⟨fun x hx => hx, by simp⟩
  | cons a l ih =>
    intro S0 S1 h
    rw [List.foldlM_cons] at h
    obtain ⟨S, hS, h⟩ := (bind_eq_ok _ _ _).mp h
    obtain ⟨blk, hblk, hS⟩ := (bind_eq_ok _ _ _).mp hS
    rw [getBlock_eq_ok] at hblk
    obtain ⟨ih1, ih2⟩ := ih S S1 h
    split at hS
    · obtain ⟨g1, g2⟩ := collect_inner_spec st i blk.successors S0 S hS
      refine ⟨fun x hx => ih1 x (g1 x hx), ?_⟩
      intro c hc cb hcb hci s hs
      simp only [List.mem_cons] at hc
      rcases hc with rfl | hc
      · rw [hblk] at hcb; cases hcb
        obtain ⟨sb, hsb, hor⟩ := g2 s hs
        exact ⟨sb, hsb, hor.imp id (fun hm => ih1 s hm)⟩
      · exact ih2 c hc cb hcb hci s hs
    · rename_i hne
      simp only [pure, Except.pure, Except.ok.injEq] at hS
      subst hS
      refine ⟨ih1, ?_⟩
      intro c hc cb hcb hci s hs
      simp only [List.mem_cons] at hc
      rcases hc with rfl | hc
      · rw [hblk] at hcb; cases hcb
        exact absurd hci hne
      · exact ih2 c hc cb hcb hci s hs

theorem collect_successors_spec (st : State) (i : Option Nat) (S : List Nat)
    (h : collect_successors st i = .ok S) :
    ∀ c ∈ st.basic_blocks, ∀ cb : basicBlock, st.blocks[c]? = some cb →
      cb.BB_registerInterval = i →
      ∀ s ∈ cb.successors, ∃ sb : basicBlock, st.blocks[s]? = some sb ∧
        (sb.BB_registerInterval = i ∨ s ∈ S) :=
  (collect_outer_spec st i st.basic_blocks [] S h).2

/-- What the loop that opens register-intervals for the successors does: the
block list and the successor lists are unchanged, a register-interval that was
set is unchanged, a register-interval that is set by the loop is a new one, and
every element of `Successors` has a register-interval afterwards. -/
theorem assign_successors_spec (S : List Nat) : ∀ (st st' : State),
    assign_successors st S = .ok st' →
    st'.basic_blocks = st.basic_blocks ∧ st.intervals.length ≤ st'.intervals.length ∧
    (∀ (p : Nat) (b' : basicBlock), st'.blocks[p]? = some b' →
      ∃ b : basicBlock, st.blocks[p]? = some b ∧ b'.successors = b.successors ∧
        (b'.BB_registerInterval = b.BB_registerInterval ∨
          (b.BB_registerInterval = none ∧
            ∃ t, b'.BB_registerInterval = some t ∧ st.intervals.length ≤ t))) ∧
    (∀ (p : Nat) (b : basicBlock), st.blocks[p]? = some b →
      ∃ b' : basicBlock, st'.blocks[p]? = some b' ∧
        (b.BB_registerInterval ≠ none → b'.BB_registerInterval ≠ none)) ∧
    (∀ s ∈ S, ∃ sb : basicBlock, st'.blocks[s]? = some sb ∧ sb.BB_registerInterval ≠ none) := by
  induction S with
  | nil =>
    intro st st' h
    simp [assign_successors, pure, Except.pure] at h
    subst h
    exact ⟨rfl, le_refl _, fun p b' hb' => ⟨b', hb', rfl, Or.inl rfl⟩,
      fun p b hb => ⟨b, hb, fun h => h⟩, by simp⟩
  | cons a S ih =>
    intro st st' h
    unfold assign_successors at h
    rw [List.foldlM_cons] at h
    obtain ⟨st0, h0, h⟩ := (bind_eq_ok _ _ _).mp h
    obtain ⟨sb, hsb, h0⟩ := (bind_eq_ok _ _ _).mp h0
    rw [getBlock_eq_ok] at hsb
    obtain ⟨r1, r2, r3, r4, r5⟩ := ih st0 st' h
    split at h0
    · rename_i hnone
      simp only [pure, Except.pure, Except.ok.injEq] at h0
      rw [frontier_step_eq] at h0
      subst h0
      have hlen : (frontier_state st a sb).intervals.length = st.intervals.length + 1 := by
        simp [frontier_state]
      refine ⟨r1, by omega, ?_, ?_, ?_⟩
      · intro p b' hb'
        obtain ⟨b0, hb0, e1, e2⟩ := r3 p b' hb'
        rcases frontier_state_lookup st a sb b0 p hb0 with ⟨rfl, rfl⟩ | ⟨_, hb0'⟩
        · refine ⟨sb, hsb, e1, Or.inr ⟨hnone, ?_⟩⟩
          rcases e2 with e2 | ⟨e2, _⟩
          · exact ⟨st.intervals.length, e2, le_refl _⟩
          · cases e2
        · refine ⟨b0, hb0', e1, ?_⟩
          rcases e2 with e2 | ⟨e2, t, e3, e4⟩
          · exact Or.inl e2
          · exact Or.inr ⟨e2, t, e3, by omega⟩
      · intro p b hb
        by_cases hpa : p = a
        · subst hpa
          obtain ⟨b', hb', e⟩ := r4 p _ (frontier_state_lookup_self st p sb hsb)
          exact ⟨b', hb', fun _ => e (by simp)⟩
        · exact r4 p b (by rw [frontier_state_lookup_ne st a sb p hpa]; exact hb)
      · intro s hs
        simp only [List.mem_cons] at hs
        rcases hs with rfl | hs
        · obtain ⟨b', hb', e⟩ := r4 s _ (frontier_state_lookup_self st s sb hsb)
          exact ⟨b', hb', e (by simp)⟩
        · exact r5 s hs
    · rename_i hsome
      simp only [pure, Except.pure, Except.ok.injEq] at h0
      subst h0
      refine ⟨r1, r2, r3, r4, ?_⟩
      intro s hs
      simp only [List.mem_cons] at hs
      rcases hs with rfl | hs
      · obtain ⟨b', hb', e⟩ := r4 s sb hsb
        exact ⟨b', hb', e hsome⟩
      · exact r5 s hs

/-- After the two loops over the successors every successor of a block of the
register-interval `i` has a register-interval. -/
theorem frontier_complete (st0 st : State) (i : Option Nat) (S : List Nat) (t0 : Nat)
    (hi : i = some t0) (hfresh : t0 < st0.intervals.length)
    (hc : collect_successors st0 i = .ok S) (ha : assign_successors st0 S = .ok st) :
    ∀ c ∈ st.basic_blocks, ∀ cb : basicBlock, st.blocks[c]? = some cb →
      cb.BB_registerInterval = i → Done st cb := by
  obtain ⟨r1, _, r3, r4, r5⟩ := assign_successors_spec S st0 st ha
  have hcol := collect_successors_spec st0 i S hc
  intro c hcm cb hcb hci s hs
  obtain ⟨b0, hb0, e1, e2⟩ := r3 c cb hcb
  have hb0i : b0.BB_registerInterval = i := by
    rcases e2 with e2 | ⟨_, t, e3, e4⟩
    · rw [← e2]; exact hci
    · rw [hci, hi] at e3
      cases e3
      omega
  rw [e1] at hs
  rw [r1] at hcm
  obtain ⟨sb, hsb, hor⟩ := hcol c hcm b0 hb0 hb0i s hs
  rcases hor with hor | hor
  · obtain ⟨sb', hsb', e⟩ := r4 s sb hsb
    exact ⟨sb', hsb', e (by rw [hor, hi]; simp)⟩
  · exact r5 s hor

/-! ## Pass one: no orphans -/

theorem Covered.covered_pop {st : State} (h : Covered none st) {BB : Nat} {rest : List Nat}
    {b : basicBlock} (hws : st.WS = BB :: rest) (hb : st.blocks[BB]? = some b) :
    Covered b.BB_registerInterval { st with WS := rest } := by
  intro c hc cb hcb t ht
  rcases h c hc cb hcb t ht with h1 | ⟨w, hw, wb, hwb, hwt⟩ | h3
  · cases h1
  · rw [hws] at hw
    simp only [List.mem_cons] at hw
    rcases hw with rfl | hw
    · rw [hb] at hwb; cases hwb
      exact Or.inl hwt.symm
    · exact Or.inr (Or.inl ⟨w, hw, wb, hwb, hwt⟩)
  · exact Or.inr (Or.inr h3)

theorem Covered.covered_marks {i : Option Nat} {st : State} (h : Covered i st) (m : List Bool) :
    Covered i { st with mark := m } := h

/-- Writing a record with the same register-interval and the same successors
keeps `Covered`. -/
theorem Covered.covered_setBlock_same {i : Option Nat} {st : State} (h : Covered i st) {BB : Nat}
    {b b' : basicBlock} (hb : st.blocks[BB]? = some b)
    (hi : b'.BB_registerInterval = b.BB_registerInterval) (hs : b'.successors = b.successors) :
    Covered i (setBlock st BB b') := by
  have key : ∀ (p : Nat) (pb : basicBlock), st.blocks[p]? = some pb →
      ∃ pb' : basicBlock, (setBlock st BB b').blocks[p]? = some pb' ∧
        pb'.BB_registerInterval = pb.BB_registerInterval := by
    intro p pb hpb
    by_cases hpB : p = BB
    · subst hpB
      rw [hb] at hpb; cases hpb
      exact ⟨b', setBlock_lookup_self st _ _ b' hb, hi⟩
    · exact ⟨pb, by rw [setBlock_lookup_ne st BB b' p hpB]; exact hpb, rfl⟩
  intro c hc cb hcb t ht
  have hold : ∃ cb0 : basicBlock, st.blocks[c]? = some cb0 ∧
      cb0.BB_registerInterval = some t ∧ cb0.successors = cb.successors := by
    rcases setBlock_lookup st BB b' cb c hcb with ⟨rfl, rfl⟩ | ⟨_, hcb'⟩
    · exact ⟨b, hb, by rw [← hi]; exact ht, hs.symm⟩
    · exact ⟨cb, hcb', ht, rfl⟩
  obtain ⟨cb0, hcb0, ht0, hs0⟩ := hold
  rcases h c hc cb0 hcb0 t ht0 with h1 | ⟨w, hw, wb, hwb, hwt⟩ | h3
  · exact Or.inl h1
  · obtain ⟨wb', hwb', e⟩ := key w wb hwb
    exact Or.inr (Or.inl ⟨w, hw, wb', hwb', by rw [e]; exact hwt⟩)
  · refine Or.inr (Or.inr ?_)
    intro s hsm
    rw [← hs0] at hsm
    obtain ⟨sb, hsb, hne⟩ := h3 s hsm
    obtain ⟨sb', hsb', e⟩ := key s sb hsb
    exact ⟨sb', hsb', by rw [e]; exact hne⟩

theorem Covered.covered_split {i : Option Nat} {st : State} (h : Covered i st) {BB : Nat}
    {b : basicBlock} (hb : st.blocks[BB]? = some b) (hbi : b.BB_registerInterval = i)
    (found1 : Nat) (rl : List Str) (code2 : Str) :
    Covered i (split_state st b BB found1 rl code2) := by
  have key : ∀ (p : Nat) (pb : basicBlock), st.blocks[p]? = some pb →
      ∃ pb' : basicBlock, (split_state st b BB found1 rl code2).blocks[p]? = some pb' ∧
        pb'.BB_registerInterval = pb.BB_registerInterval := by
    intro p pb hpb
    have hplt : p < st.blocks.length := (List.getElem?_eq_some_iff.mp hpb).1
    by_cases hpB : p = BB
    · subst hpB
      rw [hb] at hpb; cases hpb
      exact ⟨_, split_state_lookup_old st _ _ found1 rl code2 hb, rfl⟩
    · exact ⟨pb, by rw [split_state_lookup_ne st b BB found1 rl code2 p hpB hplt]; exact hpb,
        rfl⟩
  intro c hc cb hcb t ht
  simp only [split_state, List.mem_append, List.mem_singleton] at hc
  rcases split_state_lookup st b BB found1 rl code2 cb c hb hcb with
    ⟨rfl, rfl⟩ | ⟨rfl, rfl⟩ | ⟨hcne, hclt, hcb'⟩
  · left
    rw [← hbi]
    exact ht.symm
  · right; left
    exact ⟨st.blocks.length, by simp [split_state], _,
      split_state_lookup_new st b BB found1 rl code2, ht⟩
  · have hcin : c ∈ st.basic_blocks := by
      rcases hc with hc | hc
      · exact hc
      · omega
    rcases h c hcin cb hcb' t ht with h1 | ⟨w, hw, wb, hwb, hwt⟩ | h3
    · exact Or.inl h1
    · obtain ⟨wb', hwb', e⟩ := key w wb hwb
      exact Or.inr (Or.inl ⟨w, by simp [split_state, hw], wb', hwb', by rw [e]; exact hwt⟩)
    · refine Or.inr (Or.inr ?_)
      intro s hsm
      obtain ⟨sb, hsb, hne⟩ := h3 s hsm
      obtain ⟨sb', hsb', e⟩ := key s sb hsb
      exact ⟨sb', hsb', by rw [e]; exact hne⟩

theorem Covered.covered_traverse {i : Option Nat} {st st' : State} (h : Covered i st) (fuel : Nat)
    (BB : Nat) (N : Int) {b : basicBlock} (hb : st.blocks[BB]? = some b)
    (hbi : b.BB_registerInterval = i)
    (ht : RegisterInterval.traverse fuel st BB N = .ok st') : Covered i st' := by
  rcases traverse_effect fuel st st' BB N b ((getBlock_eq_ok _ _ _).mpr hb) ht with
    ⟨rfl, _⟩ | ⟨r, _, rfl⟩ | ⟨f1, rl, code2, _, _, rfl⟩
  · exact h
  · exact h.covered_setBlock_same hb rfl rfl
  · exact h.covered_split hb hbi f1 rl code2

theorem Covered.covered_assign {i : Option Nat} {st : State} (h : Covered i st) {b : Nat}
    {blk : basicBlock} (hb : st.blocks[b]? = some blk)
    (hnone : blk.BB_registerInterval = none) (Union : List Str) :
    Covered i (setBlock st b { blk with BB_registerInterval := i, input_list := Union }) := by
  have key : ∀ (p : Nat) (pb : basicBlock), st.blocks[p]? = some pb →
      pb.BB_registerInterval ≠ none →
      (setBlock st b { blk with BB_registerInterval := i, input_list := Union }).blocks[p]? =
        some pb := by
    intro p pb hpb hne
    have hpb_ne : p ≠ b := by
      rintro rfl
      rw [hb] at hpb; cases hpb
      exact hne hnone
    rw [setBlock_lookup_ne st b _ p hpb_ne]; exact hpb
  intro c hc cb hcb t ht
  rcases setBlock_lookup st b _ cb c hcb with ⟨rfl, rfl⟩ | ⟨_, hcb'⟩
  · exact Or.inl ht.symm
  · rcases h c hc cb hcb' t ht with h1 | ⟨w, hw, wb, hwb, hwt⟩ | h3
    · exact Or.inl h1
    · exact Or.inr (Or.inl ⟨w, hw, wb, key w wb hwb (by rw [hwt]; simp), hwt⟩)
    · refine Or.inr (Or.inr ?_)
      intro s hsm
      obtain ⟨sb, hsb, hne⟩ := h3 s hsm
      exact ⟨sb, key s sb hsb hne, hne⟩

theorem Covered.covered_frontier {i : Option Nat} {st : State} (h : Covered i st) {s : Nat}
    {sb : basicBlock} (hs : st.blocks[s]? = some sb) (hnone : sb.BB_registerInterval = none) :
    Covered i (frontier_state st s sb) := by
  have key : ∀ (p : Nat) (pb : basicBlock), st.blocks[p]? = some pb →
      pb.BB_registerInterval ≠ none → (frontier_state st s sb).blocks[p]? = some pb := by
    intro p pb hpb hne
    have hps : p ≠ s := by
      rintro rfl
      rw [hs] at hpb; cases hpb
      exact hne hnone
    rw [frontier_state_lookup_ne st s sb p hps]; exact hpb
  intro c hc cb hcb t ht
  have hcin : c ∈ st.basic_blocks := hc
  rcases frontier_state_lookup st s sb cb c hcb with ⟨rfl, rfl⟩ | ⟨hcs, hcb'⟩
  · right; left
    exact ⟨c, by simp [frontier_state], _, frontier_state_lookup_self st c sb hs, ht⟩
  · rcases h c hcin cb hcb' t ht with h1 | ⟨w, hw, wb, hwb, hwt⟩ | h3
    · exact Or.inl h1
    · exact Or.inr (Or.inl ⟨w, by simp [frontier_state, hw], wb,
        key w wb hwb (by rw [hwt]; simp), hwt⟩)
    · refine Or.inr (Or.inr ?_)
      intro x hxm
      obtain ⟨xb, hxb, hne⟩ := h3 x hxm
      exact ⟨xb, key x xb hxb hne, hne⟩

theorem Covered.exit {i : Option Nat} {st : State} (h : Covered i st)
    (hdone : ∀ c ∈ st.basic_blocks, ∀ cb : basicBlock, st.blocks[c]? = some cb →
      cb.BB_registerInterval = i → Done st cb) : Covered none st := by
  intro c hc cb hcb t ht
  rcases h c hc cb hcb t ht with h1 | h2 | h3
  · exact Or.inr (Or.inr (hdone c hc cb hcb (by rw [ht, h1])))
  · exact Or.inr (Or.inl h2)
  · exact Or.inr (Or.inr h3)

/-! ### Blocks without predecessor keep their register-interval -/

theorem Seeded.seeded_setBlock {st : State} (h : Seeded st) {BB : Nat} {b : basicBlock}
    (b' : basicBlock) (hb : st.blocks[BB]? = some b) (hp : b'.predecessors = b.predecessors)
    (hi : b.BB_registerInterval ≠ none → b'.BB_registerInterval ≠ none) :
    Seeded (RegisterInterval.setBlock st BB b') := by
  intro c hc cb hcb hpred
  rcases setBlock_lookup st BB b' cb c hcb with ⟨rfl, rfl⟩ | ⟨_, hcb'⟩
  · exact hi (h c hc b hb (by rw [← hp]; exact hpred))
  · exact h c hc cb hcb' hpred

theorem Seeded.seeded_split {st : State} (h : Seeded st) {BB : Nat} {b : basicBlock}
    (hb : st.blocks[BB]? = some b) (found1 : Nat) (rl : List Str) (code2 : Str) :
    Seeded (split_state st b BB found1 rl code2) := by
  intro c hc cb hcb hpred
  simp only [split_state, List.mem_append, List.mem_singleton] at hc
  rcases split_state_lookup st b BB found1 rl code2 cb c hb hcb with
    ⟨rfl, rfl⟩ | ⟨rfl, rfl⟩ | ⟨hcne, hclt, hcb'⟩
  · have hcin : c ∈ st.basic_blocks := by
      rcases hc with hc | hc
      · exact hc
      · have := (List.getElem?_eq_some_iff.mp hb).1
        omega
    exact h c hcin b hb hpred
  · simp [split_new] at hpred
  · have hcin : c ∈ st.basic_blocks := by
      rcases hc with hc | hc
      · exact hc
      · omega
    exact h c hcin cb hcb' hpred

theorem Seeded.seeded_traverse {st st' : State} (h : Seeded st) (fuel : Nat)
    (BB : Nat) (N : Int) (ht : RegisterInterval.traverse fuel st BB N = .ok st') :
    Seeded st' := by
  cases hb : getBlock st BB with
  | error e => simp [RegisterInterval.traverse, hb, bind, Except.bind] at ht
  | ok b =>
    have hb' := (getBlock_eq_ok _ _ _).mp hb
    rcases traverse_effect fuel st st' BB N b hb ht with
      ⟨rfl, _⟩ | ⟨r, _, rfl⟩ | ⟨f1, rl, code2, _, _, rfl⟩
    · exact h
    · exact h.seeded_setBlock _ hb' rfl (fun hne => hne)
    · exact h.seeded_split hb' f1 rl code2

theorem Seeded.seeded_frontier {st : State} (h : Seeded st) {s : Nat} {sb : basicBlock} :
    Seeded (frontier_state st s sb) := by
  intro c hc cb hcb hpred
  rcases frontier_state_lookup st s sb cb c hcb with ⟨rfl, rfl⟩ | ⟨hcs, hcb'⟩
  · simp
  · exact h c hc cb hcb' hpred

/-- When the working set is empty, every block that can be reached has a
register-interval, which is an element of `RegisterIntervals`. -/
theorem Reach.assigned {st : State} (hbase : Base st) (hcov : Covered none st)
    (hseed : Seeded st) (hws : st.WS = []) {c : Nat} (hr : Reach st c) :
    ∃ (cb : basicBlock) (t : Nat), st.blocks[c]? = some cb ∧
      cb.BB_registerInterval = some t ∧ t ∈ st.RegisterIntervals := by
  have hmem : c ∈ st.basic_blocks := by
    cases hr with
    | entry c cb hc _ _ => exact hc
    | step a c ab _ _ _ hc => exact hc
  have hassigned : ∃ cb : basicBlock, st.blocks[c]? = some cb ∧
      cb.BB_registerInterval ≠ none := by
    induction hr with
    | entry c cb hc hcb hpred => exact ⟨cb, hcb, hseed c hc cb hcb hpred⟩
    | step a c ab hra hab hca hc ih =>
      have hain : a ∈ st.basic_blocks := by
        cases hra with
        | entry _ _ hc' _ _ => exact hc'
        | step _ _ _ _ _ _ hc' => exact hc'
      obtain ⟨ab', hab', hne⟩ := ih hain
      rw [hab] at hab'; cases hab'
      cases hai : ab.BB_registerInterval with
      | none => exact absurd hai hne
      | some t =>
        rcases hcov a hain ab hab t hai with h1 | ⟨w, hw, _⟩ | h3
        · cases h1
        · rw [hws] at hw; cases hw
        · exact h3 c hca
  obtain ⟨cb, hcb, hne⟩ := hassigned
  cases hci : cb.BB_registerInterval with
  | none => exact absurd hci hne
  | some t => exact ⟨cb, t, hcb, hci, hbase.2.1 c hmem cb hcb t hci⟩

theorem Reach.reach_congr {st st' : State} (hb : st'.blocks = st.blocks)
    (hl : st'.basic_blocks = st.basic_blocks) {c : Nat} (h : Reach st' c) : Reach st c := by
  induction h with
  | entry c cb hc hcb hpred => exact Reach.entry c cb (hl ▸ hc) (hb ▸ hcb) hpred
  | step a c ab _ hab hca hc ih => exact Reach.step a c ab ih (hb ▸ hab) hca (hl ▸ hc)

theorem SeedInv.covered {st : State} (h : SeedInv st) : Covered none st := by
  intro c hc cb hcb t ht
  have := (h.2 c hc cb hcb (by rw [ht]; simp)).2
  exact Or.inr (Or.inl ⟨c, this, cb, hcb, ht⟩)

/-- The invariants of the main loop of pass one that give the absence of
orphans hold when the loop ends, and the working set is empty then. -/
theorem passOne_loop_covered (N : Int) (fuel : Nat) (st st' : State) (hbase : Base st)
    (hcov : Covered none st) (hseed : Seeded st) (h : passOne_loop N fuel st = .ok st') :
    (Base st' ∧ Covered none st' ∧ Seeded st') ∧ st'.WS = [] := by
  refine passOne_loop_rule N (fun s => Base s ∧ Covered none s ∧ Seeded s)
    (fun i s => BaseIn i s ∧ Covered i s ∧ Seeded s) ?_ ?_ ?_ ?_ ?_ fuel st st'
    ⟨hbase, hcov, hseed⟩ h
  · intro fuel s BB rest b s' hout hws hb ht
    have hb' := (getBlock_eq_ok _ _ _).mp hb
    exact ⟨BaseIn.enter hout.1 fuel N hws hb ht,
      Covered.covered_traverse (hout.2.1.covered_pop hws hb') fuel BB N hb' rfl ht,
      Seeded.seeded_traverse (show Seeded { s with WS := rest } from hout.2.2) fuel BB N ht⟩
  · intro i s m hin
    exact ⟨hin.1.basein_marks m, hin.2.1.covered_marks m, hin.2.2⟩
  · intro fuel i s b blk Union s' hin _ hblk hnone _ _ ht
    have hblk' := (getBlock_eq_ok _ _ _).mp hblk
    refine ⟨hin.1.grow fuel N Union hblk ht, ?_, ?_⟩
    · exact Covered.covered_traverse (hin.2.1.covered_assign hblk' hnone Union) fuel b N
        (setBlock_lookup_self s b blk _ hblk') rfl ht
    · exact Seeded.seeded_traverse
        (hin.2.2.seeded_setBlock { blk with BB_registerInterval := i, input_list := Union }
          hblk' rfl (fun hne => absurd hnone hne)) fuel b N ht
  · intro i s x sb hin hx hnone
    have hx' := (getBlock_eq_ok _ _ _).mp hx
    exact ⟨hin.1.basein_frontier hx, hin.2.1.covered_frontier hx' hnone, hin.2.2.seeded_frontier⟩
  · intro i s0 s S hin0 hc ha hin
    obtain ⟨⟨hb0, t0, hi, htm⟩, _, _⟩ := hin0
    exact ⟨hin.1.1,
      hin.2.1.exit (frontier_complete s0 s i S t0 hi (hb0.2.2.2 t0 htm) hc ha), hin.2.2⟩

/-! ### Reachability in the graph of the call -/

theorem Link.link_mono {st st' : State}
    (hrec : ∀ (x : Nat) (xb : basicBlock), st.blocks[x]? = some xb →
      ∃ xb' : basicBlock, st'.blocks[x]? = some xb' ∧ xb'.successors = xb.successors)
    (hl : ∀ x ∈ st.basic_blocks, x ∈ st'.basic_blocks) {a c : Nat} (h : Link st a c) :
    Link st' a c := by
  induction h with
  | last a c ab hab hc =>
    obtain ⟨ab', h1, h2⟩ := hrec a ab hab
    exact Link.last a c ab' h1 (by rw [h2]; exact hc)
  | next a f c ab hab hf hfl _ ih =>
    obtain ⟨ab', h1, h2⟩ := hrec a ab hab
    exact Link.next a f c ab' h1 (by rw [h2]; exact hf) (hl f hfl) ih

theorem Link.link_split {st : State} {BB : Nat} {b : basicBlock}
    (hb : st.blocks[BB]? = some b) (found1 : Nat) (rl : List Str) (code2 : Str) {a c : Nat}
    (h : Link st a c) : Link (split_state st b BB found1 rl code2) a c := by
  induction h with
  | last a c ab hab hc =>
    by_cases haB : a = BB
    · subst haB
      rw [hb] at hab; cases hab
      exact Link.next a st.blocks.length c _ (split_state_lookup_old st b a found1 rl code2 hb)
        (by simp [split_old]) (by simp [split_state])
        (Link.last _ c _ (split_state_lookup_new st b a found1 rl code2) hc)
    · have halt : a < st.blocks.length := (List.getElem?_eq_some_iff.mp hab).1
      exact Link.last a c ab
        (by rw [split_state_lookup_ne st b BB found1 rl code2 a haB halt]; exact hab) hc
  | next a f c ab hab hf hfl _ ih =>
    have hfl' : f ∈ (split_state st b BB found1 rl code2).basic_blocks := by
      simp [split_state, hfl]
    by_cases haB : a = BB
    · subst haB
      rw [hb] at hab; cases hab
      exact Link.next a st.blocks.length c _ (split_state_lookup_old st b a found1 rl code2 hb)
        (by simp [split_old]) (by simp [split_state])
        (Link.next _ f c _ (split_state_lookup_new st b a found1 rl code2) hf hfl' ih)
    · have halt : a < st.blocks.length := (List.getElem?_eq_some_iff.mp hab).1
      exact Link.next a f c ab
        (by rw [split_state_lookup_ne st b BB found1 rl code2 a haB halt]; exact hab) hf hfl' ih

theorem Link.link_reach {st : State} {a c : Nat} (h : Link st a c) :
    Reach st a → c ∈ st.basic_blocks → Reach st c := by
  induction h with
  | last a c ab hab hcs =>
    intro ha hc
    exact Reach.step a c ab ha hab hcs hc
  | next a f c ab hab hf hfl _ ih =>
    intro ha hc
    exact ih (Reach.step a f ab ha hab hf hfl) hc

theorem Reach.reach_mem {st : State} {c : Nat} (h : Reach st c) : c ∈ st.basic_blocks := by
  cases h with
  | entry c cb hc _ _ => exact hc
  | step a c ab _ _ _ hc => exact hc

theorem Orig.orig_congr {st0 : State} {V : List Nat} {st st' : State} (h : Orig st0 V st)
    (hb : st'.blocks = st.blocks) (hl : st'.basic_blocks = st.basic_blocks) :
    Orig st0 V st' := by
  intro c hc
  obtain ⟨h1, h2⟩ := h c hc
  refine ⟨by rw [hl]; exact h1, fun b0 hb0 => ?_⟩
  obtain ⟨cb, hcb, hp, hlinks⟩ := h2 b0 hb0
  refine ⟨cb, by rw [hb]; exact hcb, hp, fun s hs => ?_⟩
  exact Link.link_mono (fun x xb hx => ⟨xb, by rw [hb]; exact hx, rfl⟩)
    (fun x hx => by rw [hl]; exact hx) (hlinks s hs)

theorem Orig.orig_setBlock {st0 : State} {V : List Nat} {st : State} (h : Orig st0 V st)
    {BB : Nat} {b : basicBlock} (b' : basicBlock) (hb : st.blocks[BB]? = some b)
    (hp : b'.predecessors = b.predecessors) (hs : b'.successors = b.successors) :
    Orig st0 V (RegisterInterval.setBlock st BB b') := by
  have hrec : ∀ (x : Nat) (xb : basicBlock), st.blocks[x]? = some xb →
      ∃ xb' : basicBlock, (RegisterInterval.setBlock st BB b').blocks[x]? = some xb' ∧
        xb'.successors = xb.successors := by
    intro x xb hx
    by_cases hxB : x = BB
    · subst hxB
      rw [hb] at hx; cases hx
      exact ⟨b', setBlock_lookup_self st x _ b' hb, hs⟩
    · exact ⟨xb, by rw [setBlock_lookup_ne st BB b' x hxB]; exact hx, rfl⟩
  intro c hc
  obtain ⟨h1, h2⟩ := h c hc
  refine ⟨h1, fun b0 hb0 => ?_⟩
  obtain ⟨cb, hcb, hcp, hlinks⟩ := h2 b0 hb0
  have hl : ∀ s ∈ b0.successors, Link (RegisterInterval.setBlock st BB b') c s :=
    fun s hs' => Link.link_mono hrec (fun x hx => hx) (hlinks s hs')
  by_cases hcB : c = BB
  · subst hcB
    rw [hb] at hcb; cases hcb
    exact ⟨b', setBlock_lookup_self st c _ b' hb, by rw [hp]; exact hcp, hl⟩
  · exact ⟨cb, by rw [setBlock_lookup_ne st BB b' c hcB]; exact hcb, hcp, hl⟩

theorem Orig.orig_split {st0 : State} {V : List Nat} {st : State} (h : Orig st0 V st)
    {BB : Nat} {b : basicBlock} (hb : st.blocks[BB]? = some b) (found1 : Nat) (rl : List Str)
    (code2 : Str) : Orig st0 V (split_state st b BB found1 rl code2) := by
  intro c hc
  obtain ⟨h1, h2⟩ := h c hc
  refine ⟨by simp [split_state, h1], fun b0 hb0 => ?_⟩
  obtain ⟨cb, hcb, hcp, hlinks⟩ := h2 b0 hb0
  have hl : ∀ s ∈ b0.successors, Link (split_state st b BB found1 rl code2) c s :=
    fun s hs' => Link.link_split hb found1 rl code2 (hlinks s hs')
  by_cases hcB : c = BB
  · subst hcB
    rw [hb] at hcb; cases hcb
    exact ⟨_, split_state_lookup_old st b c found1 rl code2 hb, hcp, hl⟩
  · have hclt : c < st.blocks.length := (List.getElem?_eq_some_iff.mp hcb).1
    exact ⟨cb, by rw [split_state_lookup_ne st b BB found1 rl code2 c hcB hclt]; exact hcb,
      hcp, hl⟩

theorem Orig.orig_traverse {st0 : State} {V : List Nat} {st st' : State} (h : Orig st0 V st)
    (fuel : Nat) {BB : Nat} {N : Int} {b : basicBlock} (hb : st.blocks[BB]? = some b)
    (ht : RegisterInterval.traverse fuel st BB N = .ok st') : Orig st0 V st' := by
  rcases traverse_effect fuel st st' BB N b ((getBlock_eq_ok _ _ _).mpr hb) ht with
    ⟨rfl, _⟩ | ⟨r, _, rfl⟩ | ⟨f1, rl, code2, _, _, rfl⟩
  · exact h
  · exact h.orig_setBlock _ hb rfl rfl
  · exact h.orig_split hb f1 rl code2

theorem Orig.orig_frontier {st0 : State} {V : List Nat} {st : State} (h : Orig st0 V st)
    {s : Nat} {sb : basicBlock} (hs : st.blocks[s]? = some sb) :
    Orig st0 V (frontier_state st s sb) :=
  (h.orig_setBlock { sb with BB_registerInterval := some st.intervals.length, input_list := [] }
    hs rfl rfl).orig_congr rfl rfl

/-- The relation `Orig` to the blocks of the call is an invariant of the main
loop of pass one. -/
theorem passOne_loop_orig (N : Int) (st0 : State) (V : List Nat) (fuel : Nat) (st st' : State)
    (horig : Orig st0 V st) (h : passOne_loop N fuel st = .ok st') : Orig st0 V st' := by
  refine (passOne_loop_rule N (fun s => Orig st0 V s) (fun _ s => Orig st0 V s)
    ?_ ?_ ?_ ?_ ?_ fuel st st' horig h).1
  · intro fuel s BB rest b s' hout _ hb ht
    have hb' := (getBlock_eq_ok _ _ _).mp hb
    have hout' : Orig st0 V { s with WS := rest } := hout.orig_congr rfl rfl
    exact Orig.orig_traverse hout' fuel hb' ht
  · intro i s m hin
    exact hin.orig_congr rfl rfl
  · intro fuel i s b blk Union s' hin _ hblk _ _ _ ht
    have hblk' := (getBlock_eq_ok _ _ _).mp hblk
    exact Orig.orig_traverse
      (hin.orig_setBlock { blk with BB_registerInterval := i, input_list := Union } hblk'
        rfl rfl) fuel (setBlock_lookup_self s b blk _ hblk') ht
  · intro i s x sb hin hx _
    exact hin.orig_frontier ((getBlock_eq_ok _ _ _).mp hx)
  · intro i s0 s S _ _ _ hin
    exact hin

theorem Reach.reach_orig {st0 : State} {V : List Nat} {st : State} (horig : Orig st0 V st)
    {c : Nat} (h : Reach { st0 with basic_blocks := V } c) : Reach st c := by
  induction h with
  | entry c cb hc hcb hp =>
    obtain ⟨h1, h2⟩ := horig c hc
    obtain ⟨cb', hcb', hp', _⟩ := h2 cb hcb
    exact Reach.entry c cb' h1 hcb' (by rw [hp']; exact hp)
  | step a c ab ha hab hcs hc ih =>
    obtain ⟨_, h2⟩ := horig a ha.reach_mem
    obtain ⟨_, _, _, hlinks⟩ := h2 ab hab
    exact (hlinks c hcs).link_reach ih (horig c hc).1

/-- After the initialisation and the seeding of pass one the blocks of the call
are in the block list with their predecessor and successor lists. -/
theorem passOne_start_orig (st st1 st2 : State) (BB_vector : List Nat) (hws : st.WS = [])
    (h1 : passOne_init { st with basic_blocks := BB_vector } = .ok st1)
    (h2 : passOne_seed { st1 with RegisterIntervals := [] } = .ok st2) :
    Orig st BB_vector st2 := by
  obtain ⟨_, hbb2, hlen2, _, hfr⟩ := passOne_start st st1 st2 BB_vector hws h1 h2
  intro c hc
  refine ⟨by rw [hbb2]; exact hc, fun b0 hb0 => ?_⟩
  have hclt : c < st2.blocks.length := by
    rw [hlen2]; exact (List.getElem?_eq_some_iff.mp hb0).1
  have hcb : st2.blocks[c]? = some (st2.blocks[c]) := List.getElem?_eq_getElem hclt
  obtain ⟨b, hb, e1, _⟩ := hfr c hc _ hcb
  rw [hb0] at hb
  cases hb
  refine ⟨_, hcb, by rw [e1], fun s hs => ?_⟩
  exact Link.last c s _ hcb (by rw [e1]; exact hs)

/-- C3. When pass one, called with an empty working set, returns, every block of
the block list that can be reached along successor edges from a block without
predecessor has exactly one register-interval, and this register-interval is an
element of the returned vector.  This holds for reachability in the graph as it
is when pass one returns, whose block list includes the blocks made by splits,
and for reachability in the graph of the call. -/
theorem passOne_no_orphans (fuel : Nat) (st st' : State) (BB_vector l : List Nat) (N : Int)
    (hws : st.WS = [])
    (h : registerIntervalCreationPassOne fuel st BB_vector N = .ok (st', l)) :
    (∀ c, Reach st' c →
      ∃ cb : basicBlock, st'.blocks[c]? = some cb ∧
        ∃! t, cb.BB_registerInterval = some t ∧ t ∈ l) ∧
    (∀ c, Reach { st with basic_blocks := BB_vector } c →
      ∃ cb : basicBlock, st'.blocks[c]? = some cb ∧
        ∃! t, cb.BB_registerInterval = some t ∧ t ∈ l) := by
  obtain ⟨st1, st2, st3, st4, h1, h2, h3, _, _, e', _, hl⟩ :=
    passOne_phases fuel st st' BB_vector l N h
  obtain ⟨hseed, hbb2, _, _, hfr⟩ := passOne_start st st1 st2 BB_vector hws h1 h2
  have hseeded : Seeded st2 := by
    intro c hc cb hcb hpred
    rw [hbb2] at hc
    obtain ⟨b, _, e1, e2⟩ := hfr c hc cb hcb
    apply e2
    rw [e1] at hpred
    exact hpred
  obtain ⟨⟨hb3, hc3, hs3⟩, hws3⟩ :=
    passOne_loop_covered N fuel st2 st3 hseed.1 hseed.covered hseeded h3
  have hblocks : st'.blocks = st3.blocks := by rw [e']
  have hbbs : st'.basic_blocks = st3.basic_blocks := by rw [e']
  have horig : Orig st BB_vector st' :=
    (passOne_loop_orig N st BB_vector fuel st2 st3
      (passOne_start_orig st st1 st2 BB_vector hws h1 h2) h3).orig_congr hblocks hbbs
  have key : ∀ c, Reach st' c →
      ∃ cb : basicBlock, st'.blocks[c]? = some cb ∧
        ∃! t, cb.BB_registerInterval = some t ∧ t ∈ l := by
    intro c hr
    obtain ⟨cb, t, hcb, hct, htm⟩ :=
      Reach.assigned hb3 hc3 hs3 hws3 (Reach.reach_congr hblocks hbbs hr)
    refine ⟨cb, by rw [hblocks]; exact hcb, t, ⟨hct, by rw [hl]; exact htm⟩, ?_⟩
    rintro t' ⟨ht', _⟩
    rw [hct] at ht'
    cases ht'
    rfl
  exact ⟨key, fun c hr => key c (Reach.reach_orig horig hr)⟩

/-! ## Pass one: the size of the register sets of the blocks -/

theorem SizedAt.sizedat_traverse {N : Int} {G : Nat → Prop} {BB : Nat} {st st' : State}
    (h : SizedAt N G BB st) (fuel : Nat) {b : basicBlock} (hb : st.blocks[BB]? = some b)
    (ht : RegisterInterval.traverse fuel st BB N = .ok st') : Sized N G st' := by
  have hBlt : BB < st.blocks.length := (List.getElem?_eq_some_iff.mp hb).1
  rcases traverse_effect fuel st st' BB N b ((getBlock_eq_ok _ _ _).mpr hb) ht with
    ⟨rfl, hsemi⟩ | ⟨r, hr, rfl⟩ | ⟨f1, rl, code2, hrl, hsemi2, rfl⟩
  · intro c hc cb hcb
    obtain ⟨g1, g2⟩ := h c hc cb hcb
    refine ⟨g1, fun hG => ?_⟩
    obtain ⟨g3, g4⟩ := g2 hG
    by_cases hcB : c = BB
    · subst hcB
      rw [hb] at hcb; cases hcb
      obtain ⟨g5, g6⟩ := g4 rfl
      refine ⟨fun hn => absurd hn g5, fun _ => Or.inr ?_⟩
      rcases g6 with g6 | g6
      · exact absurd g6 hsemi
      · exact g6
    · exact g3 hcB
  · intro c hc cb hcb
    rcases setBlock_lookup st BB _ cb c hcb with ⟨rfl, rfl⟩ | ⟨hcne, hcb'⟩
    · obtain ⟨g1, g2⟩ := h c hc b hb
      refine ⟨g1, fun hG => ?_⟩
      obtain ⟨_, g4⟩ := g2 hG
      obtain ⟨g5, _⟩ := g4 rfl
      exact ⟨fun hn => absurd hn g5, fun _ => Or.inr hr⟩
    · obtain ⟨g1, g2⟩ := h c hc cb hcb'
      exact ⟨g1, fun hG => (g2 hG).1 hcne⟩
  · intro c hc cb hcb
    simp only [split_state, List.mem_append, List.mem_singleton] at hc
    rcases split_state_lookup st b BB f1 rl code2 cb c hb hcb with
      ⟨rfl, rfl⟩ | ⟨rfl, rfl⟩ | ⟨hcne, hclt, hcb'⟩
    · have hcin : c ∈ st.basic_blocks := by
        rcases hc with hc | hc
        · exact hc
        · omega
      obtain ⟨g1, g2⟩ := h c hcin b hb
      refine ⟨g1, fun hG => ?_⟩
      obtain ⟨_, g4⟩ := g2 hG
      obtain ⟨g5, _⟩ := g4 rfl
      refine ⟨fun hn => absurd hn g5, fun _ => Or.inr ?_⟩
      show rl.length ≤ to_size N
      rcases hrl with rfl | hrl
      · exact g1
      · exact hrl
    · refine ⟨by simp [split_new], fun _ => ⟨fun hn => by simp [split_new] at hn, fun _ => ?_⟩⟩
      exact Or.inl ⟨by simp [split_state], hsemi2⟩
    · have hcin : c ∈ st.basic_blocks := by
        rcases hc with hc | hc
        · exact hc
        · omega
      obtain ⟨g1, g2⟩ := h c hcin cb hcb'
      refine ⟨g1, fun hG => ?_⟩
      obtain ⟨g3, g4⟩ := (g2 hG).1 hcne
      refine ⟨g3, fun hne => ?_⟩
      rcases g4 hne with ⟨g5, g6⟩ | g5
      · exact Or.inl ⟨by simp [split_state, g5], g6⟩
      · exact Or.inr g5

theorem Sized.sized_pop {N : Int} {G : Nat → Prop} {st : State} (h : Sized N G st)
    (hbase : Base st) {BB : Nat} {rest : List Nat} (hws : st.WS = BB :: rest) :
    SizedAt N G BB { st with WS := rest } := by
  intro c hc cb hcb
  obtain ⟨g1, g2⟩ := h c hc cb hcb
  refine ⟨g1, fun hG => ?_⟩
  obtain ⟨g3, g4⟩ := g2 hG
  refine ⟨fun hcne => ⟨g3, fun hne => ?_⟩, ?_⟩
  · rcases g4 hne with ⟨g5, g6⟩ | g5
    · rw [hws] at g5
      simp only [List.mem_cons] at g5
      rcases g5 with g5 | g5
      · exact absurd g5 hcne
      · exact Or.inl ⟨g5, g6⟩
    · exact Or.inr g5
  · rintro rfl
    obtain ⟨wb, hwb, t, hwt, _⟩ := hbase.2.2.1 c (by rw [hws]; exact List.mem_cons_self _ _)
    rw [show st.blocks[c]? = some cb from hcb] at hwb
    cases hwb
    have hne : cb.BB_registerInterval ≠ none := by rw [hwt]; simp
    refine ⟨hne, ?_⟩
    rcases g4 hne with ⟨_, g6⟩ | g5
    · exact Or.inl g6
    · exact Or.inr g5

theorem Sized.sized_marks {N : Int} {G : Nat → Prop} {st : State} (h : Sized N G st)
    (m : List Bool) : Sized N G { st with mark := m } := h

theorem Sized.sized_assign {N : Int} {G : Nat → Prop} {st : State} (h : Sized N G st) {b : Nat}
    {blk : basicBlock} (hb : st.blocks[b]? = some blk)
    (hnone : blk.BB_registerInterval = none) (t : Nat) (Union : List Str)
    (hU : size_lt Union.length N = true) :
    SizedAt N G b
      (setBlock st b { blk with BB_registerInterval := some t, input_list := Union }) := by
  intro c hc cb hcb
  rcases setBlock_lookup st b _ cb c hcb with ⟨rfl, rfl⟩ | ⟨hcne, hcb'⟩
  · obtain ⟨_, g2⟩ := h c hc blk hb
    refine ⟨?_, fun hG => ⟨fun hcne => absurd rfl hcne, fun _ => ⟨by simp, ?_⟩⟩⟩
    · simp only [size_lt, decide_eq_true_eq] at hU
      exact le_of_lt hU
    · exact Or.inl ((g2 hG).1 hnone)
  · obtain ⟨g1, g2⟩ := h c hc cb hcb'
    exact ⟨g1, fun hG => ⟨fun _ => g2 hG, fun hcb => absurd hcb hcne⟩⟩

theorem Sized.sized_frontier {N : Int} {G : Nat → Prop} {st : State} (h : Sized N G st) {s : Nat}
    {sb : basicBlock} (hs : st.blocks[s]? = some sb) (hnone : sb.BB_registerInterval = none) :
    Sized N G (frontier_state st s sb) := by
  intro c hc cb hcb
  have hcin : c ∈ st.basic_blocks := hc
  rcases frontier_state_lookup st s sb cb c hcb with ⟨rfl, rfl⟩ | ⟨hcs, hcb'⟩
  · obtain ⟨_, g2⟩ := h c hcin sb hs
    refine ⟨by simp, fun hG => ⟨fun hn => by simp at hn, fun _ => Or.inl ⟨?_, ?_⟩⟩⟩
    · simp [frontier_state]
    · exact (g2 hG).1 hnone
  · obtain ⟨g1, g2⟩ := h c hcin cb hcb'
    refine ⟨g1, fun hG => ?_⟩
    obtain ⟨g3, g4⟩ := g2 hG
    refine ⟨g3, fun hne => ?_⟩
    rcases g4 hne with ⟨g5, g6⟩ | g5
    · exact Or.inl ⟨by simp [frontier_state, g5], g6⟩
    · exact Or.inr g5

/-- The invariants of the main loop of pass one that bound the register sets
hold when the loop ends, and the working set is empty then. -/
theorem passOne_loop_sized (N : Int) (G : Nat → Prop) (fuel : Nat) (st st' : State)
    (hbase : Base st) (hsized : Sized N G st) (h : passOne_loop N fuel st = .ok st') :
    (Base st' ∧ Sized N G st') ∧ st'.WS = [] := by
  refine passOne_loop_rule N (fun s => Base s ∧ Sized N G s)
    (fun i s => BaseIn i s ∧ Sized N G s) ?_ ?_ ?_ ?_ ?_ fuel st st' ⟨hbase, hsized⟩ h
  · intro fuel s BB rest b s' hout hws hb ht
    have hb' := (getBlock_eq_ok _ _ _).mp hb
    exact ⟨BaseIn.enter hout.1 fuel N hws hb ht,
      SizedAt.sizedat_traverse (hout.2.sized_pop hout.1 hws) fuel hb' ht⟩
  · intro i s m hin
    exact ⟨hin.1.basein_marks m, hin.2.sized_marks m⟩
  · intro fuel i s b blk Union s' hin _ hblk hnone _ hU ht
    have hblk' := (getBlock_eq_ok _ _ _).mp hblk
    refine ⟨hin.1.grow fuel N Union hblk ht, ?_⟩
    obtain ⟨_, t, rfl, _⟩ := hin.1
    exact SizedAt.sizedat_traverse (hin.2.sized_assign hblk' hnone t Union hU) fuel
      (setBlock_lookup_self s b blk _ hblk') ht
  · intro i s x sb hin hx hnone
    have hx' := (getBlock_eq_ok _ _ _).mp hx
    exact ⟨hin.1.basein_frontier hx, hin.2.sized_frontier hx' hnone⟩
  · intro i s0 s S _ _ _ hin
    exact ⟨hin.1.1, hin.2⟩

/-- When pass one, called with an empty working set, returns, every block of the
final block list that has a register-interval, and whose text had a statement
terminator at the call in case it is a block of the given block list, has an
output list of at most `N` registers, where `N` is read as a `size_t`. -/
theorem passOne_sized (fuel : Nat) (st st' : State) (BB_vector l : List Nat) (N : Int)
    (hws : st.WS = [])
    (h : registerIntervalCreationPassOne fuel st BB_vector N = .ok (st', l)) :
    ∀ c ∈ st'.basic_blocks, ∀ cb : basicBlock, st'.blocks[c]? = some cb →
      (c ∈ BB_vector → ∀ b : basicBlock, st.blocks[c]? = some b → ';' ∈ b.code) →
      cb.BB_registerInterval ≠ none → cb.output_list.length ≤ to_size N := by
  obtain ⟨st1, st2, st3, st4, h1, h2, h3, _, _, e', _, hl⟩ :=
    passOne_phases fuel st st' BB_vector l N h
  obtain ⟨hseed, hbb2, _, hin2, hfr⟩ := passOne_start st st1 st2 BB_vector hws h1 h2
  have hsized2 : Sized N
      (fun c => c ∈ BB_vector → ∀ b : basicBlock, st.blocks[c]? = some b → ';' ∈ b.code)
      st2 := by
    intro c hc cb hcb
    have hc' : c ∈ BB_vector := hbb2 ▸ hc
    refine ⟨by rw [hin2 c hc' cb hcb]; simp, fun hG => ?_⟩
    obtain ⟨b, hb, e1, _⟩ := hfr c hc' cb hcb
    have hsemi : ';' ∈ cb.code := by
      rw [e1]
      exact hG hc' b hb
    exact ⟨fun _ => hsemi, fun hne => Or.inl ⟨(hseed.2 c hc cb hcb hne).2, hsemi⟩⟩
  obtain ⟨⟨_, hs3⟩, hws3⟩ := passOne_loop_sized N _ fuel st2 st3 hseed.1 hsized2 h3
  have hblocks : st'.blocks = st3.blocks := by rw [e']
  have hbbs : st'.basic_blocks = st3.basic_blocks := by rw [e']
  rw [hblocks, hbbs]
  intro c hc cb hcb hG hne
  rcases ((hs3 c hc cb hcb).2 hG).2 hne with ⟨g1, _⟩ | g2
  · rw [hws3] at g1; cases g1
  · exact g2

/-! ## Pass one: the blocks created by splits -/

theorem Frag.frag_congr {n0 : Nat} {st st' : State} (h : Frag n0 st)
    (hb : st'.blocks = st.blocks) (hl : st'.basic_blocks = st.basic_blocks) : Frag n0 st' := by
  unfold Frag
  rw [hb, hl]
  exact h

theorem Frag.frag_setBlock {n0 : Nat} {st : State} (h : Frag n0 st) {BB : Nat} {b : basicBlock}
    (b' : basicBlock) (hb : st.blocks[BB]? = some b) (hp : b'.predecessors = b.predecessors)
    (hs : b'.successors = b.successors)
    (hi : b.BB_registerInterval ≠ none → b'.BB_registerInterval ≠ none) :
    Frag n0 (RegisterInterval.setBlock st BB b') := by
  have hlen : (RegisterInterval.setBlock st BB b').blocks.length = st.blocks.length := by
    simp [RegisterInterval.setBlock]
  refine ⟨by rw [hlen]; exact h.1, fun c hc hclt => ?_⟩
  rw [hlen] at hclt
  obtain ⟨g1, cb, hcb, g2, g3, q, qb, hq, g4⟩ := h.2 c hc hclt
  refine ⟨g1, ?_⟩
  have hq' : ∃ (q : Nat) (qb : basicBlock),
      (RegisterInterval.setBlock st BB b').blocks[q]? = some qb ∧ qb.successors = [c] := by
    by_cases hqB : q = BB
    · subst hqB
      rw [hb] at hq; cases hq
      exact ⟨q, b', setBlock_lookup_self st q _ b' hb, by rw [hs]; exact g4⟩
    · exact ⟨q, qb, by rw [setBlock_lookup_ne st BB b' q hqB]; exact hq, g4⟩
  by_cases hcB : c = BB
  · subst hcB
    rw [hb] at hcb; cases hcb
    exact ⟨b', setBlock_lookup_self st c _ b' hb, hi g2, by rw [hp]; exact g3, hq'⟩
  · exact ⟨cb, by rw [setBlock_lookup_ne st BB b' c hcB]; exact hcb, g2, g3, hq'⟩

theorem Frag.frag_split {n0 : Nat} {st : State} (h : Frag n0 st) {BB : Nat} {b : basicBlock}
    (hb : st.blocks[BB]? = some b) (found1 : Nat) (rl : List Str) (code2 : Str) :
    Frag n0 (split_state st b BB found1 rl code2) := by
  have hBlt : BB < st.blocks.length := (List.getElem?_eq_some_iff.mp hb).1
  have hlen : (split_state st b BB found1 rl code2).blocks.length = st.blocks.length + 1 := by
    simp [split_state]
  refine ⟨by rw [hlen]; exact Nat.le_succ_of_le h.1, fun c hc hclt => ?_⟩
  rw [hlen] at hclt
  by_cases hcl : c = st.blocks.length
  · subst hcl
    refine ⟨by simp [split_state], split_new st b BB code2,
      split_state_lookup_new st b BB found1 rl code2, by simp [split_new],
      ⟨BB, hBlt, rfl⟩, BB, _, split_state_lookup_old st b BB found1 rl code2 hb, rfl⟩
  · have hclt' : c < st.blocks.length := by omega
    obtain ⟨g1, cb, hcb, g2, g3, q, qb, hq, g4⟩ := h.2 c hc hclt'
    refine ⟨by simp [split_state, g1], ?_⟩
    have hq' : ∃ (q : Nat) (qb : basicBlock),
        (split_state st b BB found1 rl code2).blocks[q]? = some qb ∧ qb.successors = [c] := by
      by_cases hqB : q = BB
      · subst hqB
        rw [hb] at hq; cases hq
        exact ⟨st.blocks.length, _, split_state_lookup_new st b q found1 rl code2, g4⟩
      · have hqlt : q < st.blocks.length := (List.getElem?_eq_some_iff.mp hq).1
        exact ⟨q, qb, by rw [split_state_lookup_ne st b BB found1 rl code2 q hqB hqlt]; exact hq,
          g4⟩
    by_cases hcB : c = BB
    · subst hcB
      rw [hb] at hcb; cases hcb
      exact ⟨_, split_state_lookup_old st b c found1 rl code2 hb, g2, g3, hq'⟩
    · exact ⟨cb, by rw [split_state_lookup_ne st b BB found1 rl code2 c hcB hclt']; exact hcb,
        g2, g3, hq'⟩

theorem Frag.frag_traverse {n0 : Nat} {st st' : State} (h : Frag n0 st) (fuel : Nat) {BB : Nat}
    {N : Int} {b : basicBlock} (hb : st.blocks[BB]? = some b)
    (ht : RegisterInterval.traverse fuel st BB N = .ok st') : Frag n0 st' := by
  rcases traverse_effect fuel st st' BB N b ((getBlock_eq_ok _ _ _).mpr hb) ht with
    ⟨rfl, _⟩ | ⟨r, _, rfl⟩ | ⟨f1, rl, code2, _, _, rfl⟩
  · exact h
  · exact h.frag_setBlock _ hb rfl rfl (fun hne => hne)
  · exact h.frag_split hb f1 rl code2

theorem Frag.frag_frontier {n0 : Nat} {st : State} (h : Frag n0 st) {s : Nat} {sb : basicBlock}
    (hs : st.blocks[s]? = some sb) : Frag n0 (frontier_state st s sb) :=
  (h.frag_setBlock { sb with BB_registerInterval := some st.intervals.length, input_list := [] }
    hs rfl rfl (fun _ => by simp)).frag_congr rfl rfl

/-- The description `Frag` of the blocks created by splits is an invariant of
the main loop of pass one. -/
theorem passOne_loop_frag (N : Int) (n0 : Nat) (fuel : Nat) (st st' : State)
    (hfrag : Frag n0 st) (h : passOne_loop N fuel st = .ok st') : Frag n0 st' := by
  refine (passOne_loop_rule N (fun s => Frag n0 s) (fun _ s => Frag n0 s)
    ?_ ?_ ?_ ?_ ?_ fuel st st' hfrag h).1
  · intro fuel s BB rest b s' hout _ hb ht
    have hb' := (getBlock_eq_ok _ _ _).mp hb
    exact Frag.frag_traverse (show Frag n0 { s with WS := rest } from hout) fuel hb' ht
  · intro i s m hin
    exact hin
  · intro fuel i s b blk Union s' hin _ hblk hnone _ _ ht
    have hblk' := (getBlock_eq_ok _ _ _).mp hblk
    exact Frag.frag_traverse
      (hin.frag_setBlock { blk with BB_registerInterval := i, input_list := Union } hblk'
        rfl rfl (fun hne => absurd hnone hne)) fuel
      (setBlock_lookup_self s b blk _ hblk') ht
  · intro i s x sb hin hx _
    exact hin.frag_frontier ((getBlock_eq_ok _ _ _).mp hx)
  · intro i s0 s S _ _ _ hin
    exact hin

theorem to_size_le (N : Int) (h0 : 0 ≤ N) : (to_size N : Int) ≤ N := by
  unfold to_size
  omega

/-! ## Pass one: the register lists of the register-intervals -/

theorem length_reg_union_le (t : List Str) : ∀ s : List Str,
    (reg_union s t).length ≤ s.length + t.length := by
  induction t with
  | nil => intro s; simp [reg_union]
  | cons r t ih =>
    intro s
    have h1 := ih (reg_insert r s)
    have h2 : (reg_insert r s).length ≤ s.length + 1 := length_set_insert_le _ r s
    have e : reg_union s (r :: t) = reg_union (reg_insert r s) t := rfl
    rw [e]
    simp only [List.length_cons]
    omega

theorem member_registers_congr (st st' : State) (i : Nat) (hb : st'.blocks = st.blocks)
    (hl : st'.basic_blocks = st.basic_blocks) :
    member_registers st' i = member_registers st i := by
  simp only [member_registers, getBlock, hb, hl]

theorem members_congr (st st' : State) (i : Nat) (hb : st'.blocks = st.blocks)
    (hl : st'.basic_blocks = st.basic_blocks) : members st' i = members st i := by
  simp only [members, hb, hl]

theorem member_fold_length (st : State) (i n : Nat) (L : List Nat)
    (hout : ∀ c ∈ L, ∀ cb : basicBlock, st.blocks[c]? = some cb →
      cb.BB_registerInterval = some i → cb.output_list.length ≤ n) :
    ∀ acc regs : List Str,
      L.foldlM (fun regList b => do
        let blk ← getBlock st b
        if blk.BB_registerInterval = some i then pure (reg_union regList blk.output_list)
        else pure regList) acc = (.ok regs : M (List Str)) →
      regs.length ≤ acc.length +
        (L.filter (fun c =>
          match st.blocks[c]? with
          | some cb => decide (cb.BB_registerInterval = some i)
          | none => false)).length * n := by
  induction L with
  | nil =>
    intro acc regs h
    simp only [List.foldlM, pure, Except.pure] at h
    cases h
    simp
  | cons c L ih =>
    intro acc regs h
    rw [List.foldlM_cons] at h
    obtain ⟨acc1, h1, h2⟩ := (bind_eq_ok _ _ _).mp h
    obtain ⟨blk, hblk, h1⟩ := (bind_eq_ok _ _ _).mp h1
    have hblk' := (getBlock_eq_ok _ _ _).mp hblk
    have ih' := ih (fun c' hc' => hout c' (List.mem_cons_of_mem _ hc')) acc1 regs h2
    by_cases hi : blk.BB_registerInterval = some i
    · rw [if_pos hi] at h1
      cases h1
      have hlen := length_reg_union_le blk.output_list acc
      have ho := hout c (List.mem_cons_self _ _) blk hblk' hi
      rw [List.filter_cons_of_pos (by simp [hblk', hi])]
      simp only [List.length_cons]
      rw [Nat.succ_mul]
      omega
    · rw [if_neg hi] at h1
      cases h1
      rw [List.filter_cons_of_neg (by simp [hblk', hi])]
      exact ih'

theorem member_registers_length (st : State) (i n : Nat) (regs : List Str)
    (hout : ∀ c ∈ st.basic_blocks, ∀ cb : basicBlock, st.blocks[c]? = some cb →
      cb.BB_registerInterval = some i → cb.output_list.length ≤ n)
    (h : member_registers st i = .ok regs) :
    regs.length ≤ (members st i).length * n := by
  have := member_fold_length st i n st.basic_blocks hout [] regs h
  simpa [members] using this

theorem passOne_register_lists_fold (L : List Nat) : ∀ (st st' : State),
    L.foldlM (fun st i => do
      let regList ← member_registers st i
      let I ← getInterval st i
      let I ← I.set_register_list regList
      pure (setInterval st i I)) st = (.ok st' : M State) →
    (st'.blocks = st.blocks ∧ st'.basic_blocks = st.basic_blocks) ∧
    (∀ (j : Nat) (I : registerInterval), st.intervals[j]? = some I →
      ∃ I' : registerInterval, st'.intervals[j]? = some I' ∧
        (I'.register_list = I.register_list ∨
          (j ∈ L ∧ member_registers st j = .ok I'.register_list))) ∧
    (∀ j ∈ L, ∃ I' : registerInterval, st'.intervals[j]? = some I' ∧
      member_registers st j = .ok I'.register_list) := by
  induction L with
  | nil =>
    intro st st' h
    simp only [List.foldlM, pure, Except.pure] at h
    cases h
    exact ⟨⟨rfl, rfl⟩, fun j I hI => ⟨I, hI, Or.inl rfl⟩, fun j hj => by cases hj⟩
  | cons i L ih =>
    intro st st' h
    rw [List.foldlM_cons] at h
    obtain ⟨s1, h1, h2⟩ := (bind_eq_ok _ _ _).mp h
    obtain ⟨regs, hregs, h1⟩ := (bind_eq_ok _ _ _).mp h1
    obtain ⟨I0, hI0, h1⟩ := (bind_eq_ok _ _ _).mp h1
    obtain ⟨I1, hI1, h1⟩ := (bind_eq_ok _ _ _).mp h1
    simp only [pure, Except.pure, Except.ok.injEq] at h1
    subst h1
    have hI0' := (getInterval_eq_ok _ _ _).mp hI0
    have hilt : i < st.intervals.length := (List.getElem?_eq_some_iff.mp hI0').1
    have hI1r : I1.register_list = regs := (set_register_list_fields I0 I1 regs hI1).2.2.2.2.2.1
    obtain ⟨⟨e1, e2⟩, g1, g2⟩ := ih (setInterval st i I1) st' h2
    have hb : st'.blocks = st.blocks := e1
    have hl : st'.basic_blocks = st.basic_blocks := e2
    have hmr : ∀ j, member_registers (setInterval st i I1) j = member_registers st j :=
      fun j => member_registers_congr st _ j rfl rfl
    have hself : (setInterval st i I1).intervals[i]? = some I1 := by
      simp [setInterval, hilt]
    have hi : ∃ I' : registerInterval, st'.intervals[i]? = some I' ∧
        member_registers st i = .ok I'.register_list := by
      obtain ⟨I', hI', hor⟩ := g1 i I1 hself
      refine ⟨I', hI', ?_⟩
      rcases hor with hor | ⟨_, hor⟩
      · rw [hor, hI1r]; exact hregs
      · rw [← hmr i]; exact hor
    refine ⟨⟨hb, hl⟩, fun j I hI => ?_, fun j hj => ?_⟩
    · by_cases hji : j = i
      · subst hji
        obtain ⟨I', hI', hm⟩ := hi
        exact ⟨I', hI', Or.inr ⟨List.mem_cons_self _ _, hm⟩⟩
      · have hj1 : (setInterval st i I1).intervals[j]? = some I := by
          simp only [setInterval]
          rw [List.getElem?_set_ne (fun e => hji e.symm)]
          exact hI
        obtain ⟨I', hI', hor⟩ := g1 j I hj1
        refine ⟨I', hI', ?_⟩
        rcases hor with hor | ⟨hjL, hor⟩
        · exact Or.inl hor
        · exact Or.inr ⟨List.mem_cons_of_mem _ hjL, by rw [← hmr j]; exact hor⟩
    · rcases List.mem_cons.mp hj with rfl | hjL
      · exact hi
      · obtain ⟨I', hI', hm⟩ := g2 j hjL
        exact ⟨I', hI', by rw [← hmr j]; exact hm⟩

theorem passOne_register_lists_spec (st st' : State)
    (h : passOne_register_lists st = .ok st') :
    ∀ j ∈ st.RegisterIntervals, ∃ I' : registerInterval, st'.intervals[j]? = some I' ∧
      member_registers st j = .ok I'.register_list :=
  (passOne_register_lists_fold st.RegisterIntervals st st' h).2.2

/-! ## The claims on the register budget in pass one -/

/-- The bound that holds on the register lists of pass one.  When pass one,
called with an empty working set, a budget
`N ≥ 0` and a block list whose blocks all have a statement terminator in their
text, returns, the register list of every returned register-interval has at
most `m * N` elements, where `m` is the number of entries of the final block
list that are members of the register-interval; a register-interval with one
member block holds at most `N` registers, and `N` registers are possible. -/
theorem passOne_register_list_le (fuel : Nat) (st st' : State) (BB_vector l : List Nat)
    (N : Int) (hws : st.WS = []) (h0 : 0 ≤ N)
    (hsemi : ∀ c ∈ BB_vector, ∀ b : basicBlock, st.blocks[c]? = some b → ';' ∈ b.code)
    (h : registerIntervalCreationPassOne fuel st BB_vector N = .ok (st', l)) :
    ∀ i ∈ l, ∃ I : registerInterval, st'.intervals[i]? = some I ∧
      (I.register_list.length : Int) ≤ (members st' i).length * N := by
  have hsized := passOne_sized fuel st st' BB_vector l N hws h
  obtain ⟨st1, st2, st3, st4, _, _, _, h4, _, e', hreg, hl⟩ :=
    passOne_phases fuel st st' BB_vector l N h
  have hblocks : st'.blocks = st3.blocks := by rw [e']
  have hbbs : st'.basic_blocks = st3.basic_blocks := by rw [e']
  intro i hi
  rw [hl] at hi
  obtain ⟨I4, hI4, hm⟩ := passOne_register_lists_spec st3 st4 h4 i hi
  obtain ⟨I, hI, hIr⟩ := hreg i I4 hI4
  refine ⟨I, hI, ?_⟩
  have hm' : member_registers st' i = .ok I4.register_list := by
    rw [member_registers_congr st3 st' i hblocks hbbs]; exact hm
  have hlen := member_registers_length st' i (to_size N) I4.register_list
    (fun c hc cb hcb hcbi =>
      hsized c hc cb hcb (fun hcv => hsemi c hcv) (by rw [hcbi]; simp)) hm'
  rw [hIr]
  have hN := to_size_le N h0
  have hcast : ((I4.register_list.length : Nat) : Int) ≤
      (((members st' i).length * to_size N : Nat) : Int) := by exact_mod_cast hlen
  push_cast at hcast
  have hm0 : (0 : Int) ≤ ((members st' i).length : Int) := Int.natCast_nonneg _
  calc (I4.register_list.length : Int) ≤ ((members st' i).length : Int) * (to_size N : Int) :=
        hcast
    _ ≤ ((members st' i).length : Int) * N := mul_le_mul_of_nonneg_left hN hm0

/-- Pass one on the single block ` MOV R1;` with budget 1 returns one
register-interval with one member block and a register list of one element. -/
theorem passOne_register_list_le_witness :
    one_register.WS = [] ∧ (0 : Int) ≤ 1 ∧
    (∀ c ∈ [0], ∀ b : basicBlock, one_register.blocks[c]? = some b → ';' ∈ b.code) ∧
    ∃ st' l, registerIntervalCreationPassOne 20 one_register [0] 1 = .ok (st', l) ∧
      l = [0] ∧
      ∀ i ∈ l, ∃ I : registerInterval, st'.intervals[i]? = some I ∧
        (I.register_list.length : Int) ≤ (members st' i).length * 1 := by
  have hsemi : ∀ c ∈ [0], ∀ b : basicBlock, one_register.blocks[c]? = some b →
      ';' ∈ b.code := by
    intro c hc b hb
    simp only [List.mem_singleton] at hc
    subst hc
    have e : one_register.blocks[0]? = some (front_end_block 0 "BB0" " MOV R1;" [] []) := rfl
    rw [e] at hb
    cases hb
    decide
  obtain ⟨⟨st', l⟩, hrun, hv⟩ :=
    ok_of_map_eq (registerIntervalCreationPassOne 20 one_register [0] 1)
      (fun r => r.2) [0] (by decide)
  exact ⟨rfl, by decide, hsemi, st', l, hrun, hv,
    passOne_register_list_le 20 one_register st' [0] l 1 rfl (by decide) hsemi hrun⟩

/-- C8, amended. When pass one, called with an empty working set and a budget
`N ≥ 0`, returns, every block that a split created is in the final block list,
has exactly one predecessor, which is an older block, is the only successor of
some block, and has an output register set of at most `N` elements; and every
block of the call that is in the final block list, had a statement terminator in
its text and has a register-interval has an output register set of at most `N`
elements. -/
theorem passOne_fragments_le (fuel : Nat) (st st' : State) (BB_vector l : List Nat) (N : Int)
    (hws : st.WS = []) (h0 : 0 ≤ N)
    (h : registerIntervalCreationPassOne fuel st BB_vector N = .ok (st', l)) :
    (∀ c, st.blocks.length ≤ c → c < st'.blocks.length →
      c ∈ st'.basic_blocks ∧ ∃ cb : basicBlock, st'.blocks[c]? = some cb ∧
        (∃ p, p < c ∧ cb.predecessors = [p]) ∧
        (∃ (q : Nat) (qb : basicBlock), st'.blocks[q]? = some qb ∧ qb.successors = [c]) ∧
        (cb.output_list.length : Int) ≤ N) ∧
    (∀ c ∈ st'.basic_blocks, ∀ b cb : basicBlock, st.blocks[c]? = some b → ';' ∈ b.code →
      st'.blocks[c]? = some cb → cb.BB_registerInterval ≠ none →
      (cb.output_list.length : Int) ≤ N) := by
  have hsized := passOne_sized fuel st st' BB_vector l N hws h
  have hN := to_size_le N h0
  obtain ⟨st1, st2, st3, st4, h1, h2, h3, _, _, e', _, _⟩ :=
    passOne_phases fuel st st' BB_vector l N h
  obtain ⟨_, _, hlen2, _, _⟩ := passOne_start st st1 st2 BB_vector hws h1 h2
  have hfrag2 : Frag st.blocks.length st2 :=
    ⟨by rw [hlen2], fun c hc hclt => by rw [hlen2] at hclt; omega⟩
  have hfrag3 := passOne_loop_frag N st.blocks.length fuel st2 st3 hfrag2 h3
  have hblocks : st'.blocks = st3.blocks := by rw [e']
  have hbbs : st'.basic_blocks = st3.basic_blocks := by rw [e']
  have hfrag := hfrag3.frag_congr hblocks hbbs
  constructor
  · intro c hc hclt
    obtain ⟨g1, cb, hcb, g2, g3, g4⟩ := hfrag.2 c hc hclt
    refine ⟨g1, cb, hcb, g3, g4, ?_⟩
    have hnone : st.blocks[c]? = none := List.getElem?_eq_none (by omega)
    have := hsized c g1 cb hcb (fun _ b hb => by rw [hnone] at hb; cases hb) g2
    have hcast : ((cb.output_list.length : Nat) : Int) ≤ ((to_size N : Nat) : Int) := by
      exact_mod_cast this
    exact le_trans hcast hN
  · intro c hc b cb hb hsemi hcb hne
    have := hsized c hc cb hcb (fun _ b' hb' => by rw [hb] at hb'; cases hb'; exact hsemi) hne
    have hcast : ((cb.output_list.length : Nat) : Int) ≤ ((to_size N : Nat) : Int) := by
      exact_mod_cast this
    exact le_trans hcast hN

/-- Pass one on the block ` MOV R1; MOV R2; MOV R3;` with budget 2 splits the
block once; the created block is block 1. -/
theorem passOne_fragments_le_witness :
    three_statements.WS = [] ∧ (0 : Int) ≤ 2 ∧
    ∃ st' l, registerIntervalCreationPassOne 20 three_statements [0] 2 = .ok (st', l) ∧
      st'.blocks.length = 2 ∧
      (∀ c, three_statements.blocks.length ≤ c → c < st'.blocks.length →
        c ∈ st'.basic_blocks ∧ ∃ cb : basicBlock, st'.blocks[c]? = some cb ∧
          (∃ p, p < c ∧ cb.predecessors = [p]) ∧
          (∃ (q : Nat) (qb : basicBlock), st'.blocks[q]? = some qb ∧ qb.successors = [c]) ∧
          (cb.output_list.length : Int) ≤ 2) ∧
      (∀ c ∈ st'.basic_blocks, ∀ b cb : basicBlock, three_statements.blocks[c]? = some b →
        ';' ∈ b.code → st'.blocks[c]? = some cb → cb.BB_registerInterval ≠ none →
        (cb.output_list.length : Int) ≤ 2) := by
  obtain ⟨⟨st', l⟩, hrun, hv⟩ :=
    ok_of_map_eq (registerIntervalCreationPassOne 20 three_statements [0] 2)
      (fun r => r.1.blocks.length) 2 (by decide)
  exact ⟨rfl, by decide, st', l, hrun, hv,
    passOne_fragments_le 20 three_statements st' [0] l 2 rfl (by decide) hrun⟩

/-! ## Concrete runs of pass one -/

/-- Pass one on `entry_chain_and_loop` with budget 2 returns four
register-intervals, each with a single entry. -/
theorem passOne_entry_exists_witness :
    entry_chain_and_loop.WS = [] ∧
    ∃ st' l, registerIntervalCreationPassOne 20 entry_chain_and_loop [0, 1, 2, 3, 4] 2 =
        .ok (st', l) ∧ l.length = 4 ∧
      ∀ t ∈ l, ∃ e : Nat, ∀ c ∈ st'.basic_blocks, ∀ cb : basicBlock,
        st'.blocks[c]? = some cb → cb.BB_registerInterval = some t → c ≠ e →
        ∀ p ∈ cb.predecessors, ∃ pb : basicBlock, st'.blocks[p]? = some pb ∧
          pb.BB_registerInterval = some t := by
  obtain ⟨⟨st', l⟩, hrun, hv⟩ :=
    ok_of_map_eq (registerIntervalCreationPassOne 20 entry_chain_and_loop [0, 1, 2, 3, 4] 2)
      (fun r => r.2.length) 4 (by decide)
  exact ⟨rfl, st', l, hrun, hv,
    passOne_entry_exists 20 entry_chain_and_loop st' [0, 1, 2, 3, 4] l 2 rfl hrun⟩

/-- Pass one on `entry_chain_and_loop` with budget 2 leaves a block list of five
blocks, and each of them that can be reached from a block without predecessor
has exactly one register-interval, which is in the returned vector. -/
theorem passOne_no_orphans_witness :
    entry_chain_and_loop.WS = [] ∧
    ∃ st' l, registerIntervalCreationPassOne 20 entry_chain_and_loop [0, 1, 2, 3, 4] 2 =
        .ok (st', l) ∧ st'.basic_blocks = [0, 1, 2, 3, 4] ∧
      (∀ c, Reach st' c →
        ∃ cb : basicBlock, st'.blocks[c]? = some cb ∧
          ∃! t, cb.BB_registerInterval = some t ∧ t ∈ l) ∧
      (∀ c, Reach { entry_chain_and_loop with basic_blocks := [0, 1, 2, 3, 4] } c →
        ∃ cb : basicBlock, st'.blocks[c]? = some cb ∧
          ∃! t, cb.BB_registerInterval = some t ∧ t ∈ l) := by
  obtain ⟨⟨st', l⟩, hrun, hv⟩ :=
    ok_of_map_eq (registerIntervalCreationPassOne 20 entry_chain_and_loop [0, 1, 2, 3, 4] 2)
      (fun r => r.1.basic_blocks) [0, 1, 2, 3, 4] (by decide)
  exact ⟨rfl, st', l, hrun, hv,
    passOne_no_orphans 20 entry_chain_and_loop st' [0, 1, 2, 3, 4] l 2 rfl hrun⟩


/-! ## Runs on concrete inputs: renaming, register tokens, fragments, edges -/

/-- C11. On the block `BB1` with text `MOV R1;_BB1 R2; BRA BB1;` and budget 1 the
second statement overflows and the text moved to the new block `BB11` is
`BB1 R2; BRA BB1;`: the occurrence of the old name at the start of that text is
left as it is, while the later occurrence is rewritten. -/
theorem traverse_rename_skips_the_start :
    (traverse 10 name_at_start 0 1).map
        (fun s => s.blocks[1]?.map (fun b => (b.name, b.code))) =
      .ok (some ("BB11".toList, "BB1 R2; BRA BB11;".toList)) := by
  decide

/-- C12. On the block ` MOV R100;` with budget 5 `traverse` finds no overflow and
sets the output register set to `{R10}`, whereas the register identifier that
occurs in the text is `R100`. -/
theorem traverse_reads_two_digits :
    (traverse 10 three_digit_register 0 5).map
        (fun s => (s.blocks.length, s.blocks[0]?.map (fun b => b.output_list))) =
      .ok (1, some ["R10".toList]) ∧
    register_identifiers " MOV R100;".toList = ["R100".toList] := by
  decide

/-- The diamond as the front end builds it from the texts ` ADD R0 R1;`,
` MOV R2;`, ` MOV R3;` and ` MOV R4;`: with budget 3 and for every order of the
block list, pass one returns four register-intervals with the shape
`diamond_shape`. -/
theorem passOne_diamond_front_end :
    ∀ l ∈ diamond_orders,
      (registerIntervalCreationPassOne 30 diamond l 3).map
        (fun r => (diamond_shape r.1 r.2, r.2.length)) = .ok (true, 4) := by
  decide

/-- C15. On the single block `R1=0;R2=0;R3=0;R4=0;R5=0;`, which names five
registers, one in each statement, pass one with budget 2 ends with two blocks
and returns two register-intervals: the split drops the `R` at the start of the
third statement, and the rest names two registers only. -/
theorem passOne_five_registers_two_fragments :
    (registerIntervalCreationPassOne 30 five_registers [0] 2).map
        (fun r => (r.1.basic_blocks, r.2.length, r.1.blocks.map (fun b => b.code))) =
      .ok ([0, 1], 2, ["R1=0;R2=0;".toList, "3=0;R4=0;R5=0;".toList]) := by
  decide

/-- C19. Pass two on `two_intervals` (`0 → 1`) with budget 1 folds nothing: the
register-interval `0` goes to the new `2` and `1` to the new `3`; in the result
`3` is in the predecessor list of `2` and the successor list of `2` is empty,
and `2` is in the successor list of `3`, whose predecessor list is empty. -/
theorem passTwo_edges_reversed :
    (registerIntervalCreationPassTwo 30 two_intervals [0, 1] 1).map
        (fun r => (r.2, r.1.intervals.map (fun I => I.next_level_registerInterval),
          [interval_predecessors r.1 (some 2), interval_successors r.1 (some 2),
           interval_predecessors r.1 (some 3), interval_successors r.1 (some 3)])) =
      .ok ([2, 3], [some 2, some 3, none, none], [[some 3], [], [], [some 2]]) := by
  decide

/-! ## The registers `traverse` reads -/

theorem token_at_terminator (code : Str) (x : Nat) (h : code[x]? = some ';') :
    token_at code x = none := by
  unfold token_at
  have hc : charAt code x = ';' := by
    simp [charAt, List.getD_eq_getElem?_getD, h]
  rw [if_neg]
  rw [hc]
  intro hcon
  exact absurd hcon.1 (by decide)

theorem mem_scan_fold (code : Str) (r : Str) (f : List Str → Nat → List Str)
    (hf : ∀ t i, r ∈ f t i ↔ r ∈ t ∨ token_at code i = some r) (l : List Nat) :
    ∀ t : List Str, r ∈ l.foldl f t ↔ r ∈ t ∨ ∃ i ∈ l, token_at code i = some r := by
  induction l with
  | nil => intro t; simp
  | cons a l ih =>
    intro t
    rw [List.foldl_cons, ih, hf]
    simp only [List.mem_cons, exists_eq_or_imp]
    tauto

theorem mem_scan_statement (code : Str) (found1 found2 : Nat) (t : List Str) (r : Str) :
    r ∈ scan_statement code found1 found2 t ↔
      r ∈ t ∨ ∃ i, found1 ≤ i ∧ i < found2 ∧ token_at code i = some r := by
  unfold scan_statement
  rw [mem_scan_fold code r _ (fun t i => by
    cases h : token_at code i with
    | none => simp
    | some q =>
      simp only [Option.some.injEq]
      unfold reg_insert
      rw [mem_set_insert]
      constructor
      · rintro (h | h)
        · exact Or.inr h.symm
        · exact Or.inl h
      · rintro (h | h)
        · exact Or.inr h
        · exact Or.inl h.symm)]
  constructor
  · rintro (h | ⟨i, hi, hr⟩)
    · exact Or.inl h
    · rw [List.mem_range'_1] at hi
      exact Or.inr ⟨i, hi.1, by omega, hr⟩
  · rintro (h | ⟨i, h1, h2, hr⟩)
    · exact Or.inl h
    · exact Or.inr ⟨i, by rw [List.mem_range'_1]; omega, hr⟩

/-- When the loop of `traverse` stops at an overflow, either the first statement
it scanned overflows and `register_list` is untouched, or `register_list` holds
what `temporary_register_list` held at the start together with the tokens read
before the overflowing statement. -/
theorem scan_loop_overflow_mem (code : Str) (N : Int) :
    ∀ (ts : List Nat) (found1 : Nat) (register_list temp : List Str)
      (last : Option (List Str)),
      (∀ x ∈ ts, found1 ≤ x) → ts.Pairwise (· < ·) → (∀ x ∈ ts, code[x]? = some ';') →
      ∀ f1 rl, scan_loop code N ts found1 register_list temp last = .overflow f1 rl →
        (f1 = found1 ∧ rl = register_list) ∨
        (found1 < f1 ∧ ∀ r, r ∈ rl ↔
          r ∈ temp ∨ ∃ i, found1 ≤ i ∧ i < f1 ∧ token_at code i = some r) := by
  intro ts
  induction ts with
  | nil =>
    intro found1 register_list temp last _ _ _ f1 rl h
    simp [scan_loop] at h
  | cons found2 rest ih =>
    intro found1 register_list temp last hge hpw hsemi f1 rl h
    rw [List.pairwise_cons] at hpw
    unfold scan_loop at h
    simp only at h
    by_cases hover : size_gt (scan_statement code found1 found2 temp).length N = true
    · simp only [hover, if_true, Scan.overflow.injEq] at h
      obtain ⟨rfl, rfl⟩ := h
      exact Or.inl ⟨rfl, rfl⟩
    · rw [if_neg hover] at h
      have hle : found1 ≤ found2 := hge found2 (List.mem_cons_self _ _)
      have htok : token_at code found2 = none :=
        token_at_terminator code found2 (hsemi found2 (List.mem_cons_self _ _))
      right
      rcases ih (found2 + 1) _ _ _ (fun x hx => hpw.1 x hx) hpw.2
        (fun x hx => hsemi x (List.mem_cons_of_mem _ hx)) f1 rl h with ⟨rfl, rfl⟩ | ⟨hlt, hmem⟩
      · refine ⟨by omega, fun r => ?_⟩
        rw [mem_scan_statement]
        constructor
        · rintro (h | ⟨i, h1, h2, h3⟩)
          · exact Or.inl h
          · exact Or.inr ⟨i, h1, by omega, h3⟩
        · rintro (h | ⟨i, h1, h2, h3⟩)
          · exact Or.inl h
          · by_cases hi : i = found2
            · subst hi; rw [htok] at h3; cases h3
            · exact Or.inr ⟨i, h1, by omega, h3⟩
      · refine ⟨by omega, fun r => ?_⟩
        rw [hmem, mem_scan_statement]
        constructor
        · rintro ((h | ⟨i, h1, h2, h3⟩) | ⟨i, h1, h2, h3⟩)
          · exact Or.inl h
          · exact Or.inr ⟨i, h1, by omega, h3⟩
          · exact Or.inr ⟨i, by omega, h2, h3⟩
        · rintro (h | ⟨i, h1, h2, h3⟩)
          · exact Or.inl (Or.inl h)
          · by_cases hi : i < found2
            · exact Or.inl (Or.inr ⟨i, h1, hi, h3⟩)
            · by_cases hi2 : i = found2
              · subst hi2; rw [htok] at h3; cases h3
              · exact Or.inr ⟨i, by omega, h2, h3⟩

/-- C13, counterexample. The first statement of the block ` ADD R1 R2;` overflows
the budget 1; the block is split, its text becomes empty, and its output register
set is its input register set `{R9}`, not the empty set. -/
theorem traverse_first_overflow_keeps_input :
    (traverse 10 first_overflow 0 1).map
        (fun s => (s.blocks.length, s.blocks[0]?.map (fun b => (b.code, b.output_list)))) =
      .ok (2, some ([], ["R9".toList])) := by
  decide

/-- The tokens read below `k`: a register is among them exactly when it is the
token at an index below `k`. -/
theorem mem_tokens_before (code : Str) (k : Nat) (r : Str) :
    r ∈ tokens_before code k ↔ ∃ i, i < k ∧ token_at code i = some r := by
  unfold tokens_before
  rw [mem_scan_statement]
  constructor
  · rintro (h | ⟨i, _, h2, h3⟩)
    · cases h
    · exact ⟨i, h2, h3⟩
  · rintro ⟨i, h2, h3⟩
    exact Or.inr ⟨i, Nat.zero_le i, h2, h3⟩

theorem scan_statement_trans (code : Str) (a b c : Nat) (t : List Str) (hab : a ≤ b)
    (hbc : b ≤ c) :
    scan_statement code b c (scan_statement code a b t) = scan_statement code a c t := by
  obtain ⟨m, rfl⟩ := Nat.exists_eq_add_of_le hab
  obtain ⟨n, rfl⟩ := Nat.exists_eq_add_of_le hbc
  unfold scan_statement
  rw [← List.foldl_append]
  have e1 : a + m - a = m := by omega
  have e2 : a + m + n - (a + m) = n := by omega
  have e3 : a + m + n - a = m + n := by omega
  rw [e1, e2, e3]
  congr 1
  rw [List.range'_append_1]
  congr 1
  omega

theorem scan_statement_terminator (code : Str) (x : Nat) (t : List Str)
    (h : code[x]? = some ';') : scan_statement code x (x + 1) t = t := by
  unfold scan_statement
  have : x + 1 - x = 1 := by omega
  rw [this]
  simp [List.range', token_at_terminator code x h]

theorem tokens_before_step (code : Str) (found1 found2 : Nat) (h : found1 ≤ found2) :
    scan_statement code found1 found2 (tokens_before code found1) =
      tokens_before code found2 :=
  scan_statement_trans code 0 found1 found2 [] (Nat.zero_le _) h

theorem tokens_before_succ (code : Str) (x : Nat) (h : code[x]? = some ';') :
    tokens_before code (x + 1) = tokens_before code x := by
  unfold tokens_before
  rw [← scan_statement_trans code 0 x (x + 1) [] (Nat.zero_le _) (Nat.le_succ _)]
  exact scan_statement_terminator code x _ h

theorem mem_terminators_of (code : Str) (pos x : Nat) (hpos : pos ≤ x)
    (h : code[x]? = some ';') : x ∈ terminators code pos := by
  have hlt : x < code.length := (List.getElem?_eq_some_iff.mp h).1
  unfold terminators
  rw [List.mem_filter, List.mem_range'_1]
  refine ⟨⟨hpos, by omega⟩, ?_⟩
  simp only [charAt, decide_eq_true_eq]
  rw [List.getD_eq_getElem?_getD, h]
  rfl

/-- Where the statement loop of `traverse` stops at an overflow: `f1` is the
start of a statement, `f2` its terminator, the tokens read up to `f2` are more
than `N`, the tokens read up to every earlier terminator are not, and
`register_list` is untouched when no statement was passed and holds the tokens
read before `f1` otherwise. -/
theorem scan_loop_overflow_at (code : Str) (N : Int) :
    ∀ (ts : List Nat) (found1 : Nat) (register_list temp : List Str)
      (last : Option (List Str)),
      (∀ i, found1 ≤ i → code[i]? = some ';' → i ∈ ts) →
      (∀ x ∈ ts, found1 ≤ x ∧ code[x]? = some ';') → ts.Pairwise (· < ·) →
      temp = tokens_before code found1 →
      (found1 = 0 ∨ code[found1 - 1]? = some ';') →
      (∀ x, x < found1 → code[x]? = some ';' →
        size_gt (tokens_before code x).length N = false) →
      ∀ f1 rl, scan_loop code N ts found1 register_list temp last = .overflow f1 rl →
        ∃ f2 : Nat, (f1 = 0 ∨ code[f1 - 1]? = some ';') ∧ f1 ≤ f2 ∧ code[f2]? = some ';' ∧
          (∀ i, f1 ≤ i → i < f2 → code[i]? ≠ some ';') ∧
          size_gt (tokens_before code f2).length N = true ∧
          (∀ x, x < f1 → code[x]? = some ';' →
            size_gt (tokens_before code x).length N = false) ∧
          ((f1 = found1 ∧ rl = register_list) ∨
           (found1 < f1 ∧ rl = tokens_before code f1)) := by
  intro ts
  induction ts with
  | nil =>
    intro found1 register_list temp last _ _ _ _ _ _ f1 rl h
    simp [scan_loop] at h
  | cons found2 rest ih =>
    intro found1 register_list temp last hall hts hpw htemp hstart hprev f1 rl h
    rw [List.pairwise_cons] at hpw
    obtain ⟨hle, hsemi⟩ := hts found2 (List.mem_cons_self _ _)
    have hnone : ∀ i, found1 ≤ i → i < found2 → code[i]? ≠ some ';' := by
      intro i h1 h2 hc
      rcases List.mem_cons.mp (hall i h1 hc) with e | e
      · omega
      · have := hpw.1 i e
        omega
    have ht : scan_statement code found1 found2 temp = tokens_before code found2 := by
      rw [htemp]
      exact tokens_before_step code found1 found2 hle
    unfold scan_loop at h
    simp only at h
    rw [ht] at h
    by_cases hover : size_gt (tokens_before code found2).length N = true
    · simp only [hover, if_true, Scan.overflow.injEq] at h
      obtain ⟨rfl, rfl⟩ := h
      exact ⟨found2, hstart, hle, hsemi, hnone, hover, hprev, Or.inl ⟨rfl, rfl⟩⟩
    · rw [if_neg hover] at h
      have hover' : size_gt (tokens_before code found2).length N = false := by
        simpa using hover
      obtain ⟨f2, g1, g2, g3, g4, g5, g6, g7⟩ := ih (found2 + 1) _ _ _
        (fun i h1 hc => by
          rcases List.mem_cons.mp (hall i (by omega) hc) with e | e
          · omega
          · exact e)
        (fun x hx => ⟨by have := hpw.1 x hx; omega, (hts x (List.mem_cons_of_mem _ hx)).2⟩)
        hpw.2 (tokens_before_succ code found2 hsemi).symm
        (Or.inr (by simpa using hsemi))
        (fun x hx hc => by
          by_cases hx1 : x < found1
          · exact hprev x hx1 hc
          · rcases List.mem_cons.mp (hall x (by omega) hc) with e | e
            · rw [e]; exact hover'
            · have := hpw.1 x e
              omega)
        f1 rl h
      refine ⟨f2, g1, g2, g3, g4, g5, g6, Or.inr ?_⟩
      rcases g7 with ⟨e1, e2⟩ | ⟨e1, e2⟩
      · refine ⟨by omega, ?_⟩
        rw [e2, e1]
        exact (tokens_before_succ code found2 hsemi).symm
      · exact ⟨by omega, e2⟩

/-- C13, amended. When `traverse` splits the block `BB` (the arena gains a block), the
split is at the start `found1` of the first statement that overflows: `found1`
is 0 or follows a terminator, `found2` is the first terminator from `found1`
on, the register tokens read up to `found2` are more than `N`, and the tokens
read up to every earlier terminator are not.  The block keeps the text before
`found1`; its output register set is the set of the tokens read before
`found1` when that statement is not the first one, and the input register set
of the block when it is the first one (`found1 = 0`). -/
theorem traverse_split_output (fuel : Nat) (st st' : State) (BB : Nat) (N : Int)
    (b : basicBlock) (hb : getBlock st BB = .ok b) (h : traverse fuel st BB N = .ok st')
    (hsplit : st'.blocks.length ≠ st.blocks.length) :
    ∃ (found1 found2 : Nat) (b' : basicBlock), getBlock st' BB = .ok b' ∧
      (found1 = 0 ∨ b.code[found1 - 1]? = some ';') ∧
      found1 ≤ found2 ∧ b.code[found2]? = some ';' ∧
      (∀ i, found1 ≤ i → i < found2 → b.code[i]? ≠ some ';') ∧
      size_gt (tokens_before b.code found2).length N = true ∧
      (∀ x, x < found1 → b.code[x]? = some ';' →
        size_gt (tokens_before b.code x).length N = false) ∧
      b'.code = b.code.take found1 ∧
      ((found1 = 0 ∧ b'.output_list = b.input_list) ∨
       (0 < found1 ∧ b'.output_list = tokens_before b.code found1)) := by
  have hb' := (getBlock_eq_ok _ _ _).mp hb
  rcases traverse_cases fuel st st' BB N b hb h with ⟨_, rfl⟩ | ⟨r, _, rfl⟩ | ⟨f1, rl, hscan, hs⟩
  · exact absurd rfl hsplit
  · exact absurd (by simp [setBlock]) hsplit
  · obtain ⟨code2, _, rfl⟩ := split_eq fuel st st' BB f1 rl b hb hs
    obtain ⟨f2, g1, g2, g3, g4, g5, g6, g7⟩ :=
      scan_loop_overflow_at b.code N (terminators b.code 0) 0 b.input_list [] none
        (fun i h1 hc => mem_terminators_of b.code 0 i h1 hc)
        (fun x hx => ⟨Nat.zero_le x, (mem_terminators b.code 0 x hx).2.2⟩)
        (terminators_pairwise _ _) rfl (Or.inl rfl) (fun x hx => absurd hx (Nat.not_lt_zero x))
        f1 rl hscan
    refine ⟨f1, f2, split_old b f1 rl st.blocks.length,
      (getBlock_eq_ok _ _ _).mpr (split_state_lookup_old st b BB f1 rl code2 hb'),
      g1, g2, g3, g4, g5, g6, rfl, ?_⟩
    rcases g7 with ⟨e1, e2⟩ | ⟨e1, e2⟩
    · exact Or.inl ⟨e1, e2⟩
    · exact Or.inr ⟨e1, e2⟩

/-- The split of the block `BB1` of `two_statements` with budget 1, at its second
statement. -/
theorem traverse_split_output_witness :
    ∃ st', traverse 10 two_statements 1 1 = .ok st' ∧
      st'.blocks.length ≠ two_statements.blocks.length ∧
      ∃ (found1 found2 : Nat) (b' : basicBlock), getBlock st' 1 = .ok b' ∧
        (found1 = 0 ∨ "MOV R1;MOV R2;".toList[found1 - 1]? = some ';') ∧
        found1 ≤ found2 ∧ "MOV R1;MOV R2;".toList[found2]? = some ';' ∧
        (∀ i, found1 ≤ i → i < found2 → "MOV R1;MOV R2;".toList[i]? ≠ some ';') ∧
        size_gt (tokens_before "MOV R1;MOV R2;".toList found2).length 1 = true ∧
        (∀ x, x < found1 → "MOV R1;MOV R2;".toList[x]? = some ';' →
          size_gt (tokens_before "MOV R1;MOV R2;".toList x).length 1 = false) ∧
        b'.code = "MOV R1;MOV R2;".toList.take found1 ∧
        ((found1 = 0 ∧ b'.output_list = []) ∨
         (0 < found1 ∧ b'.output_list = tokens_before "MOV R1;MOV R2;".toList found1)) := by
  obtain ⟨st', hst', hlen⟩ :=
    ok_of_map_eq (traverse 10 two_statements 1 1) (fun s => s.blocks.length) 4 (by decide)
  have hne : st'.blocks.length ≠ two_statements.blocks.length := by
    rw [hlen]; decide
  exact ⟨st', hst', hne,
    traverse_split_output 10 two_statements st' 1 1
      (front_end_block 1 "BB1" "MOV R1;MOV R2;" [0] [2]) rfl hst' hne⟩

/-- The split of `two_statements` written out: the cut is at index 7, the start
of the second statement, and the block keeps `MOV R1;` and the output register
set `{R1}`. -/
theorem traverse_split_output_at :
    (traverse 10 two_statements 1 1).map
        (fun s => s.blocks[1]?.map (fun b => (b.code, b.output_list))) =
      .ok (some ("MOV R1;".toList, ["R1".toList])) ∧
    tokens_before "MOV R1;MOV R2;".toList 7 = ["R1".toList] ∧
    tokens_before "MOV R1;MOV R2;".toList 13 = ["R1".toList, "R2".toList] := by
  decide


/-! ## Pass one: the register-intervals made by the call -/

theorem Fresh.fresh_congr {n0 : Nat} {st st' : State} (h : Fresh n0 st)
    (hi : st'.intervals = st.intervals) (hr : st'.RegisterIntervals = st.RegisterIntervals) :
    Fresh n0 st' := by
  unfold Fresh
  rw [hi, hr]
  exact h

theorem Fresh.fresh_append {n0 : Nat} {st st' : State} (h : Fresh n0 st)
    (hi : st'.intervals = st.intervals ++ [fresh_interval st])
    (hr : st'.RegisterIntervals = st.RegisterIntervals ++ [st.intervals.length]) :
    Fresh n0 st' := by
  obtain ⟨h1, h2, h3⟩ := h
  unfold Fresh
  rw [hi, hr]
  refine ⟨by simp; omega, ?_, ?_⟩
  · intro t ht
    simp only [List.mem_append, List.mem_singleton] at ht
    simp only [List.length_append, List.length_singleton]
    rcases ht with ht | rfl
    · have := h2 t ht
      omega
    · omega
  · intro t I hn hI
    by_cases hlt : t < st.intervals.length
    · rw [List.getElem?_append_left hlt] at hI
      exact h3 t I hn hI
    · rw [List.getElem?_append_right (by omega)] at hI
      have ht : t - st.intervals.length = 0 := by
        by_contra hne
        rw [List.getElem?_eq_none (by simp; omega)] at hI
        cases hI
      rw [ht] at hI
      simp only [List.getElem?_cons_zero, Option.some.injEq] at hI
      subst hI
      simp [fresh_interval]

theorem Fresh.fresh_traverse {n0 : Nat} {st st' : State} (h : Fresh n0 st) (fuel : Nat)
    {BB : Nat} {N : Int} {b : basicBlock} (hb : st.blocks[BB]? = some b)
    (ht : RegisterInterval.traverse fuel st BB N = .ok st') : Fresh n0 st' := by
  rcases traverse_effect fuel st st' BB N b ((getBlock_eq_ok _ _ _).mpr hb) ht with
    ⟨rfl, _⟩ | ⟨r, _, rfl⟩ | ⟨f1, rl, code2, _, _, rfl⟩
  · exact h
  · exact h.fresh_congr rfl rfl
  · exact h.fresh_append rfl rfl

/-- The description `Fresh` of the register-intervals made by the call is an
invariant of the main loop of pass one. -/
theorem passOne_loop_fresh (N : Int) (n0 : Nat) (fuel : Nat) (st st' : State)
    (hfresh : Fresh n0 st) (h : passOne_loop N fuel st = .ok st') : Fresh n0 st' := by
  refine (passOne_loop_rule N (fun s => Fresh n0 s) (fun _ s => Fresh n0 s)
    ?_ ?_ ?_ ?_ ?_ fuel st st' hfresh h).1
  · intro fuel s BB rest b s' hout _ hb ht
    have hb' := (getBlock_eq_ok _ _ _).mp hb
    exact Fresh.fresh_traverse (show Fresh n0 { s with WS := rest } from hout) fuel hb' ht
  · intro i s m hin
    exact hin
  · intro fuel i s b blk Union s' hin _ hblk _ _ _ ht
    have hblk' := (getBlock_eq_ok _ _ _).mp hblk
    exact Fresh.fresh_traverse
      (show Fresh n0 (setBlock s b { blk with BB_registerInterval := i, input_list := Union })
        from hin.fresh_congr rfl rfl) fuel (setBlock_lookup_self s b blk _ hblk') ht
  · intro i s x sb hin hx _
    exact hin.fresh_append rfl rfl
  · intro i s0 s S _ _ _ hin
    exact hin

/-- A property of the state that every seeding step keeps holds after the seeding
loop of pass one when it holds before it. -/
theorem passOne_seed_keeps (P : State → Prop)
    (step : ∀ (s : State) (b : Nat) (blk : basicBlock), P s → s.blocks[b]? = some blk →
      P (frontier_state s b blk))
    (st st1 st2 : State) (BB_vector : List Nat)
    (h1 : passOne_init { st with basic_blocks := BB_vector } = .ok st1)
    (h2 : passOne_seed { st1 with RegisterIntervals := [] } = .ok st2)
    (hP : P { st1 with RegisterIntervals := [] }) : P st2 := by
  unfold passOne_init at h1
  obtain ⟨i1, i2, i3, i4⟩ := passOne_init_spec BB_vector _ st1 h1
  simp only at i1 i2 i3 i4
  have hbb1 : st1.basic_blocks = BB_vector := by rw [i1]
  have hreset : ∀ c ∈ BB_vector, ∀ cb : basicBlock, st1.blocks[c]? = some cb →
      cb.input_list = [] := by
    intro c hc cb hcb
    have hlt := i3 c hc
    have := i4 c st.blocks[c] (List.getElem?_eq_getElem hlt)
    rw [hcb] at this
    simp only [hc, if_true, Option.some.injEq] at this
    subst this
    rfl
  unfold passOne_seed at h2
  exact (passOne_seed_rule P (fun s b blk hP _ hb _ _ => step s b blk hP hb) BB_vector
    { st1 with RegisterIntervals := [] } st2 (by simpa [hbb1] using h2) hP
    (by simp [hbb1])
    (by
      intro c hc cb hcb
      simp only [hbb1] at hc
      exact hreset c hc cb hcb)).1

/-- At the end of the main loop of pass one every element of `RegisterIntervals`
was made by this call and is as its constructor left it. -/
theorem passOne_fresh (fuel : Nat) (st st1 st2 st3 : State) (BB_vector : List Nat) (N : Int)
    (h1 : passOne_init { st with basic_blocks := BB_vector } = .ok st1)
    (h2 : passOne_seed { st1 with RegisterIntervals := [] } = .ok st2)
    (h3 : passOne_loop N fuel st2 = .ok st3) : Fresh st.intervals.length st3 := by
  have e1 : st1.intervals = st.intervals := by
    have h1' := h1
    unfold passOne_init at h1'
    obtain ⟨e1, _, _, _⟩ := passOne_init_spec BB_vector _ st1 h1'
    rw [e1]
  have hf1 : Fresh st.intervals.length { st1 with RegisterIntervals := [] } := by
    refine ⟨?_, ?_, ?_⟩
    · show st.intervals.length ≤ st1.intervals.length
      rw [e1]
    · intro t ht
      cases ht
    · intro t I hn hI
      have hlt : t < st1.intervals.length := (List.getElem?_eq_some_iff.mp hI).1
      rw [e1] at hlt
      omega
  have hf2 : Fresh st.intervals.length st2 :=
    passOne_seed_keeps (fun s => Fresh st.intervals.length s)
      (fun s b blk hP _ => hP.fresh_append rfl rfl) st st1 st2 BB_vector h1 h2 hf1
  exact passOne_loop_fresh N _ fuel st2 st3 hf2 h3

/-! ## Pass one: what the finalisation stores -/

/-- The phases of pass one with the three loops of the finalisation apart. -/
theorem passOne_final_phases (fuel : Nat) (st st' : State) (BB_vector l : List Nat) (N : Int)
    (h : registerIntervalCreationPassOne fuel st BB_vector N = .ok (st', l)) :
    ∃ st1 st2 st3 st4 st5 : State,
      passOne_init { st with basic_blocks := BB_vector } = .ok st1 ∧
      passOne_seed { st1 with RegisterIntervals := [] } = .ok st2 ∧
      passOne_loop N fuel st2 = .ok st3 ∧
      passOne_register_lists st3 = .ok st4 ∧
      passOne_codes st4 = .ok st5 ∧
      passOne_edges st5 = .ok st' ∧
      st4 = { st3 with intervals := st4.intervals } ∧
      st5 = { st3 with intervals := st5.intervals } ∧
      st' = { st3 with intervals := st'.intervals } ∧
      l = st3.RegisterIntervals := by
  unfold registerIntervalCreationPassOne at h
  obtain ⟨st1, h1, h⟩ := (bind_eq_ok _ _ _).mp h
  obtain ⟨st2, h2, h⟩ := (bind_eq_ok _ _ _).mp h
  obtain ⟨st3, h3, h⟩ := (bind_eq_ok _ _ _).mp h
  obtain ⟨st4, h4, h⟩ := (bind_eq_ok _ _ _).mp h
  obtain ⟨st5, h5, h⟩ := (bind_eq_ok _ _ _).mp h
  obtain ⟨st6, h6, h⟩ := (bind_eq_ok _ _ _).mp h
  simp only [pure, Except.pure, Except.ok.injEq, Prod.mk.injEq] at h
  obtain ⟨rfl, rfl⟩ := h
  have e4 := passOne_register_lists_frame st3 st4 h4
  have e5 := passOne_codes_frame st4 st5 h5
  have e6 := passOne_edges_frame st5 st6 h6
  refine ⟨st1, st2, st3, st4, st5, h1, h2, h3, h4, h5, h6, e4, ?_, ?_, ?_⟩
  · rw [e5, e4]
  · rw [e6, e5, e4]
  · rw [e6, e5, e4]

/-- Overwriting a register-interval by a record with the same value of `g` keeps
the value of `g` on every register-interval of the arena. -/
theorem setInterval_keep {α : Type} (g : registerInterval → α) (st : State) (q : Nat)
    (J J' : registerInterval) (hq : st.intervals[q]? = some J) (hr : g J' = g J)
    (i : Nat) (I : registerInterval) (hI : st.intervals[i]? = some I) :
    ∃ I' : registerInterval, (setInterval st q J').intervals[i]? = some I' ∧ g I' = g I := by
  have hqlt : q < st.intervals.length := (List.getElem?_eq_some_iff.mp hq).1
  by_cases hiq : q = i
  · subst hiq
    rw [hq] at hI; cases hI
    exact ⟨J', by simp [setInterval, hqlt], hr⟩
  · exact ⟨I, by simp [setInterval, List.getElem?_set, hiq, hI], rfl⟩

theorem passOne_register_lists_keep {α : Type} (g : registerInterval → α)
    (hg : ∀ (I I' : registerInterval) (s : List Str), I.set_register_list s = .ok I' →
      g I' = g I)
    (st st' : State) (h : passOne_register_lists st = .ok st') :
    ∀ (i : Nat) (I : registerInterval), st.intervals[i]? = some I →
      ∃ I' : registerInterval, st'.intervals[i]? = some I' ∧ g I' = g I := by
  unfold passOne_register_lists at h
  refine foldlM_inv _
    (fun s => ∀ (i : Nat) (I : registerInterval), st.intervals[i]? = some I →
      ∃ I' : registerInterval, s.intervals[i]? = some I' ∧ g I' = g I)
    st.RegisterIntervals ?_ st st' (fun i I hI => ⟨I, hI, rfl⟩) h
  intro s j s' _ hs hstep
  obtain ⟨regs, _, hstep⟩ := (bind_eq_ok _ _ _).mp hstep
  obtain ⟨J, hJ, hstep⟩ := (bind_eq_ok _ _ _).mp hstep
  obtain ⟨J', hJ', hstep⟩ := (bind_eq_ok _ _ _).mp hstep
  rw [getInterval_eq_ok] at hJ
  simp only [pure, Except.pure, Except.ok.injEq] at hstep
  subst hstep
  intro i I hI
  obtain ⟨I1, hI1, e1⟩ := hs i I hI
  obtain ⟨I2, hI2, e2⟩ := setInterval_keep g s j J J' hJ (hg J J' regs hJ') i I1 hI1
  exact ⟨I2, hI2, e2.trans e1⟩

theorem passOne_codes_keep {α : Type} (g : registerInterval → α)
    (hg : ∀ (I : registerInterval) (s : Str), g (I.set_code s) = g I)
    (st st' : State) (h : passOne_codes st = .ok st') :
    ∀ (i : Nat) (I : registerInterval), st.intervals[i]? = some I →
      ∃ I' : registerInterval, st'.intervals[i]? = some I' ∧ g I' = g I := by
  unfold passOne_codes at h
  refine foldlM_inv _
    (fun s => ∀ (i : Nat) (I : registerInterval), st.intervals[i]? = some I →
      ∃ I' : registerInterval, s.intervals[i]? = some I' ∧ g I' = g I)
    st.RegisterIntervals ?_ st st' (fun i I hI => ⟨I, hI, rfl⟩) h
  intro s j s' _ hs hstep
  obtain ⟨code, _, hstep⟩ := (bind_eq_ok _ _ _).mp hstep
  obtain ⟨J, hJ, hstep⟩ := (bind_eq_ok _ _ _).mp hstep
  rw [getInterval_eq_ok] at hJ
  simp only [pure, Except.pure, Except.ok.injEq] at hstep
  subst hstep
  intro i I hI
  obtain ⟨I1, hI1, e1⟩ := hs i I hI
  obtain ⟨I2, hI2, e2⟩ := setInterval_keep g s j J _ hJ (hg J code) i I1 hI1
  exact ⟨I2, hI2, e2.trans e1⟩

theorem passOne_block_edges_keep {α : Type} (g : registerInterval → α)
    (hp : ∀ (I : registerInterval) (p : Option Nat), g (I.add_predecessor p) = g I)
    (hs : ∀ (I : registerInterval) (p : Option Nat), g (I.add_successors p) = g I)
    (st st' : State) (k b : Nat) (h : passOne_block_edges st k b = .ok st') :
    ∀ (i : Nat) (I : registerInterval), st.intervals[i]? = some I →
      ∃ I' : registerInterval, st'.intervals[i]? = some I' ∧ g I' = g I := by
  unfold passOne_block_edges at h
  obtain ⟨blk, _, h⟩ := (bind_eq_ok _ _ _).mp h
  split at h
  · obtain ⟨st1, h1, h⟩ := (bind_eq_ok _ _ _).mp h
    have e1 : ∀ (i : Nat) (I : registerInterval), st.intervals[i]? = some I →
        ∃ I' : registerInterval, st1.intervals[i]? = some I' ∧ g I' = g I := by
      refine foldlM_inv _
        (fun s => ∀ (i : Nat) (I : registerInterval), st.intervals[i]? = some I →
          ∃ I' : registerInterval, s.intervals[i]? = some I' ∧ g I' = g I)
        blk.predecessors ?_ st st1 (fun i I hI => ⟨I, hI, rfl⟩) h1
      intro s p s' _ hinv hstep
      obtain ⟨pb, _, hstep⟩ := (bind_eq_ok _ _ _).mp hstep
      split at hstep
      · obtain ⟨J, hJ, hstep⟩ := (bind_eq_ok _ _ _).mp hstep
        rw [getInterval_eq_ok] at hJ
        simp only [pure, Except.pure, Except.ok.injEq] at hstep
        subst hstep
        intro i I hI
        obtain ⟨I1, hI1, e1⟩ := hinv i I hI
        obtain ⟨I2, hI2, e2⟩ := setInterval_keep g s k J _ hJ (hp J pb.BB_registerInterval)
          i I1 hI1
        exact ⟨I2, hI2, e2.trans e1⟩
      · simp only [pure, Except.pure, Except.ok.injEq] at hstep
        subst hstep
        exact hinv
    refine foldlM_inv _
      (fun s => ∀ (i : Nat) (I : registerInterval), st.intervals[i]? = some I →
        ∃ I' : registerInterval, s.intervals[i]? = some I' ∧ g I' = g I)
      blk.successors ?_ st1 st' e1 h
    intro s p s' _ hinv hstep
    obtain ⟨pb, _, hstep⟩ := (bind_eq_ok _ _ _).mp hstep
    split at hstep
    · obtain ⟨J, hJ, hstep⟩ := (bind_eq_ok _ _ _).mp hstep
      rw [getInterval_eq_ok] at hJ
      simp only [pure, Except.pure, Except.ok.injEq] at hstep
      subst hstep
      intro i I hI
      obtain ⟨I1, hI1, e1⟩ := hinv i I hI
      obtain ⟨I2, hI2, e2⟩ := setInterval_keep g s k J _ hJ (hs J pb.BB_registerInterval)
        i I1 hI1
      exact ⟨I2, hI2, e2.trans e1⟩
    · simp only [pure, Except.pure, Except.ok.injEq] at hstep
      subst hstep
      exact hinv
  · simp only [pure, Except.pure, Except.ok.injEq] at h
    subst h
    exact fun i I hI => ⟨I, hI, rfl⟩

theorem passOne_edges_keep {α : Type} (g : registerInterval → α)
    (hp : ∀ (I : registerInterval) (p : Option Nat), g (I.add_predecessor p) = g I)
    (hs : ∀ (I : registerInterval) (p : Option Nat), g (I.add_successors p) = g I)
    (st st' : State) (h : passOne_edges st = .ok st') :
    ∀ (i : Nat) (I : registerInterval), st.intervals[i]? = some I →
      ∃ I' : registerInterval, st'.intervals[i]? = some I' ∧ g I' = g I := by
  unfold passOne_edges at h
  refine foldlM_inv _
    (fun s => ∀ (i : Nat) (I : registerInterval), st.intervals[i]? = some I →
      ∃ I' : registerInterval, s.intervals[i]? = some I' ∧ g I' = g I)
    st.RegisterIntervals ?_ st st' (fun i I hI => ⟨I, hI, rfl⟩) h
  intro s k s' _ hinv hstep
  refine foldlM_inv _
    (fun s => ∀ (i : Nat) (I : registerInterval), st.intervals[i]? = some I →
      ∃ I' : registerInterval, s.intervals[i]? = some I' ∧ g I' = g I)
    s.basic_blocks ?_ s s' hinv hstep
  intro s1 b s2 _ hinv1 hstep1
  intro i I hI
  obtain ⟨I1, hI1, e1⟩ := hinv1 i I hI
  obtain ⟨I2, hI2, e2⟩ := passOne_block_edges_keep g hp hs s1 s2 k b hstep1 i I1 hI1
  exact ⟨I2, hI2, e2.trans e1⟩

theorem add_predecessor_code (J : registerInterval) (p : Option Nat) :
    (J.add_predecessor p).code = J.code := by
  unfold registerInterval.add_predecessor
  split <;> rfl

theorem add_successors_code (J : registerInterval) (p : Option Nat) :
    (J.add_successors p).code = J.code := by
  unfold registerInterval.add_successors
  split <;> rfl

/-! ### Register sets are strictly increasing lists -/

theorem pairwise_reg_insert (r : Str) (l : List Str) (h : l.Pairwise (· < ·)) :
    (reg_insert r l).Pairwise (· < ·) := by
  unfold reg_insert
  induction l with
  | nil => simp [set_insert]
  | cons y ys ih =>
    rw [List.pairwise_cons] at h
    unfold set_insert
    by_cases h1 : str_lt r y = true
    · rw [if_pos h1]
      have hry : r < y := by simpa [str_lt] using h1
      refine List.pairwise_cons.mpr ⟨?_, List.pairwise_cons.mpr h⟩
      intro z hz
      rcases List.mem_cons.mp hz with rfl | hz
      · exact hry
      · exact lt_trans hry (h.1 z hz)
    · rw [if_neg h1]
      by_cases h2 : r = y
      · rw [if_pos h2]
        exact List.pairwise_cons.mpr h
      · rw [if_neg h2]
        have hnlt : ¬ r < y := by simpa [str_lt] using h1
        have hyr : y < r := lt_of_le_of_ne (not_lt.mp hnlt) (fun e => h2 e.symm)
        refine List.pairwise_cons.mpr ⟨?_, ih h.2⟩
        intro z hz
        rcases (mem_set_insert str_lt r z ys).mp hz with rfl | hz
        · exact hyr
        · exact h.1 z hz

theorem pairwise_reg_union (t : List Str) : ∀ s : List Str, s.Pairwise (· < ·) →
    (reg_union s t).Pairwise (· < ·) := by
  induction t with
  | nil => intro s hs; exact hs
  | cons r t ih =>
    intro s hs
    have e : reg_union s (r :: t) = reg_union (reg_insert r s) t := rfl
    rw [e]
    exact ih _ (pairwise_reg_insert r s hs)

/-! ### The register list and the code of a register-interval -/

theorem member_registers_fold (st : State) (i : Nat) (L : List Nat) :
    ∀ acc regs : List Str,
      L.foldlM (fun regList b => do
        let blk ← getBlock st b
        if blk.BB_registerInterval = some i then pure (reg_union regList blk.output_list)
        else pure regList) acc = (.ok regs : M (List Str)) →
      (acc.Pairwise (· < ·) → regs.Pairwise (· < ·)) ∧
      ∀ r, r ∈ regs ↔ r ∈ acc ∨ ∃ c ∈ L, ∃ cb : basicBlock, st.blocks[c]? = some cb ∧
        cb.BB_registerInterval = some i ∧ r ∈ cb.output_list := by
  induction L with
  | nil =>
    intro acc regs h
    simp only [List.foldlM, pure, Except.pure, Except.ok.injEq] at h
    subst h
    exact ⟨fun hs => hs, fun r => by simp⟩
  | cons c L ih =>
    intro acc regs h
    rw [List.foldlM_cons] at h
    obtain ⟨acc1, h1, h2⟩ := (bind_eq_ok _ _ _).mp h
    obtain ⟨blk, hblk, h1⟩ := (bind_eq_ok _ _ _).mp h1
    have hblk' := (getBlock_eq_ok _ _ _).mp hblk
    obtain ⟨g1, g2⟩ := ih acc1 regs h2
    by_cases hi : blk.BB_registerInterval = some i
    · rw [if_pos hi] at h1
      simp only [pure, Except.pure, Except.ok.injEq] at h1
      subst h1
      refine ⟨fun hs => g1 (pairwise_reg_union _ _ hs), fun r => ?_⟩
      rw [g2, mem_reg_union]
      constructor
      · rintro ((h | h) | ⟨c', hc', cb, hcb, e1, e2⟩)
        · exact Or.inl h
        · exact Or.inr ⟨c, List.mem_cons_self _ _, blk, hblk', hi, h⟩
        · exact Or.inr ⟨c', List.mem_cons_of_mem _ hc', cb, hcb, e1, e2⟩
      · rintro (h | ⟨c', hc', cb, hcb, e1, e2⟩)
        · exact Or.inl (Or.inl h)
        · rcases List.mem_cons.mp hc' with rfl | hc'
          · rw [hblk'] at hcb; cases hcb
            exact Or.inl (Or.inr e2)
          · exact Or.inr ⟨c', hc', cb, hcb, e1, e2⟩
    · rw [if_neg hi] at h1
      simp only [pure, Except.pure, Except.ok.injEq] at h1
      subst h1
      refine ⟨g1, fun r => ?_⟩
      rw [g2]
      constructor
      · rintro (h | ⟨c', hc', cb, hcb, e1, e2⟩)
        · exact Or.inl h
        · exact Or.inr ⟨c', List.mem_cons_of_mem _ hc', cb, hcb, e1, e2⟩
      · rintro (h | ⟨c', hc', cb, hcb, e1, e2⟩)
        · exact Or.inl h
        · rcases List.mem_cons.mp hc' with rfl | hc'
          · rw [hblk'] at hcb; cases hcb
            exact absurd e1 hi
          · exact Or.inr ⟨c', hc', cb, hcb, e1, e2⟩

theorem member_registers_mem (st : State) (i : Nat) (regs : List Str)
    (h : member_registers st i = .ok regs) :
    regs.Pairwise (· < ·) ∧
    ∀ r, r ∈ regs ↔ ∃ c ∈ st.basic_blocks, ∃ cb : basicBlock, st.blocks[c]? = some cb ∧
      cb.BB_registerInterval = some i ∧ r ∈ cb.output_list := by
  obtain ⟨g1, g2⟩ := member_registers_fold st i st.basic_blocks [] regs h
  refine ⟨g1 List.Pairwise.nil, fun r => ?_⟩
  rw [g2]
  simp

theorem member_code_fold (st : State) (i : Nat) (L : List Nat) :
    ∀ acc code : Str,
      L.foldlM (fun code b => do
        let blk ← getBlock st b
        if blk.BB_registerInterval = some i then pure (code ++ blk.code)
        else pure code) acc = (.ok code : M Str) →
      code = acc ++ ((L.filter (fun c =>
          match st.blocks[c]? with
          | some cb => decide (cb.BB_registerInterval = some i)
          | none => false)).map (code_of st)).flatten := by
  induction L with
  | nil =>
    intro acc code h
    simp only [List.foldlM, pure, Except.pure, Except.ok.injEq] at h
    subst h
    simp
  | cons c L ih =>
    intro acc code h
    rw [List.foldlM_cons] at h
    obtain ⟨acc1, h1, h2⟩ := (bind_eq_ok _ _ _).mp h
    obtain ⟨blk, hblk, h1⟩ := (bind_eq_ok _ _ _).mp h1
    have hblk' := (getBlock_eq_ok _ _ _).mp hblk
    have ih' := ih acc1 code h2
    by_cases hi : blk.BB_registerInterval = some i
    · rw [if_pos hi] at h1
      simp only [pure, Except.pure, Except.ok.injEq] at h1
      subst h1
      rw [List.filter_cons_of_pos (by simp [hblk', hi])]
      rw [ih']
      simp [code_of, hblk']
    · rw [if_neg hi] at h1
      simp only [pure, Except.pure, Except.ok.injEq] at h1
      subst h1
      rw [List.filter_cons_of_neg (by simp [hblk', hi])]
      exact ih'

theorem member_code_eq (st : State) (i : Nat) (code : Str)
    (h : member_code st i = .ok code) :
    code = ((members st i).map (code_of st)).flatten := by
  have := member_code_fold st i st.basic_blocks [] code h
  simpa [members] using this

theorem member_code_congr (st st' : State) (i : Nat) (hb : st'.blocks = st.blocks)
    (hl : st'.basic_blocks = st.basic_blocks) :
    member_code st' i = member_code st i := by
  simp only [member_code, getBlock, hb, hl]

theorem passOne_codes_fold (L : List Nat) : ∀ (st st' : State),
    L.foldlM (fun st i => do
      let code ← member_code st i
      let I ← getInterval st i
      pure (setInterval st i (I.set_code code))) st = (.ok st' : M State) →
    (∀ (j : Nat) (I : registerInterval), st.intervals[j]? = some I →
      ∃ I' : registerInterval, st'.intervals[j]? = some I' ∧
        (I'.code = I.code ∨ (j ∈ L ∧ member_code st j = .ok I'.code))) ∧
    (∀ j ∈ L, ∃ I' : registerInterval, st'.intervals[j]? = some I' ∧
      member_code st j = .ok I'.code) := by
  induction L with
  | nil =>
    intro st st' h
    simp only [List.foldlM, pure, Except.pure] at h
    cases h
    exact ⟨fun j I hI => ⟨I, hI, Or.inl rfl⟩, fun j hj => by cases hj⟩
  | cons i L ih =>
    intro st st' h
    rw [List.foldlM_cons] at h
    obtain ⟨s1, h1, h2⟩ := (bind_eq_ok _ _ _).mp h
    obtain ⟨code, hcode, h1⟩ := (bind_eq_ok _ _ _).mp h1
    obtain ⟨I0, hI0, h1⟩ := (bind_eq_ok _ _ _).mp h1
    simp only [pure, Except.pure, Except.ok.injEq] at h1
    subst h1
    have hI0' := (getInterval_eq_ok _ _ _).mp hI0
    have hilt : i < st.intervals.length := (List.getElem?_eq_some_iff.mp hI0').1
    obtain ⟨g1, g2⟩ := ih (setInterval st i (I0.set_code code)) st' h2
    have hmr : ∀ j, member_code (setInterval st i (I0.set_code code)) j = member_code st j :=
      fun j => member_code_congr st _ j rfl rfl
    have hself : (setInterval st i (I0.set_code code)).intervals[i]? =
        some (I0.set_code code) := by
      simp [setInterval, hilt]
    have hi : ∃ I' : registerInterval, st'.intervals[i]? = some I' ∧
        member_code st i = .ok I'.code := by
      obtain ⟨I', hI', hor⟩ := g1 i _ hself
      refine ⟨I', hI', ?_⟩
      rcases hor with hor | ⟨_, hor⟩
      · rw [hor]; exact hcode
      · rw [← hmr i]; exact hor
    refine ⟨fun j I hI => ?_, fun j hj => ?_⟩
    · by_cases hji : j = i
      · subst hji
        obtain ⟨I', hI', hm⟩ := hi
        exact ⟨I', hI', Or.inr ⟨List.mem_cons_self _ _, hm⟩⟩
      · have hj1 : (setInterval st i (I0.set_code code)).intervals[j]? = some I := by
          simp only [setInterval]
          rw [List.getElem?_set_ne (fun e => hji e.symm)]
          exact hI
        obtain ⟨I', hI', hor⟩ := g1 j I hj1
        refine ⟨I', hI', ?_⟩
        rcases hor with hor | ⟨hjL, hor⟩
        · exact Or.inl hor
        · exact Or.inr ⟨List.mem_cons_of_mem _ hjL, by rw [← hmr j]; exact hor⟩
    · rcases List.mem_cons.mp hj with rfl | hjL
      · exact hi
      · obtain ⟨I', hI', hm⟩ := g2 j hjL
        exact ⟨I', hI', by rw [← hmr j]; exact hm⟩

theorem passOne_codes_spec (st st' : State) (h : passOne_codes st = .ok st') :
    ∀ j ∈ st.RegisterIntervals, ∃ I' : registerInterval, st'.intervals[j]? = some I' ∧
      member_code st j = .ok I'.code :=
  (passOne_codes_fold st.RegisterIntervals st st' h).2

/-- C17. When pass one returns, the register list of every returned
register-interval is a strictly increasing list whose elements are exactly the
registers of the output register sets of the blocks of the block list that
belong to the register-interval, and its code is the concatenation of the texts
of these blocks in the order of the block list. -/
theorem passOne_interval_contents (fuel : Nat) (st st' : State) (BB_vector l : List Nat)
    (N : Int) (h : registerIntervalCreationPassOne fuel st BB_vector N = .ok (st', l)) :
    ∀ i ∈ l, ∃ I : registerInterval, st'.intervals[i]? = some I ∧
      I.register_list.Pairwise (· < ·) ∧
      (∀ r, r ∈ I.register_list ↔
        ∃ c ∈ st'.basic_blocks, ∃ cb : basicBlock, st'.blocks[c]? = some cb ∧
          cb.BB_registerInterval = some i ∧ r ∈ cb.output_list) ∧
      I.code = ((members st' i).map (code_of st')).flatten := by
  obtain ⟨st1, st2, st3, st4, st5, _, _, _, h4, h5, h6, e4, e5, e', hl⟩ :=
    passOne_final_phases fuel st st' BB_vector l N h
  have hb4 : st4.blocks = st3.blocks := by rw [e4]
  have hl4 : st4.basic_blocks = st3.basic_blocks := by rw [e4]
  have hr4 : st4.RegisterIntervals = st3.RegisterIntervals := by rw [e4]
  have hb' : st'.blocks = st3.blocks := by rw [e']
  have hl' : st'.basic_blocks = st3.basic_blocks := by rw [e']
  intro i hi
  rw [hl] at hi
  obtain ⟨I4, hI4, hm4⟩ := passOne_register_lists_spec st3 st4 h4 i hi
  obtain ⟨I5, hI5, hc5⟩ := passOne_codes_spec st4 st5 h5 i (by rw [hr4]; exact hi)
  obtain ⟨I5', hI5', hr5⟩ := passOne_codes_register_list st4 st5 h5 i I4 hI4
  rw [hI5] at hI5'
  cases hI5'
  obtain ⟨I, hI, hre⟩ := passOne_edges_register_list st5 st' h6 i I5 hI5
  obtain ⟨I', hI', hce⟩ := passOne_edges_keep (fun J => J.code) add_predecessor_code
    add_successors_code st5 st' h6 i I5 hI5
  rw [hI] at hI'
  cases hI'
  refine ⟨I, hI, ?_, ?_, ?_⟩
  · rw [hre, hr5]
    exact (member_registers_mem st3 i _ hm4).1
  · intro r
    rw [hre, hr5, (member_registers_mem st3 i _ hm4).2 r, hb', hl']
  · have : I.code = I5.code := hce
    rw [this, members_congr st3 st' i hb' hl']
    have hc4 : member_code st3 i = .ok I5.code := by
      rw [← member_code_congr st3 st4 i hb4 hl4]; exact hc5
    rw [member_code_eq st3 i _ hc4]
    have hco : code_of st' = code_of st3 := by
      funext c
      unfold code_of
      rw [hb']
    rw [hco]

/-- Pass one on `entry_chain_and_loop` with budget 2: the register list and the
code of each of the four register-intervals. -/
theorem passOne_interval_contents_witness :
    ∃ st' l, registerIntervalCreationPassOne 20 entry_chain_and_loop [0, 1, 2, 3, 4] 2 =
        .ok (st', l) ∧ l.length = 4 ∧
      ∀ i ∈ l, ∃ I : registerInterval, st'.intervals[i]? = some I ∧
        I.register_list.Pairwise (· < ·) ∧
        (∀ r, r ∈ I.register_list ↔
          ∃ c ∈ st'.basic_blocks, ∃ cb : basicBlock, st'.blocks[c]? = some cb ∧
            cb.BB_registerInterval = some i ∧ r ∈ cb.output_list) ∧
        I.code = ((members st' i).map (code_of st')).flatten := by
  obtain ⟨⟨st', l⟩, hrun, hv⟩ :=
    ok_of_map_eq (registerIntervalCreationPassOne 20 entry_chain_and_loop [0, 1, 2, 3, 4] 2)
      (fun r => r.2.length) 4 (by decide)
  exact ⟨st', l, hrun, hv,
    passOne_interval_contents 20 entry_chain_and_loop st' [0, 1, 2, 3, 4] l 2 hrun⟩

/-! ## Pass one: the edges of the register-intervals -/

/-- A fold in the result monad establishes `Post a` for every element `a` of the
list when the step for `a` establishes it and every step keeps it. -/
theorem foldlM_post {α β : Type} (f : β → α → M β) (Inv : β → Prop) (Post : α → β → Prop)
    (l : List α)
    (hinv : ∀ b a b', a ∈ l → Inv b → f b a = .ok b' → Inv b')
    (hest : ∀ b a b', a ∈ l → Inv b → f b a = .ok b' → Post a b')
    (hpres : ∀ b a x b', a ∈ l → Inv b → Post x b → f b a = .ok b' → Post x b') :
    ∀ b b', Inv b → l.foldlM f b = .ok b' → ∀ a ∈ l, Post a b' := by
  induction l with
  | nil => intro b b' _ _ a ha; cases ha
  | cons a l ih =>
    intro b b' hb h x hx
    rw [List.foldlM_cons] at h
    obtain ⟨b1, h1, h2⟩ := (bind_eq_ok _ _ _).mp h
    have hb1 : Inv b1 := hinv b a b1 (List.mem_cons_self _ _) hb h1
    have hinv' : ∀ b a' b', a' ∈ l → Inv b → f b a' = .ok b' → Inv b' :=
      fun b a' b' ha' => hinv b a' b' (List.mem_cons_of_mem _ ha')
    have hpres' : ∀ b a' x b', a' ∈ l → Inv b → Post x b → f b a' = .ok b' → Post x b' :=
      fun b a' x b' ha' => hpres b a' x b' (List.mem_cons_of_mem _ ha')
    have keep : ∀ y, Post y b1 → Post y b' := by
      intro y hy
      exact (foldlM_inv f (fun s => Inv s ∧ Post y s) l
        (fun s a' s' ha' hs hstep =>
          ⟨hinv' s a' s' ha' hs.1 hstep, hpres' s a' y s' ha' hs.1 hs.2 hstep⟩)
        b1 b' ⟨hb1, hy⟩ h2).2
    rcases List.mem_cons.mp hx with rfl | hx
    · exact keep x (hest b x b1 (List.mem_cons_self _ _) hb h1)
    · exact ih hinv' (fun b a' b' ha' => hest b a' b' (List.mem_cons_of_mem _ ha')) hpres'
        b1 b' hb1 h2 x hx

theorem Adds.adds_refl (B s : State) : Adds B s s :=
  ⟨rfl, rfl, rfl, fun _ I hI =>
    ⟨I, hI, fun _ h => h, fun _ h => Or.inl h, fun h => h, fun _ h => h, fun _ h => Or.inl h,
      fun h => h⟩⟩

theorem Adds.adds_trans {B s1 s2 s3 : State} (h12 : Adds B s1 s2) (h23 : Adds B s2 s3) :
    Adds B s1 s3 := by
  obtain ⟨a1, a2, a3, a4⟩ := h12
  obtain ⟨b1, b2, b3, b4⟩ := h23
  refine ⟨b1.trans a1, b2.trans a2, b3.trans a3, fun k I hI => ?_⟩
  obtain ⟨I2, hI2, c1, c2, c3, c4, c5, c6⟩ := a4 k I hI
  obtain ⟨I3, hI3, d1, d2, d3, d4, d5, d6⟩ := b4 k I2 hI2
  refine ⟨I3, hI3, fun j hj => d1 j (c1 j hj), fun j hj => ?_, fun hn => d3 (c3 hn),
    fun j hj => d4 j (c4 j hj), fun j hj => ?_, fun hn => d6 (c6 hn)⟩
  · rcases d2 j hj with h | h
    · exact c2 j h
    · exact Or.inr h
  · rcases d5 j hj with h | h
    · exact c5 j h
    · exact Or.inr h

theorem HasS.hasS_mono {B s s' : State} {k : Nat} {j : Option Nat} (h : HasS k j s)
    (ha : Adds B s s') : HasS k j s' := by
  obtain ⟨I, hI, hj⟩ := h
  obtain ⟨I', hI', c1, _⟩ := ha.2.2.2 k I hI
  exact ⟨I', hI', c1 j hj⟩

theorem HasP.hasP_mono {B s s' : State} {k : Nat} {j : Option Nat} (h : HasP k j s)
    (ha : Adds B s s') : HasP k j s' := by
  obtain ⟨I, hI, hj⟩ := h
  obtain ⟨I', hI', _, _, _, c4, _⟩ := ha.2.2.2 k I hI
  exact ⟨I', hI', c4 j hj⟩

theorem mem_add_successors (I : registerInterval) (j x : Option Nat) :
    x ∈ (I.add_successors j).successors ↔ x ∈ I.successors ∨ x = j := by
  unfold registerInterval.add_successors
  split
  · rename_i h
    constructor
    · exact fun hx => Or.inl hx
    · rintro (hx | rfl)
      · exact hx
      · exact h
  · simp

theorem mem_add_predecessor (I : registerInterval) (j x : Option Nat) :
    x ∈ (I.add_predecessor j).predecessors ↔ x ∈ I.predecessors ∨ x = j := by
  unfold registerInterval.add_predecessor
  split
  · rename_i h
    constructor
    · exact fun hx => Or.inl hx
    · rintro (hx | rfl)
      · exact hx
      · exact h
  · simp

theorem nodup_add_successors (I : registerInterval) (j : Option Nat)
    (h : I.successors.Nodup) : (I.add_successors j).successors.Nodup := by
  unfold registerInterval.add_successors
  split
  · exact h
  · rename_i hj
    simp only
    rw [List.nodup_append]
    refine ⟨h, List.nodup_singleton j, ?_⟩
    intro a ha hb
    rw [List.mem_singleton] at hb
    subst hb
    exact hj ha

theorem nodup_add_predecessor (I : registerInterval) (j : Option Nat)
    (h : I.predecessors.Nodup) : (I.add_predecessor j).predecessors.Nodup := by
  unfold registerInterval.add_predecessor
  split
  · exact h
  · rename_i hj
    simp only
    rw [List.nodup_append]
    refine ⟨h, List.nodup_singleton j, ?_⟩
    intro a ha hb
    rw [List.mem_singleton] at hb
    subst hb
    exact hj ha

theorem add_successors_predecessors (I : registerInterval) (j : Option Nat) :
    (I.add_successors j).predecessors = I.predecessors := by
  unfold registerInterval.add_successors
  split <;> rfl

theorem add_predecessor_successors (I : registerInterval) (j : Option Nat) :
    (I.add_predecessor j).successors = I.successors := by
  unfold registerInterval.add_predecessor
  split <;> rfl

theorem Adds.adds_succ (B s : State) (k : Nat) (I : registerInterval) (j : Option Nat)
    (hI : s.intervals[k]? = some I) (hj : succ_target B k j) :
    Adds B s (setInterval s k (I.add_successors j)) ∧
      HasS k j (setInterval s k (I.add_successors j)) := by
  have hklt : k < s.intervals.length := (List.getElem?_eq_some_iff.mp hI).1
  have hself : (setInterval s k (I.add_successors j)).intervals[k]? =
      some (I.add_successors j) := by simp [setInterval, hklt]
  refine ⟨⟨rfl, rfl, rfl, fun t J hJ => ?_⟩, _, hself, (mem_add_successors I j j).mpr (Or.inr rfl)⟩
  by_cases htk : t = k
  · subst htk
    rw [hI] at hJ; cases hJ
    refine ⟨_, hself, fun x hx => (mem_add_successors I j x).mpr (Or.inl hx), fun x hx => ?_,
      nodup_add_successors I j, ?_, ?_, ?_⟩
    · rcases (mem_add_successors I j x).mp hx with h | rfl
      · exact Or.inl h
      · exact Or.inr hj
    · rw [add_successors_predecessors]; exact fun x hx => hx
    · rw [add_successors_predecessors]; exact fun x hx => Or.inl hx
    · rw [add_successors_predecessors]; exact fun h => h
  · refine ⟨J, ?_, fun _ h => h, fun _ h => Or.inl h, fun h => h, fun _ h => h,
      fun _ h => Or.inl h, fun h => h⟩
    simp only [setInterval]
    rw [List.getElem?_set_ne (fun e => htk e.symm)]
    exact hJ

theorem Adds.adds_pred (B s : State) (k : Nat) (I : registerInterval) (j : Option Nat)
    (hI : s.intervals[k]? = some I) (hj : pred_target B k j) :
    Adds B s (setInterval s k (I.add_predecessor j)) ∧
      HasP k j (setInterval s k (I.add_predecessor j)) := by
  have hklt : k < s.intervals.length := (List.getElem?_eq_some_iff.mp hI).1
  have hself : (setInterval s k (I.add_predecessor j)).intervals[k]? =
      some (I.add_predecessor j) := by simp [setInterval, hklt]
  refine ⟨⟨rfl, rfl, rfl, fun t J hJ => ?_⟩, _, hself,
    (mem_add_predecessor I j j).mpr (Or.inr rfl)⟩
  by_cases htk : t = k
  · subst htk
    rw [hI] at hJ; cases hJ
    refine ⟨_, hself, ?_, ?_, ?_, fun x hx => (mem_add_predecessor I j x).mpr (Or.inl hx),
      fun x hx => ?_, nodup_add_predecessor I j⟩
    · rw [add_predecessor_successors]; exact fun x hx => hx
    · rw [add_predecessor_successors]; exact fun x hx => Or.inl hx
    · rw [add_predecessor_successors]; exact fun h => h
    · rcases (mem_add_predecessor I j x).mp hx with h | rfl
      · exact Or.inl h
      · exact Or.inr hj
  · refine ⟨J, ?_, fun _ h => h, fun _ h => Or.inl h, fun h => h, fun _ h => h,
      fun _ h => Or.inl h, fun h => h⟩
    simp only [setInterval]
    rw [List.getElem?_set_ne (fun e => htk e.symm)]
    exact hJ

/-- A fold whose steps only add edges: the whole fold only adds edges, and a
property `Post a` that the step for `a` establishes and that added edges do not
destroy holds at the end for every element of the list. -/
theorem foldlM_adds {α : Type} (B : State) (f : State → α → M State)
    (Post : α → State → Prop) (l : List α)
    (hstep : ∀ s a s', a ∈ l → s.blocks = B.blocks → s.basic_blocks = B.basic_blocks →
      f s a = .ok s' → Adds B s s' ∧ Post a s')
    (hmono : ∀ x s s', Adds B s s' → Post x s → Post x s') :
    ∀ s s', s.blocks = B.blocks → s.basic_blocks = B.basic_blocks →
      l.foldlM f s = .ok s' → Adds B s s' ∧ ∀ a ∈ l, Post a s' := by
  intro s s' hb hl h
  have hinv : ∀ (b : State) (a : α) (b' : State), a ∈ l →
      (b.blocks = B.blocks ∧ b.basic_blocks = B.basic_blocks ∧ Adds B s b) →
      f b a = .ok b' →
      (b'.blocks = B.blocks ∧ b'.basic_blocks = B.basic_blocks ∧ Adds B s b') := by
    intro b a b' ha hi hf
    obtain ⟨h1, _⟩ := hstep b a b' ha hi.1 hi.2.1 hf
    exact ⟨h1.1.trans hi.1, h1.2.1.trans hi.2.1, hi.2.2.adds_trans h1⟩
  refine ⟨(foldlM_inv f _ l hinv s s' ⟨hb, hl, Adds.adds_refl B s⟩ h).2.2, ?_⟩
  exact foldlM_post f _ Post l hinv
    (fun b a b' ha hi hf => (hstep b a b' ha hi.1 hi.2.1 hf).2)
    (fun b a x b' ha hi hx hf => hmono x b b' (hstep b a b' ha hi.1 hi.2.1 hf).1 hx)
    s s' ⟨hb, hl, Adds.adds_refl B s⟩ h

/-- The edges the block `b` gives to the register-interval `k`: only edges
are added, and if `b` belongs to `k` then afterwards the register-interval of
every predecessor and successor of `b` that differs from `k` is in the lists
of `k`. -/
theorem passOne_block_edges_spec (B s s' : State) (k b : Nat) (hb : b ∈ B.basic_blocks)
    (hs : s.blocks = B.blocks) (hl : s.basic_blocks = B.basic_blocks)
    (h : passOne_block_edges s k b = .ok s') :
    Adds B s s' ∧
    ∀ blk : basicBlock, B.blocks[b]? = some blk → blk.BB_registerInterval = some k →
      (∀ p ∈ blk.predecessors, ∀ pb : basicBlock, B.blocks[p]? = some pb →
        pb.BB_registerInterval ≠ some k → HasP k pb.BB_registerInterval s') ∧
      (∀ x ∈ blk.successors, ∀ sb : basicBlock, B.blocks[x]? = some sb →
        sb.BB_registerInterval ≠ some k → HasS k sb.BB_registerInterval s') := by
  unfold passOne_block_edges at h
  obtain ⟨blk, hblk, h⟩ := (bind_eq_ok _ _ _).mp h
  have hblk' : B.blocks[b]? = some blk := by
    rw [← hs]; exact (getBlock_eq_ok _ _ _).mp hblk
  split at h
  · rename_i hk
    obtain ⟨s1, h1, h⟩ := (bind_eq_ok _ _ _).mp h
    obtain ⟨a1, p1⟩ := foldlM_adds B _
      (fun p t => ∀ pb : basicBlock, B.blocks[p]? = some pb →
        pb.BB_registerInterval ≠ some k → HasP k pb.BB_registerInterval t)
      blk.predecessors
      (fun t p t' hp ht _ hstep => by
        obtain ⟨pb, hpb, hstep⟩ := (bind_eq_ok _ _ _).mp hstep
        have hpb' : B.blocks[p]? = some pb := by
          rw [← ht]; exact (getBlock_eq_ok _ _ _).mp hpb
        split at hstep
        · rename_i hne
          obtain ⟨I, hI, hstep⟩ := (bind_eq_ok _ _ _).mp hstep
          rw [getInterval_eq_ok] at hI
          simp only [pure, Except.pure, Except.ok.injEq] at hstep
          subst hstep
          obtain ⟨g1, g2⟩ := Adds.adds_pred B t k I pb.BB_registerInterval hI
            ⟨hne, b, hb, blk, hblk', hk, p, hp, pb, hpb', rfl⟩
          refine ⟨g1, fun pb2 hpb2 _ => ?_⟩
          rw [hpb'] at hpb2; cases hpb2
          exact g2
        · rename_i hne
          simp only [pure, Except.pure, Except.ok.injEq] at hstep
          subst hstep
          refine ⟨Adds.adds_refl B t, fun pb2 hpb2 hne2 => ?_⟩
          rw [hpb'] at hpb2; cases hpb2
          exact absurd hne2 hne)
      (fun p t t' ha hP pb hpb hne => (hP pb hpb hne).hasP_mono ha)
      s s1 hs hl h1
    obtain ⟨a2, p2⟩ := foldlM_adds B _
      (fun x t => ∀ sb : basicBlock, B.blocks[x]? = some sb →
        sb.BB_registerInterval ≠ some k → HasS k sb.BB_registerInterval t)
      blk.successors
      (fun t x t' hx ht _ hstep => by
        obtain ⟨sb, hsb, hstep⟩ := (bind_eq_ok _ _ _).mp hstep
        have hsb' : B.blocks[x]? = some sb := by
          rw [← ht]; exact (getBlock_eq_ok _ _ _).mp hsb
        split at hstep
        · rename_i hne
          obtain ⟨I, hI, hstep⟩ := (bind_eq_ok _ _ _).mp hstep
          rw [getInterval_eq_ok] at hI
          simp only [pure, Except.pure, Except.ok.injEq] at hstep
          subst hstep
          obtain ⟨g1, g2⟩ := Adds.adds_succ B t k I sb.BB_registerInterval hI
            ⟨hne, b, hb, blk, hblk', hk, x, hx, sb, hsb', rfl⟩
          refine ⟨g1, fun sb2 hsb2 _ => ?_⟩
          rw [hsb'] at hsb2; cases hsb2
          exact g2
        · rename_i hne
          simp only [pure, Except.pure, Except.ok.injEq] at hstep
          subst hstep
          refine ⟨Adds.adds_refl B t, fun sb2 hsb2 hne2 => ?_⟩
          rw [hsb'] at hsb2; cases hsb2
          exact absurd hne2 hne)
      (fun x t t' ha hP sb hsb hne => (hP sb hsb hne).hasS_mono ha)
      s1 s' (a1.1.trans hs) (a1.2.1.trans hl) h
    refine ⟨a1.adds_trans a2, fun blk2 hblk2 _ => ?_⟩
    rw [hblk'] at hblk2; cases hblk2
    exact ⟨fun p hp pb hpb hne => (p1 p hp pb hpb hne).hasP_mono a2, p2⟩
  · rename_i hk
    simp only [pure, Except.pure, Except.ok.injEq] at h
    subst h
    refine ⟨Adds.adds_refl B s, fun blk2 hblk2 hk2 => ?_⟩
    rw [hblk'] at hblk2; cases hblk2
    exact absurd hk2 hk

/-- The edge loop of pass one only adds edges, and afterwards every
register-interval of `RegisterIntervals` has all its targets in its lists. -/
theorem passOne_edges_spec (st st' : State) (h : passOne_edges st = .ok st') :
    Adds st st st' ∧
    ∀ k ∈ st.RegisterIntervals,
      (∀ j, succ_target st k j → HasS k j st') ∧ (∀ j, pred_target st k j → HasP k j st') := by
  unfold passOne_edges at h
  obtain ⟨a, p⟩ := foldlM_adds st _
    (fun k t => ∀ b ∈ st.basic_blocks, ∀ blk : basicBlock, st.blocks[b]? = some blk →
      blk.BB_registerInterval = some k →
      (∀ p ∈ blk.predecessors, ∀ pb : basicBlock, st.blocks[p]? = some pb →
        pb.BB_registerInterval ≠ some k → HasP k pb.BB_registerInterval t) ∧
      (∀ x ∈ blk.successors, ∀ sb : basicBlock, st.blocks[x]? = some sb →
        sb.BB_registerInterval ≠ some k → HasS k sb.BB_registerInterval t))
    st.RegisterIntervals
    (fun t k t' _ ht hl hstep => by
      rw [hl] at hstep
      exact foldlM_adds st (fun s b => passOne_block_edges s k b)
        (fun b u => ∀ blk : basicBlock, st.blocks[b]? = some blk →
          blk.BB_registerInterval = some k →
          (∀ p ∈ blk.predecessors, ∀ pb : basicBlock, st.blocks[p]? = some pb →
            pb.BB_registerInterval ≠ some k → HasP k pb.BB_registerInterval u) ∧
          (∀ x ∈ blk.successors, ∀ sb : basicBlock, st.blocks[x]? = some sb →
            sb.BB_registerInterval ≠ some k → HasS k sb.BB_registerInterval u))
        st.basic_blocks
        (fun u b u' hb hu hul hs => passOne_block_edges_spec st u u' k b hb hu hul hs)
        (fun b u u' ha hP blk hblk hk =>
          ⟨fun p hp pb hpb hne => ((hP blk hblk hk).1 p hp pb hpb hne).hasP_mono ha,
            fun x hx sb hsb hne => ((hP blk hblk hk).2 x hx sb hsb hne).hasS_mono ha⟩)
        t t' ht hl hstep)
    (fun k t t' ha hP b hb blk hblk hk =>
      ⟨fun p hp pb hpb hne => ((hP b hb blk hblk hk).1 p hp pb hpb hne).hasP_mono ha,
        fun x hx sb hsb hne => ((hP b hb blk hblk hk).2 x hx sb hsb hne).hasS_mono ha⟩)
    st st' rfl rfl h
  refine ⟨a, fun k hk => ⟨?_, ?_⟩⟩
  · rintro j ⟨hne, c, hc, cb, hcb, hci, x, hx, sb, hsb, rfl⟩
    exact ((p k hk) c hc cb hcb hci).2 x hx sb hsb hne
  · rintro j ⟨hne, c, hc, cb, hcb, hci, x, hx, pb, hpb, rfl⟩
    exact ((p k hk) c hc cb hcb hci).1 x hx pb hpb hne

theorem succ_target_congr (st st' : State) (t : Nat) (j : Option Nat)
    (hb : st'.blocks = st.blocks) (hl : st'.basic_blocks = st.basic_blocks) :
    succ_target st' t j ↔ succ_target st t j := by
  unfold succ_target
  rw [hb, hl]

theorem pred_target_congr (st st' : State) (t : Nat) (j : Option Nat)
    (hb : st'.blocks = st.blocks) (hl : st'.basic_blocks = st.basic_blocks) :
    pred_target st' t j ↔ pred_target st t j := by
  unfold pred_target
  rw [hb, hl]

/-- C18. When pass one returns, for every returned register-interval `i` the
successor list and the predecessor list have no repeated element, a pointer `j`
is in the successor list exactly when `j` differs from `i` and is the
register-interval of a successor of a block of the block list that belongs to
`i`, and `j` is in the predecessor list exactly when `j` differs from `i` and is
the register-interval of a predecessor of such a block. -/
theorem passOne_interval_edges (fuel : Nat) (st st' : State) (BB_vector l : List Nat)
    (N : Int) (h : registerIntervalCreationPassOne fuel st BB_vector N = .ok (st', l)) :
    ∀ i ∈ l, ∃ I : registerInterval, st'.intervals[i]? = some I ∧
      I.successors.Nodup ∧ I.predecessors.Nodup ∧
      (∀ j : Option Nat, j ∈ I.successors ↔
        j ≠ some i ∧ ∃ c ∈ st'.basic_blocks, ∃ cb : basicBlock, st'.blocks[c]? = some cb ∧
          cb.BB_registerInterval = some i ∧
          ∃ s ∈ cb.successors, ∃ sb : basicBlock, st'.blocks[s]? = some sb ∧
            sb.BB_registerInterval = j) ∧
      (∀ j : Option Nat, j ∈ I.predecessors ↔
        j ≠ some i ∧ ∃ c ∈ st'.basic_blocks, ∃ cb : basicBlock, st'.blocks[c]? = some cb ∧
          cb.BB_registerInterval = some i ∧
          ∃ p ∈ cb.predecessors, ∃ pb : basicBlock, st'.blocks[p]? = some pb ∧
            pb.BB_registerInterval = j) := by
  obtain ⟨st1, st2, st3, st4, st5, h1, h2, h3, h4, h5, h6, e4, e5, e', hl⟩ :=
    passOne_final_phases fuel st st' BB_vector l N h
  have hfresh := passOne_fresh fuel st st1 st2 st3 BB_vector N h1 h2 h3
  have hb5 : st'.blocks = st5.blocks := by rw [e', e5]
  have hl5 : st'.basic_blocks = st5.basic_blocks := by rw [e', e5]
  have hr5 : st5.RegisterIntervals = st3.RegisterIntervals := by rw [e5]
  intro i hi
  rw [hl] at hi
  obtain ⟨_, hlt⟩ := hfresh.2.1 i hi
  have hI3 : st3.intervals[i]? = some (st3.intervals[i]) := List.getElem?_eq_getElem hlt
  obtain ⟨_, _, _, hp3, hs3⟩ := hfresh.2.2 i _ (hfresh.2.1 i hi).1 hI3
  obtain ⟨I4, hI4, e34⟩ := passOne_register_lists_keep
    (fun J => (J.predecessors, J.successors))
    (fun J J' s hJ => by
      obtain ⟨g1, g2, _⟩ := set_register_list_fields J J' s hJ
      simp only [g1, g2])
    st3 st4 h4 i _ hI3
  obtain ⟨I5, hI5, e45⟩ := passOne_codes_keep (fun J => (J.predecessors, J.successors))
    (fun J s => rfl) st4 st5 h5 i I4 hI4
  have hI5e : I5.predecessors = [] ∧ I5.successors = [] := by
    have := e45.trans e34
    simp only [Prod.mk.injEq] at this
    rw [hp3, hs3] at this
    exact this
  obtain ⟨hadds, hcomp⟩ := passOne_edges_spec st5 st' h6
  obtain ⟨I, hI, _, c2, c3, _, c5, c6⟩ := hadds.2.2.2 i I5 hI5
  obtain ⟨hcs, hcp⟩ := hcomp i (by rw [hr5]; exact hi)
  refine ⟨I, hI, c3 (by rw [hI5e.2]; exact List.nodup_nil),
    c6 (by rw [hI5e.1]; exact List.nodup_nil), fun j => ?_, fun j => ?_⟩
  · have key : j ∈ I.successors ↔ succ_target st' i j := by
      rw [succ_target_congr st5 st' i j hb5 hl5]
      constructor
      · intro hj
        rcases c2 j hj with h | h
        · rw [hI5e.2] at h; cases h
        · exact h
      · intro hj
        obtain ⟨I', hI', hm⟩ := hcs j hj
        rw [hI] at hI'; cases hI'
        exact hm
    exact key
  · have key : j ∈ I.predecessors ↔ pred_target st' i j := by
      rw [pred_target_congr st5 st' i j hb5 hl5]
      constructor
      · intro hj
        rcases c5 j hj with h | h
        · rw [hI5e.1] at h; cases h
        · exact h
      · intro hj
        obtain ⟨I', hI', hm⟩ := hcp j hj
        rw [hI] at hI'; cases hI'
        exact hm
    exact key

/-- Pass one on the diamond with budget 3: the edge lists of the four
register-intervals. -/
theorem passOne_interval_edges_witness :
    ∃ st' l, registerIntervalCreationPassOne 30 diamond [0, 1, 2, 3] 3 = .ok (st', l) ∧
      l.length = 4 ∧
      ∀ i ∈ l, ∃ I : registerInterval, st'.intervals[i]? = some I ∧
        I.successors.Nodup ∧ I.predecessors.Nodup ∧
        (∀ j : Option Nat, j ∈ I.successors ↔
          j ≠ some i ∧ ∃ c ∈ st'.basic_blocks, ∃ cb : basicBlock, st'.blocks[c]? = some cb ∧
            cb.BB_registerInterval = some i ∧
            ∃ s ∈ cb.successors, ∃ sb : basicBlock, st'.blocks[s]? = some sb ∧
              sb.BB_registerInterval = j) ∧
        (∀ j : Option Nat, j ∈ I.predecessors ↔
          j ≠ some i ∧ ∃ c ∈ st'.basic_blocks, ∃ cb : basicBlock, st'.blocks[c]? = some cb ∧
            cb.BB_registerInterval = some i ∧
            ∃ p ∈ cb.predecessors, ∃ pb : basicBlock, st'.blocks[p]? = some pb ∧
              pb.BB_registerInterval = j) := by
  obtain ⟨⟨st', l⟩, hrun, hv⟩ :=
    ok_of_map_eq (registerIntervalCreationPassOne 30 diamond [0, 1, 2, 3] 3)
      (fun r => r.2.length) 4 (by decide)
  exact ⟨st', l, hrun, hv, passOne_interval_edges 30 diamond st' [0, 1, 2, 3] l 3 hrun⟩

/-! ## Pass two: when the union of all register lists reaches the budget -/

theorem union_all_congr (st st' : State) (l : List Nat)
    (h : ∀ i ∈ l, ∃ I I' : registerInterval, st.intervals[i]? = some I ∧
      st'.intervals[i]? = some I' ∧ I'.register_list = I.register_list) :
    union_all st' l = union_all st l := by
  unfold union_all
  generalize ([] : List Str) = acc
  induction l generalizing acc with
  | nil => rfl
  | cons a l ih =>
    obtain ⟨I, I', hI, hI', e⟩ := h a (List.mem_cons_self _ _)
    rw [List.foldlM_cons, List.foldlM_cons]
    have h1 : getInterval st a = .ok I := (getInterval_eq_ok _ _ _).mpr hI
    have h2 : getInterval st' a = .ok I' := (getInterval_eq_ok _ _ _).mpr hI'
    simp only [h1, h2, bind, Except.bind, pure, Except.pure, e]
    exact ih (fun i hi => h i (List.mem_cons_of_mem _ hi)) _

theorem Solo.solo_union {st0 : State} {l : List Nat} {st : State} {out ws : List Nat}
    (h : Solo st0 l st out ws) : union_all st l = union_all st0 l :=
  union_all_congr st0 st l (fun i hi => by
    obtain ⟨I0, I, h1, h2, h3, _⟩ := h.2.1 i hi
    exact ⟨I0, I, h1, h2, h3⟩)

/-- A step that keeps the arena length and the records of the elements of `l`
keeps the invariant; the working set may shrink. -/
theorem Solo.solo_keep {st0 : State} {l : List Nat} {st st' : State} {out ws ws' : List Nat}
    (h : Solo st0 l st out ws) (hlen : st'.intervals.length = st.intervals.length)
    (hrec : ∀ i ∈ l, st'.intervals[i]? = st.intervals[i]?)
    (hws : ∀ w ∈ ws', w ∈ ws) : Solo st0 l st' out ws' := by
  obtain ⟨h1, h2, h3, h4, h5, h6⟩ := h
  refine ⟨by rw [hlen]; exact h1, ?_, ?_, ?_, ?_, fun w hw => h6 w (hws w hw)⟩
  · intro i hi
    rw [hrec i hi]
    exact h2 i hi
  · intro t ht
    obtain ⟨g1, g2, i, hi, I, hI, hn⟩ := h3 t ht
    exact ⟨g1, by rw [hlen]; exact g2, i, hi, I, by rw [hrec i hi]; exact hI, hn⟩
  · intro i hi I hI
    rw [hrec i hi] at hI
    exact h4 i hi I hI
  · intro i hi i' hi' I I' t hI hI'
    rw [hrec i hi] at hI
    rw [hrec i' hi'] at hI'
    exact h5 i hi i' hi' I I' t hI hI'

/-- The step of pass two that opens a new next-level register-interval for the
element `q` of the input list keeps the invariant. -/
theorem Solo.solo_assign {st0 : State} {l : List Nat} {st : State} {out ws : List Nat}
    (h : Solo st0 l st out ws) {q : Nat} {S : registerInterval} (hq : q ∈ l)
    (hS : st.intervals[q]? = some S) (hnone : S.next_level_registerInterval = none) :
    Solo st0 l
      (setInterval (new_registerInterval st).1 q
        { S with next_level_registerInterval := some (new_registerInterval st).2 })
      (out ++ [(new_registerInterval st).2]) (ws ++ [q]) := by
  obtain ⟨h1, h2, h3, h4, h5, h6⟩ := h
  have hqlt : q < st.intervals.length := (List.getElem?_eq_some_iff.mp hS).1
  have hvalid : ∀ i ∈ l, i < st.intervals.length := by
    intro i hi
    obtain ⟨_, I, _, hI, _⟩ := h2 i hi
    exact (List.getElem?_eq_some_iff.mp hI).1
  have key : ∀ S' : registerInterval,
      S'.next_level_registerInterval = some st.intervals.length →
      S'.register_list = S.register_list → S'.successors = S.successors →
      Solo st0 l (setInterval (new_registerInterval st).1 q S')
        (out ++ [st.intervals.length]) (ws ++ [q]) := by
    intro S' hn' hr' hs'
    have hTlen : (setInterval (new_registerInterval st).1 q S').intervals.length =
        st.intervals.length + 1 := by
      simp [setInterval, new_registerInterval]
    have hself : (setInterval (new_registerInterval st).1 q S').intervals[q]? = some S' := by
      simp only [setInterval, new_registerInterval]
      rw [List.getElem?_set_self (by simp; omega)]
    have hother : ∀ i, i ≠ q → i < st.intervals.length →
        (setInterval (new_registerInterval st).1 q S').intervals[i]? = st.intervals[i]? := by
      intro i hne hlt
      simp only [setInterval, new_registerInterval]
      rw [List.getElem?_set_ne (fun e => hne e.symm), List.getElem?_append_left hlt]
    have hnew : ∀ (i : Nat) (I : registerInterval), i ∈ l →
        (setInterval (new_registerInterval st).1 q S').intervals[i]? = some I →
        (i = q ∧ I = S') ∨ (i ≠ q ∧ st.intervals[i]? = some I) := by
      intro i I hi hI
      by_cases hiq : i = q
      · subst hiq
        rw [hself] at hI
        exact Or.inl ⟨rfl, (Option.some.inj hI).symm⟩
      · rw [hother i hiq (hvalid i hi)] at hI
        exact Or.inr ⟨hiq, hI⟩
    refine ⟨?_, ?_, ?_, ?_, ?_, ?_⟩
    · rw [hTlen]; omega
    · intro i hi
      obtain ⟨I0, I, g1, g2, g3, g4⟩ := h2 i hi
      by_cases hiq : i = q
      · subst hiq
        rw [hS] at g2; cases g2
        exact ⟨I0, S', g1, hself, hr'.trans g3, by rw [hs']; exact g4⟩
      · exact ⟨I0, I, g1, by rw [hother i hiq (hvalid i hi)]; exact g2, g3, g4⟩
    · intro t ht
      simp only [List.mem_append, List.mem_singleton] at ht
      rw [hTlen]
      rcases ht with ht | rfl
      · obtain ⟨g1, g2, i, hi, I, hI, hn⟩ := h3 t ht
        refine ⟨g1, by omega, i, hi, I, ?_, hn⟩
        have hiq : i ≠ q := by
          rintro rfl
          rw [hS] at hI; cases hI
          rw [hnone] at hn; cases hn
        rw [hother i hiq (hvalid i hi)]
        exact hI
      · exact ⟨h1, by omega, q, hq, S', hself, hn'⟩
    · intro i hi I hI t hn
      simp only [List.mem_append, List.mem_singleton]
      rcases hnew i I hi hI with ⟨_, rfl⟩ | ⟨_, hI'⟩
      · rw [hn'] at hn
        simp only [Option.some.injEq] at hn
        exact Or.inr hn.symm
      · exact Or.inl (h4 i hi I hI' t hn)
    · intro i hi i' hi' I I' t hI hI' hn hn2
      rcases hnew i I hi hI with ⟨rfl, rfl⟩ | ⟨hiq, hI0⟩
      · rcases hnew i' I' hi' hI' with ⟨rfl, _⟩ | ⟨_, hI0'⟩
        · rfl
        · rw [hn'] at hn
          simp only [Option.some.injEq] at hn
          subst hn
          have := (h3 _ (h4 i' hi' I' hI0' _ hn2)).2.1
          omega
      · rcases hnew i' I' hi' hI' with ⟨rfl, rfl⟩ | ⟨_, hI0'⟩
        · rw [hn'] at hn2
          simp only [Option.some.injEq] at hn2
          subst hn2
          have := (h3 _ (h4 i hi I hI0 _ hn)).2.1
          omega
        · exact h5 i hi i' hi' I I' t hI0 hI0' hn hn2
    · intro w hw
      simp only [List.mem_append, List.mem_singleton] at hw
      rcases hw with hw | rfl
      · exact h6 w hw
      · exact hq
  exact key _ rfl rfl rfl

theorem union_all_of_intervals_eq (st st' : State) (l : List Nat)
    (h : st'.intervals = st.intervals) : union_all st' l = union_all st l := by
  simp only [union_all, getInterval, h]

/-- A turn of the growth loop of pass two folds nothing when the union of the
register lists of all input register-intervals is not under the budget. -/
theorem passTwo_growth_step_noop (fuel : Nat) (l : List Nat) (ii : Option Nat) (N : Int)
    (st st' : State) (Interval : Nat) (U : List Str) (hU : union_all st l = .ok U)
    (hsz : size_lt U.length N = false)
    (h : passTwo_growth_step fuel l ii N st Interval = .ok st') :
    st'.intervals = st.intervals := by
  unfold passTwo_growth_step at h
  obtain ⟨I, hI, h⟩ := (bind_eq_ok _ _ _).mp h
  obtain ⟨st1, h1, h⟩ := (bind_eq_ok _ _ _).mp h
  have hv0 := visit_registerInterval_all_predecessors_intervals fuel _ _ _ h1
  have hv : st1.intervals = st.intervals := by rw [hv0]
  obtain ⟨C, _, h⟩ := (bind_eq_ok _ _ _).mp h
  obtain ⟨Union, hUn, h⟩ := (bind_eq_ok _ _ _).mp h
  rw [union_all_of_intervals_eq st st1 l hv, hU] at hUn
  cases hUn
  obtain ⟨I1, hI1, h⟩ := (bind_eq_ok _ _ _).mp h
  rw [if_neg (by rw [hsz]; simp)] at h
  simp only [pure, Except.pure, Except.ok.injEq] at h
  subst h
  exact hv

theorem passTwo_growth_solo (fuel : Nat) (st0 : State) (l : List Nat) (N : Int) (st st1 : State)
    (out rest : List Nat) (i : Nat) (I : registerInterval) (U : List Str)
    (hU : union_all st0 l = .ok U) (hsz : size_lt U.length N = false)
    (hsolo : Solo st0 l st out (i :: rest)) (hI : st.intervals[i]? = some I)
    (h : passTwo_growth fuel l N st I = .ok st1) : Solo st0 l st1 out rest := by
  have hrest : ∀ w ∈ rest, w ∈ i :: rest := fun w hw => List.mem_cons_of_mem _ hw
  unfold passTwo_growth at h
  split at h
  · obtain ⟨II, hII, h⟩ := (bind_eq_ok _ _ _).mp h
    obtain ⟨II', hII', h⟩ := (bind_eq_ok _ _ _).mp h
    obtain ⟨q, hq, hIIq⟩ := getIntervalPtr_eq_ok _ _ _ hII
    rw [hq] at h
    simp only [Option.getD_some] at h
    have hil : i ∈ l := hsolo.2.2.2.2.2 i (List.mem_cons_self _ _)
    have hqout : q ∈ out := hsolo.2.2.2.1 i hil I hI q hq
    have hqge : st0.intervals.length ≤ q := (hsolo.2.2.1 q hqout).1
    have hne : ∀ j ∈ l, q ≠ j := by
      intro j hj e
      obtain ⟨I0, _, hI0, _⟩ := hsolo.2.1 j hj
      have := (List.getElem?_eq_some_iff.mp hI0).1
      omega
    have hsa : Solo st0 l (setInterval st q II') out rest := by
      refine hsolo.solo_keep (by simp [setInterval]) (fun j hj => ?_) hrest
      simp only [setInterval]
      exact List.getElem?_set_ne (hne j hj)
    have hint : st1.intervals = (setInterval st q II').intervals := by
      refine foldlM_inv _ (fun s => s.intervals = (setInterval st q II').intervals) l ?_ _ st1
        rfl h
      intro s a s' _ hs hstep
      have hUs : union_all s l = .ok U := by
        rw [union_all_of_intervals_eq _ s l hs, hsa.solo_union]
        exact hU
      rw [passTwo_growth_step_noop fuel l (some q) N s s' a U hUs hsz hstep]
      exact hs
    exact hsa.solo_keep (by rw [hint]) (fun j _ => by rw [hint]) (fun w hw => hw)
  · simp only [pure, Except.pure, Except.ok.injEq] at h
    subst h
    exact hsolo.solo_keep rfl (fun _ _ => rfl) hrest

theorem passTwo_assign_successors_solo (st0 : State) (l : List Nat)
    (Successors : List (Option Nat)) (hS : ∀ s ∈ Successors, ∃ q, s = some q ∧ q ∈ l)
    (st : State) (out WorkingSet : List Nat) (r : State × List Nat × List Nat)
    (hinv : Solo st0 l st out WorkingSet)
    (h : passTwo_assign_successors st out WorkingSet Successors = .ok r) :
    Solo st0 l r.1 r.2.1 r.2.2 := by
  unfold passTwo_assign_successors at h
  refine foldlM_inv _
    (fun acc : State × List Nat × List Nat => Solo st0 l acc.1 acc.2.1 acc.2.2)
    Successors ?_ _ r hinv h
  rintro ⟨st1, out1, ws1⟩ s ⟨st2, out2, ws2⟩ hs hinv1 hstep
  obtain ⟨q, rfl, hq⟩ := hS s hs
  simp only at hstep
  obtain ⟨S, hS', hstep⟩ := (bind_eq_ok _ _ _).mp hstep
  obtain ⟨q', hq', hSq⟩ := getIntervalPtr_eq_ok _ _ _ hS'
  cases hq'
  split at hstep
  · rename_i hnone
    simp [pure, Except.pure] at hstep
    obtain ⟨h1, h2, h3⟩ := hstep
    subst h1 h2 h3
    exact Solo.solo_assign hinv1 hq hSq hnone
  · simp [pure, Except.pure] at hstep
    obtain ⟨h1, h2, h3⟩ := hstep
    subst h1 h2 h3
    exact hinv1

theorem passTwo_body_solo (fuel : Nat) (st0 : State) (l : List Nat) (N : Int) (st : State)
    (out rest : List Nat) (i : Nat) (r : State × List Nat × List Nat) (U : List Str)
    (hU : union_all st0 l = .ok U) (hsz : size_lt U.length N = false)
    (hinv : Solo st0 l st out (i :: rest))
    (h : passTwo_body fuel l N st out rest i = .ok r) : Solo st0 l r.1 r.2.1 r.2.2 := by
  unfold passTwo_body at h
  obtain ⟨I, hI, h⟩ := (bind_eq_ok _ _ _).mp h
  obtain ⟨st1, h1, h⟩ := (bind_eq_ok _ _ _).mp h
  obtain ⟨Successors, hc, h⟩ := (bind_eq_ok _ _ _).mp h
  have hinv1 := passTwo_growth_solo fuel st0 l N st st1 out rest i I U hU hsz hinv
    ((getInterval_eq_ok _ _ _).mp hI) h1
  have hclosed : ∀ j ∈ l, ∀ J : registerInterval, st1.intervals[j]? = some J →
      ∀ s ∈ J.successors, ∃ q, s = some q ∧ q ∈ l := by
    intro j hj J hJ
    obtain ⟨_, J', _, hJ', _, g⟩ := hinv1.2.1 j hj
    rw [hJ] at hJ'; cases hJ'
    exact g
  exact passTwo_assign_successors_solo st0 l Successors
    (passTwo_collect_successors_mem l st1 _ Successors hclosed hc) st1 out rest r hinv1 h

theorem passTwo_loop_solo (st0 : State) (l : List Nat) (N : Int) (U : List Str)
    (hU : union_all st0 l = .ok U) (hsz : size_lt U.length N = false) (fuel : Nat) :
    ∀ (st : State) (out WorkingSet : List Nat) (r : State × List Nat),
      Solo st0 l st out WorkingSet → passTwo_loop l N fuel st out WorkingSet = .ok r →
      Solo st0 l r.1 r.2 [] := by
  induction fuel with
  | zero =>
    intro st out WorkingSet r hinv h
    unfold passTwo_loop at h
    cases WorkingSet with
    | nil => simp at h; subst h; exact hinv
    | cons i rest => simp at h
  | succ fuel ih =>
    intro st out WorkingSet r hinv h
    unfold passTwo_loop at h
    cases WorkingSet with
    | nil => simp at h; subst h; exact hinv
    | cons i rest =>
      simp only at h
      obtain ⟨⟨st1, out1, ws1⟩, hb, h⟩ := (bind_eq_ok _ _ _).mp h
      exact ih st1 out1 ws1 r (passTwo_body_solo fuel st0 l N st out rest i _ U hU hsz hinv hb) h

theorem passTwo_seed_solo (st0 : State) (l : List Nat) (l' : List Nat) :
    ∀ (acc r : State × List Nat × List Nat),
      l'.foldlM
        (fun (acc : State × List Nat × List Nat) i => do
          let (st, out, WorkingSet) := acc
          let I ← getInterval st i
          if I.predecessors.length = 0 then
            let (st, temp) := new_registerInterval st
            let st := setInterval st i { I with next_level_registerInterval := some temp }
            return (st, out ++ [temp], WorkingSet ++ [i])
          else return (st, out, WorkingSet))
        acc = .ok r →
      Solo st0 l acc.1 acc.2.1 acc.2.2 → l'.Nodup → (∀ j ∈ l', j ∈ l) →
      (∀ j ∈ l', ∀ I : registerInterval, acc.1.intervals[j]? = some I →
        I.next_level_registerInterval = none) →
      Solo st0 l r.1 r.2.1 r.2.2 := by
  induction l' with
  | nil =>
    intro acc r h hinv _ _ _
    simp [pure, Except.pure] at h
    subst h
    exact hinv
  | cons a l' ih =>
    rintro ⟨st, out, ws⟩ r h hinv hnd hsub hnone
    rw [List.foldlM_cons] at h
    obtain ⟨⟨st1, out1, ws1⟩, h1, h⟩ := (bind_eq_ok _ _ _).mp h
    simp only at h1
    obtain ⟨A, hA, h1⟩ := (bind_eq_ok _ _ _).mp h1
    rw [getInterval_eq_ok] at hA
    have halt : a < st.intervals.length := (List.getElem?_eq_some_iff.mp hA).1
    rw [List.nodup_cons] at hnd
    have hsub' : ∀ j ∈ l', j ∈ l := fun j hj => hsub j (List.mem_cons_of_mem _ hj)
    split at h1
    · simp [pure, Except.pure] at h1
      obtain ⟨e1, e2, e3⟩ := h1
      subst e1 e2 e3
      refine ih _ r h ?_ hnd.2 hsub' ?_
      · exact Solo.solo_assign hinv (hsub a (List.mem_cons_self _ _)) hA
          (hnone a (List.mem_cons_self _ _) A hA)
      · intro j hj I hI
        have hja : a ≠ j := fun e => hnd.1 (e ▸ hj)
        simp only [new_registerInterval, RegisterInterval.setInterval] at hI
        rw [List.getElem?_set_ne hja] at hI
        have hjlt : j < st.intervals.length := by
          obtain ⟨_, J, _, hJ, _⟩ := hinv.2.1 j (hsub' j hj)
          exact (List.getElem?_eq_some_iff.mp hJ).1
        rw [List.getElem?_append_left hjlt] at hI
        exact hnone j (List.mem_cons_of_mem _ hj) I hI
    · simp [pure, Except.pure] at h1
      obtain ⟨e1, e2, e3⟩ := h1
      subst e1 e2 e3
      exact ih _ r h hinv hnd.2 hsub'
        (fun j hj I hI => hnone j (List.mem_cons_of_mem _ hj) I hI)

theorem passTwo_init_keep {α : Type} (g : registerInterval → α)
    (hg : ∀ I : registerInterval, g { I with next_level_registerInterval := none } = g I)
    (st st' : State) (l : List Nat) (h : passTwo_init st l = .ok st') :
    ∀ (i : Nat) (I : registerInterval), st.intervals[i]? = some I →
      ∃ I' : registerInterval, st'.intervals[i]? = some I' ∧ g I' = g I := by
  unfold passTwo_init at h
  refine foldlM_inv _
    (fun s => ∀ (i : Nat) (I : registerInterval), st.intervals[i]? = some I →
      ∃ I' : registerInterval, s.intervals[i]? = some I' ∧ g I' = g I)
    l ?_ st st' (fun i I hI => ⟨I, hI, rfl⟩) h
  intro s j s' _ hs hstep
  obtain ⟨J, hJ, hstep⟩ := (bind_eq_ok _ _ _).mp hstep
  rw [getInterval_eq_ok] at hJ
  simp only [pure, Except.pure, Except.ok.injEq] at hstep
  subst hstep
  intro i I hI
  obtain ⟨I1, hI1, e1⟩ := hs i I hI
  obtain ⟨I2, hI2, e2⟩ := setInterval_keep g s j J _ hJ (hg J) i I1 hI1
  exact ⟨I2, hI2, e2.trans e1⟩

theorem passTwo_register_lists_keep {α : Type} (g : registerInterval → α)
    (hg : ∀ (I I' : registerInterval) (s : List Str), I.set_register_list s = .ok I' →
      g I' = g I)
    (st st' : State) (l out : List Nat) (h : passTwo_register_lists st l out = .ok st') :
    ∀ (i : Nat) (I : registerInterval), st.intervals[i]? = some I →
      ∃ I' : registerInterval, st'.intervals[i]? = some I' ∧ g I' = g I := by
  unfold passTwo_register_lists at h
  refine foldlM_inv _
    (fun s => ∀ (i : Nat) (I : registerInterval), st.intervals[i]? = some I →
      ∃ I' : registerInterval, s.intervals[i]? = some I' ∧ g I' = g I)
    out ?_ st st' (fun i I hI => ⟨I, hI, rfl⟩) h
  intro s j s' _ hs hstep
  obtain ⟨regs, _, hstep⟩ := (bind_eq_ok _ _ _).mp hstep
  obtain ⟨J, hJ, hstep⟩ := (bind_eq_ok _ _ _).mp hstep
  obtain ⟨J', hJ', hstep⟩ := (bind_eq_ok _ _ _).mp hstep
  rw [getInterval_eq_ok] at hJ
  simp only [pure, Except.pure, Except.ok.injEq] at hstep
  subst hstep
  intro i I hI
  obtain ⟨I1, hI1, e1⟩ := hs i I hI
  obtain ⟨I2, hI2, e2⟩ := setInterval_keep g s j J J' hJ (hg J J' regs hJ') i I1 hI1
  exact ⟨I2, hI2, e2.trans e1⟩

theorem passTwo_codes_keep {α : Type} (g : registerInterval → α)
    (hg : ∀ (I : registerInterval) (s : Str), g (I.set_code s) = g I)
    (st st' : State) (l out : List Nat) (h : passTwo_codes st l out = .ok st') :
    ∀ (i : Nat) (I : registerInterval), st.intervals[i]? = some I →
      ∃ I' : registerInterval, st'.intervals[i]? = some I' ∧ g I' = g I := by
  unfold passTwo_codes at h
  refine foldlM_inv _
    (fun s => ∀ (i : Nat) (I : registerInterval), st.intervals[i]? = some I →
      ∃ I' : registerInterval, s.intervals[i]? = some I' ∧ g I' = g I)
    out ?_ st st' (fun i I hI => ⟨I, hI, rfl⟩) h
  intro s j s' _ hs hstep
  obtain ⟨code, _, hstep⟩ := (bind_eq_ok _ _ _).mp hstep
  obtain ⟨J, hJ, hstep⟩ := (bind_eq_ok _ _ _).mp hstep
  rw [getInterval_eq_ok] at hJ
  simp only [pure, Except.pure, Except.ok.injEq] at hstep
  subst hstep
  intro i I hI
  obtain ⟨I1, hI1, e1⟩ := hs i I hI
  obtain ⟨I2, hI2, e2⟩ := setInterval_keep g s j J _ hJ (hg J code) i I1 hI1
  exact ⟨I2, hI2, e2.trans e1⟩

theorem passTwo_interval_edges_keep {α : Type} (g : registerInterval → α)
    (hp : ∀ (I : registerInterval) (p : Option Nat), g (I.add_predecessor p) = g I)
    (hs : ∀ (I : registerInterval) (p : Option Nat), g (I.add_successors p) = g I)
    (st st' : State) (k b : Nat) (h : passTwo_interval_edges st k b = .ok st') :
    ∀ (i : Nat) (I : registerInterval), st.intervals[i]? = some I →
      ∃ I' : registerInterval, st'.intervals[i]? = some I' ∧ g I' = g I := by
  unfold passTwo_interval_edges at h
  obtain ⟨B, _, h⟩ := (bind_eq_ok _ _ _).mp h
  split at h
  · obtain ⟨st1, h1, h⟩ := (bind_eq_ok _ _ _).mp h
    have e1 : ∀ (i : Nat) (I : registerInterval), st.intervals[i]? = some I →
        ∃ I' : registerInterval, st1.intervals[i]? = some I' ∧ g I' = g I := by
      refine foldlM_inv _
        (fun s => ∀ (i : Nat) (I : registerInterval), st.intervals[i]? = some I →
          ∃ I' : registerInterval, s.intervals[i]? = some I' ∧ g I' = g I)
        B.predecessors ?_ st st1 (fun i I hI => ⟨I, hI, rfl⟩) h1
      intro s p s' _ hinv hstep
      obtain ⟨P, _, hstep⟩ := (bind_eq_ok _ _ _).mp hstep
      split at hstep
      · obtain ⟨J, hJ, hstep⟩ := (bind_eq_ok _ _ _).mp hstep
        rw [getInterval_eq_ok] at hJ
        simp only [pure, Except.pure, Except.ok.injEq] at hstep
        subst hstep
        intro i I hI
        obtain ⟨I1, hI1, e1⟩ := hinv i I hI
        obtain ⟨I2, hI2, e2⟩ := setInterval_keep g s k J _ hJ
          (hs J P.next_level_registerInterval) i I1 hI1
        exact ⟨I2, hI2, e2.trans e1⟩
      · simp only [pure, Except.pure, Except.ok.injEq] at hstep
        subst hstep
        exact hinv
    refine foldlM_inv _
      (fun s => ∀ (i : Nat) (I : registerInterval), st.intervals[i]? = some I →
        ∃ I' : registerInterval, s.intervals[i]? = some I' ∧ g I' = g I)
      B.successors ?_ st1 st' e1 h
    intro s p s' _ hinv hstep
    obtain ⟨P, _, hstep⟩ := (bind_eq_ok _ _ _).mp hstep
    split at hstep
    · obtain ⟨J, hJ, hstep⟩ := (bind_eq_ok _ _ _).mp hstep
      rw [getInterval_eq_ok] at hJ
      simp only [pure, Except.pure, Except.ok.injEq] at hstep
      subst hstep
      intro i I hI
      obtain ⟨I1, hI1, e1⟩ := hinv i I hI
      obtain ⟨I2, hI2, e2⟩ := setInterval_keep g s k J _ hJ
        (hp J P.next_level_registerInterval) i I1 hI1
      exact ⟨I2, hI2, e2.trans e1⟩
    · simp only [pure, Except.pure, Except.ok.injEq] at hstep
      subst hstep
      exact hinv
  · simp only [pure, Except.pure, Except.ok.injEq] at h
    subst h
    exact fun i I hI => ⟨I, hI, rfl⟩

theorem passTwo_edges_keep {α : Type} (g : registerInterval → α)
    (hp : ∀ (I : registerInterval) (p : Option Nat), g (I.add_predecessor p) = g I)
    (hs : ∀ (I : registerInterval) (p : Option Nat), g (I.add_successors p) = g I)
    (st st' : State) (l out : List Nat) (h : passTwo_edges st l out = .ok st') :
    ∀ (i : Nat) (I : registerInterval), st.intervals[i]? = some I →
      ∃ I' : registerInterval, st'.intervals[i]? = some I' ∧ g I' = g I := by
  unfold passTwo_edges at h
  refine foldlM_inv _
    (fun s => ∀ (i : Nat) (I : registerInterval), st.intervals[i]? = some I →
      ∃ I' : registerInterval, s.intervals[i]? = some I' ∧ g I' = g I)
    out ?_ st st' (fun i I hI => ⟨I, hI, rfl⟩) h
  intro s k s' _ hinv hstep
  refine foldlM_inv _
    (fun s => ∀ (i : Nat) (I : registerInterval), st.intervals[i]? = some I →
      ∃ I' : registerInterval, s.intervals[i]? = some I' ∧ g I' = g I)
    l ?_ s s' hinv hstep
  intro s1 b s2 _ hinv1 hstep1
  intro i I hI
  obtain ⟨I1, hI1, e1⟩ := hinv1 i I hI
  obtain ⟨I2, hI2, e2⟩ := passTwo_interval_edges_keep g hp hs s1 s2 k b hstep1 i I1 hI1
  exact ⟨I2, hI2, e2.trans e1⟩

theorem add_predecessor_next_level (J : registerInterval) (p : Option Nat) :
    (J.add_predecessor p).next_level_registerInterval = J.next_level_registerInterval := by
  unfold registerInterval.add_predecessor
  split <;> rfl

theorem add_successors_next_level (J : registerInterval) (p : Option Nat) :
    (J.add_successors p).next_level_registerInterval = J.next_level_registerInterval := by
  unfold registerInterval.add_successors
  split <;> rfl

/-- C20. For an input list without repeated element that contains every
predecessor and successor of its elements, and a budget `N ≥ 0`: when the union
of the register lists of all input register-intervals has `N` or more elements
and pass two returns, no two elements of the input list have the same
next-level register-interval, and every returned register-interval is the
next-level register-interval of exactly one element of the input list. -/
theorem passTwo_no_fold (fuel : Nat) (st st' : State) (l out : List Nat) (N : Int)
    (U : List Str) (hnodup : l.Nodup) (hclosed : Closed st l) (h0 : 0 ≤ N)
    (hU : union_all st l = .ok U) (hN : N ≤ (U.length : Int))
    (h : registerIntervalCreationPassTwo fuel st l N = .ok (st', out)) :
    (∀ i ∈ l, ∀ i' ∈ l, ∀ (I I' : registerInterval) (J : Nat),
      st'.intervals[i]? = some I → st'.intervals[i']? = some I' →
      I.next_level_registerInterval = some J → I'.next_level_registerInterval = some J →
      i = i') ∧
    ∀ J ∈ out, ∃! i, i ∈ l ∧ ∃ I : registerInterval, st'.intervals[i]? = some I ∧
      I.next_level_registerInterval = some J := by
  have hsz : size_lt U.length N = false := by
    have := to_size_le N h0
    simp only [size_lt, decide_eq_false_iff_not, not_lt]
    omega
  unfold registerIntervalCreationPassTwo at h
  obtain ⟨st1, h1, h⟩ := (bind_eq_ok _ _ _).mp h
  obtain ⟨⟨st2, out2, ws2⟩, h2, h⟩ := (bind_eq_ok _ _ _).mp h
  simp only at h
  obtain ⟨⟨st3, out3⟩, h3, h⟩ := (bind_eq_ok _ _ _).mp h
  simp only at h
  obtain ⟨st4, h4, h⟩ := (bind_eq_ok _ _ _).mp h
  obtain ⟨st5, h5, h⟩ := (bind_eq_ok _ _ _).mp h
  obtain ⟨st6, h6, h⟩ := (bind_eq_ok _ _ _).mp h
  simp [pure, Except.pure] at h
  obtain ⟨rfl, rfl⟩ := h
  obtain ⟨i1, i2, i3⟩ := passTwo_init_spec l st st1 h1
  have hreg := passTwo_init_keep (fun J => J.register_list) (fun _ => rfl) st st1 l h1
  have hsolo1 : Solo st l st1 [] [] := by
    refine ⟨by rw [i1], ?_, by simp, ?_, ?_, by simp⟩
    · intro i hi
      have hlt := i3 i hi
      have hI0 : st.intervals[i]? = some st.intervals[i] := List.getElem?_eq_getElem hlt
      obtain ⟨I1, hI1, e1, _, _⟩ := i2 i _ hI0
      obtain ⟨I1', hI1', er⟩ := hreg i _ hI0
      rw [hI1] at hI1'; cases hI1'
      refine ⟨_, I1, hI0, hI1, er, ?_⟩
      rw [e1]
      exact (hclosed i hi _ hI0).1
    · intro i hi I hI t ht
      have hlt := i3 i hi
      obtain ⟨I1, hI1, _, _, e3⟩ := i2 i _ (List.getElem?_eq_getElem hlt)
      rw [hI] at hI1; cases hI1
      rw [e3 (Or.inl hi)] at ht
      cases ht
    · intro i hi i' _ I I' t hI _ ht
      have hlt := i3 i hi
      obtain ⟨I1, hI1, _, _, e3⟩ := i2 i _ (List.getElem?_eq_getElem hlt)
      rw [hI] at hI1; cases hI1
      rw [e3 (Or.inl hi)] at ht
      cases ht
  have hsolo2 : Solo st l st2 out2 ws2 := by
    unfold passTwo_seed at h2
    refine passTwo_seed_solo st l l (st1, [], []) (st2, out2, ws2) h2 hsolo1 hnodup
      (fun _ hj => hj) ?_
    intro j hj I hI
    have hlt := i3 j hj
    obtain ⟨I2, hI2, _, _, e3⟩ := i2 j st.intervals[j] (List.getElem?_eq_getElem hlt)
    simp only at hI
    rw [hI] at hI2; cases hI2
    exact e3 (Or.inl hj)
  have hsolo3 := passTwo_loop_solo st l N U hU hsz fuel st2 out2 ws2 (st3, out3) hsolo2 h3
  simp only at hsolo3
  have hnext : ∀ (i : Nat) (I : registerInterval), st3.intervals[i]? = some I →
      ∃ I' : registerInterval, st6.intervals[i]? = some I' ∧
        I'.next_level_registerInterval = I.next_level_registerInterval := by
    intro i I hI
    obtain ⟨I4, hI4, e4⟩ := passTwo_register_lists_keep (fun J => J.next_level_registerInterval)
      (fun J J' s hJ => (set_register_list_fields J J' s hJ).2.2.1) st3 st4 l out3 h4 i I hI
    obtain ⟨I5, hI5, e5⟩ := passTwo_codes_keep (fun J => J.next_level_registerInterval)
      (fun _ _ => rfl) st4 st5 l out3 h5 i I4 hI4
    obtain ⟨I6, hI6, e6⟩ := passTwo_edges_keep (fun J => J.next_level_registerInterval)
      add_predecessor_next_level add_successors_next_level st5 st6 l out3 h6 i I5 hI5
    exact ⟨I6, hI6, (e6.trans e5).trans e4⟩
  obtain ⟨_, g2, g3, _, g5, _⟩ := hsolo3
  have hinj : ∀ i ∈ l, ∀ i' ∈ l, ∀ (I I' : registerInterval) (J : Nat),
      st6.intervals[i]? = some I → st6.intervals[i']? = some I' →
      I.next_level_registerInterval = some J → I'.next_level_registerInterval = some J →
      i = i' := by
    intro i hi i' hi' I I' J hI hI' hn hn'
    obtain ⟨_, I3, _, hI3, _⟩ := g2 i hi
    obtain ⟨I3', hI3', en3⟩ := hnext i I3 hI3
    rw [hI] at hI3'; cases hI3'
    obtain ⟨_, I4, _, hI4, _⟩ := g2 i' hi'
    obtain ⟨I4', hI4', en4⟩ := hnext i' I4 hI4
    rw [hI'] at hI4'; cases hI4'
    exact g5 i hi i' hi' I3 I4 J hI3 hI4 (en3 ▸ hn) (en4 ▸ hn')
  refine ⟨hinj, ?_⟩
  intro J hJ
  obtain ⟨_, _, i, hi, I, hI, hn⟩ := g3 J hJ
  obtain ⟨I', hI', en⟩ := hnext i I hI
  refine ⟨i, ⟨hi, I', hI', en.trans hn⟩, ?_⟩
  rintro i2' ⟨hi2, I2, hI2, hn2⟩
  exact hinj i2' hi2 i hi I2 I' J hI2 hI' hn2 (en.trans hn)

theorem passTwo_no_fold_witness :
    ([0, 1] : List Nat).Nodup ∧ Closed two_intervals [0, 1] ∧ (0 : Int) ≤ 1 ∧
    union_all two_intervals [0, 1] = .ok ["R1".toList, "R2".toList] ∧
    (1 : Int) ≤ ((["R1".toList, "R2".toList] : List Str).length : Int) ∧
    ∃ st' out, registerIntervalCreationPassTwo 30 two_intervals [0, 1] 1 = .ok (st', out) ∧
      (∀ i ∈ [0, 1], ∀ i' ∈ [0, 1], ∀ (I I' : registerInterval) (J : Nat),
        st'.intervals[i]? = some I → st'.intervals[i']? = some I' →
        I.next_level_registerInterval = some J → I'.next_level_registerInterval = some J →
        i = i') ∧
      ∀ J ∈ out, ∃! i, i ∈ [0, 1] ∧ ∃ I : registerInterval, st'.intervals[i]? = some I ∧
        I.next_level_registerInterval = some J := by
  obtain ⟨⟨st', out⟩, hrun, _⟩ :=
    ok_of_map_eq (registerIntervalCreationPassTwo 30 two_intervals [0, 1] 1)
      (fun r => r.2.length) 2 (by decide)
  exact ⟨by decide, two_intervals_closed, by decide, by decide, by decide, st', out, hrun,
    passTwo_no_fold 30 two_intervals st' [0, 1] out 1 ["R1".toList, "R2".toList] (by decide)
      two_intervals_closed (by decide) (by decide) (by decide) hrun⟩

/-- With the budget `-1` the comparison of the union size with the budget is
made on unsigned 64-bit values, the budget reads as `2^64 - 1`, and pass two
folds the two register-intervals of `two_intervals` into one. -/
theorem passTwo_negative_budget_folds :
    (registerIntervalCreationPassTwo 30 two_intervals [0, 1] (-1)).map
      (fun r => (r.2, (r.1.intervals.map (fun I => I.next_level_registerInterval)).take 2))
      = .ok ([2], [some 2, some 2]) := by
  decide

/-- When the input list names a register-interval twice, pass two returns a
register-interval that is the next level of no register-interval. -/
theorem passTwo_repeated_input :
    (registerIntervalCreationPassTwo 30 two_intervals [0, 0] 1).map
      (fun r => (r.2, r.1.intervals.map (fun I => I.next_level_registerInterval)))
      = .ok ([2, 3, 4], [some 3, some 4, none, none, none]) := by
  decide

/-! ## Pass one on a single block -/

theorem charAt_drop (code : Str) (i j : Nat) : charAt (code.drop i) j = charAt code (i + j) := by
  simp [charAt, List.getD_eq_getElem?_getD, List.getElem?_drop]

theorem charAt_lt (code : Str) (i : Nat) (h : charAt code i = 'R') : i < code.length := by
  by_contra hge
  have : code[i]? = none := List.getElem?_eq_none (by omega)
  simp [charAt, List.getD_eq_getElem?_getD, this] at h

theorem takeWhile_take_two (xs : Str) (h : isDigit (charAt xs 0) = true) :
    (xs.takeWhile isDigit).take 2 =
      charAt xs 0 :: (if isDigit (charAt xs 1) = true then [charAt xs 1] else []) := by
  cases xs with
  | nil => exact absurd h (by decide)
  | cons c xs =>
    have hc : charAt (c :: xs) 0 = c := rfl
    rw [hc] at h ⊢
    rw [List.takeWhile_cons_of_pos h]
    cases xs with
    | nil =>
      have h0 : charAt [c] 1 = Char.ofNat 0 := rfl
      have : isDigit (charAt [c] 1) = false := by rw [h0]; decide
      simp [this]
    | cons d xs =>
      have hd : charAt (c :: d :: xs) 1 = d := rfl
      rw [hd]
      by_cases hdd : isDigit d = true
      · rw [List.takeWhile_cons_of_pos hdd, if_pos hdd]
        rfl
      · rw [List.takeWhile_cons_of_neg hdd, if_neg hdd]
        rfl

theorem token_at_eq (code : Str) (i : Nat) (r : Str) (h : token_at code i = some r) :
    charAt code i = 'R' ∧ isDigit (charAt code (i + 1)) = true ∧
      r = 'R' :: ((code.drop (i + 1)).takeWhile isDigit).take 2 := by
  unfold token_at at h
  split at h
  · rename_i hc
    refine ⟨hc.1, hc.2, ?_⟩
    simp only [Option.some.injEq] at h
    rw [takeWhile_take_two _ (by rw [charAt_drop]; exact hc.2), charAt_drop, charAt_drop, ← h]
  · cases h

theorem mem_identifier_fold (code : Str) (r : Str) (l : List Nat) :
    ∀ out : List Str,
      r ∈ l.foldl (fun out i =>
          if charAt code i = 'R' ∧ isDigit (charAt code (i + 1)) = true then
            reg_insert ('R' :: (code.drop (i + 1)).takeWhile isDigit) out
          else out) out ↔
        r ∈ out ∨ ∃ i ∈ l, charAt code i = 'R' ∧ isDigit (charAt code (i + 1)) = true ∧
          r = 'R' :: (code.drop (i + 1)).takeWhile isDigit := by
  induction l with
  | nil => intro out; simp
  | cons a l ih =>
    intro out
    rw [List.foldl_cons, ih]
    simp only [List.mem_cons, exists_eq_or_imp]
    by_cases hc : charAt code a = 'R' ∧ isDigit (charAt code (a + 1)) = true
    · rw [if_pos hc]
      unfold reg_insert
      rw [mem_set_insert]
      constructor
      · rintro ((h | h) | h)
        · exact Or.inr (Or.inl ⟨hc.1, hc.2, h⟩)
        · exact Or.inl h
        · exact Or.inr (Or.inr h)
      · rintro (h | ⟨_, _, h⟩ | h)
        · exact Or.inl (Or.inr h)
        · exact Or.inl (Or.inl h)
        · exact Or.inr h
    · rw [if_neg hc]
      constructor
      · rintro (h | h)
        · exact Or.inl h
        · exact Or.inr (Or.inr h)
      · rintro (h | ⟨h1, h2, _⟩ | h)
        · exact Or.inl h
        · exact absurd ⟨h1, h2⟩ hc
        · exact Or.inr h

theorem mem_register_identifiers (code : Str) (r : Str) :
    r ∈ register_identifiers code ↔
      ∃ i, charAt code i = 'R' ∧ isDigit (charAt code (i + 1)) = true ∧
        r = 'R' :: (code.drop (i + 1)).takeWhile isDigit := by
  unfold register_identifiers
  rw [mem_identifier_fold]
  constructor
  · rintro (h | ⟨i, _, h⟩)
    · cases h
    · exact ⟨i, h⟩
  · rintro ⟨i, h⟩
    exact Or.inr ⟨i, List.mem_range.mpr (charAt_lt code i h.1), h⟩

theorem pairwise_register_identifiers (code : Str) :
    (register_identifiers code).Pairwise (· < ·) := by
  unfold register_identifiers
  have key : ∀ (l : List Nat) (out : List Str), out.Pairwise (· < ·) →
      (l.foldl (fun out i =>
          if charAt code i = 'R' ∧ isDigit (charAt code (i + 1)) = true then
            reg_insert ('R' :: (code.drop (i + 1)).takeWhile isDigit) out
          else out) out).Pairwise (· < ·) := by
    intro l
    induction l with
    | nil => intro out h; exact h
    | cons a l ih =>
      intro out h
      rw [List.foldl_cons]
      apply ih
      split
      · exact pairwise_reg_insert _ _ h
      · exact h
  exact key _ _ List.Pairwise.nil

theorem to_string_small : ∀ n, n < 64 →
    (to_string n).length ≤ 2 ∧ stoi (to_string n) = .ok (n : Int) := by
  decide

theorem token_is_identifier (code : Str)
    (hrange : ∀ r ∈ register_identifiers code, ∃ n, n < 64 ∧ r = register_name n)
    (i : Nat) (r : Str) (h : token_at code i = some r) : r ∈ register_identifiers code := by
  obtain ⟨h1, h2, h3⟩ := token_at_eq code i r h
  have hid : 'R' :: (code.drop (i + 1)).takeWhile isDigit ∈ register_identifiers code :=
    (mem_register_identifiers code _).mpr ⟨i, h1, h2, rfl⟩
  obtain ⟨n, hn, e⟩ := hrange _ hid
  simp only [register_name, List.cons.injEq, true_and] at e
  have hlen := (to_string_small n hn).1
  rw [← e] at hlen
  rw [List.take_of_length_le hlen] at h3
  rw [h3]
  exact hid

theorem pairwise_scan_statement (code : Str) (found1 found2 : Nat) (t : List Str)
    (h : t.Pairwise (· < ·)) : (scan_statement code found1 found2 t).Pairwise (· < ·) := by
  unfold scan_statement
  have key : ∀ (l : List Nat) (t : List Str), t.Pairwise (· < ·) →
      (l.foldl (fun t i => match token_at code i with
        | some r => reg_insert r t
        | none => t) t).Pairwise (· < ·) := by
    intro l
    induction l with
    | nil => intro t h; exact h
    | cons a l ih =>
      intro t h
      rw [List.foldl_cons]
      apply ih
      split
      · exact pairwise_reg_insert _ _ h
      · exact h
  exact key _ _ h

theorem scan_loop_within (code : Str) (N : Int)
    (hbound : ∀ t : List Str, t.Pairwise (· < ·) →
      (∀ r ∈ t, ∃ i, token_at code i = some r) → t.length ≤ to_size N) :
    ∀ (ts : List Nat) (found1 : Nat) (register_list temp : List Str)
      (last : Option (List Str)),
      temp.Pairwise (· < ·) → (∀ r ∈ temp, ∃ i, token_at code i = some r) →
      ∃ L, scan_loop code N ts found1 register_list temp last = .finished L ∧
        (L = last ∨ ∃ out, L = some out ∧ out.Pairwise (· < ·) ∧
          ∀ r ∈ out, ∃ i, token_at code i = some r) := by
  intro ts
  induction ts with
  | nil =>
    intro found1 register_list temp last _ _
    exact ⟨last, rfl, Or.inl rfl⟩
  | cons found2 rest ih =>
    intro found1 register_list temp last hpw htok
    have hpw' := pairwise_scan_statement code found1 found2 temp hpw
    have htok' : ∀ r ∈ scan_statement code found1 found2 temp,
        ∃ i, token_at code i = some r := by
      intro r hr
      rcases (mem_scan_statement code found1 found2 temp r).mp hr with h | ⟨i, _, _, h⟩
      · exact htok r h
      · exact ⟨i, h⟩
    have hlen := hbound _ hpw' htok'
    have hover : ¬ size_gt (scan_statement code found1 found2 temp).length N = true := by
      simp only [size_gt, decide_eq_true_eq]
      omega
    unfold scan_loop
    simp only
    rw [if_neg hover]
    obtain ⟨L, hL, hcase⟩ := ih (found2 + 1) (scan_statement code found1 found2 temp)
      (scan_statement code found1 found2 temp)
      (some (scan_statement code found1 found2 temp)) hpw' htok'
    refine ⟨L, hL, Or.inr ?_⟩
    rcases hcase with h | h
    · exact ⟨_, h, hpw', htok'⟩
    · exact h

theorem set_register_bit_ok (I : registerInterval) (n : Nat) (hn : n < 64)
    (hv : 64 ≤ I.register_vector.length) :
    set_register_bit I (register_name n) =
      .ok { I with register_vector := I.register_vector.set n true } := by
  unfold set_register_bit register_name
  simp only
  rw [(to_string_small n hn).2]
  simp only [bind, Except.bind]
  rw [if_pos]
  · rfl
  · constructor
    · omega
    · simp only [Int.toNat_ofNat]
      omega

theorem set_register_list_ok (I : registerInterval) (s : List Str)
    (h : ∀ r ∈ s, ∃ n, n < 64 ∧ r = register_name n) :
    ∃ I' : registerInterval, I.set_register_list s = .ok I' := by
  unfold registerInterval.set_register_list
  have key : ∀ (l : List Str) (J : registerInterval),
      (∀ r ∈ l, ∃ n, n < 64 ∧ r = register_name n) → 64 ≤ J.register_vector.length →
      ∃ J' : registerInterval, l.foldlM set_register_bit J = .ok J' := by
    intro l
    induction l with
    | nil => intro J _ _; exact ⟨J, rfl⟩
    | cons r l ih =>
      intro J hr hv
      obtain ⟨n, hn, e⟩ := hr r (List.mem_cons_self _ _)
      rw [List.foldlM_cons, e, set_register_bit_ok J n hn hv]
      simp only [bind, Except.bind]
      apply ih
      · intro r' hr'
        exact hr r' (List.mem_cons_of_mem _ hr')
      · simp only [List.length_set]
        exact hv
  apply key _ _ h
  simp

theorem Single.single_marks {s : State} {p t : Nat} (h : Single s p t) (m : List Bool)
    (hm : s.mark.length ≤ m.length) : Single { s with mark := m } p t := by
  obtain ⟨h1, h2, h3, ⟨b, hb, hp, hs, hi, hid, ho⟩, h5⟩ := h
  exact ⟨h1, h2, h3, ⟨b, hb, hp, hs, hi, by simp only; omega, ho⟩, h5⟩

theorem Single.single_setInterval {s : State} {p t : Nat} (h : Single s p t)
    (I : registerInterval) : Single (setInterval s t I) p t := by
  obtain ⟨h1, h2, h3, h4, ⟨I0, hI0⟩⟩ := h
  refine ⟨h1, h2, h3, h4, I, ?_⟩
  have hlt : t < s.intervals.length := (List.getElem?_eq_some_iff.mp hI0).1
  simp [setInterval, hlt]

theorem single_visit (fuel : Nat) (s : State) (p t : Nat) (h : Single s p t) :
    ∃ m : List Bool, visit_all_predecessors (fuel + 1) s p = .ok { s with mark := m } ∧
      s.mark.length ≤ m.length ∧
      ∀ b : basicBlock, s.blocks[p]? = some b → m[b.ID]? = some true := by
  obtain ⟨h1, _, _, ⟨b, hb, hp, _, _, hid, _⟩, _⟩ := h
  have hlen : (reset_mark s).mark.length = s.mark.length + 1 := by
    simp [reset_mark, h1]
  have hg : getBlock (reset_mark s) p = .ok b := (getBlock_eq_ok _ _ _).mpr hb
  refine ⟨(reset_mark s).mark.set b.ID true, ?_, ?_, ?_⟩
  · unfold visit_all_predecessors visit_predecessors
    rw [hg]
    simp only [bind, Except.bind, setMark]
    rw [if_pos (by rw [hlen]; exact hid), hp]
    rfl
  · rw [List.length_set, hlen]
    omega
  · intro b' hb'
    rw [hb] at hb'
    cases hb'
    rw [List.getElem?_set_self (by rw [hlen]; exact hid)]

theorem single_union_marked (S : State) (p t : Nat) (b : basicBlock) (U : List Str)
    (h1 : S.basic_blocks = [p]) (hb : S.blocks[p]? = some b)
    (hmark : S.mark[b.ID]? = some true) (hi : b.BB_registerInterval = some t) :
    union_marked S (some t) U = .ok (reg_union U b.output_list) := by
  have hg : getBlock S p = .ok b := (getBlock_eq_ok _ _ _).mpr hb
  have hgm : getMark S b.ID = .ok true := by
    unfold getMark
    rw [hmark]
  unfold union_marked
  simp only [h1, List.foldlM_cons, List.foldlM_nil]
  rw [hg]
  simp only [bind, Except.bind, hgm]
  rw [if_pos ⟨trivial, hi⟩]
  rfl

theorem single_growth_step (fuel : Nat) (s : State) (p t : Nat) (N : Int)
    (h : Single s p t) :
    ∃ m : List Bool, growth_step (fuel + 1) s (some t) N p = .ok { s with mark := m } ∧
      s.mark.length ≤ m.length := by
  obtain ⟨m, hv, hm, hmark⟩ := single_visit fuel s p t h
  obtain ⟨h1, _, _, ⟨b, hb, hp, _, hi, _, _⟩, _⟩ := h
  refine ⟨m, ?_, hm⟩
  have hg : getBlock { s with mark := m } p = .ok b := (getBlock_eq_ok _ _ _).mpr hb
  have hu := single_union_marked { s with mark := m } p t b b.output_list h1 hb (hmark b hb) hi
  have ha : all_in_interval { s with mark := m } (some t) b.predecessors = .ok true := by
    rw [hp]
    rfl
  unfold growth_step
  rw [hv]
  simp only [bind, Except.bind]
  rw [hg]
  simp only [hu, ha]
  rw [if_neg]
  · rfl
  · rw [hi]
    simp

theorem single_growth (fuel : Nat) (s : State) (p t : Nat) (N : Int) (h : Single s p t) :
    ∃ m : List Bool, passOne_growth (fuel + 2) s (some t) N p = .ok { s with mark := m } ∧
      s.mark.length ≤ m.length := by
  have h0 := h
  obtain ⟨h1, _, _, ⟨b, hb, _, _, _, _, _⟩, _⟩ := h
  have hg : getBlock s p = .ok b := (getBlock_eq_ok _ _ _).mpr hb
  unfold passOne_growth
  rw [hg]
  simp only [bind, Except.bind]
  split
  · obtain ⟨m, hstep, hm⟩ := single_growth_step fuel s p t N h0
    refine ⟨m, ?_, hm⟩
    unfold growth_loop
    simp only [h1, List.getElem?_cons_zero]
    rw [hstep]
    simp only [bind, Except.bind]
    cases fuel with
    | zero => simp [growth_loop, h1]
    | succ f => simp [growth_loop, h1]
  · exact ⟨s.mark, rfl, le_refl _⟩

theorem single_collect (s : State) (p t : Nat) (h : Single s p t) :
    collect_successors s (some t) = .ok [] := by
  obtain ⟨h1, _, _, ⟨b, hb, _, hs, hi, _, _⟩, _⟩ := h
  have hg : getBlock s p = .ok b := (getBlock_eq_ok _ _ _).mpr hb
  unfold collect_successors
  simp only [h1, List.foldlM_cons, List.foldlM_nil]
  rw [hg]
  simp only [bind, Except.bind]
  rw [if_pos hi, hs]
  rfl

theorem single_register_lists (s : State) (p t : Nat) (h : Single s p t) :
    ∃ I : registerInterval, passOne_register_lists s = .ok (setInterval s t I) := by
  obtain ⟨h1, _, h3, ⟨b, hb, _, _, hi, _, ho⟩, I, hI⟩ := h
  have hg : getBlock s p = .ok b := (getBlock_eq_ok _ _ _).mpr hb
  have hgi : getInterval s t = .ok I := (getInterval_eq_ok _ _ _).mpr hI
  have hm : member_registers s t = .ok (reg_union [] b.output_list) := by
    unfold member_registers
    simp only [h1, List.foldlM_cons, List.foldlM_nil]
    rw [hg]
    simp only [bind, Except.bind]
    rw [if_pos hi]
    rfl
  obtain ⟨I', hI'⟩ := set_register_list_ok I (reg_union [] b.output_list) (by
    intro r hr
    rcases (mem_reg_union r [] b.output_list).mp hr with h | h
    · cases h
    · exact ho r h)
  refine ⟨I', ?_⟩
  unfold passOne_register_lists
  simp only [h3, List.foldlM_cons, List.foldlM_nil]
  rw [hm]
  simp only [bind, Except.bind]
  rw [hgi]
  simp only [hI']
  rfl

theorem single_codes (s : State) (p t : Nat) (h : Single s p t) :
    ∃ I : registerInterval, passOne_codes s = .ok (setInterval s t I) := by
  obtain ⟨h1, _, h3, ⟨b, hb, _, _, hi, _, _⟩, I, hI⟩ := h
  have hg : getBlock s p = .ok b := (getBlock_eq_ok _ _ _).mpr hb
  have hgi : getInterval s t = .ok I := (getInterval_eq_ok _ _ _).mpr hI
  have hm : member_code s t = .ok ([] ++ b.code) := by
    unfold member_code
    simp only [h1, List.foldlM_cons, List.foldlM_nil]
    rw [hg]
    simp only [bind, Except.bind]
    rw [if_pos hi]
    rfl
  refine ⟨I.set_code ([] ++ b.code), ?_⟩
  unfold passOne_codes
  simp only [h3, List.foldlM_cons, List.foldlM_nil]
  rw [hm]
  simp only [bind, Except.bind]
  rw [hgi]
  rfl

theorem single_edges (s : State) (p t : Nat) (h : Single s p t) :
    passOne_edges s = .ok s := by
  obtain ⟨h1, _, h3, ⟨b, hb, hp, hs, hi, _, _⟩, _⟩ := h
  have hg : getBlock s p = .ok b := (getBlock_eq_ok _ _ _).mpr hb
  have he : passOne_block_edges s t p = .ok s := by
    unfold passOne_block_edges
    rw [hg]
    simp only [bind, Except.bind]
    rw [if_pos hi, hp, hs]
    rfl
  unfold passOne_edges
  simp only [h3, h1, List.foldlM_cons, List.foldlM_nil]
  rw [he]
  rfl

theorem passOne_loop_nil (N : Int) (fuel : Nat) (s : State) (h : s.WS = []) :
    passOne_loop N fuel s = .ok s := by
  unfold passOne_loop
  simp only [h]

theorem passOne_loop_cons (N : Int) (fuel : Nat) (s : State) (BB : Nat) (rest : List Nat)
    (h : s.WS = BB :: rest) :
    passOne_loop N (fuel + 1) s =
      passOne_body fuel { s with WS := rest } BB N >>= passOne_loop N fuel := by
  conv_lhs => unfold passOne_loop
  simp only [h]

theorem single_init (s : State) (p : Nat) (b : basicBlock) (h1 : s.basic_blocks = [p])
    (hb : s.blocks[p]? = some b) :
    passOne_init s = .ok (setBlock s p { b with input_list := [], BB_registerInterval := none }) := by
  have hg : getBlock s p = .ok b := (getBlock_eq_ok _ _ _).mpr hb
  unfold passOne_init
  simp only [h1, List.foldlM_cons, List.foldlM_nil]
  rw [hg]
  rfl

theorem single_seed (s : State) (p : Nat) (b : basicBlock) (h1 : s.basic_blocks = [p])
    (hb : s.blocks[p]? = some b) (hp : b.predecessors = []) :
    ∃ s' : State, passOne_seed s = .ok s' ∧ s'.basic_blocks = [p] ∧ s'.WS = s.WS ++ [p] ∧
      s'.RegisterIntervals = s.RegisterIntervals ++ [s.intervals.length] ∧
      s'.blocks[p]? = some { b with BB_registerInterval := some s.intervals.length } ∧
      (∃ I : registerInterval, s'.intervals[s.intervals.length]? = some I) ∧
      s'.mark = s.mark := by
  have hg : getBlock s p = .ok b := (getBlock_eq_ok _ _ _).mpr hb
  have hlt : p < s.blocks.length := (List.getElem?_eq_some_iff.mp hb).1
  unfold passOne_seed
  simp only [h1, List.foldlM_cons, List.foldlM_nil]
  rw [hg]
  simp only [bind, Except.bind]
  rw [if_pos (by rw [hp]; rfl)]
  refine ⟨_, rfl, ?_, ?_, ?_, ?_, ?_, ?_⟩
  · simp [setBlock, new_registerInterval, h1]
  · simp [setBlock, new_registerInterval]
  · simp [setBlock, new_registerInterval]
  · simp [setBlock, new_registerInterval, hlt]
  · simp [setBlock, new_registerInterval]
  · simp [setBlock, new_registerInterval]

theorem single_traverse (fuel : Nat) (s : State) (p t : Nat) (N : Int) (h : Single s p t)
    (code : Str) (hcode : ∀ b : basicBlock, s.blocks[p]? = some b → b.code = code)
    (hrange : ∀ r ∈ register_identifiers code, ∃ n, n < 64 ∧ r = register_name n)
    (hN : (register_identifiers code).length ≤ to_size N) :
    ∃ s' : State, traverse fuel s p N = .ok s' ∧ Single s' p t ∧
      ∀ b' : basicBlock, s'.blocks[p]? = some b' → b'.code = code := by
  have h0 := h
  obtain ⟨h1, h2, h3, ⟨b, hb, hp, hs, hi, hid, ho⟩, h5⟩ := h
  have hg : getBlock s p = .ok b := (getBlock_eq_ok _ _ _).mpr hb
  have hc := hcode b hb
  obtain ⟨L, hL, hcase⟩ := scan_loop_within b.code N (by
      intro tl hpw htok
      rw [hc] at htok
      have hsub : tl ⊆ register_identifiers code := by
        intro r hr
        obtain ⟨i, hi⟩ := htok r hr
        exact token_is_identifier code hrange i r hi
      have hnd : tl.Nodup := hpw.imp (fun h => ne_of_lt h)
      exact le_trans (hnd.subperm hsub).length_le hN)
    (terminators b.code 0) 0 b.input_list [] none List.Pairwise.nil
    (fun r hr => by cases hr)
  unfold traverse
  rw [hg]
  simp only [bind, Except.bind]
  rw [hL]
  rcases hcase with rfl | ⟨out, rfl, _, hout⟩
  · exact ⟨s, rfl, h0, hcode⟩
  · refine ⟨setBlock s p { b with output_list := out }, rfl, ?_, ?_⟩
    · refine ⟨h1, h2, h3, ⟨{ b with output_list := out },
        setBlock_lookup_self s p b _ hb, hp, hs, hi, hid, ?_⟩, h5⟩
      intro r hr
      obtain ⟨i, hi⟩ := hout r hr
      rw [hc] at hi
      exact hrange r (token_is_identifier code hrange i r hi)
    · intro b' hb'
      rw [setBlock_lookup_self s p b _ hb] at hb'
      cases hb'
      exact hc

theorem identifiers_length_le (code : Str)
    (hrange : ∀ r ∈ register_identifiers code, ∃ n, n < 64 ∧ r = register_name n) :
    (register_identifiers code).length ≤ 64 := by
  have hnd : (register_identifiers code).Nodup :=
    (pairwise_register_identifiers code).imp (fun h => ne_of_lt h)
  have hsub : register_identifiers code ⊆ (List.range 64).map register_name := by
    intro r hr
    obtain ⟨n, hn, e⟩ := hrange r hr
    exact List.mem_map.mpr ⟨n, List.mem_range.mpr hn, e.symm⟩
  have := (hnd.subperm hsub).length_le
  simpa using this

theorem single_members (s : State) (p t : Nat) (h : Single s p t) : members s t = [p] := by
  obtain ⟨h1, _, _, ⟨b, hb, _, _, hi, _, _⟩, _⟩ := h
  unfold members
  rw [h1]
  simp [hb, hi]

/-- A block list with the single block `p`, which has no predecessor and
no successor, an empty working set, the identifier of `p` an index of the mark
vector as `visit_all_predecessors` resizes it, a text that names `k` distinct
registers, all of them among `R0` .. `R63`, and an output list that holds only
registers of the text: with the budget `k + 1` and any fuel from 3 on, pass one
returns exactly one register-interval, and `p` is its only member. -/
theorem passOne_single_block (st : State) (p : Nat) (b : basicBlock) (k : Nat)
    (hb : st.blocks[p]? = some b) (hpred : b.predecessors = []) (hsucc : b.successors = [])
    (hws : st.WS = []) (hid : b.ID < st.mark.length + 1)
    (hk : (register_identifiers b.code).length = k)
    (hrange : ∀ r ∈ register_identifiers b.code, ∃ n, n < 64 ∧ r = register_name n)
    (hout : ∀ r ∈ b.output_list, r ∈ register_identifiers b.code)
    (fuel : Nat) (hfuel : 3 ≤ fuel) :
    ∃ (st' : State) (i : Nat),
      registerIntervalCreationPassOne fuel st [p] ((k : Int) + 1) = .ok (st', [i]) ∧
      members st' i = [p] := by
  obtain ⟨f, rfl⟩ : ∃ f, fuel = f + 3 := ⟨fuel - 3, by omega⟩
  have hk64 : k ≤ 64 := hk ▸ identifiers_length_le b.code hrange
  have hN : (register_identifiers b.code).length ≤ to_size ((k : Int) + 1) := by
    rw [hk]
    unfold to_size
    omega
  have h1 := single_init { st with basic_blocks := [p] } p b rfl hb
  have hb1 := setBlock_lookup_self { st with basic_blocks := [p] } p b
    { b with input_list := [], BB_registerInterval := none } hb
  obtain ⟨s3, h3, p1, p2, p3, p4, p5, p6⟩ :=
    single_seed { setBlock { st with basic_blocks := [p] } p
        { b with input_list := [], BB_registerInterval := none } with RegisterIntervals := [] }
      p { b with input_list := [], BB_registerInterval := none } rfl hb1 hpred
  have hlen : (setBlock { st with basic_blocks := [p] } p
      { b with input_list := [], BB_registerInterval := none }).intervals.length =
      st.intervals.length := rfl
  simp only [hlen] at p3 p4 p5
  have hws3 : s3.WS = [p] := by
    rw [p2]
    show st.WS ++ [p] = [p]
    rw [hws]
    rfl
  have hmark : s3.mark = st.mark := p6
  have hsingle : Single { s3 with WS := [] } p st.intervals.length := by
    refine ⟨p1, rfl, by rw [p3]; rfl, ⟨_, p4, hpred, hsucc, rfl, ?_, ?_⟩, p5⟩
    · show b.ID < s3.mark.length + 1
      rw [hmark]
      exact hid
    · intro r hr
      exact hrange r (hout r hr)
  obtain ⟨s4, h4, hs4, _⟩ := single_traverse (f + 2) { s3 with WS := [] } p st.intervals.length
    ((k : Int) + 1) hsingle b.code (by
      intro b' hb'
      rw [show ({ s3 with WS := [] } : State).blocks[p]? = s3.blocks[p]? from rfl, p4] at hb'
      cases hb'
      rfl) hrange hN
  obtain ⟨m, h5, hm⟩ := single_growth f s4 p st.intervals.length ((k : Int) + 1) hs4
  have hs5 := hs4.single_marks m hm
  have h6 := single_collect _ p st.intervals.length hs5
  have hbody : passOne_body (f + 2) { s3 with WS := [] } p ((k : Int) + 1) =
      .ok { s4 with mark := m } := by
    have hg : getBlock { s3 with WS := [] } p =
        .ok { b with input_list := [], BB_registerInterval := some st.intervals.length } :=
      (getBlock_eq_ok _ _ _).mpr p4
    unfold passOne_body
    rw [hg]
    simp only [bind, Except.bind]
    rw [h4]
    simp only
    rw [h5]
    simp only
    rw [h6]
    rfl
  have hloop : passOne_loop ((k : Int) + 1) (f + 3) s3 = .ok { s4 with mark := m } := by
    rw [passOne_loop_cons _ (f + 2) s3 p [] hws3, hbody]
    exact passOne_loop_nil _ _ _ hs5.2.1
  obtain ⟨I6, h7⟩ := single_register_lists _ p st.intervals.length hs5
  have hs6 := hs5.single_setInterval I6
  obtain ⟨I7, h8⟩ := single_codes _ p st.intervals.length hs6
  have hs7 := hs6.single_setInterval I7
  have h9 := single_edges _ p st.intervals.length hs7
  refine ⟨_, st.intervals.length, ?_, single_members _ p _ hs7⟩
  unfold registerIntervalCreationPassOne
  simp only
  rw [h1]
  simp only [bind, Except.bind]
  rw [h3]
  simp only
  rw [hloop]
  simp only
  rw [h7]
  simp only
  rw [h8]
  simp only
  rw [h9]
  simp only [pure, Except.pure]
  rw [hs7.2.2.1]

theorem passOne_single_block_witness :
    one_register.blocks[0]? = some (front_end_block 0 "BB0" " MOV R1;" [] []) ∧
    (front_end_block 0 "BB0" " MOV R1;" [] []).predecessors = [] ∧
    (front_end_block 0 "BB0" " MOV R1;" [] []).successors = [] ∧
    one_register.WS = [] ∧
    (front_end_block 0 "BB0" " MOV R1;" [] []).ID < one_register.mark.length + 1 ∧
    (register_identifiers (front_end_block 0 "BB0" " MOV R1;" [] []).code).length = 1 ∧
    (∀ r ∈ register_identifiers (front_end_block 0 "BB0" " MOV R1;" [] []).code,
      ∃ n, n < 64 ∧ r = register_name n) ∧
    (∀ r ∈ (front_end_block 0 "BB0" " MOV R1;" [] []).output_list,
      r ∈ register_identifiers (front_end_block 0 "BB0" " MOV R1;" [] []).code) ∧
    ∃ (st' : State) (i : Nat),
      registerIntervalCreationPassOne 3 one_register [0] ((1 : Nat) + 1 : Int) = .ok (st', [i]) ∧
      members st' i = [0] :=
  ⟨rfl, rfl, rfl, rfl, by decide, by decide, by decide, by decide,
    passOne_single_block one_register 0 (front_end_block 0 "BB0" " MOV R1;" [] []) 1
      rfl rfl rfl rfl (by decide) (by decide) (by decide) (by decide) 3 (by decide)⟩


/-- C16. A single block without predecessor and successor whose text ` MOV R64;`
names one register: with the budget 2 pass one does not return one
register-interval; the write `register_vector[64]` into the vector of 64 entries
is out of bounds. -/
theorem passOne_single_block_out_of_range :
    register_identifiers " MOV R64;".toList = ["R64".toList] ∧
    (registerIntervalCreationPassOne 5
      (initial_state [front_end_block 0 "BB0" " MOV R64;" [] []] 1) [0] 2).map
        (fun r => r.2) = .error .ub := by
  decide

/-! ## Pass one does not depend on the texts when no statement overflows -/

theorem map_ok {α β : Type} (x : M α) (f : α → β) (a : α) (h : x = .ok a) :
    x.map f = .ok (f a) := by
  rw [h]; rfl

theorem map_bind {α β γ : Type} (x : M α) (f : α → M β) (g : β → γ) :
    (x >>= f).map g = x >>= fun a => (f a).map g := by
  cases x <;> rfl

theorem bind_map {α β γ : Type} (x : M α) (g : α → β) (f : β → M γ) :
    (x.map g) >>= f = x >>= fun a => f (g a) := by
  cases x <;> rfl

theorem bind_congr_fun {α β : Type} (x : M α) (f g : α → M β) (h : ∀ a, f a = g a) :
    x >>= f = x >>= g := by
  have : f = g := funext h
  rw [this]

theorem foldlM_congr {σ α : Type} (f g : σ → α → M σ) (l : List α)
    (h : ∀ s, ∀ a ∈ l, f s a = g s a) : ∀ s, l.foldlM f s = l.foldlM g s := by
  induction l with
  | nil => intro s; rfl
  | cons a l ih =>
    intro s
    rw [List.foldlM_cons, List.foldlM_cons, h s a (List.mem_cons_self _ _)]
    apply bind_congr_fun
    intro t
    exact ih (fun s b hb => h s b (List.mem_cons_of_mem _ hb)) t

/-- The diamond in which the text of A is ` ADD R0; R1`, with a last statement
that has no terminator: `traverse` records `R0` only, and with budget 3 pass one
puts A, B and C into one register-interval and returns two register-intervals. -/
theorem passOne_diamond_unterminated :
    (registerIntervalCreationPassOne 30
      (diamond_with ("A".toList, " ADD R0; R1".toList) ("B".toList, " MOV R2;".toList)
        ("C".toList, " MOV R3;".toList) ("D".toList, " MOV R4;".toList)) [0, 1, 2, 3] 3).map
      (fun r => (r.2.length,
        [interval_of r.1 0, interval_of r.1 1, interval_of r.1 2, interval_of r.1 3])) =
      .ok (2, [some 0, some 0, some 0, some 1]) := by
  decide

/-! ## The setters of the graph nodes, the rescan and the reset of the marks -/

theorem register_name_inj (k n : Nat) (hk : k < 64) (hn : n < 64)
    (h : register_name k = register_name n) : k = n := by
  simp only [register_name, List.cons.injEq, true_and] at h
  have h1 := (to_string_small k hk).2
  have h2 := (to_string_small n hn).2
  rw [h] at h1
  rw [h1] at h2
  simpa using h2

theorem set_register_list_fold (l : List Str) :
    ∀ (J : registerInterval) (D : List Str),
      (∀ r ∈ l, ∃ n, n < 64 ∧ r = register_name n) → J.register_vector.length = 64 →
      (∀ k, k < 64 → (J.register_vector[k]? = some true ↔ register_name k ∈ D)) →
      ∃ J' : registerInterval, l.foldlM set_register_bit J = .ok J' ∧
        J'.register_vector.length = 64 ∧
        ∀ k, k < 64 → (J'.register_vector[k]? = some true ↔
          register_name k ∈ D ∨ register_name k ∈ l) := by
  induction l with
  | nil =>
    intro J D _ hlen hD
    exact ⟨J, rfl, hlen, fun k hk => by simpa using hD k hk⟩
  | cons r l ih =>
    intro J D hr hlen hD
    obtain ⟨n, hn, e⟩ := hr r (List.mem_cons_self _ _)
    rw [List.foldlM_cons, e, set_register_bit_ok J n hn (by omega)]
    simp only [bind, Except.bind]
    obtain ⟨J', hJ', hlen', hmem⟩ := ih { J with register_vector := J.register_vector.set n true }
      (register_name n :: D) (fun r' hr' => hr r' (List.mem_cons_of_mem _ hr'))
      (by simp only [List.length_set]; exact hlen)
      (by
        intro k hk
        simp only [List.mem_cons]
        by_cases hkn : n = k
        · subst hkn
          rw [List.getElem?_set_self (by omega)]
          simp
        · rw [List.getElem?_set_ne hkn, hD k hk]
          constructor
          · exact Or.inr
          · rintro (h | h)
            · exact absurd (register_name_inj k n hk hn h).symm hkn
            · exact h)
    refine ⟨J', hJ', hlen', ?_⟩
    intro k hk
    rw [hmem k hk]
    simp only [List.mem_cons]
    tauto

/-- On a register-interval whose register vector is still empty, with every
register of `s` among `R0` .. `R63`, `set_register_list` returns a vector of 64
entries in which entry `k` is true exactly when `R k` is in `s`. -/
theorem set_register_list_first_call (I : registerInterval) (s : List Str)
    (hv : I.register_vector = [])
    (h : ∀ r ∈ s, ∃ n, n < 64 ∧ r = register_name n) :
    ∃ I' : registerInterval, I.set_register_list s = .ok I' ∧
      I'.register_vector.length = 64 ∧
      ∀ k, k < 64 → (I'.register_vector[k]? = some true ↔ register_name k ∈ s) := by
  unfold registerInterval.set_register_list
  obtain ⟨J', hJ', hlen, hmem⟩ := set_register_list_fold s
    { I with register_list := s,
             register_vector := I.register_vector ++ List.replicate 64 false } [] h
    (by simp [hv])
    (by
      intro k hk
      show (I.register_vector ++ List.replicate 64 false)[k]? = some true ↔ _
      rw [hv, List.nil_append, List.getElem?_replicate, if_pos hk]
      simp)
  refine ⟨J', hJ', hlen, ?_⟩
  intro k hk
  rw [hmem k hk]
  simp

/-- C21. A register-interval whose register list is set to `{R1}` and then to
`{R2}`: after the second call the register vector has 128 entries and the entries
1 and 2 are both true, whereas the claim gives 64 entries of which only entry 2
is true.  In a run of pass two that folds `two_intervals` with budget 5 the
register vector of the returned register-interval has 192 entries. -/
theorem set_register_list_second_call :
    (((fresh_interval two_intervals).set_register_list ["R1".toList]) >>=
        fun I => I.set_register_list ["R2".toList]).map
      (fun I => (I.register_list, I.register_vector.length,
        (List.range 128).filter (fun k => I.register_vector[k]? = some true))) =
      .ok (["R2".toList], 128, [1, 2]) ∧
    (registerIntervalCreationPassTwo 30 two_intervals [0, 1] 5).map
      (fun r => (r.2, (r.1.intervals[2]?).map (fun I => (I.register_list,
        I.register_vector.length)))) =
      .ok ([2], some (["R1".toList, "R2".toList], 192)) := by
  decide

/-- C22. On a new register-interval the call `set_register_list({R64})` writes
entry 64 of a vector of 64 entries: the model reports undefined behaviour, not a
thrown exception.  On a register-interval whose register list was set before,
the same call returns and sets entry 64 of the 128 entries the vector then has. -/
theorem set_register_list_out_of_range :
    (fresh_interval two_intervals).set_register_list ["R64".toList] = .error .ub ∧
    (((fresh_interval two_intervals).set_register_list []) >>=
        fun I => I.set_register_list ["R64".toList]).map
      (fun I => (I.register_vector.length,
        (List.range 128).filter (fun k => I.register_vector[k]? = some true))) =
      .ok (128, [64]) := by
  decide

theorem count_instructions_eq (s : Str) (h : s.head? ≠ some ';') :
    count_instructions s = s.count ';' := by
  unfold count_instructions
  cases s with
  | nil => rfl
  | cons c s =>
    have hc : c ≠ ';' := by
      intro e
      exact h (by rw [e]; rfl)
    simp [List.count_cons, hc]

/-- C23. After `set_code(";")` on a basic block and on a register-interval the
stored instruction count is 0, whereas the text holds one `;`; after
`set_code(";MOV R1;")` the count is 1, whereas the text holds two. -/
theorem set_code_skips_first_character :
    ((front_end_block 0 "BB0" "" [] []).set_code ";".toList).NumberOfInstructions = 0 ∧
    ((fresh_interval two_intervals).set_code ";".toList).registerInterval_numberOfInstructions
      = 0 ∧
    (";".toList).count ';' = 1 ∧
    ((front_end_block 0 "BB0" "" [] []).set_code ";MOV R1;".toList).NumberOfInstructions = 1 ∧
    (";MOV R1;".toList).count ';' = 2 := by
  decide

/-- C28. The block `MOV R1; R2=R3;` is split with budget 1 at its second
statement; the text of the new block is `R2=R3;`, which starts with the register
`R2`, and the output register set of the new block is `{R3}`, whereas the
register identifiers of that text are `R2` and `R3`. -/
theorem traverse_rescan_skips_the_start :
    (traverse 10 register_at_start 0 1).map
        (fun s => s.blocks[1]?.map (fun b => (b.code, b.output_list))) =
      .ok (some ("R2=R3;".toList, ["R3".toList])) ∧
    register_identifiers "R2=R3;".toList = ["R2".toList, "R3".toList] := by
  decide

/-- C26. Pass one on `late_identifier` with budget 3: the block `A` is processed,
then `B`, which is split into `B` and a new block with identifier 3; when the new
block is processed, the block list has three elements and the query for the first
candidate of its growth loop starts, after the two reset loops of
`visit_all_predecessors`, with entry 3 of the mark vector still true. -/
theorem mark_reset_leaves_stale_entries :
    (do
      let s1 ← passOne_init { late_identifier with basic_blocks := [0, 1] }
      let s2 ← passOne_seed { s1 with RegisterIntervals := [] }
      let s3 ← passOne_body 10 { s2 with WS := [] } 0 3
      let s4 ← passOne_body 10 { s3 with WS := [] } 1 3
      let s5 ← traverse 10 { s4 with WS := [] } 2 3
      let b ← getBlock s5 2
      return ([s3.WS, s4.WS, s5.basic_blocks, s5.blocks.map (fun b => b.ID)],
        int_lt b.output_list.length 3, (reset_mark s5).mark.take 6) : M _) =
      .ok ([[1], [2], [0, 1, 2], [0, 1, 3]], true,
        [false, false, false, true, false, false]) := by
  decide

/-- C27. A call of `traverse` that returns either leaves the arenas, the block
list, the list of register-intervals and the working set as long as they were,
or it splits once: exactly one block is appended to the arena and to the block
list, exactly one register-interval is appended to the arena and to the list of
register-intervals, exactly the new block is appended to the working set, the
input register set of the new block is empty and its register-interval is the new
one; when no block held a pointer to an unallocated register-interval before the
call, the new block is the only block of the new register-interval. -/
theorem traverse_one_split (fuel : Nat) (st st' : State) (BB : Nat) (N : Int)
    (h : traverse fuel st BB N = .ok st')
    (hvalid : ∀ (p : Nat) (b : basicBlock) (t : Nat), st.blocks[p]? = some b →
      b.BB_registerInterval = some t → t < st.intervals.length) :
    (st'.blocks.length = st.blocks.length ∧ st'.intervals = st.intervals ∧
      st'.basic_blocks = st.basic_blocks ∧ st'.RegisterIntervals = st.RegisterIntervals ∧
      st'.WS = st.WS) ∨
    (st'.blocks.length = st.blocks.length + 1 ∧
      st'.basic_blocks = st.basic_blocks ++ [st.blocks.length] ∧
      st'.intervals = st.intervals ++ [fresh_interval st] ∧
      st'.RegisterIntervals = st.RegisterIntervals ++ [st.intervals.length] ∧
      st'.WS = st.WS ++ [st.blocks.length] ∧
      ∃ b1 : basicBlock, st'.blocks[st.blocks.length]? = some b1 ∧ b1.input_list = [] ∧
        b1.BB_registerInterval = some st.intervals.length ∧
        ∀ (p : Nat) (x : basicBlock), st'.blocks[p]? = some x →
          x.BB_registerInterval = some st.intervals.length → p = st.blocks.length) := by
  cases hb : getBlock st BB with
  | error e => simp [traverse, hb, bind, Except.bind] at h
  | ok b =>
    have hb' := (getBlock_eq_ok _ _ _).mp hb
    rcases traverse_cases fuel st st' BB N b hb h with ⟨_, rfl⟩ | ⟨r, _, rfl⟩ | ⟨f1, rl, _, hs⟩
    · exact Or.inl ⟨rfl, rfl, rfl, rfl, rfl⟩
    · exact Or.inl ⟨by simp [setBlock], rfl, rfl, rfl, rfl⟩
    · obtain ⟨code2, _, rfl⟩ := split_eq fuel st st' BB f1 rl b hb hs
      refine Or.inr ⟨by simp [split_state], rfl, rfl, rfl, rfl, split_new st b BB code2,
        split_state_lookup_new st b BB f1 rl code2, rfl, rfl, ?_⟩
      intro p x hx hint
      rcases split_state_lookup st b BB f1 rl code2 x p hb' hx with ⟨rfl, rfl⟩ | ⟨rfl, _⟩ |
        ⟨_, _, hold⟩
      · have := hvalid p b st.intervals.length hb' hint
        omega
      · rfl
      · have := hvalid p x st.intervals.length hold hint
        omega

theorem traverse_one_split_witness :
    (∀ (p : Nat) (b : basicBlock) (t : Nat), two_statements.blocks[p]? = some b →
      b.BB_registerInterval = some t → t < two_statements.intervals.length) ∧
    ∃ st', traverse 10 two_statements 1 1 = .ok st' ∧
      ((st'.blocks.length = two_statements.blocks.length ∧
        st'.intervals = two_statements.intervals ∧
        st'.basic_blocks = two_statements.basic_blocks ∧
        st'.RegisterIntervals = two_statements.RegisterIntervals ∧
        st'.WS = two_statements.WS) ∨
      (st'.blocks.length = two_statements.blocks.length + 1 ∧
        st'.basic_blocks = two_statements.basic_blocks ++ [two_statements.blocks.length] ∧
        st'.intervals = two_statements.intervals ++ [fresh_interval two_statements] ∧
        st'.RegisterIntervals =
          two_statements.RegisterIntervals ++ [two_statements.intervals.length] ∧
        st'.WS = two_statements.WS ++ [two_statements.blocks.length] ∧
        ∃ b1 : basicBlock, st'.blocks[two_statements.blocks.length]? = some b1 ∧
          b1.input_list = [] ∧
          b1.BB_registerInterval = some two_statements.intervals.length ∧
          ∀ (p : Nat) (x : basicBlock), st'.blocks[p]? = some x →
            x.BB_registerInterval = some two_statements.intervals.length →
            p = two_statements.blocks.length)) := by
  have hvalid : ∀ (p : Nat) (b : basicBlock) (t : Nat), two_statements.blocks[p]? = some b →
      b.BB_registerInterval = some t → t < two_statements.intervals.length := by
    intro p b t hb ht
    have hlt : p < 3 := (List.getElem?_eq_some_iff.mp hb).1
    interval_cases p <;> simp [two_statements, initial_state, front_end_block] at hb <;>
      (subst hb; cases ht)
  obtain ⟨st', hst', _⟩ :=
    ok_of_map_eq (traverse 10 two_statements 1 1) (fun s => s.blocks.length) 4 (by decide)
  exact ⟨hvalid, st', hst', traverse_one_split 10 two_statements st' 1 1 hst' hvalid⟩

/-- C30. For a block whose text contains a `;` and whose input register set has
at most `N` elements: when `traverse` returns, with or without a split, the
output register set of the block has at most `N` elements. -/
theorem traverse_output_le (fuel : Nat) (st st' : State) (BB : Nat) (N : Int) (b : basicBlock)
    (hb : getBlock st BB = .ok b) (hsemi : ';' ∈ b.code)
    (hin : (b.input_list.length : Int) ≤ N) (h : traverse fuel st BB N = .ok st') :
    ∃ b' : basicBlock, getBlock st' BB = .ok b' ∧ (b'.output_list.length : Int) ≤ N := by
  have hb' := (getBlock_eq_ok _ _ _).mp hb
  have h0 : 0 ≤ N := le_trans (Int.ofNat_nonneg _) hin
  have hsz := to_size_le N h0
  rcases traverse_effect fuel st st' BB N b hb h with ⟨_, hno⟩ | ⟨r, hr, rfl⟩ |
    ⟨f1, rl, code2, hrl, _, rfl⟩
  · exact absurd hsemi hno
  · refine ⟨{ b with output_list := r }, (getBlock_eq_ok _ _ _).mpr
      (setBlock_lookup_self st BB b _ hb'), ?_⟩
    show (r.length : Int) ≤ N
    omega
  · refine ⟨split_old b f1 rl st.blocks.length, (getBlock_eq_ok _ _ _).mpr
      (split_state_lookup_old st b BB f1 rl code2 hb'), ?_⟩
    show (rl.length : Int) ≤ N
    rcases hrl with rfl | hle
    · exact hin
    · omega

theorem traverse_output_le_witness :
    getBlock two_statements 1 = .ok (front_end_block 1 "BB1" "MOV R1;MOV R2;" [0] [2]) ∧
    ';' ∈ (front_end_block 1 "BB1" "MOV R1;MOV R2;" [0] [2]).code ∧
    (((front_end_block 1 "BB1" "MOV R1;MOV R2;" [0] [2]).input_list.length : Nat) : Int) ≤ 1 ∧
    ∃ st', traverse 10 two_statements 1 1 = .ok st' ∧
      ∃ b' : basicBlock, getBlock st' 1 = .ok b' ∧ (b'.output_list.length : Int) ≤ 1 := by
  obtain ⟨st', hst', _⟩ :=
    ok_of_map_eq (traverse 10 two_statements 1 1) (fun s => s.blocks.length) 4 (by decide)
  exact ⟨rfl, by decide, by decide, st', hst',
    traverse_output_le 10 two_statements st' 1 1 _ rfl (by decide) (by decide) hst'⟩

/-! ## A block keeps its register-interval during pass one -/

theorem Kept.kept_refl (s : State) : Kept s s := fun _ b _ hb ht => ⟨b, hb, ht⟩

theorem Kept.kept_trans {s1 s2 s3 : State} (h12 : Kept s1 s2) (h23 : Kept s2 s3) : Kept s1 s3 := by
  intro p b t hb ht
  obtain ⟨b2, hb2, ht2⟩ := h12 p b t hb ht
  exact h23 p b2 t hb2 ht2

theorem Kept.kept_blocks {s s' : State} (h : s'.blocks = s.blocks) : Kept s s' := by
  intro p b t hb ht
  exact ⟨b, by rw [h]; exact hb, ht⟩

theorem Kept.kept_setBlock (s : State) (q : Nat) (blk blk' : basicBlock)
    (hq : s.blocks[q]? = some blk)
    (h : ∀ t, blk.BB_registerInterval = some t → blk'.BB_registerInterval = some t) :
    Kept s (setBlock s q blk') := by
  intro p b t hb ht
  by_cases hp : p = q
  · subst hp
    rw [hq] at hb
    cases hb
    exact ⟨blk', setBlock_lookup_self s p _ blk' hq, h t ht⟩
  · exact ⟨b, by rw [setBlock_lookup_ne s q blk' p hp]; exact hb, ht⟩

theorem Kept.kept_frontier (s : State) (q : Nat) (sb : basicBlock)
    (hq : s.blocks[q]? = some sb) (hnone : sb.BB_registerInterval = none) :
    Kept s (frontier_state s q sb) := by
  intro p b t hb ht
  by_cases hp : p = q
  · subst hp
    rw [hq] at hb
    cases hb
    rw [hnone] at ht
    cases ht
  · refine ⟨b, ?_, ht⟩
    simp only [frontier_state]
    rw [List.getElem?_set_ne (fun e => hp e.symm)]
    exact hb

theorem traverse_kept (fuel : Nat) (s s' : State) (BB : Nat) (N : Int)
    (h : traverse fuel s BB N = .ok s') : Kept s s' := by
  cases hb : getBlock s BB with
  | error e => simp [traverse, hb, bind, Except.bind] at h
  | ok b =>
    have hb' := (getBlock_eq_ok _ _ _).mp hb
    rcases traverse_cases fuel s s' BB N b hb h with ⟨_, rfl⟩ | ⟨r, _, rfl⟩ | ⟨f1, rl, _, hs⟩
    · exact Kept.kept_refl _
    · exact Kept.kept_setBlock s BB b _ hb' (fun t ht => ht)
    · obtain ⟨code2, _, rfl⟩ := split_eq fuel s s' BB f1 rl b hb hs
      intro p x t hx ht
      have hlt : p < s.blocks.length := (List.getElem?_eq_some_iff.mp hx).1
      by_cases hp : p = BB
      · subst hp
        rw [hb'] at hx
        cases hx
        exact ⟨_, split_state_lookup_old s b p f1 rl code2 hb', ht⟩
      · exact ⟨x, by rw [split_state_lookup_ne s b BB f1 rl code2 p hp hlt]; exact hx, ht⟩

theorem growth_step_kept (fuel : Nat) (s s' : State) (i : Option Nat) (N : Int) (b : Nat)
    (h : growth_step fuel s i N b = .ok s') : Kept s s' := by
  unfold growth_step at h
  obtain ⟨s1, h1, h⟩ := (bind_eq_ok _ _ _).mp h
  have hf := visit_all_predecessors_frame fuel s s1 b h1
  have k1 : Kept s s1 := Kept.kept_blocks (by rw [hf])
  obtain ⟨blk, hblk, h⟩ := (bind_eq_ok _ _ _).mp h
  obtain ⟨U, _, h⟩ := (bind_eq_ok _ _ _).mp h
  obtain ⟨C, _, h⟩ := (bind_eq_ok _ _ _).mp h
  split at h
  · rename_i hcond
    have hblk' := (getBlock_eq_ok _ _ _).mp hblk
    have k2 : Kept s1 (setBlock s1 b { blk with BB_registerInterval := i, input_list := U }) :=
      Kept.kept_setBlock s1 b blk _ hblk' (fun t ht => by rw [hcond.1] at ht; cases ht)
    exact k1.kept_trans (k2.kept_trans (traverse_kept fuel _ _ b N h))
  · simp only [pure, Except.pure, Except.ok.injEq] at h
    subst h
    exact k1

theorem assign_successors_kept (s s' : State) (l : List Nat)
    (h : assign_successors s l = .ok s') : Kept s s' := by
  obtain ⟨_, _, h3, h4, _⟩ := assign_successors_spec l s s' h
  intro p b t hb ht
  obtain ⟨b', hb', _⟩ := h4 p b hb
  obtain ⟨b0, hb0, _, hcase⟩ := h3 p b' hb'
  rw [hb] at hb0
  cases hb0
  refine ⟨b', hb', ?_⟩
  rcases hcase with e | ⟨e, _⟩
  · rw [e]; exact ht
  · rw [e] at ht; cases ht

theorem passOne_loop_kept (N : Int) (fuel : Nat) (s s' : State)
    (h : passOne_loop N fuel s = .ok s') : Kept s s' := by
  refine (passOne_loop_rule N (fun x => Kept s x) (fun _ x => Kept s x)
    ?_ ?_ ?_ ?_ ?_ fuel s s' (Kept.kept_refl s) h).1
  · intro fuel st BB rest b st' hout _ _ ht
    have k : Kept st { st with WS := rest } := Kept.kept_blocks rfl
    exact hout.kept_trans (k.kept_trans (traverse_kept fuel _ _ BB N ht))
  · intro i st m hin
    exact hin.kept_trans (Kept.kept_blocks rfl)
  · intro fuel i st b blk U st' hin _ hblk hnone _ _ ht
    have hblk' := (getBlock_eq_ok _ _ _).mp hblk
    have k2 : Kept st (setBlock st b { blk with BB_registerInterval := i, input_list := U }) :=
      Kept.kept_setBlock st b blk _ hblk' (fun t ht => by rw [hnone] at ht; cases ht)
    exact hin.kept_trans (k2.kept_trans (traverse_kept fuel _ _ b N ht))
  · intro i st q sb hin hsb hnone
    exact hin.kept_trans (Kept.kept_frontier st q sb ((getBlock_eq_ok _ _ _).mp hsb) hnone)
  · intro i st0 st S _ _ _ hin
    exact hin

theorem seed_fold_kept (l : List Nat) :
    ∀ (s s' : State), l.Nodup →
      (∀ c ∈ l, ∀ b : basicBlock, s.blocks[c]? = some b → b.BB_registerInterval = none) →
      l.foldlM
        (fun (st : State) b => do
          let blk ← getBlock st b
          if blk.predecessors.length = 0 then
            let (st, temp) := new_registerInterval st
            let st := { st with RegisterIntervals := st.RegisterIntervals ++ [temp] }
            let st := setBlock st b { blk with BB_registerInterval := some temp }
            return { st with WS := st.WS ++ [b] }
          else return st)
        s = .ok s' →
      Kept s s' := by
  induction l with
  | nil =>
    intro s s' _ _ h
    simp only [List.foldlM_nil, pure, Except.pure, Except.ok.injEq] at h
    subst h
    exact Kept.kept_refl s
  | cons c l ih =>
    intro s s' hnd hnone h
    rw [List.nodup_cons] at hnd
    rw [List.foldlM_cons] at h
    obtain ⟨s1, h1, h⟩ := (bind_eq_ok _ _ _).mp h
    obtain ⟨blk, hblk, h1⟩ := (bind_eq_ok _ _ _).mp h1
    have hblk' := (getBlock_eq_ok _ _ _).mp hblk
    have hc := hnone c (List.mem_cons_self _ _) blk hblk'
    have key : Kept s s1 ∧ ∀ p, p ≠ c → s1.blocks[p]? = s.blocks[p]? := by
      split at h1
      · simp only [pure, Except.pure, Except.ok.injEq] at h1
        subst h1
        constructor
        · intro p b t hb ht
          by_cases hp : p = c
          · subst hp
            rw [hblk'] at hb
            cases hb
            rw [hc] at ht
            cases ht
          · refine ⟨b, ?_, ht⟩
            simp only [setBlock, new_registerInterval]
            rw [List.getElem?_set_ne (fun e => hp e.symm)]
            exact hb
        · intro p hp
          simp only [setBlock, new_registerInterval]
          rw [List.getElem?_set_ne (fun e => hp e.symm)]
      · simp only [pure, Except.pure, Except.ok.injEq] at h1
        subst h1
        exact ⟨Kept.kept_refl s, fun _ _ => rfl⟩
    refine key.1.kept_trans (ih s1 s' hnd.2 ?_ h)
    intro c' hc' b hb
    have hne : c' ≠ c := fun e => hnd.1 (e ▸ hc')
    rw [key.2 c' hne] at hb
    exact hnone c' (List.mem_cons_of_mem _ hc') b hb

theorem passOne_seed_kept (s s' : State) (hnd : s.basic_blocks.Nodup)
    (hnone : ∀ c ∈ s.basic_blocks, ∀ b : basicBlock, s.blocks[c]? = some b →
      b.BB_registerInterval = none)
    (h : passOne_seed s = .ok s') : Kept s s' := by
  unfold passOne_seed at h
  exact seed_fold_kept s.basic_blocks s s' hnd hnone h

theorem growth_loop_kept (i : Option Nat) (N : Int) :
    ∀ (fuel : Nat) (s s' : State) (k : Nat), growth_loop i N fuel s k = .ok s' → Kept s s' := by
  intro fuel
  induction fuel with
  | zero =>
    intro s s' k h
    unfold growth_loop at h
    split at h
    · cases h
    · cases h
      exact Kept.kept_refl _
  | succ fuel ih =>
    intro s s' k h
    unfold growth_loop at h
    split at h
    · cases h
      exact Kept.kept_refl _
    · obtain ⟨s1, h1, h⟩ := (bind_eq_ok _ _ _).mp h
      exact (growth_step_kept fuel s s1 i N _ h1).kept_trans (ih s1 s' (k + 1) h)

theorem passOne_growth_kept (fuel : Nat) (s s' : State) (i : Option Nat) (N : Int) (BB : Nat)
    (h : passOne_growth fuel s i N BB = .ok s') : Kept s s' := by
  unfold passOne_growth at h
  obtain ⟨b, _, h⟩ := (bind_eq_ok _ _ _).mp h
  split at h
  · exact growth_loop_kept i N fuel s s' 0 h
  · cases h
    exact Kept.kept_refl _

theorem passOne_body_kept (fuel : Nat) (s s' : State) (BB : Nat) (N : Int)
    (h : passOne_body fuel s BB N = .ok s') : Kept s s' := by
  unfold passOne_body at h
  obtain ⟨b, _, h⟩ := (bind_eq_ok _ _ _).mp h
  obtain ⟨s1, h1, h⟩ := (bind_eq_ok _ _ _).mp h
  obtain ⟨s2, h2, h⟩ := (bind_eq_ok _ _ _).mp h
  obtain ⟨S, _, h⟩ := (bind_eq_ok _ _ _).mp h
  exact (traverse_kept fuel s s1 BB N h1).kept_trans
    ((passOne_growth_kept fuel s1 s2 _ N BB h2).kept_trans (assign_successors_kept s2 s' S h))

theorem passOne_seed_eq (st : State) :
    passOne_seed st = st.basic_blocks.foldlM passOne_seed_turn st := rfl

theorem foldlM_append_ok {α σ : Type} (f : σ → α → M σ) (l1 l2 : List α) (s s' : σ)
    (h : (l1 ++ l2).foldlM f s = .ok s') :
    ∃ sk, l1.foldlM f s = .ok sk ∧ l2.foldlM f sk = .ok s' := by
  rw [List.foldlM_append] at h
  exact (bind_eq_ok _ _ _).mp h

/-- A turn of the seeding loop on the block `c` writes the record of `c` only. -/
theorem passOne_seed_turn_frame (s s' : State) (c : Nat) (h : passOne_seed_turn s c = .ok s') :
    ∀ p, p ≠ c → s'.blocks[p]? = s.blocks[p]? := by
  unfold passOne_seed_turn at h
  obtain ⟨blk, _, h⟩ := (bind_eq_ok _ _ _).mp h
  intro p hp
  split at h
  · simp only [pure, Except.pure, Except.ok.injEq] at h
    subst h
    simp only [setBlock, new_registerInterval]
    rw [List.getElem?_set_ne (fun e => hp e.symm)]
  · simp only [pure, Except.pure, Except.ok.injEq] at h
    subst h
    rfl

theorem seed_fold_frame (l : List Nat) : ∀ (s s' : State),
    l.foldlM passOne_seed_turn s = .ok s' → ∀ p, p ∉ l → s'.blocks[p]? = s.blocks[p]? := by
  induction l with
  | nil =>
    intro s s' h p _
    simp only [List.foldlM_nil, pure, Except.pure, Except.ok.injEq] at h
    subst h
    rfl
  | cons c l ih =>
    intro s s' h p hp
    rw [List.foldlM_cons] at h
    obtain ⟨s1, h1, h⟩ := (bind_eq_ok _ _ _).mp h
    rw [List.mem_cons, not_or] at hp
    rw [ih s1 s' h p hp.2, passOne_seed_turn_frame s s1 c h1 p hp.1]

/-- In the seeding loop on a block list without repeated element whose blocks
have no register-interval at the start: after the turns for `l1` the blocks of
the rest `l2` still have none, and the turns for `l2` leave every block that has
a register-interval with it. -/
theorem seed_turns_kept (s sk s' : State) (l1 l2 : List Nat) (hnd : (l1 ++ l2).Nodup)
    (hnone : ∀ c ∈ l1 ++ l2, ∀ b : basicBlock, s.blocks[c]? = some b →
      b.BB_registerInterval = none)
    (h1 : l1.foldlM passOne_seed_turn s = .ok sk)
    (h2 : l2.foldlM passOne_seed_turn sk = .ok s') :
    Kept sk s' ∧
    ∀ c ∈ l2, ∀ b : basicBlock, sk.blocks[c]? = some b → b.BB_registerInterval = none := by
  have hnone2 : ∀ c ∈ l2, ∀ b : basicBlock, sk.blocks[c]? = some b →
      b.BB_registerInterval = none := by
    intro c hc b hb
    have hc1 : c ∉ l1 := fun e => (List.nodup_append.mp hnd).2.2 e hc
    rw [seed_fold_frame l1 s sk h1 c hc1] at hb
    exact hnone c (List.mem_append_right _ hc) b hb
  exact ⟨seed_fold_kept l2 sk s' (List.nodup_append.mp hnd).2.1 hnone2 h2, hnone2⟩

theorem passOne_run_kept (fuel : Nat) (N : Int) (st st' : State) (l out : List Nat)
    (hnd : l.Nodup) (h : registerIntervalCreationPassOne fuel st l N = .ok (st', out)) :
    ∃ s1 s2 : State, passOne_init { st with basic_blocks := l } = .ok s1 ∧
      passOne_seed { s1 with RegisterIntervals := [] } = .ok s2 ∧
      (∀ (l1 l2 : List Nat) (sk : State), l = l1 ++ l2 →
        l1.foldlM passOne_seed_turn { s1 with RegisterIntervals := [] } = .ok sk →
        Kept sk s2 ∧ Kept sk st') ∧
      Kept s2 st' := by
  obtain ⟨st1, st2, st3, st4, st5, h1, h2, h3, _, _, _, _, _, e6, _⟩ :=
    passOne_final_phases fuel st st' l out N h
  have hi := h1
  unfold passOne_init at hi
  obtain ⟨i1, i2, i3, i4⟩ := passOne_init_spec l _ st1 hi
  have hbb : st1.basic_blocks = l := by rw [i1]
  have hnone : ∀ c ∈ l, ∀ b : basicBlock,
      ({ st1 with RegisterIntervals := [] } : State).blocks[c]? = some b →
      b.BB_registerInterval = none := by
    intro c hc b hb
    have hlt : c < st.blocks.length := i3 c hc
    have hb0 : st.blocks[c]? = some st.blocks[c] := List.getElem?_eq_getElem hlt
    have := i4 c _ hb0
    rw [if_pos hc] at this
    have hb' : st1.blocks[c]? = some b := hb
    rw [this] at hb'
    cases hb'
    rfl
  have k3 := passOne_loop_kept N fuel st2 st3 h3
  have k4 : Kept st3 st' := Kept.kept_blocks (by rw [e6])
  have k24 : Kept st2 st' := k3.kept_trans k4
  refine ⟨st1, st2, h1, h2, ?_, k24⟩
  intro l1 l2 sk hl hk
  have h2' : (l1 ++ l2).foldlM passOne_seed_turn { st1 with RegisterIntervals := [] } =
      .ok st2 := by
    have e : l1 ++ l2 = st1.basic_blocks := by rw [hbb, hl]
    rw [e]
    exact h2
  obtain ⟨sk', hk', hrest⟩ := foldlM_append_ok _ l1 l2 _ _ h2'
  rw [hk] at hk'
  cases hk'
  have := (seed_turns_kept _ sk st2 l1 l2 (hl ▸ hnd) (fun c hc => hnone c (hl ▸ hc)) hk hrest).1
  exact ⟨this, this.kept_trans k24⟩

/-- C24. During pass one on a block list without repeated element, a block that
has a register-interval keeps it.  In the seeding loop, after the turns for any
initial part `l1` of the list the blocks still to come have no register-interval
and the remaining turns keep every assignment.  Every assignment is also kept
across `traverse`, across a turn of the growth loop, across the frontier loop
`assign_successors`, across a turn of the main loop and across the main loop,
each started from any state.  In a run that returns, every assignment present
after any number of seeding turns, and so after the seeding loop, is present in
the state pass one returns. -/
theorem passOne_assignment_kept (fuel : Nat) (N : Int) :
    (∀ (s sk s' : State) (l1 l2 : List Nat), (l1 ++ l2).Nodup →
      (∀ c ∈ l1 ++ l2, ∀ b : basicBlock, s.blocks[c]? = some b →
        b.BB_registerInterval = none) →
      l1.foldlM passOne_seed_turn s = .ok sk → l2.foldlM passOne_seed_turn sk = .ok s' →
      Kept sk s' ∧
      ∀ c ∈ l2, ∀ b : basicBlock, sk.blocks[c]? = some b → b.BB_registerInterval = none) ∧
    (∀ (s s' : State) (BB : Nat), traverse fuel s BB N = .ok s' → Kept s s') ∧
    (∀ (s s' : State) (i : Option Nat) (b : Nat),
      growth_step fuel s i N b = .ok s' → Kept s s') ∧
    (∀ (s s' : State) (l : List Nat), assign_successors s l = .ok s' → Kept s s') ∧
    (∀ (s s' : State) (BB : Nat), passOne_body fuel s BB N = .ok s' → Kept s s') ∧
    (∀ s s' : State, passOne_loop N fuel s = .ok s' → Kept s s') ∧
    (∀ (st st' : State) (l out : List Nat), l.Nodup →
      registerIntervalCreationPassOne fuel st l N = .ok (st', out) →
      ∃ s1 s2 : State, passOne_init { st with basic_blocks := l } = .ok s1 ∧
        passOne_seed { s1 with RegisterIntervals := [] } = .ok s2 ∧
        (∀ (l1 l2 : List Nat) (sk : State), l = l1 ++ l2 →
          l1.foldlM passOne_seed_turn { s1 with RegisterIntervals := [] } = .ok sk →
          Kept sk s2 ∧ Kept sk st') ∧
        Kept s2 st') :=
  ⟨fun s sk s' l1 l2 hnd hnone h1 h2 => seed_turns_kept s sk s' l1 l2 hnd hnone h1 h2,
   fun s s' BB h => traverse_kept fuel s s' BB N h,
   fun s s' i b h => growth_step_kept fuel s s' i N b h,
   fun s s' l h => assign_successors_kept s s' l h,
   fun s s' BB h => passOne_body_kept fuel s s' BB N h,
   fun s s' h => passOne_loop_kept N fuel s s' h,
   fun st st' l out hnd h => passOne_run_kept fuel N st st' l out hnd h⟩

/-- Pass one on `two_entries` with budget 2: after the seeding loop the blocks `A`
and `B` have the register-intervals 0 and 1, and they have them in the state
pass one returns, in which `C` has the register-interval 2. -/
theorem passOne_assignment_kept_witness :
    ([0, 1, 2] : List Nat).Nodup ∧
    ∃ (st' : State) (out : List Nat),
      registerIntervalCreationPassOne 20 two_entries [0, 1, 2] 2 = .ok (st', out) ∧
      st'.blocks.map (fun b => b.BB_registerInterval) = [some 0, some 1, some 2] ∧
      ∃ s1 s2 : State, passOne_init { two_entries with basic_blocks := [0, 1, 2] } = .ok s1 ∧
        passOne_seed { s1 with RegisterIntervals := [] } = .ok s2 ∧
        s2.blocks.map (fun b => b.BB_registerInterval) = [some 0, some 1, none] ∧
        (∀ (l1 l2 : List Nat) (sk : State), [0, 1, 2] = l1 ++ l2 →
          l1.foldlM passOne_seed_turn { s1 with RegisterIntervals := [] } = .ok sk →
          Kept sk s2 ∧ Kept sk st') ∧
        Kept s2 st' := by
  obtain ⟨⟨st', out⟩, hrun, hv⟩ :=
    ok_of_map_eq (registerIntervalCreationPassOne 20 two_entries [0, 1, 2] 2)
      (fun r => r.1.blocks.map (fun b => b.BB_registerInterval)) [some 0, some 1, some 2]
      (by decide)
  obtain ⟨s1, s2, h1, h2, hk, k⟩ :=
    (passOne_assignment_kept 20 2).2.2.2.2.2.2 two_entries st' [0, 1, 2] out (by decide) hrun
  have hs2 : ((passOne_init { two_entries with basic_blocks := [0, 1, 2] } >>=
      fun s => passOne_seed { s with RegisterIntervals := [] }).map
        (fun s => s.blocks.map (fun b => b.BB_registerInterval))) =
      .ok [some 0, some 1, none] := by decide
  rw [h1] at hs2
  simp only [bind, Except.bind] at hs2
  rw [h2] at hs2
  simp only [Except.map, Except.ok.injEq] at hs2
  exact ⟨by decide, st', out, hrun, hv, s1, s2, h1, h2, hs2, hk, k⟩


/-- The seeding loop on the block list `[0, 0]`, which names the block of
`one_register` twice: the block receives the register-interval `0` and then the
register-interval `1`. -/
theorem passOne_seed_repeated_block :
    (passOne_seed { one_register with basic_blocks := [0, 0] }).map
      (fun s => (s.RegisterIntervals, s.blocks.map (fun b => b.BB_registerInterval))) =
      .ok ([0, 1], [some 1]) := by
  decide

/-! ## Pass two: the register lists of folded register-intervals -/

theorem Reg.reg_lt {st0 : State} {l : List Nat} {st : State} {out ws : List Nat}
    (h : Reg st0 l st out ws) : ∀ i ∈ l, i < st0.intervals.length := by
  intro i hi
  obtain ⟨I0, _, hI0, _⟩ := h.2.1 i hi
  exact (List.getElem?_eq_some_iff.mp hI0).1

/-- A step that does not shorten the arena and keeps the records of the elements
of `l` keeps the invariant; the working set may shrink. -/
theorem Reg.reg_keep {st0 : State} {l : List Nat} {st st' : State} {out ws ws' : List Nat}
    (h : Reg st0 l st out ws) (hlen : st.intervals.length ≤ st'.intervals.length)
    (hrec : ∀ i ∈ l, st'.intervals[i]? = st.intervals[i]?)
    (hws : ∀ w ∈ ws', w ∈ ws) : Reg st0 l st' out ws' := by
  obtain ⟨h1, h2, h3, h4⟩ := h
  refine ⟨le_trans h1 hlen, ?_, ?_, fun w hw => h4 w (hws w hw)⟩
  · intro i hi
    obtain ⟨I0, I, g1, g2, g3, g4, g5⟩ := h2 i hi
    refine ⟨I0, I, g1, by rw [hrec i hi]; exact g2, g3, g4, ?_⟩
    intro t ht
    exact ⟨(g5 t ht).1, lt_of_lt_of_le (g5 t ht).2 hlen⟩
  · intro t ht
    exact ⟨(h3 t ht).1, lt_of_lt_of_le (h3 t ht).2 hlen⟩

/-- A write to a register-interval allocated after `st0` keeps the invariant. -/
theorem Reg.reg_write_new {st0 : State} {l : List Nat} {st : State} {out ws : List Nat}
    (h : Reg st0 l st out ws) (q : Nat) (X : registerInterval)
    (hq : st0.intervals.length ≤ q) : Reg st0 l (setInterval st q X) out ws := by
  refine h.reg_keep (by simp [setInterval]) (fun j hj => ?_) (fun w hw => hw)
  have := h.reg_lt j hj
  simp only [setInterval]
  exact List.getElem?_set_ne (by omega)

/-- A write to an element of `l` that only changes its next-level pointer, to a
register-interval allocated after `st0`, keeps the invariant. -/
theorem Reg.reg_write_next {st0 : State} {l : List Nat} {st : State} {out ws : List Nat}
    (h : Reg st0 l st out ws) (j : Nat) (I I' : registerInterval)
    (hI : st.intervals[j]? = some I) (hr : I'.register_list = I.register_list)
    (hs : I'.successors = I.successors)
    (hn : ∀ t, I'.next_level_registerInterval = some t →
      st0.intervals.length ≤ t ∧ t < st.intervals.length) :
    Reg st0 l (setInterval st j I') out ws := by
  obtain ⟨h1, h2, h3, h4⟩ := h
  have hjlt : j < st.intervals.length := (List.getElem?_eq_some_iff.mp hI).1
  have hlen : (setInterval st j I').intervals.length = st.intervals.length := by
    simp [setInterval]
  refine ⟨by rw [hlen]; exact h1, ?_, ?_, h4⟩
  · intro i hi
    obtain ⟨I0, J, g1, g2, g3, g4, g5⟩ := h2 i hi
    by_cases hij : i = j
    · subst hij
      rw [hI] at g2
      cases g2
      refine ⟨I0, I', g1, by simp [setInterval, hjlt], hr.trans g3, by rw [hs]; exact g4, ?_⟩
      intro t ht
      rw [hlen]
      exact hn t ht
    · refine ⟨I0, J, g1, ?_, g3, g4, ?_⟩
      · simp only [setInterval]
        rw [List.getElem?_set_ne (fun e => hij e.symm)]
        exact g2
      · intro t ht
        rw [hlen]
        exact g5 t ht
  · intro t ht
    rw [hlen]
    exact h3 t ht

/-- The step of pass two that opens a new next-level register-interval for the
element `q` of the input list keeps the invariant. -/
theorem Reg.reg_assign {st0 : State} {l : List Nat} {st : State} {out ws : List Nat}
    (h : Reg st0 l st out ws) {q : Nat} {S : registerInterval} (hq : q ∈ l)
    (hS : st.intervals[q]? = some S) :
    Reg st0 l
      (setInterval (new_registerInterval st).1 q
        { S with next_level_registerInterval := some (new_registerInterval st).2 })
      (out ++ [(new_registerInterval st).2]) (ws ++ [q]) := by
  have hqlt : q < st.intervals.length := (List.getElem?_eq_some_iff.mp hS).1
  have hnew : Reg st0 l (new_registerInterval st).1 out ws := by
    refine h.reg_keep (by simp [new_registerInterval]) (fun j hj => ?_) (fun w hw => hw)
    obtain ⟨_, J, _, hJ, _⟩ := h.2.1 j hj
    have hjlt : j < st.intervals.length := (List.getElem?_eq_some_iff.mp hJ).1
    simp only [new_registerInterval]
    exact List.getElem?_append_left hjlt
  have hS' : (new_registerInterval st).1.intervals[q]? = some S := by
    simp only [new_registerInterval]
    rw [List.getElem?_append_left hqlt]
    exact hS
  have hlen1 : (new_registerInterval st).1.intervals.length = st.intervals.length + 1 := by
    simp [new_registerInterval]
  have h2 : (new_registerInterval st).2 = st.intervals.length := rfl
  have hw := hnew.reg_write_next q S
    { S with next_level_registerInterval := some (new_registerInterval st).2 } hS' rfl rfl
    (by
      intro t ht
      simp only [Option.some.injEq] at ht
      subst ht
      rw [hlen1, h2]
      exact ⟨h.1, by omega⟩)
  obtain ⟨g1, g2, g3, g4⟩ := hw
  refine ⟨g1, g2, ?_, ?_⟩
  · intro t ht
    simp only [List.mem_append, List.mem_singleton] at ht
    rcases ht with ht | rfl
    · exact g3 t ht
    · simp only [setInterval, List.length_set]
      rw [hlen1, h2]
      exact ⟨h.1, by omega⟩
  · intro w hw
    simp only [List.mem_append, List.mem_singleton] at hw
    rcases hw with hw | rfl
    · exact g4 w hw
    · exact hq

theorem passTwo_growth_step_reg (fuel : Nat) (st0 : State) (l : List Nat) (q : Nat) (N : Int)
    (st st' : State) (out ws : List Nat) (Interval : Nat)
    (hinv : Reg st0 l st out ws) (hq : st0.intervals.length ≤ q) (hql : q < st.intervals.length)
    (h : passTwo_growth_step fuel l (some q) N st Interval = .ok st') :
    Reg st0 l st' out ws ∧ st.intervals.length ≤ st'.intervals.length := by
  unfold passTwo_growth_step at h
  obtain ⟨I, hI, h⟩ := (bind_eq_ok _ _ _).mp h
  obtain ⟨st1, h1, h⟩ := (bind_eq_ok _ _ _).mp h
  have hv0 := visit_registerInterval_all_predecessors_intervals fuel _ _ _ h1
  have hv : st1.intervals = st.intervals := by rw [hv0]
  have hinv1 : Reg st0 l st1 out ws :=
    hinv.reg_keep (by rw [hv]) (fun _ _ => by rw [hv]) (fun w hw => hw)
  obtain ⟨C, _, h⟩ := (bind_eq_ok _ _ _).mp h
  obtain ⟨Union, _, h⟩ := (bind_eq_ok _ _ _).mp h
  obtain ⟨I1, hI1, h⟩ := (bind_eq_ok _ _ _).mp h
  rw [getInterval_eq_ok] at hI1
  split at h
  · obtain ⟨I2, _, h⟩ := (bind_eq_ok _ _ _).mp h
    obtain ⟨II, _, h⟩ := (bind_eq_ok _ _ _).mp h
    obtain ⟨II', _, h⟩ := (bind_eq_ok _ _ _).mp h
    simp only [pure, Except.pure, Except.ok.injEq, Option.getD_some] at h
    subst h
    have hw := hinv1.reg_write_next Interval I1 { I1 with next_level_registerInterval := some q }
      hI1 rfl rfl (by
        intro t ht
        simp only [Option.some.injEq] at ht
        subst ht
        rw [hv]
        exact ⟨hq, hql⟩)
    refine ⟨hw.reg_write_new q II' hq, ?_⟩
    simp [setInterval, hv]
  · simp only [pure, Except.pure, Except.ok.injEq] at h
    subst h
    exact ⟨hinv1, by rw [hv]⟩

theorem passTwo_growth_reg (fuel : Nat) (st0 : State) (l : List Nat) (N : Int) (st st1 : State)
    (out rest : List Nat) (i : Nat) (I : registerInterval)
    (hinv : Reg st0 l st out (i :: rest)) (hI : st.intervals[i]? = some I)
    (h : passTwo_growth fuel l N st I = .ok st1) : Reg st0 l st1 out rest := by
  have hrest : ∀ w ∈ rest, w ∈ i :: rest := fun w hw => List.mem_cons_of_mem _ hw
  have hinv0 : Reg st0 l st out rest := hinv.reg_keep (le_refl _) (fun _ _ => rfl) hrest
  unfold passTwo_growth at h
  split at h
  · obtain ⟨II, hII, h⟩ := (bind_eq_ok _ _ _).mp h
    obtain ⟨II', hII', h⟩ := (bind_eq_ok _ _ _).mp h
    obtain ⟨q, hq, hIIq⟩ := getIntervalPtr_eq_ok _ _ _ hII
    rw [hq] at h
    simp only [Option.getD_some] at h
    have hil : i ∈ l := hinv.2.2.2 i (List.mem_cons_self _ _)
    obtain ⟨I0, I', _, hI', _, _, hnext⟩ := hinv.2.1 i hil
    rw [hI] at hI'
    cases hI'
    obtain ⟨hqge, hqlt⟩ := hnext q hq
    have hsa : Reg st0 l (setInterval st q II') out rest := hinv0.reg_write_new q II' hqge
    have key := foldlM_inv (passTwo_growth_step fuel l (some q) N)
      (fun s => Reg st0 l s out rest ∧ st.intervals.length ≤ s.intervals.length) l
      (by
        intro s a s' _ hs hstep
        obtain ⟨g1, g2⟩ := passTwo_growth_step_reg fuel st0 l q N s s' out rest a hs.1 hqge
          (lt_of_lt_of_le hqlt hs.2) hstep
        exact ⟨g1, le_trans hs.2 g2⟩)
      (setInterval st q II') st1 ⟨hsa, by simp [setInterval]⟩ h
    exact key.1
  · simp only [pure, Except.pure, Except.ok.injEq] at h
    subst h
    exact hinv0

theorem passTwo_assign_successors_reg (st0 : State) (l : List Nat)
    (Successors : List (Option Nat)) (hS : ∀ s ∈ Successors, ∃ q, s = some q ∧ q ∈ l)
    (st : State) (out WorkingSet : List Nat) (r : State × List Nat × List Nat)
    (hinv : Reg st0 l st out WorkingSet)
    (h : passTwo_assign_successors st out WorkingSet Successors = .ok r) :
    Reg st0 l r.1 r.2.1 r.2.2 := by
  unfold passTwo_assign_successors at h
  refine foldlM_inv _
    (fun acc : State × List Nat × List Nat => Reg st0 l acc.1 acc.2.1 acc.2.2)
    Successors ?_ _ r hinv h
  rintro ⟨st1, out1, ws1⟩ s ⟨st2, out2, ws2⟩ hs hinv1 hstep
  obtain ⟨q, rfl, hq⟩ := hS s hs
  simp only at hstep
  obtain ⟨S, hS', hstep⟩ := (bind_eq_ok _ _ _).mp hstep
  obtain ⟨q', hq', hSq⟩ := getIntervalPtr_eq_ok _ _ _ hS'
  cases hq'
  split at hstep
  · simp [pure, Except.pure] at hstep
    obtain ⟨h1, h2, h3⟩ := hstep
    subst h1 h2 h3
    exact Reg.reg_assign hinv1 hq hSq
  · simp [pure, Except.pure] at hstep
    obtain ⟨h1, h2, h3⟩ := hstep
    subst h1 h2 h3
    exact hinv1

theorem passTwo_body_reg (fuel : Nat) (st0 : State) (l : List Nat) (N : Int) (st : State)
    (out rest : List Nat) (i : Nat) (r : State × List Nat × List Nat)
    (hinv : Reg st0 l st out (i :: rest))
    (h : passTwo_body fuel l N st out rest i = .ok r) : Reg st0 l r.1 r.2.1 r.2.2 := by
  unfold passTwo_body at h
  obtain ⟨I, hI, h⟩ := (bind_eq_ok _ _ _).mp h
  obtain ⟨st1, h1, h⟩ := (bind_eq_ok _ _ _).mp h
  obtain ⟨Successors, hc, h⟩ := (bind_eq_ok _ _ _).mp h
  have hinv1 := passTwo_growth_reg fuel st0 l N st st1 out rest i I hinv
    ((getInterval_eq_ok _ _ _).mp hI) h1
  have hclosed : ∀ j ∈ l, ∀ J : registerInterval, st1.intervals[j]? = some J →
      ∀ s ∈ J.successors, ∃ q, s = some q ∧ q ∈ l := by
    intro j hj J hJ
    obtain ⟨_, J', _, hJ', _, g, _⟩ := hinv1.2.1 j hj
    rw [hJ] at hJ'; cases hJ'
    exact g
  exact passTwo_assign_successors_reg st0 l Successors
    (passTwo_collect_successors_mem l st1 _ Successors hclosed hc) st1 out rest r hinv1 h

theorem passTwo_loop_reg (st0 : State) (l : List Nat) (N : Int) (fuel : Nat) :
    ∀ (st : State) (out WorkingSet : List Nat) (r : State × List Nat),
      Reg st0 l st out WorkingSet → passTwo_loop l N fuel st out WorkingSet = .ok r →
      Reg st0 l r.1 r.2 [] := by
  induction fuel with
  | zero =>
    intro st out WorkingSet r hinv h
    unfold passTwo_loop at h
    cases WorkingSet with
    | nil => simp at h; subst h; exact hinv
    | cons i rest => simp at h
  | succ fuel ih =>
    intro st out WorkingSet r hinv h
    unfold passTwo_loop at h
    cases WorkingSet with
    | nil => simp at h; subst h; exact hinv
    | cons i rest =>
      simp only at h
      obtain ⟨⟨st1, out1, ws1⟩, hb, h⟩ := (bind_eq_ok _ _ _).mp h
      exact ih st1 out1 ws1 r (passTwo_body_reg fuel st0 l N st out rest i _ hinv hb) h

theorem passTwo_seed_reg (st0 : State) (l : List Nat) (l' : List Nat) :
    ∀ (acc r : State × List Nat × List Nat),
      l'.foldlM
        (fun (acc : State × List Nat × List Nat) i => do
          let (st, out, WorkingSet) := acc
          let I ← getInterval st i
          if I.predecessors.length = 0 then
            let (st, temp) := new_registerInterval st
            let st := setInterval st i { I with next_level_registerInterval := some temp }
            return (st, out ++ [temp], WorkingSet ++ [i])
          else return (st, out, WorkingSet))
        acc = .ok r →
      Reg st0 l acc.1 acc.2.1 acc.2.2 → (∀ j ∈ l', j ∈ l) →
      Reg st0 l r.1 r.2.1 r.2.2 := by
  intro acc r h hinv hsub
  refine foldlM_inv _
    (fun acc : State × List Nat × List Nat => Reg st0 l acc.1 acc.2.1 acc.2.2)
    l' ?_ acc r hinv h
  rintro ⟨st1, out1, ws1⟩ a ⟨st2, out2, ws2⟩ ha hinv1 hstep
  simp only at hstep
  obtain ⟨A, hA, hstep⟩ := (bind_eq_ok _ _ _).mp hstep
  rw [getInterval_eq_ok] at hA
  split at hstep
  · simp [pure, Except.pure] at hstep
    obtain ⟨h1, h2, h3⟩ := hstep
    subst h1 h2 h3
    exact Reg.reg_assign hinv1 (hsub a ha) hA
  · simp [pure, Except.pure] at hstep
    obtain ⟨h1, h2, h3⟩ := hstep
    subst h1 h2 h3
    exact hinv1

theorem passTwo_reg_of_init (st st1 : State) (l : List Nat) (hclosed : Closed st l)
    (h1 : passTwo_init st l = .ok st1) : Reg st l st1 [] [] := by
  obtain ⟨i1, i2, i3⟩ := passTwo_init_spec l st st1 h1
  have hreg := passTwo_init_keep (fun J => J.register_list) (fun _ => rfl) st st1 l h1
  refine ⟨by rw [i1], ?_, by simp, by simp⟩
  intro i hi
  have hlt := i3 i hi
  have hI0 : st.intervals[i]? = some st.intervals[i] := List.getElem?_eq_getElem hlt
  obtain ⟨I1, hI1, e1, _, e3⟩ := i2 i _ hI0
  obtain ⟨I1', hI1', er⟩ := hreg i _ hI0
  rw [hI1] at hI1'; cases hI1'
  refine ⟨_, I1, hI0, hI1, er, ?_, ?_⟩
  · rw [e1]
    exact (hclosed i hi _ hI0).1
  · intro t ht
    rw [e3 (Or.inl hi)] at ht
    cases ht

theorem folded_registers_congr (s s' : State) (l : List Nat) (J : Nat)
    (h : ∀ i ∈ l, s'.intervals[i]? = s.intervals[i]?) :
    folded_registers s' l J = folded_registers s l J := by
  unfold folded_registers
  apply foldlM_congr
  intro acc i hi
  simp only [getInterval, h i hi]

theorem folded_registers_fold (st : State) (J : Nat) (L : List Nat) :
    ∀ acc regs : List Str,
      L.foldlM (fun regList i => do
        let I ← getInterval st i
        if I.next_level_registerInterval = some J then
          return reg_union regList I.register_list
        else return regList) acc = (.ok regs : M (List Str)) →
      (acc.Pairwise (· < ·) → regs.Pairwise (· < ·)) ∧
      ∀ r ∈ regs, r ∈ acc ∨ ∃ i ∈ L, ∃ I : registerInterval, st.intervals[i]? = some I ∧
        I.next_level_registerInterval = some J ∧ r ∈ I.register_list := by
  induction L with
  | nil =>
    intro acc regs h
    simp only [List.foldlM_nil, pure, Except.pure, Except.ok.injEq] at h
    subst h
    exact ⟨fun h => h, fun r hr => Or.inl hr⟩
  | cons i L ih =>
    intro acc regs h
    rw [List.foldlM_cons] at h
    obtain ⟨acc1, h1, h⟩ := (bind_eq_ok _ _ _).mp h
    obtain ⟨I, hI, h1⟩ := (bind_eq_ok _ _ _).mp h1
    rw [getInterval_eq_ok] at hI
    obtain ⟨g1, g2⟩ := ih acc1 regs h
    split at h1
    · rename_i hn
      simp only [pure, Except.pure, Except.ok.injEq] at h1
      subst h1
      refine ⟨fun hp => g1 (pairwise_reg_union _ _ hp), ?_⟩
      intro r hr
      rcases g2 r hr with hacc | ⟨i', hi', I', hI', hn', hr'⟩
      · rcases (mem_reg_union r acc I.register_list).mp hacc with h | h
        · exact Or.inl h
        · exact Or.inr ⟨i, List.mem_cons_self _ _, I, hI, hn, h⟩
      · exact Or.inr ⟨i', List.mem_cons_of_mem _ hi', I', hI', hn', hr'⟩
    · simp only [pure, Except.pure, Except.ok.injEq] at h1
      subst h1
      refine ⟨g1, ?_⟩
      intro r hr
      rcases g2 r hr with hacc | ⟨i', hi', I', hI', hn', hr'⟩
      · exact Or.inl hacc
      · exact Or.inr ⟨i', List.mem_cons_of_mem _ hi', I', hI', hn', hr'⟩

theorem folded_registers_spec (st : State) (l : List Nat) (J : Nat) (regs : List Str)
    (h : folded_registers st l J = .ok regs) :
    regs.Pairwise (· < ·) ∧
    ∀ r ∈ regs, ∃ i ∈ l, ∃ I : registerInterval, st.intervals[i]? = some I ∧
      I.next_level_registerInterval = some J ∧ r ∈ I.register_list := by
  unfold folded_registers at h
  obtain ⟨g1, g2⟩ := folded_registers_fold st J l [] regs h
  refine ⟨g1 List.Pairwise.nil, ?_⟩
  intro r hr
  rcases g2 r hr with h | h
  · cases h
  · exact h

theorem union_all_fold (st : State) (L : List Nat) :
    ∀ acc : List Str, (∀ i ∈ L, i < st.intervals.length) →
      ∃ U : List Str,
        L.foldlM (fun Union i => do
          let I ← getInterval st i
          return reg_union Union I.register_list) acc = (.ok U : M (List Str)) ∧
        (acc.Pairwise (· < ·) → U.Pairwise (· < ·)) ∧
        (∀ r ∈ acc, r ∈ U) ∧
        ∀ i ∈ L, ∀ I : registerInterval, st.intervals[i]? = some I →
          ∀ r ∈ I.register_list, r ∈ U := by
  induction L with
  | nil =>
    intro acc _
    exact ⟨acc, rfl, fun h => h, fun r hr => hr, fun i hi => by cases hi⟩
  | cons i L ih =>
    intro acc hlt
    have hi := hlt i (List.mem_cons_self _ _)
    have hI : st.intervals[i]? = some st.intervals[i] := List.getElem?_eq_getElem hi
    obtain ⟨U, hU, g1, g2, g3⟩ := ih (reg_union acc st.intervals[i].register_list)
      (fun j hj => hlt j (List.mem_cons_of_mem _ hj))
    refine ⟨U, ?_, fun hp => g1 (pairwise_reg_union _ _ hp), ?_, ?_⟩
    · rw [List.foldlM_cons, (getInterval_eq_ok _ _ _).mpr hI]
      exact hU
    · intro r hr
      exact g2 r ((mem_reg_union r acc _).mpr (Or.inl hr))
    · intro j hj J hJ r hr
      rcases List.mem_cons.mp hj with rfl | hj
      · rw [hI] at hJ
        cases hJ
        exact g2 r ((mem_reg_union r acc _).mpr (Or.inr hr))
      · exact g3 j hj J hJ r hr

theorem union_all_spec (st : State) (l : List Nat) (hlt : ∀ i ∈ l, i < st.intervals.length) :
    ∃ U : List Str, union_all st l = .ok U ∧ U.Pairwise (· < ·) ∧
      ∀ i ∈ l, ∀ I : registerInterval, st.intervals[i]? = some I →
        ∀ r ∈ I.register_list, r ∈ U := by
  obtain ⟨U, hU, g1, _, g3⟩ := union_all_fold st l [] hlt
  exact ⟨U, hU, g1 List.Pairwise.nil, g3⟩

theorem passTwo_register_lists_fold (l : List Nat) (L : List Nat) : ∀ (st st' : State),
    (∀ J ∈ L, ∀ i ∈ l, J ≠ i) →
    L.foldlM (fun st Interval => do
      let regList ← folded_registers st l Interval
      let I ← getInterval st Interval
      let I ← I.set_register_list regList
      return setInterval st Interval I) st = (.ok st' : M State) →
    (∀ j, j ∉ L → st'.intervals[j]? = st.intervals[j]?) ∧
    (∀ J ∈ L, ∃ I' : registerInterval, st'.intervals[J]? = some I' ∧
      folded_registers st l J = .ok I'.register_list) := by
  induction L with
  | nil =>
    intro st st' _ h
    simp only [List.foldlM_nil, pure, Except.pure, Except.ok.injEq] at h
    subst h
    exact ⟨fun _ _ => rfl, fun J hJ => by cases hJ⟩
  | cons J L ih =>
    intro st st' hne h
    rw [List.foldlM_cons] at h
    obtain ⟨s1, h1, h2⟩ := (bind_eq_ok _ _ _).mp h
    obtain ⟨regs, hregs, h1⟩ := (bind_eq_ok _ _ _).mp h1
    obtain ⟨I0, hI0, h1⟩ := (bind_eq_ok _ _ _).mp h1
    obtain ⟨I1, hI1, h1⟩ := (bind_eq_ok _ _ _).mp h1
    simp only [pure, Except.pure, Except.ok.injEq] at h1
    subst h1
    have hI0' := (getInterval_eq_ok _ _ _).mp hI0
    have hJlt : J < st.intervals.length := (List.getElem?_eq_some_iff.mp hI0').1
    have hI1r : I1.register_list = regs := (set_register_list_fields I0 I1 regs hI1).2.2.2.2.2.1
    obtain ⟨g1, g2⟩ := ih (setInterval st J I1) st'
      (fun J' hJ' => hne J' (List.mem_cons_of_mem _ hJ')) h2
    have hcongr : ∀ J', folded_registers (setInterval st J I1) l J' = folded_registers st l J' := by
      intro J'
      apply folded_registers_congr
      intro i hi
      simp only [setInterval]
      exact List.getElem?_set_ne (hne J (List.mem_cons_self _ _) i hi)
    have hself : (setInterval st J I1).intervals[J]? = some I1 := by
      simp [setInterval, hJlt]
    refine ⟨?_, ?_⟩
    · intro j hj
      have hjJ : j ≠ J := fun e => hj (e ▸ List.mem_cons_self _ _)
      rw [g1 j (fun hjL => hj (List.mem_cons_of_mem _ hjL))]
      simp only [setInterval]
      exact List.getElem?_set_ne (fun e => hjJ e.symm)
    · intro J' hJ'
      by_cases hin : J' ∈ L
      · obtain ⟨I', hI', hf⟩ := g2 J' hin
        exact ⟨I', hI', by rw [← hcongr J']; exact hf⟩
      · rcases List.mem_cons.mp hJ' with rfl | hJL
        · refine ⟨I1, by rw [g1 J' hin]; exact hself, ?_⟩
          rw [hI1r]
          exact hregs
        · exact absurd hJL hin

theorem passTwo_solo_of_phases (fuel : Nat) (st st1 st2 st3 : State) (l out2 ws2 out : List Nat)
    (N : Int) (U : List Str) (hnodup : l.Nodup) (hclosed : Closed st l)
    (hU : union_all st l = .ok U) (hsz : size_lt U.length N = false)
    (h1 : passTwo_init st l = .ok st1) (h2 : passTwo_seed st1 l = .ok (st2, out2, ws2))
    (h3 : passTwo_loop l N fuel st2 out2 ws2 = .ok (st3, out)) : Solo st l st3 out [] := by
  obtain ⟨i1, i2, i3⟩ := passTwo_init_spec l st st1 h1
  have hreg := passTwo_init_keep (fun J => J.register_list) (fun _ => rfl) st st1 l h1
  have hsolo1 : Solo st l st1 [] [] := by
    refine ⟨by rw [i1], ?_, by simp, ?_, ?_, by simp⟩
    · intro i hi
      have hlt := i3 i hi
      have hI0 : st.intervals[i]? = some st.intervals[i] := List.getElem?_eq_getElem hlt
      obtain ⟨I1, hI1, e1, _, _⟩ := i2 i _ hI0
      obtain ⟨I1', hI1', er⟩ := hreg i _ hI0
      rw [hI1] at hI1'; cases hI1'
      refine ⟨_, I1, hI0, hI1, er, ?_⟩
      rw [e1]
      exact (hclosed i hi _ hI0).1
    · intro i hi I hI t ht
      have hlt := i3 i hi
      obtain ⟨I1, hI1, _, _, e3⟩ := i2 i _ (List.getElem?_eq_getElem hlt)
      rw [hI] at hI1; cases hI1
      rw [e3 (Or.inl hi)] at ht
      cases ht
    · intro i hi i' _ I I' t hI _ ht
      have hlt := i3 i hi
      obtain ⟨I1, hI1, _, _, e3⟩ := i2 i _ (List.getElem?_eq_getElem hlt)
      rw [hI] at hI1; cases hI1
      rw [e3 (Or.inl hi)] at ht
      cases ht
  have hsolo2 : Solo st l st2 out2 ws2 := by
    unfold passTwo_seed at h2
    refine passTwo_seed_solo st l l (st1, [], []) (st2, out2, ws2) h2 hsolo1 hnodup
      (fun _ hj => hj) ?_
    intro j hj I hI
    have hlt := i3 j hj
    obtain ⟨I2, hI2, _, _, e3⟩ := i2 j st.intervals[j] (List.getElem?_eq_getElem hlt)
    simp only at hI
    rw [hI] at hI2; cases hI2
    exact e3 (Or.inl hj)
  exact passTwo_loop_solo st l N U hU hsz fuel st2 out2 ws2 (st3, out) hsolo2 h3

theorem passTwo_final_keep {α : Type} (g : registerInterval → α)
    (hc : ∀ (I : registerInterval) (s : Str), g (I.set_code s) = g I)
    (hp : ∀ (I : registerInterval) (p : Option Nat), g (I.add_predecessor p) = g I)
    (hs : ∀ (I : registerInterval) (p : Option Nat), g (I.add_successors p) = g I)
    (st4 st5 st6 : State) (l out : List Nat)
    (h5 : passTwo_codes st4 l out = .ok st5) (h6 : passTwo_edges st5 l out = .ok st6) :
    ∀ (i : Nat) (I : registerInterval), st4.intervals[i]? = some I →
      ∃ I' : registerInterval, st6.intervals[i]? = some I' ∧ g I' = g I := by
  intro i I hI
  obtain ⟨I5, hI5, e5⟩ := passTwo_codes_keep g hc st4 st5 l out h5 i I hI
  obtain ⟨I6, hI6, e6⟩ := passTwo_edges_keep g hp hs st5 st6 l out h6 i I5 hI5
  exact ⟨I6, hI6, e6.trans e5⟩

/-- C29. For an input list without repeated element that contains every
predecessor and successor of its elements, and a budget `N ≥ 0`: when pass two
returns, a returned register-interval into which two different elements of the
input list were folded has fewer than `N` registers, and a returned
register-interval with `N` or more registers is the next-level register-interval
of exactly one element of the input list, whose register list had `N` or more
elements before the call. -/
theorem passTwo_folded_below_budget (fuel : Nat) (st st' : State) (l out : List Nat) (N : Int)
    (hnodup : l.Nodup) (hclosed : Closed st l) (h0 : 0 ≤ N)
    (h : registerIntervalCreationPassTwo fuel st l N = .ok (st', out)) :
    ∀ J ∈ out, ∃ IJ : registerInterval, st'.intervals[J]? = some IJ ∧
      (∀ i ∈ l, ∀ i' ∈ l, i ≠ i' →
        (∃ I : registerInterval, st'.intervals[i]? = some I ∧
          I.next_level_registerInterval = some J) →
        (∃ I' : registerInterval, st'.intervals[i']? = some I' ∧
          I'.next_level_registerInterval = some J) →
        (IJ.register_list.length : Int) < N) ∧
      (N ≤ (IJ.register_list.length : Int) →
        ∃ i ∈ l, ∃ I0 I : registerInterval, st.intervals[i]? = some I0 ∧
          st'.intervals[i]? = some I ∧ I.next_level_registerInterval = some J ∧
          N ≤ (I0.register_list.length : Int) ∧
          ∀ i' ∈ l, ∀ I' : registerInterval, st'.intervals[i']? = some I' →
            I'.next_level_registerInterval = some J → i' = i) := by
  have hrun := h
  unfold registerIntervalCreationPassTwo at h
  obtain ⟨st1, h1, h⟩ := (bind_eq_ok _ _ _).mp h
  obtain ⟨⟨st2, out2, ws2⟩, h2, h⟩ := (bind_eq_ok _ _ _).mp h
  simp only at h
  obtain ⟨⟨st3, out3⟩, h3, h⟩ := (bind_eq_ok _ _ _).mp h
  simp only at h
  obtain ⟨st4, h4, h⟩ := (bind_eq_ok _ _ _).mp h
  obtain ⟨st5, h5, h⟩ := (bind_eq_ok _ _ _).mp h
  obtain ⟨st6, h6, h⟩ := (bind_eq_ok _ _ _).mp h
  simp [pure, Except.pure] at h
  obtain ⟨rfl, rfl⟩ := h
  -- the invariant on the register lists
  have hreg1 := passTwo_reg_of_init st st1 l hclosed h1
  have hreg2 : Reg st l st2 out2 ws2 := by
    unfold passTwo_seed at h2
    exact passTwo_seed_reg st l l (st1, [], []) (st2, out2, ws2) h2 hreg1 (fun _ hj => hj)
  have hreg3 : Reg st l st3 out3 [] := passTwo_loop_reg st l N fuel st2 out2 ws2 (st3, out3) hreg2 h3
  have hlt : ∀ i ∈ l, i < st.intervals.length := hreg3.reg_lt
  obtain ⟨U, hU, hUp, hUmem⟩ := union_all_spec st l hlt
  have hne : ∀ J ∈ out3, ∀ i ∈ l, J ≠ i := by
    intro J hJ i hi e
    have := (hreg3.2.2.1 J hJ).1
    have := hlt i hi
    omega
  -- the final register lists
  have h4' := h4
  unfold passTwo_register_lists at h4'
  obtain ⟨hframe4, hregs4⟩ := passTwo_register_lists_fold l out3 st3 st4 hne h4'
  have hkeepr := passTwo_final_keep (fun J => J.register_list) (fun _ _ => rfl)
    add_predecessor_register_list add_successors_register_list st4 st5 st6 l out3 h5 h6
  have hnext : ∀ (i : Nat) (I : registerInterval), st3.intervals[i]? = some I →
      ∃ I' : registerInterval, st6.intervals[i]? = some I' ∧
        I'.next_level_registerInterval = I.next_level_registerInterval := by
    intro i I hI
    obtain ⟨I4, hI4, e4⟩ := passTwo_register_lists_keep (fun J => J.next_level_registerInterval)
      (fun J J' s hJ => (set_register_list_fields J J' s hJ).2.2.1) st3 st4 l out3 h4 i I hI
    obtain ⟨I6, hI6, e6⟩ := passTwo_final_keep (fun J => J.next_level_registerInterval)
      (fun _ _ => rfl) add_predecessor_next_level add_successors_next_level st4 st5 st6 l out3
      h5 h6 i I4 hI4
    exact ⟨I6, hI6, e6.trans e4⟩
  -- a member in the final state is a member after the main loop
  have hback : ∀ i ∈ l, ∀ (I : registerInterval) (J : Nat), st6.intervals[i]? = some I →
      I.next_level_registerInterval = some J →
      ∃ I0 I3 : registerInterval, st.intervals[i]? = some I0 ∧ st3.intervals[i]? = some I3 ∧
        I3.register_list = I0.register_list ∧ I3.next_level_registerInterval = some J := by
    intro i hi I J hI hn
    obtain ⟨I0, I3, g1, g2, g3, _, _⟩ := hreg3.2.1 i hi
    obtain ⟨I6, hI6, e6⟩ := hnext i I3 g2
    rw [hI] at hI6
    cases hI6
    exact ⟨I0, I3, g1, g2, g3, by rw [← e6]; exact hn⟩
  intro J hJ
  obtain ⟨I4, hI4, hf⟩ := hregs4 J hJ
  obtain ⟨IJ, hIJ, eJ⟩ := hkeepr J I4 hI4
  simp only at eJ
  obtain ⟨hpw, hmem⟩ := folded_registers_spec st3 l J _ hf
  have hnd : IJ.register_list.Nodup := by
    rw [eJ]
    exact hpw.imp (fun h => ne_of_lt h)
  have hsubU : IJ.register_list ⊆ U := by
    intro r hr
    rw [eJ] at hr
    obtain ⟨i, hi, I3, hI3, _, hr3⟩ := hmem r hr
    obtain ⟨I0, I3', g1, g2, g3, _, _⟩ := hreg3.2.1 i hi
    rw [hI3] at g2
    cases g2
    rw [g3] at hr3
    exact hUmem i hi I0 g1 r hr3
  have hleU : IJ.register_list.length ≤ U.length := (hnd.subperm hsubU).length_le
  have hto := to_size_le N h0
  refine ⟨IJ, hIJ, ?_⟩
  cases hsz : size_lt U.length N with
  | true =>
    have hlt' : U.length < to_size N := by simpa [size_lt] using hsz
    constructor
    · intro _ _ _ _ _ _ _
      omega
    · intro hN
      omega
  | false =>
    have hsolo := passTwo_solo_of_phases fuel st st1 st2 st3 l out2 ws2 out3 N U hnodup hclosed
      hU hsz h1 h2 h3
    obtain ⟨_, s2, s3, _, s5, _⟩ := hsolo
    constructor
    · intro i hi i' hi' hii ⟨I, hI, hn⟩ ⟨I', hI', hn'⟩
      obtain ⟨_, I3, _, g2, _, g4⟩ := hback i hi I J hI hn
      obtain ⟨_, I3', _, g2', _, g4'⟩ := hback i' hi' I' J hI' hn'
      exact absurd (s5 i hi i' hi' I3 I3' J g2 g2' g4 g4') hii
    · intro hN
      obtain ⟨_, _, i, hi, I3, hI3, hn3⟩ := s3 J hJ
      obtain ⟨I0, I3', g1, g2, g3, _, _⟩ := hreg3.2.1 i hi
      rw [hI3] at g2
      cases g2
      obtain ⟨I6, hI6, e6⟩ := hnext i I3 hI3
      have huniq : ∀ i' ∈ l, ∀ I' : registerInterval, st6.intervals[i']? = some I' →
          I'.next_level_registerInterval = some J → i' = i := by
        intro i' hi' I' hI' hn'
        obtain ⟨_, I3', _, g2', _, g4'⟩ := hback i' hi' I' J hI' hn'
        exact s5 i' hi' i hi I3' I3 J g2' hI3 g4' hn3
      have hsub0 : IJ.register_list ⊆ I0.register_list := by
        intro r hr
        rw [eJ] at hr
        obtain ⟨i', hi', I3', hI3', hn', hr3⟩ := hmem r hr
        have e := s5 i' hi' i hi I3' I3 J hI3' hI3 hn' hn3
        subst e
        rw [hI3] at hI3'
        cases hI3'
        rw [g3] at hr3
        exact hr3
      have hle0 : IJ.register_list.length ≤ I0.register_list.length :=
        (hnd.subperm hsub0).length_le
      exact ⟨i, hi, I0, I6, g1, hI6, e6.trans hn3, by omega, huniq⟩

theorem passTwo_folded_below_budget_witness :
    ([0, 1] : List Nat).Nodup ∧ Closed two_intervals [0, 1] ∧ (0 : Int) ≤ 5 ∧
    ∃ st' out, registerIntervalCreationPassTwo 30 two_intervals [0, 1] 5 = .ok (st', out) ∧
      ∀ J ∈ out, ∃ IJ : registerInterval, st'.intervals[J]? = some IJ ∧
        (∀ i ∈ [0, 1], ∀ i' ∈ [0, 1], i ≠ i' →
          (∃ I : registerInterval, st'.intervals[i]? = some I ∧
            I.next_level_registerInterval = some J) →
          (∃ I' : registerInterval, st'.intervals[i']? = some I' ∧
            I'.next_level_registerInterval = some J) →
          (IJ.register_list.length : Int) < 5) ∧
        ((5 : Int) ≤ (IJ.register_list.length : Int) →
          ∃ i ∈ [0, 1], ∃ I0 I : registerInterval, two_intervals.intervals[i]? = some I0 ∧
            st'.intervals[i]? = some I ∧ I.next_level_registerInterval = some J ∧
            (5 : Int) ≤ (I0.register_list.length : Int) ∧
            ∀ i' ∈ [0, 1], ∀ I' : registerInterval, st'.intervals[i']? = some I' →
              I'.next_level_registerInterval = some J → i' = i) := by
  obtain ⟨⟨st', out⟩, hrun, _⟩ :=
    ok_of_map_eq (registerIntervalCreationPassTwo 30 two_intervals [0, 1] 5)
      (fun r => r.2.length) 1 (by decide)
  exact ⟨by decide, two_intervals_closed, by decide, st', out, hrun,
    passTwo_folded_below_budget 30 two_intervals st' [0, 1] out 5 (by decide)
      two_intervals_closed (by decide) hrun⟩
/-! ## The depth-first marking of `visit_all_predecessors` -/

theorem foldlM_prefix {α σ : Type} (f : σ → α → M σ) (Inv : List α → σ → Prop) (l : List α)
    (hstep : ∀ (pre : List α) (a : α) (t : σ), a ∈ l → Inv pre t →
      ∃ t', f t a = .ok t' ∧ Inv (pre ++ [a]) t') :
    ∀ (pre : List α) (s : σ), Inv pre s →
      ∃ s', l.foldlM f s = .ok s' ∧ Inv (pre ++ l) s' := by
  induction l with
  | nil =>
    intro pre s h
    exact ⟨s, rfl, by simpa using h⟩
  | cons a l ih =>
    intro pre s h
    obtain ⟨t, ht, hinv⟩ := hstep pre a s (List.mem_cons_self _ _) h
    obtain ⟨s', hs', hinv'⟩ := ih (fun pre b t hb => hstep pre b t (List.mem_cons_of_mem _ hb))
      (pre ++ [a]) t hinv
    refine ⟨s', ?_, by simpa using hinv'⟩
    rw [List.foldlM_cons, ht]
    exact hs'

theorem set_true_mono (m : List Bool) (i k : Nat) (h : m[k]? = some true) :
    (m.set i true)[k]? = some true := by
  by_cases hik : i = k
  · subst hik
    have hlt : i < m.length := (List.getElem?_eq_some_iff.mp h).1
    rw [List.getElem?_set_self hlt]
  · rw [List.getElem?_set_ne hik]
    exact h

theorem count_false_pos (m : List Bool) (k : Nat) (h : m[k]? = some false) :
    0 < m.count false := by
  rw [List.count_pos_iff]
  obtain ⟨hlt, he⟩ := List.getElem?_eq_some_iff.mp h
  exact he ▸ List.getElem_mem hlt

/-- The depth-first marking from an unmarked block `p` of the block list `l`, with
fuel at least the number of unmarked entries: it returns, only the mark vector
changes, marks are only added, `p` is marked, every newly marked block is reached
from `p` along predecessor edges, and every predecessor of a newly marked block is
marked. -/
theorem visit_predecessors_total (bl : List basicBlock) (l : List Nat)
    (hval : ∀ p ∈ l, p < bl.length)
    (hinj : ∀ p ∈ l, ∀ q ∈ l, ∀ (b b' : basicBlock), bl[p]? = some b → bl[q]? = some b' →
      b.ID = b'.ID → p = q)
    (hpred : ∀ p ∈ l, ∀ (b : basicBlock), bl[p]? = some b → ∀ q ∈ b.predecessors, q ∈ l) :
    ∀ (fuel : Nat) (s : State) (p : Nat) (b : basicBlock), s.blocks = bl →
      (∀ x ∈ l, ∀ (bx : basicBlock), bl[x]? = some bx → bx.ID < s.mark.length) →
      p ∈ l → bl[p]? = some b → s.mark[b.ID]? = some false → s.mark.count false ≤ fuel →
      ∃ s' : State, visit_predecessors fuel s p = .ok s' ∧ s' = { s with mark := s'.mark } ∧
        s'.mark.length = s.mark.length ∧
        (∀ k : Nat, s.mark[k]? = some true → s'.mark[k]? = some true) ∧
        s'.mark.count false ≤ s.mark.count false ∧
        s'.mark[b.ID]? = some true ∧
        (∀ x ∈ l, ∀ (bx : basicBlock), bl[x]? = some bx → s'.mark[bx.ID]? = some true →
          s.mark[bx.ID]? = some true ∨
            Relation.ReflTransGen (fun y z => ∃ c : basicBlock, bl[y]? = some c ∧
              z ∈ c.predecessors) p x) ∧
        (∀ x ∈ l, ∀ (bx : basicBlock), bl[x]? = some bx → s'.mark[bx.ID]? = some true →
          s.mark[bx.ID]? ≠ some true →
          ∀ (q : Nat) (bq : basicBlock), q ∈ bx.predecessors → bl[q]? = some bq →
            s'.mark[bq.ID]? = some true) := by
  intro fuel
  induction fuel with
  | zero =>
    intro s p b _ _ _ _ hm hc
    have := count_false_pos s.mark b.ID hm
    omega
  | succ fuel ih =>
    intro s p b hbl hid hp hb hm hc
    have hblt : b.ID < s.mark.length := hid p hp b hb
    have hg : getBlock s p = .ok b := (getBlock_eq_ok _ _ _).mpr (by rw [hbl]; exact hb)
    have hsm : setMark s b.ID = .ok { s with mark := s.mark.set b.ID true } := by
      unfold setMark
      rw [if_pos hblt]
    have hc1 : (s.mark.set b.ID true).count false ≤ fuel := by
      have := count_false_set_true_lt s.mark b.ID hm
      omega
    obtain ⟨s', hs', hinv⟩ := foldlM_prefix
      (fun st q => do
        let pb ← getBlock st q
        let m ← getMark st pb.ID
        if m = false then visit_predecessors fuel st q else return st)
      (fun pre t => t = { s with mark := t.mark } ∧ t.mark.length = s.mark.length ∧
        (∀ k : Nat, (s.mark.set b.ID true)[k]? = some true → t.mark[k]? = some true) ∧
        t.mark.count false ≤ (s.mark.set b.ID true).count false ∧
        (∀ x ∈ l, ∀ (bx : basicBlock), bl[x]? = some bx → t.mark[bx.ID]? = some true →
          (s.mark.set b.ID true)[bx.ID]? = some true ∨ ∃ q ∈ b.predecessors,
            Relation.ReflTransGen (fun y z => ∃ c : basicBlock, bl[y]? = some c ∧
              z ∈ c.predecessors) q x) ∧
        (∀ x ∈ l, ∀ (bx : basicBlock), bl[x]? = some bx → t.mark[bx.ID]? = some true →
          (s.mark.set b.ID true)[bx.ID]? ≠ some true →
          ∀ (q : Nat) (bq : basicBlock), q ∈ bx.predecessors → bl[q]? = some bq →
            t.mark[bq.ID]? = some true) ∧
        ∀ q ∈ pre, ∀ bq : basicBlock, bl[q]? = some bq → t.mark[bq.ID]? = some true)
      b.predecessors
      (by
        rintro pre a t ha ⟨f1, f2, f3, f4, f5, f6, f7⟩
        have hal : a ∈ l := hpred p hp b hb a ha
        have halt : a < bl.length := hval a hal
        have hba : bl[a]? = some bl[a] := List.getElem?_eq_getElem halt
        have htbl : t.blocks = bl := by rw [f1]; exact hbl
        have hga : getBlock t a = .ok bl[a] := (getBlock_eq_ok _ _ _).mpr (by rw [htbl]; exact hba)
        have hidt : ∀ x ∈ l, ∀ (bx : basicBlock), bl[x]? = some bx →
            bx.ID < t.mark.length := by
          intro x hxl bx hx
          rw [f2]
          exact hid x hxl bx hx
        have hlta : bl[a].ID < t.mark.length := hidt a hal _ hba
        have hma : t.mark[bl[a].ID]? = some t.mark[bl[a].ID] := List.getElem?_eq_getElem hlta
        have hgm : getMark t bl[a].ID = .ok t.mark[bl[a].ID] := by
          unfold getMark
          rw [hma]
        simp only [hga, hgm, bind, Except.bind]
        cases hmv : t.mark[bl[a].ID] with
        | false =>
          rw [hmv] at hma
          simp only [if_true]
          obtain ⟨t', ht', g1, g2, g3, g4, g5, g6, g7⟩ := ih t a bl[a] htbl hidt hal hba hma
            (le_trans f4 hc1)
          refine ⟨t', ht', ?_, by rw [g2, f2], fun k hk => g3 k (f3 k hk), le_trans g4 f4,
            ?_, ?_, ?_⟩
          · rw [g1, f1]
          · intro x hxl bx hx hmx
            rcases g6 x hxl bx hx hmx with h | h
            · exact f5 x hxl bx hx h
            · exact Or.inr ⟨a, ha, h⟩
          · intro x hxl bx hx hmx hnot q bq hq hbq
            by_cases hmt : t.mark[bx.ID]? = some true
            · exact g3 _ (f6 x hxl bx hx hmt hnot q bq hq hbq)
            · exact g7 x hxl bx hx hmx hmt q bq hq hbq
          · intro q hq bq hbq
            simp only [List.mem_append, List.mem_singleton] at hq
            rcases hq with hq | rfl
            · exact g3 _ (f7 q hq bq hbq)
            · rw [hba] at hbq
              cases hbq
              exact g5
        | true =>
          rw [hmv] at hma
          simp only [Bool.true_eq_false, if_false, pure, Except.pure]
          refine ⟨t, rfl, f1, f2, f3, f4, f5, f6, ?_⟩
          intro q hq bq hbq
          simp only [List.mem_append, List.mem_singleton] at hq
          rcases hq with hq | rfl
          · exact f7 q hq bq hbq
          · rw [hba] at hbq
            cases hbq
            exact hma)
      [] { s with mark := s.mark.set b.ID true }
      ⟨rfl, by simp, fun k hk => hk, le_refl _, fun x _ bx hx hmx => Or.inl hmx,
        fun x _ bx hx hmx hnot => absurd hmx hnot, fun q hq => by cases hq⟩
    obtain ⟨f1, f2, f3, f4, f5, f6, f7⟩ := hinv
    simp only [List.nil_append] at f7
    have hself : (s.mark.set b.ID true)[b.ID]? = some true := List.getElem?_set_self hblt
    refine ⟨s', ?_, f1, f2, fun k hk => f3 k (set_true_mono s.mark b.ID k hk), ?_,
      f3 _ hself, ?_, ?_⟩
    · unfold visit_predecessors
      rw [hg]
      simp only [bind, Except.bind, hsm]
      exact hs'
    · exact le_trans f4 (count_false_set_true_le s.mark b.ID)
    · intro x hxl bx hx hmx
      rcases f5 x hxl bx hx hmx with h | ⟨q, hq, hr⟩
      · by_cases hid' : b.ID = bx.ID
        · have : p = x := hinj p hp x hxl b bx hb hx hid'
          subst this
          exact Or.inr Relation.ReflTransGen.refl
        · rw [List.getElem?_set_ne hid'] at h
          exact Or.inl h
      · exact Or.inr (Relation.ReflTransGen.head ⟨b, hb, hq⟩ hr)
    · intro x hxl bx hx hmx hnot q bq hq hbq
      by_cases hxp : x = p
      · subst hxp
        rw [hb] at hx
        cases hx
        exact f7 q hq bq hbq
      · have hid' : b.ID ≠ bx.ID := fun e => hxp (hinj p hp x hxl b bx hb hx e).symm
        refine f6 x hxl bx hx hmx ?_ q bq hq hbq
        rw [List.getElem?_set_ne hid']
        exact hnot

theorem reset_mark_length (st : State) :
    (reset_mark st).mark.length = st.mark.length + st.basic_blocks.length := by
  simp only [reset_mark, List.length_append, List.length_replicate, List.length_drop]
  omega

theorem reset_mark_false (st : State) (k : Nat) (h : k < st.basic_blocks.length) :
    (reset_mark st).mark[k]? = some false := by
  simp only [reset_mark]
  rw [List.getElem?_append_left (by simpa using h), List.getElem?_replicate, if_pos h]

/-- C25: if the blocks of the block list have pairwise distinct IDs smaller than
the number of blocks (and their predecessor edges stay within the block list),
then `visit_all_predecessors(c)` on a block `c` of the list returns for every fuel
of at least the size of the mark vector plus the number of blocks, whatever the
shape of the graph (cycles included); only the mark vector changes; and for every
block `x` of the block list `mark[x.ID]` is true exactly when `x` is `c` or `x`
reaches `c` through a chain of predecessor edges. -/
theorem visit_all_predecessors_marks (st : State) (c : Nat)
    (hc : c ∈ st.basic_blocks)
    (hval : ∀ p ∈ st.basic_blocks, p < st.blocks.length)
    (hpred : ∀ p ∈ st.basic_blocks, ∀ b : basicBlock, st.blocks[p]? = some b →
      ∀ q ∈ b.predecessors, q ∈ st.basic_blocks)
    (hid : ∀ p ∈ st.basic_blocks, ∀ b : basicBlock, st.blocks[p]? = some b →
      b.ID < st.basic_blocks.length)
    (hinj : ∀ p ∈ st.basic_blocks, ∀ q ∈ st.basic_blocks, ∀ b b' : basicBlock,
      st.blocks[p]? = some b → st.blocks[q]? = some b' → b.ID = b'.ID → p = q) :
    ∀ fuel : Nat, st.mark.length + st.basic_blocks.length ≤ fuel →
      ∃ st' : State, visit_all_predecessors fuel st c = .ok st' ∧
        st' = { st with mark := st'.mark } ∧
        ∀ x ∈ st.basic_blocks, ∀ bx : basicBlock, st.blocks[x]? = some bx →
          (st'.mark[bx.ID]? = some true ↔ reaches st x c) := by
  intro fuel hfuel
  have hclt : c < st.blocks.length := hval c hc
  obtain ⟨bc, hcb⟩ : ∃ bc : basicBlock, st.blocks[c]? = some bc :=
    ⟨st.blocks[c], List.getElem?_eq_getElem hclt⟩
  have hcount : (reset_mark st).mark.count false ≤ fuel := by
    have := List.count_le_length false (reset_mark st).mark
    rw [reset_mark_length] at this
    omega
  obtain ⟨s', hs', g1, g2, g3, g4, g5, g6, g7⟩ :=
    visit_predecessors_total st.blocks st.basic_blocks hval hinj hpred fuel (reset_mark st) c
      bc rfl
      (fun x hxl bx hx => by
        rw [reset_mark_length]
        have := hid x hxl bx hx
        omega)
      hc hcb (reset_mark_false st _ (hid c hc _ hcb)) hcount
  refine ⟨s', hs', ?_, ?_⟩
  · rw [g1]
    simp [reset_mark]
  · intro x hxl bx hx
    constructor
    · intro hm
      rcases g6 x hxl bx hx hm with h | h
      · rw [reset_mark_false st _ (hid x hxl bx hx)] at h
        cases h
      · exact h
    · intro hr
      have key : ∀ y : Nat, Relation.ReflTransGen (is_predecessor st) c y →
          y ∈ st.basic_blocks ∧ ∀ by' : basicBlock, st.blocks[y]? = some by' →
            s'.mark[by'.ID]? = some true := by
        intro y hy
        induction hy with
        | refl =>
          refine ⟨hc, ?_⟩
          intro by' hby
          rw [hcb] at hby
          cases hby
          exact g5
        | tail _ hstep ih =>
          obtain ⟨bu, hbu, hv⟩ := hstep
          refine ⟨hpred _ ih.1 bu hbu _ hv, ?_⟩
          intro bv hbv
          refine g7 _ ih.1 bu hbu (ih.2 bu hbu) ?_ _ bv hv hbv
          rw [reset_mark_false st _ (hid _ ih.1 bu hbu)]
          simp
      exact (key x hr).2 bx hx

theorem visit_all_predecessors_marks_witness :
    ∃ st' : State,
      visit_all_predecessors 3 { entry_and_loop with basic_blocks := [0, 1, 2] } 1 = .ok st' ∧
      st' = { ({ entry_and_loop with basic_blocks := [0, 1, 2] } : State) with
        mark := st'.mark } ∧
      ∀ x ∈ ({ entry_and_loop with basic_blocks := [0, 1, 2] } : State).basic_blocks,
        ∀ bx : basicBlock,
          ({ entry_and_loop with basic_blocks := [0, 1, 2] } : State).blocks[x]? = some bx →
          (st'.mark[bx.ID]? = some true ↔
            reaches { entry_and_loop with basic_blocks := [0, 1, 2] } x 1) := by
  refine visit_all_predecessors_marks { entry_and_loop with basic_blocks := [0, 1, 2] } 1
    (by decide) (by decide) ?_ ?_ ?_ 3 (by decide)
  · intro p hp b hb q hq
    have hp' : p = 0 ∨ p = 1 ∨ p = 2 := by simpa using hp
    rcases hp' with rfl | rfl | rfl <;>
      simp [entry_and_loop, initial_state, front_end_block] at hb <;>
      subst hb <;> simp at hq ⊢
    · rcases hq with rfl | rfl <;> simp
    · subst hq
      simp
  · intro p hp b hb
    have hp' : p = 0 ∨ p = 1 ∨ p = 2 := by simpa using hp
    rcases hp' with rfl | rfl | rfl <;>
      simp [entry_and_loop, initial_state, front_end_block] at hb <;>
      subst hb <;> simp
  · intro p hp q hq b b' hb hb' he
    have hp' : p = 0 ∨ p = 1 ∨ p = 2 := by simpa using hp
    have hq' : q = 0 ∨ q = 1 ∨ q = 2 := by simpa using hq
    rcases hp' with rfl | rfl | rfl <;> rcases hq' with rfl | rfl | rfl <;>
      simp [entry_and_loop, initial_state, front_end_block] at hb hb' <;>
      subst hb <;> subst hb' <;> simp at he ⊢

/-- On the graph `A → B`, `B → C`, `C → B`: `visit_all_predecessors` of `B` marks
the three blocks (the cycle through `C` is followed once), and of `A` marks only
`A`. -/
theorem visit_all_predecessors_on_cycle :
    ((visit_all_predecessors 3 { entry_and_loop with basic_blocks := [0, 1, 2] } 1).map
        (fun s => s.mark),
     (visit_all_predecessors 3 { entry_and_loop with basic_blocks := [0, 1, 2] } 0).map
        (fun s => s.mark),
     (visit_all_predecessors 1 { entry_and_loop with basic_blocks := [0, 1, 2] } 1).map
        (fun s => s.mark)) =
      (.ok [true, true, true], .ok [true, false, false], .error .fuel) := by
  decide

/-! ## What `traverse` leaves unchanged when no statement overflows -/

theorem setBlock_self (st : State) (BB : Nat) (b : basicBlock) (hb : st.blocks[BB]? = some b) :
    setBlock st BB b = st := by
  unfold setBlock
  have : st.blocks.set BB b = st.blocks := by
    apply List.ext_getElem?
    intro i
    by_cases h : BB = i
    · subst h
      have hlt : BB < st.blocks.length := (List.getElem?_eq_some_iff.mp hb).1
      rw [List.getElem?_set_self hlt, hb]
    · rw [List.getElem?_set_ne h]
  rw [this]

/-- C35. When the statement loop of `traverse` on the block `BB` ends without
overflow, the call returns for every fuel and the state it returns is the state
of the call with one write: the output register set of `BB` becomes the last
set the loop computed (and stays as it is when the text has no statement).  The
text, the name, the input set, the predecessor and successor lists and the
register-interval of `BB`, every other block, the block list, the list of
register-intervals, the register-intervals and the working set are those of the
call. -/
theorem traverse_no_overflow_frame (st : State) (BB : Nat) (N : Int) (b : basicBlock)
    (last : Option (List Str)) (hb : getBlock st BB = .ok b)
    (hfin : scan_loop b.code N (terminators b.code 0) 0 b.input_list [] none = .finished last) :
    ∀ fuel : Nat, traverse fuel st BB N =
      .ok (setBlock st BB { b with output_list := last.getD b.output_list }) := by
  intro fuel
  unfold traverse
  rw [hb]
  simp only [bind, Except.bind, hfin]
  cases last with
  | none =>
    simp only [Option.getD_none, pure, Except.pure]
    rw [setBlock_self st BB b ((getBlock_eq_ok _ _ _).mp hb)]
  | some r => rfl

theorem traverse_no_overflow_frame_witness :
    getBlock two_statements 1 = .ok (front_end_block 1 "BB1" "MOV R1;MOV R2;" [0] [2]) ∧
    ∀ fuel : Nat, traverse fuel two_statements 1 2 =
      .ok (setBlock two_statements 1
        { front_end_block 1 "BB1" "MOV R1;MOV R2;" [0] [2] with
          output_list := (some ["R1".toList, "R2".toList]).getD
            (front_end_block 1 "BB1" "MOV R1;MOV R2;" [0] [2]).output_list }) :=
  ⟨rfl, traverse_no_overflow_frame two_statements 1 2 _ (some ["R1".toList, "R2".toList]) rfl
    (by decide)⟩

/-! ## Successor and predecessor lists across a split -/

theorem edges_consistent_iff (st : State) :
    edges_consistent st = true ↔
      ∀ (a b : Nat) (ba bb : basicBlock), st.blocks[a]? = some ba → st.blocks[b]? = some bb →
        (b ∈ ba.successors ↔ a ∈ bb.predecessors) := by
  unfold edges_consistent
  simp only [List.all_eq_true, List.mem_range]
  constructor
  · intro h a b ba bb ha hb
    have := h a (List.getElem?_eq_some_iff.mp ha).1 b (List.getElem?_eq_some_iff.mp hb).1
    rw [ha, hb] at this
    simpa using this
  · intro h a _ b _
    cases ha : st.blocks[a]? with
    | none => rfl
    | some ba =>
      cases hb : st.blocks[b]? with
      | none => rfl
      | some bb =>
        simp only [decide_eq_true_eq]
        exact h a b ba bb ha hb

/-- A call of `traverse` that does not split, or that splits a block without
successors, keeps the successor and predecessor lists in agreement (the entries
of the lists being allocated blocks). -/
theorem traverse_keeps_edges (fuel : Nat) (st st' : State) (BB : Nat) (N : Int)
    (b : basicBlock) (hb : getBlock st BB = .ok b) (h : traverse fuel st BB N = .ok st')
    (hcons : edges_consistent st = true)
    (hvalid : ∀ (p : Nat) (c : basicBlock), st.blocks[p]? = some c →
      (∀ q ∈ c.successors, q < st.blocks.length) ∧ ∀ q ∈ c.predecessors, q < st.blocks.length)
    (hcase : st'.blocks.length = st.blocks.length ∨ b.successors = []) :
    edges_consistent st' = true := by
  have hb' := (getBlock_eq_ok _ _ _).mp hb
  have hBB : BB < st.blocks.length := (List.getElem?_eq_some_iff.mp hb').1
  rw [edges_consistent_iff] at hcons ⊢
  rcases traverse_cases fuel st st' BB N b hb h with ⟨_, rfl⟩ | ⟨r, _, rfl⟩ | ⟨f1, rl, _, hs⟩
  · exact hcons
  · have key : ∀ (p : Nat) (x : basicBlock),
        (setBlock st BB { b with output_list := r }).blocks[p]? = some x →
        ∃ x0 : basicBlock, st.blocks[p]? = some x0 ∧ x.successors = x0.successors ∧
          x.predecessors = x0.predecessors := by
      intro p x hx
      rcases setBlock_lookup st BB _ x p hx with ⟨ep, ex⟩ | ⟨_, hx0⟩
      · rw [ep, ex]
        exact ⟨b, hb', rfl, rfl⟩
      · exact ⟨x, hx0, rfl, rfl⟩
    intro a c ba bc ha hc
    obtain ⟨a0, ha0, e1, _⟩ := key a ba ha
    obtain ⟨c0, hc0, _, e2⟩ := key c bc hc
    rw [e1, e2]
    exact hcons a c a0 c0 ha0 hc0
  · obtain ⟨code2, _, rfl⟩ := split_eq fuel st st' BB f1 rl b hb hs
    have hnil : b.successors = [] := by
      rcases hcase with hlen | hnil
      · simp [split_state] at hlen
      · exact hnil
    intro a c ba bc ha hc
    have hn : BB ≠ st.blocks.length := by omega
    rcases split_state_lookup st b BB f1 rl code2 ba a hb' ha with
      ⟨ea, eba⟩ | ⟨ea, eba⟩ | ⟨hane, halt, ha0⟩ <;>
    rcases split_state_lookup st b BB f1 rl code2 bc c hb' hc with
      ⟨ec, ebc⟩ | ⟨ec, ebc⟩ | ⟨hcne, hclt, hc0⟩
    · have := hcons BB BB b b hb' hb'
      rw [hnil] at this
      rw [ea, ec, eba, ebc]
      simp only [split_old, List.mem_singleton]
      constructor
      · intro e; exact absurd e hn
      · intro e; exact absurd (this.mpr e) (by simp)
    · rw [ea, ec, eba, ebc]
      simp [split_old, split_new]
    · have := hcons BB c b bc hb' hc0
      rw [hnil] at this
      rw [ea, eba]
      simp only [split_old, List.mem_singleton]
      constructor
      · intro e; omega
      · intro e; exact absurd (this.mpr e) (by simp)
    · have := (hvalid BB b hb').2 st.blocks.length
      rw [ea, ec, eba, ebc]
      simp only [split_new, split_old, hnil]
      constructor
      · intro e; simp at e
      · intro e; exact absurd (this e) (lt_irrefl _)
    · rw [ea, ec, eba, ebc]
      simp only [split_new, hnil, List.mem_singleton]
      constructor
      · intro e; simp at e
      · intro e; exact absurd e.symm hn
    · have := (hvalid c bc hc0).2 st.blocks.length
      rw [ea, eba]
      simp only [split_new, hnil]
      constructor
      · intro e; simp at e
      · intro e; exact absurd (this e) (lt_irrefl _)
    · rw [ec, ebc]
      simp only [split_old]
      exact hcons a BB ba b ha0 hb'
    · have := (hvalid a ba ha0).1 st.blocks.length
      rw [ec, ebc]
      simp only [split_new, List.mem_singleton]
      constructor
      · intro e; exact absurd (this e) (lt_irrefl _)
      · intro e; exact absurd e hane
    · exact hcons a c ba bc ha0 hc0

/-- C31. The block `BB1` of `two_statements`, between `BB0` and `BB2`, is split
with budget 1.  Before the call the successor and predecessor lists agree.
After the call the new block (index 3) has `BB2` in its successor list but is
not in the predecessor list of `BB2`, which still holds `BB1`, and `BB1` no
longer has `BB2` in its successor list.  In the run of pass one with budget 1 the
register-interval of the new block (2) has the register-interval of `BB2` (3) as
successor, whereas the predecessor list of the latter holds the
register-interval of `BB1` (1). -/
theorem traverse_split_breaks_edges :
    edges_consistent two_statements = true ∧
    (traverse 10 two_statements 1 1).map
        (fun s => (edges_consistent s, s.blocks.map (fun b => (b.predecessors, b.successors)))) =
      .ok (false, [([], [1]), ([0], [3]), ([1], []), ([1], [2])]) ∧
    (registerIntervalCreationPassOne 30 two_statements [0, 1, 2] 1).map
        (fun r => (r.1.blocks.map (fun b => b.BB_registerInterval),
          r.1.intervals.map (fun I => (I.predecessors, I.successors)))) =
      .ok ([some 0, some 1, some 3, some 2],
        [([], [some 1]), ([some 0], [some 2]), ([some 1], [some 3]), ([some 1], [])]) := by
  decide

/-! ## Identifiers of the blocks a split creates -/

/-- The identifier of the block a split creates is the value of
`basicBlock::IDgenerator` at the call, and the blocks that existed keep their
identifiers: the new identifier differs from theirs when they are all below the
counter, as they are when every block was built by the constructors that use it. -/
theorem traverse_split_identifier (fuel : Nat) (st st' : State) (BB : Nat) (N : Int)
    (b : basicBlock) (hb : getBlock st BB = .ok b) (h : traverse fuel st BB N = .ok st')
    (hsplit : st'.blocks.length ≠ st.blocks.length) :
    ∃ b1 : basicBlock, st'.blocks[st.blocks.length]? = some b1 ∧ b1.ID = st.bbIDgenerator ∧
      (∀ (p : Nat) (c : basicBlock), st.blocks[p]? = some c →
        ∃ c' : basicBlock, st'.blocks[p]? = some c' ∧ c'.ID = c.ID) ∧
      ((∀ (p : Nat) (c : basicBlock), st.blocks[p]? = some c → c.ID < st.bbIDgenerator) →
        ∀ (p : Nat) (c' : basicBlock), p < st.blocks.length → st'.blocks[p]? = some c' →
          c'.ID ≠ b1.ID) := by
  have hb' := (getBlock_eq_ok _ _ _).mp hb
  rcases traverse_cases fuel st st' BB N b hb h with ⟨_, rfl⟩ | ⟨r, _, rfl⟩ | ⟨f1, rl, _, hs⟩
  · exact absurd rfl hsplit
  · exact absurd (by simp [setBlock]) hsplit
  · obtain ⟨code2, _, rfl⟩ := split_eq fuel st st' BB f1 rl b hb hs
    have hkeep : ∀ (p : Nat) (c : basicBlock), st.blocks[p]? = some c →
        ∃ c' : basicBlock, (split_state st b BB f1 rl code2).blocks[p]? = some c' ∧
          c'.ID = c.ID := by
      intro p c hc
      by_cases hp : p = BB
      · subst hp
        rw [hb'] at hc
        cases hc
        exact ⟨_, split_state_lookup_old st b p f1 rl code2 hb', rfl⟩
      · have hlt : p < st.blocks.length := (List.getElem?_eq_some_iff.mp hc).1
        exact ⟨c, by rw [split_state_lookup_ne st b BB f1 rl code2 p hp hlt]; exact hc, rfl⟩
    refine ⟨split_new st b BB code2, split_state_lookup_new st b BB f1 rl code2, rfl, hkeep, ?_⟩
    intro hids p c' hp hc'
    have hc0 : st.blocks[p]? = some st.blocks[p] := List.getElem?_eq_getElem hp
    obtain ⟨c'', hc'', hid⟩ := hkeep p _ hc0
    rw [hc'] at hc''
    cases hc''
    have := hids p _ hc0
    show c'.ID ≠ st.bbIDgenerator
    omega

/-- C32. The block `A` of `shared_identifier` is split with budget 1 while the
block list holds the blocks with the identifiers 0, 1, 2: the new block receives
the identifier 2, which the block `C` of the list has.  The ancestor query on
the new block then sets the entries 0 and 2 of the mark vector, so that the
blocks of the list whose mark reads true are `A`, `C` and the new block, although
`C` does not reach the new block. -/
theorem split_reuses_identifier :
    (traverse 10 { shared_identifier with basic_blocks := [0, 1, 2] } 0 1).map
        (fun s => (s.basic_blocks, s.blocks.map (fun b => (b.ID, b.predecessors)))) =
      .ok ([0, 1, 2, 3], [(0, []), (1, []), (2, [1]), (2, [0])]) ∧
    ((traverse 10 { shared_identifier with basic_blocks := [0, 1, 2] } 0 1) >>=
        fun s => visit_all_predecessors 10 s 3).map
      (fun s => (s.mark, s.basic_blocks.filter (fun p =>
        match s.blocks[p]? with
        | some b => decide (s.mark[b.ID]? = some true)
        | none => false))) =
      .ok ([true, false, true, false], [0, 2, 3]) := by
  decide

/-! ## The renaming loop on names that reappear in the new name -/

theorem toDigitsCore_ne_nil (b : Nat) : ∀ (f n : Nat) (ds : List Char), ds ≠ [] →
    Nat.toDigitsCore b f n ds ≠ [] := by
  intro f
  induction f with
  | zero => intro n ds h; exact h
  | succ f ih =>
    intro n ds _
    unfold Nat.toDigitsCore
    simp only
    split
    · simp
    · exact ih _ _ (by simp)

theorem to_string_ne_nil (n : Nat) : to_string n ≠ [] := by
  unfold to_string Nat.toDigits Nat.toDigitsCore
  simp only
  split
  · simp
  · exact toDigitsCore_ne_nil 10 _ _ _ (by simp)

theorem find_aux_le (pat : Str) : ∀ (s : Str) (i j : Nat), find_aux pat s i = some j →
    j ≤ i + s.length := by
  intro s
  induction s with
  | nil =>
    intro i j h
    unfold find_aux at h
    split at h
    · simp at h; omega
    · simp at h
  | cons c cs ih =>
    intro i j h
    unfold find_aux at h
    split at h
    · simp at h; omega
    · have := ih (i + 1) j h
      simp only [List.length_cons]
      omega

theorem find_le (s pat : Str) (pos j : Nat) (h : find s pat pos = some j) : j ≤ s.length := by
  unfold find at h
  split at h
  · have := find_aux_le pat _ _ _ h
    rw [List.length_drop] at this
    omega
  · simp at h

theorem find_here (s pat : Str) (pos : Nat) (hpos : pos ≤ s.length) (hp : pat <+: s.drop pos) :
    find s pat pos = some pos := by
  unfold find
  rw [if_pos hpos]
  generalize s.drop pos = L at hp
  cases L with
  | nil =>
    have : pat = [] := List.prefix_nil.mp hp
    unfold find_aux
    simp [this]
  | cons c cs =>
    unfold find_aux
    rw [if_pos ( List.isPrefixOf_iff_prefix.mpr hp)]

/-- When the old name is a prefix of the new name without its first character
(the old name is empty, or it is a run of one character that the suffix
continues), every match is followed by a match one index further and the text
grows: the renaming loop exhausts every fuel. -/
theorem rename_loop_diverges (old new : Str) (hnew : old <+: new.drop 1) (hne : new ≠ []) :
    ∀ (fuel : Nat) (code2 : Str) (found : Nat), found ≤ code2.length →
      old <+: code2.drop found →
      rename_loop fuel code2 old new (some found) = .error .fuel := by
  intro fuel
  induction fuel with
  | zero => intro code2 found _ _; rfl
  | succ fuel ih =>
    intro code2 found hlen hp
    unfold rename_loop
    simp only
    have hdrop : (replace code2 found old.length new).drop (found + 1) =
        new.drop 1 ++ code2.drop (found + old.length) := by
      unfold replace
      rw [List.append_assoc]
      have h1 : (code2.take found).length = found := by
        rw [List.length_take]; omega
      have h2 : found + 1 = (code2.take found).length + 1 := by rw [h1]
      rw [h2, List.drop_append]
      cases new with
      | nil => exact absurd rfl hne
      | cons c cs => rfl
    have hlen' : found + 1 ≤ (replace code2 found old.length new).length := by
      unfold replace
      simp only [List.length_append, List.length_take, List.length_drop]
      have : 1 ≤ new.length := by
        cases new with
        | nil => exact absurd rfl hne
        | cons c cs => simp
      omega
    have hp' : old <+: (replace code2 found old.length new).drop (found + 1) := by
      rw [hdrop]
      exact hnew.trans ( List.prefix_append _ _)
    rw [find_here _ _ _ hlen' hp']
    exact ih _ _ hlen' hp'

/-- A call of `traverse` that splits a block whose name occurs in the text of the
new block from index 1 on and is a prefix of the new name without its first
character returns for no fuel. -/
theorem traverse_rename_diverges (st : State) (BB : Nat) (N : Int) (b : basicBlock)
    (found1 j : Nat) (register_list : List Str) (hb : getBlock st BB = .ok b)
    (hscan : scan_loop b.code N (terminators b.code 0) 0 b.input_list [] none =
      .overflow found1 register_list)
    (hfind : find (b.code.drop (found1 + 1)) b.name 1 = some j)
    (hname : b.name <+: (b.name ++ to_string (b.ID + 1)).drop 1) :
    ∀ fuel : Nat, traverse fuel st BB N = .error .fuel := by
  intro fuel
  have hloop := rename_loop_diverges b.name (b.name ++ to_string (b.ID + 1)) hname
    (by
      intro e
      exact to_string_ne_nil _ (List.append_eq_nil.mp e).2)
    fuel (b.code.drop (found1 + 1)) j (find_le _ _ _ _ hfind) (find_spec _ _ _ _ hfind)
  unfold traverse
  rw [hb]
  simp only [bind, Except.bind, hscan]
  unfold split
  rw [hb]
  simp only [bind, Except.bind, new_basicBlock, hfind, hloop]

/-- C33. The block of `empty_name`, whose name is empty, and the block of
`digit_name`, which is named `1` and names the register `R1` in its second
statement, are split with budget 1; in both cases the loop that rewrites the old
name finds a match at each turn and `traverse` returns for no fuel. -/
theorem traverse_rename_never_ends :
    (∀ fuel : Nat, traverse fuel empty_name 0 1 = .error .fuel) ∧
    (∀ fuel : Nat, traverse fuel digit_name 0 1 = .error .fuel) :=
  ⟨traverse_rename_diverges empty_name 0 1 (front_end_block 0 "" " MOV R1; MOV R2;" [] [])
      8 1 ["R1".toList] rfl (by decide) (by decide) (by decide),
   traverse_rename_diverges digit_name 0 1 (front_end_block 0 "1" " MOV R1; MOV R2 R1;" [] [])
      8 8 ["R1".toList] rfl (by decide) (by decide) (by decide)⟩

/-! ## Pass one on a block list without entry block -/

theorem foldlM_fixed {α σ : Type} (f : σ → α → M σ) (s : σ) :
    ∀ l : List α, (∀ a ∈ l, f s a = .ok s) → l.foldlM f s = .ok s := by
  intro l
  induction l with
  | nil => intro _; rfl
  | cons a l ih =>
    intro h
    rw [List.foldlM_cons, h a (List.mem_cons_self _ _)]
    exact ih (fun x hx => h x (List.mem_cons_of_mem _ hx))

theorem passOne_init_total (l : List Nat) : ∀ st : State, (∀ p ∈ l, p < st.blocks.length) →
    ∃ st1 : State,
      l.foldlM
        (fun (st : State) b => do
          let blk ← getBlock st b
          return setBlock st b { blk with input_list := [], BB_registerInterval := none })
        st = .ok st1 := by
  induction l with
  | nil => intro st _; exact ⟨st, rfl⟩
  | cons a l ih =>
    intro st h
    have ha : a < st.blocks.length := h a (List.mem_cons_self _ _)
    have hg : getBlock st a = .ok st.blocks[a] :=
      (getBlock_eq_ok _ _ _).mpr (List.getElem?_eq_getElem ha)
    obtain ⟨st1, h1⟩ := ih
      (setBlock st a { st.blocks[a] with input_list := [], BB_registerInterval := none })
      (fun p hp => by
        simp only [setBlock, List.length_set]
        exact h p (List.mem_cons_of_mem _ hp))
    refine ⟨st1, ?_⟩
    rw [List.foldlM_cons, hg]
    exact h1

/-- C34. Pass one called with an empty working set on a block list whose blocks
all have a non-empty predecessor list: for every fuel and every budget the call
returns the empty list of register-intervals, creates no register-interval,
leaves the working set empty and leaves every block of the list without
register-interval. -/
theorem passOne_no_entry (st : State) (l : List Nat) (N : Int) (hws : st.WS = [])
    (hpred : ∀ p ∈ l, ∃ b : basicBlock, st.blocks[p]? = some b ∧ b.predecessors ≠ []) :
    ∀ fuel : Nat, ∃ st' : State,
      registerIntervalCreationPassOne fuel st l N = .ok (st', []) ∧
      st'.RegisterIntervals = [] ∧ st'.intervals = st.intervals ∧ st'.WS = [] ∧
      st'.basic_blocks = l ∧
      ∀ p ∈ l, ∃ b' : basicBlock, st'.blocks[p]? = some b' ∧ b'.BB_registerInterval = none := by
  intro fuel
  have hlt : ∀ p ∈ l, p < ({ st with basic_blocks := l } : State).blocks.length := by
    intro p hp
    obtain ⟨b, hb, _⟩ := hpred p hp
    exact (List.getElem?_eq_some_iff.mp hb).1
  obtain ⟨st1, h1⟩ := passOne_init_total l { st with basic_blocks := l } hlt
  obtain ⟨e1, _, _, hlook⟩ := passOne_init_spec l _ st1 h1
  have hinit : passOne_init { st with basic_blocks := l } = .ok st1 := h1
  have hblock : ∀ p ∈ l, ∃ b : basicBlock, st.blocks[p]? = some b ∧ b.predecessors ≠ [] ∧
      st1.blocks[p]? = some { b with input_list := [], BB_registerInterval := none } := by
    intro p hp
    obtain ⟨b, hb, hne⟩ := hpred p hp
    have := hlook p b hb
    rw [if_pos hp] at this
    exact ⟨b, hb, hne, this⟩
  have hbb : st1.basic_blocks = l := by rw [e1]
  have hseed : passOne_seed { st1 with RegisterIntervals := [] } =
      .ok { st1 with RegisterIntervals := [] } := by
    unfold passOne_seed
    apply foldlM_fixed
    intro p hp
    have hp' : p ∈ l := by
      have : ({ st1 with RegisterIntervals := [] } : State).basic_blocks = l := hbb
      rw [this] at hp
      exact hp
    obtain ⟨b, _, hne, hb1⟩ := hblock p hp'
    have hg : getBlock { st1 with RegisterIntervals := [] } p =
        .ok { b with input_list := [], BB_registerInterval := none } :=
      (getBlock_eq_ok _ _ _).mpr hb1
    rw [hg]
    have hlen : ¬ b.predecessors.length = 0 := by
      intro e
      exact hne (List.length_eq_zero.mp e)
    simp only [bind, Except.bind, hlen, if_false, pure, Except.pure]
  have hws1 : ({ st1 with RegisterIntervals := [] } : State).WS = [] := by
    rw [e1]
    exact hws
  have hloop := passOne_loop_nil N fuel { st1 with RegisterIntervals := [] } hws1
  refine ⟨{ st1 with RegisterIntervals := [] }, ?_, rfl, ?_, hws1, hbb, ?_⟩
  · unfold registerIntervalCreationPassOne
    simp only [bind, Except.bind, hinit, hseed, hloop, passOne_register_lists, passOne_codes,
      passOne_edges, List.foldlM_nil, pure, Except.pure]
  · show st1.intervals = st.intervals
    rw [e1]
  · intro p hp
    obtain ⟨b, _, _, hb1⟩ := hblock p hp
    exact ⟨_, hb1, rfl⟩

theorem passOne_no_entry_witness :
    loop_without_entry.WS = [] ∧
    ∀ fuel : Nat, ∃ st' : State,
      registerIntervalCreationPassOne fuel loop_without_entry [0, 1] 5 = .ok (st', []) ∧
      st'.RegisterIntervals = [] ∧ st'.intervals = loop_without_entry.intervals ∧ st'.WS = [] ∧
      st'.basic_blocks = [0, 1] ∧
      ∀ p ∈ [0, 1], ∃ b' : basicBlock, st'.blocks[p]? = some b' ∧
        b'.BB_registerInterval = none :=
  ⟨rfl, passOne_no_entry loop_without_entry [0, 1] 5 rfl (by
    intro p hp
    have hp' : p = 0 ∨ p = 1 := by simpa using hp
    rcases hp' with rfl | rfl
    · exact ⟨_, rfl, by decide⟩
    · exact ⟨_, rfl, by decide⟩)⟩

/-! ## The record of the creations follows the run -/

theorem split_log_eq (fuel : Nat) (st : State) (BB found1 : Nat) (rl : List Str) :
    split_log fuel st BB found1 rl =
      (split fuel st BB found1 rl).map
        (fun s => (s, [(st.intervals.length, st.blocks.length)])) := by
  unfold split_log split
  cases h1 : getBlock st BB with
  | error e => rfl
  | ok b =>
    simp only [bind, Except.bind, new_basicBlock]
    cases h2 : rename_loop fuel (List.drop (found1 + 1) b.code) b.name
        (b.name ++ to_string (b.ID + 1)) (find (List.drop (found1 + 1) b.code) b.name 1) with
    | error e => rfl
    | ok code2 =>
      simp only
      split <;> rfl

theorem map_fst_ok {α β : Type} (x : M (α × β)) (a : α) :
    x.map Prod.fst = .ok a ↔ ∃ b, x = .ok (a, b) := by
  cases x with
  | error e => simp [Except.map]
  | ok r =>
    obtain ⟨r1, r2⟩ := r
    simp only [Except.map, Except.ok.injEq, Prod.mk.injEq]
    constructor
    · rintro rfl
      exact ⟨r2, rfl, rfl⟩
    · rintro ⟨b, rfl, _⟩
      rfl

theorem traverse_log_fst (fuel : Nat) (st : State) (BB : Nat) (N : Int) :
    (traverse_log fuel st BB N).map Prod.fst = traverse fuel st BB N := by
  unfold traverse_log traverse
  cases h1 : getBlock st BB with
  | error e => rfl
  | ok b =>
    simp only [bind, Except.bind]
    generalize scan_loop b.code N (terminators b.code 0) 0 b.input_list [] none = sc
    cases sc with
    | overflow f1 rl =>
      simp only
      rw [split_log_eq]
      cases split fuel st BB f1 rl <;> rfl
    | finished last =>
      cases last <;> rfl

/-- What a call of `traverse` records: nothing when it does not split, and the
pair of the new register-interval and the new block when it splits. -/
theorem traverse_log_effect (fuel : Nat) (st st' : State) (BB : Nat) (N : Int)
    (b : basicBlock) (lg : List (Nat × Nat)) (hb : getBlock st BB = .ok b)
    (h : traverse_log fuel st BB N = .ok (st', lg)) :
    traverse fuel st BB N = .ok st' ∧
    ((lg = [] ∧ (st' = st ∨ ∃ r : List Str, st' = setBlock st BB { b with output_list := r })) ∨
     (lg = [(st.intervals.length, st.blocks.length)] ∧
       ∃ (found1 : Nat) (rl : List Str) (code2 : Str),
         st' = split_state st b BB found1 rl code2)) := by
  have herase : traverse fuel st BB N = .ok st' := by
    rw [← traverse_log_fst]
    exact (map_fst_ok _ _).mpr ⟨lg, h⟩
  refine ⟨herase, ?_⟩
  unfold traverse_log at h
  rw [hb] at h
  simp only [bind, Except.bind] at h
  split at h
  · rename_i f1 rl hscan
    rw [split_log_eq] at h
    obtain ⟨s, hs, he⟩ := ok_of_map_eq _ _ _ h
    simp only [Prod.mk.injEq] at he
    obtain ⟨rfl, rfl⟩ := he
    obtain ⟨code2, _, hst⟩ := split_eq fuel st s BB f1 rl b hb hs
    exact Or.inr ⟨rfl, f1, rl, code2, hst⟩
  · simp only [pure, Except.pure, Except.ok.injEq, Prod.mk.injEq] at h
    obtain ⟨rfl, rfl⟩ := h
    exact Or.inl ⟨rfl, Or.inr ⟨_, rfl⟩⟩
  · simp only [pure, Except.pure, Except.ok.injEq, Prod.mk.injEq] at h
    obtain ⟨rfl, rfl⟩ := h
    exact Or.inl ⟨rfl, Or.inl rfl⟩

theorem growth_step_log_fst (fuel : Nat) (st : State) (i : Option Nat) (N : Int) (b : Nat) :
    (growth_step_log fuel st i N b).map Prod.fst = growth_step fuel st i N b := by
  unfold growth_step_log growth_step
  rw [map_bind]
  apply bind_congr_fun
  intro s1
  rw [map_bind]
  apply bind_congr_fun
  intro blk
  rw [map_bind]
  apply bind_congr_fun
  intro U
  rw [map_bind]
  apply bind_congr_fun
  intro C
  split
  · exact traverse_log_fst fuel _ b N
  · rfl

theorem growth_loop_log_fst (i : Option Nat) (N : Int) :
    ∀ (fuel : Nat) (st : State) (k : Nat),
      (growth_loop_log i N fuel st k).map Prod.fst = growth_loop i N fuel st k := by
  intro fuel
  induction fuel with
  | zero =>
    intro st k
    unfold growth_loop_log growth_loop
    split <;> rfl
  | succ fuel ih =>
    intro st k
    unfold growth_loop_log growth_loop
    cases hk : st.basic_blocks[k]? with
    | none => rfl
    | some b =>
      simp only
      rw [← growth_step_log_fst, map_bind, bind_map]
      apply bind_congr_fun
      intro r
      rw [← ih r.1 (k + 1), map_bind]
      cases growth_loop_log i N fuel r.1 (k + 1) <;> rfl

theorem passOne_growth_log_fst (fuel : Nat) (st : State) (i : Option Nat) (N : Int) (BB : Nat) :
    (passOne_growth_log fuel st i N BB).map Prod.fst = passOne_growth fuel st i N BB := by
  unfold passOne_growth_log passOne_growth
  rw [map_bind]
  apply bind_congr_fun
  intro b
  split
  · exact growth_loop_log_fst i N fuel st 0
  · rfl

theorem foldlM_fst {α σ β : Type} (F : σ × β → α → M (σ × β)) (f : σ → α → M σ)
    (hF : ∀ r a, (F r a).map Prod.fst = f r.1 a) :
    ∀ (l : List α) (r : σ × β), (l.foldlM F r).map Prod.fst = l.foldlM f r.1 := by
  intro l
  induction l with
  | nil => intro r; rfl
  | cons a l ih =>
    intro r
    rw [List.foldlM_cons, List.foldlM_cons, ← hF r a, map_bind, bind_map]
    apply bind_congr_fun
    intro r'
    exact ih r'

theorem assign_successors_log_fst (st : State) (S : List Nat) :
    (assign_successors_log st S).map Prod.fst = assign_successors st S := by
  unfold assign_successors_log assign_successors
  refine foldlM_fst _ _ ?_ S (st, [])
  intro r a
  unfold assign_successors_turn_log
  rw [map_bind]
  apply bind_congr_fun
  intro sb
  split <;> rfl

theorem passOne_body_log_fst (fuel : Nat) (st : State) (BB : Nat) (N : Int) :
    (passOne_body_log fuel st BB N).map Prod.fst = passOne_body fuel st BB N := by
  unfold passOne_body_log passOne_body
  rw [map_bind]
  apply bind_congr_fun
  intro b
  simp only
  rw [← traverse_log_fst, map_bind, bind_map]
  apply bind_congr_fun
  intro r1
  rw [← passOne_growth_log_fst, map_bind, bind_map]
  apply bind_congr_fun
  intro r2
  rw [map_bind]
  apply bind_congr_fun
  intro S
  rw [← assign_successors_log_fst, map_bind]
  cases assign_successors_log r2.1 S <;> rfl

theorem passOne_loop_log_fst (N : Int) :
    ∀ (fuel : Nat) (st : State),
      (passOne_loop_log N fuel st).map Prod.fst = passOne_loop N fuel st := by
  intro fuel
  induction fuel with
  | zero =>
    intro st
    unfold passOne_loop_log passOne_loop
    cases st.WS <;> rfl
  | succ fuel ih =>
    intro st
    unfold passOne_loop_log passOne_loop
    cases hws : st.WS with
    | nil => rfl
    | cons BB rest =>
      simp only
      rw [← passOne_body_log_fst, map_bind, bind_map]
      apply bind_congr_fun
      intro r
      rw [← ih r.1, map_bind]
      cases passOne_loop_log N fuel r.1 <;> rfl

theorem passOne_seed_log_fst (st : State) :
    (passOne_seed_log st).map Prod.fst = passOne_seed st := by
  unfold passOne_seed_log passOne_seed
  refine foldlM_fst _ _ ?_ st.basic_blocks (st, [])
  intro r a
  unfold passOne_seed_turn_log
  rw [map_bind]
  apply bind_congr_fun
  intro blk
  split <;> rfl

/-- The run with the record of the creations is the run of pass one: it returns
when pass one does, with the same state and the same vector. -/
theorem registerIntervalCreationPassOne_log_fst (fuel : Nat) (st : State) (l : List Nat)
    (N : Int) :
    (registerIntervalCreationPassOne_log fuel st l N).map (fun r => (r.1, r.2.1)) =
      registerIntervalCreationPassOne fuel st l N := by
  unfold registerIntervalCreationPassOne_log registerIntervalCreationPassOne
  simp only
  rw [map_bind]
  apply bind_congr_fun
  intro s1
  rw [← passOne_seed_log_fst, map_bind, bind_map]
  apply bind_congr_fun
  intro r
  rw [← passOne_loop_log_fst, map_bind, bind_map]
  apply bind_congr_fun
  intro r'
  rw [map_bind]
  apply bind_congr_fun
  intro s4
  rw [map_bind]
  apply bind_congr_fun
  intro s5
  rw [map_bind]
  apply bind_congr_fun
  intro s6
  rfl

/-! ## A rule for the main loop with the record of the creations -/

theorem passOne_loop_log_rule (N : Int) (Outer : State → List (Nat × Nat) → Prop)
    (Inner : Option Nat → State → List (Nat × Nat) → Prop)
    (enter : ∀ (fuel : Nat) (st : State) (BB : Nat) (rest : List Nat) (b : basicBlock)
      (st' : State) (log lg : List (Nat × Nat)), Outer st log → st.WS = BB :: rest →
      getBlock st BB = .ok b →
      traverse_log fuel { st with WS := rest } BB N = .ok (st', lg) →
      Inner b.BB_registerInterval st' (log ++ lg))
    (marks : ∀ (i : Option Nat) (st : State) (m : List Bool) (log : List (Nat × Nat)),
      Inner i st log → Inner i { st with mark := m } log)
    (grow : ∀ (fuel : Nat) (i : Option Nat) (st : State) (b : Nat) (blk : basicBlock)
      (Union : List Str) (st' : State) (log lg : List (Nat × Nat)), Inner i st log →
      b ∈ st.basic_blocks → getBlock st b = .ok blk → blk.BB_registerInterval = none →
      (∀ p ∈ blk.predecessors, ∃ pb, getBlock st p = .ok pb ∧ pb.BB_registerInterval = i) →
      size_lt Union.length N = true →
      traverse_log fuel
        (setBlock st b { blk with BB_registerInterval := i, input_list := Union }) b N =
        .ok (st', lg) →
      Inner i st' (log ++ lg))
    (frontier : ∀ (i : Option Nat) (st : State) (s : Nat) (sb : basicBlock)
      (log : List (Nat × Nat)), Inner i st log →
      getBlock st s = .ok sb → sb.BB_registerInterval = none →
      Inner i (frontier_state st s sb) (log ++ [(st.intervals.length, s)]))
    (exit : ∀ (i : Option Nat) (st : State) (log : List (Nat × Nat)), Inner i st log →
      Outer st log) :
    ∀ (fuel : Nat) (st st' : State) (log lg : List (Nat × Nat)), Outer st log →
      passOne_loop_log N fuel st = .ok (st', lg) → Outer st' (log ++ lg) ∧ st'.WS = [] := by
  have hgrowth_step : ∀ (fuel : Nat) (i : Option Nat) (st st' : State) (b : Nat)
      (log lg : List (Nat × Nat)), Inner i st log → b ∈ st.basic_blocks →
      growth_step_log fuel st i N b = .ok (st', lg) → Inner i st' (log ++ lg) := by
    intro fuel i st st' b log lg hinv hb h
    unfold growth_step_log at h
    obtain ⟨st1, h1, h⟩ := (bind_eq_ok _ _ _).mp h
    have hf := visit_all_predecessors_frame fuel st st1 b h1
    have hinv1 : Inner i st1 log := by
      rw [hf]; exact marks i st _ log hinv
    have hb1 : b ∈ st1.basic_blocks := by rw [hf]; exact hb
    obtain ⟨blk, hblk, h⟩ := (bind_eq_ok _ _ _).mp h
    obtain ⟨Union, _, h⟩ := (bind_eq_ok _ _ _).mp h
    obtain ⟨C, hC, h⟩ := (bind_eq_ok _ _ _).mp h
    split at h
    · rename_i hcond
      obtain ⟨c1, c2, c3⟩ := hcond
      subst c2
      exact grow fuel i st1 b blk Union st' log lg hinv1 hb1 hblk c1
        (all_in_interval_true st1 i blk.predecessors true hC).2 c3 h
    · simp only [pure, Except.pure, Except.ok.injEq, Prod.mk.injEq] at h
      obtain ⟨rfl, rfl⟩ := h
      rw [List.append_nil]
      exact hinv1
  have hgrowth_loop : ∀ (fuel : Nat) (i : Option Nat) (st st' : State) (k : Nat)
      (log lg : List (Nat × Nat)), Inner i st log →
      growth_loop_log i N fuel st k = .ok (st', lg) → Inner i st' (log ++ lg) := by
    intro fuel
    induction fuel with
    | zero =>
      intro i st st' k log lg hinv h
      unfold growth_loop_log at h
      split at h
      · simp at h
      · simp only [Except.ok.injEq, Prod.mk.injEq] at h
        obtain ⟨rfl, rfl⟩ := h
        rw [List.append_nil]
        exact hinv
    | succ fuel ih =>
      intro i st st' k log lg hinv h
      unfold growth_loop_log at h
      cases hk : st.basic_blocks[k]? with
      | none =>
        simp only [hk, Except.ok.injEq, Prod.mk.injEq] at h
        obtain ⟨rfl, rfl⟩ := h
        rw [List.append_nil]
        exact hinv
      | some b =>
        simp only [hk] at h
        obtain ⟨r, h1, h⟩ := (bind_eq_ok _ _ _).mp h
        obtain ⟨r', h2, h⟩ := (bind_eq_ok _ _ _).mp h
        simp only [pure, Except.pure, Except.ok.injEq, Prod.mk.injEq] at h
        obtain ⟨rfl, rfl⟩ := h
        have hb : b ∈ st.basic_blocks := by
          obtain ⟨hlt, he⟩ := List.getElem?_eq_some_iff.mp hk
          exact he ▸ List.getElem_mem hlt
        have := ih i r.1 r'.1 (k + 1) (log ++ r.2) r'.2
          (hgrowth_step fuel i st r.1 b log r.2 hinv hb h1) h2
        rw [List.append_assoc] at this
        exact this
  have hassign : ∀ (i : Option Nat) (Successors : List Nat) (st st' : State)
      (log lg : List (Nat × Nat)), Inner i st log →
      assign_successors_log st Successors = .ok (st', lg) → Inner i st' (log ++ lg) := by
    intro i Successors st st' log lg hinv h
    unfold assign_successors_log at h
    refine foldlM_inv assign_successors_turn_log (fun r => Inner i r.1 (log ++ r.2)) Successors
      ?_ (st, []) (st', lg) (by simpa using hinv) h
    intro r s r' _ hr hstep
    unfold assign_successors_turn_log at hstep
    obtain ⟨sb, hsb, hstep⟩ := (bind_eq_ok _ _ _).mp hstep
    split at hstep
    · rename_i hnone
      simp only [pure, Except.pure, Except.ok.injEq] at hstep
      rw [frontier_step_eq] at hstep
      subst hstep
      have := frontier i r.1 s sb (log ++ r.2) hr hsb hnone
      rw [List.append_assoc] at this
      exact this
    · simp only [pure, Except.pure, Except.ok.injEq] at hstep
      subst hstep
      exact hr
  have hbody : ∀ (fuel : Nat) (st st' : State) (BB : Nat) (rest : List Nat)
      (log lg : List (Nat × Nat)), Outer st log → st.WS = BB :: rest →
      passOne_body_log fuel { st with WS := rest } BB N = .ok (st', lg) →
      Outer st' (log ++ lg) := by
    intro fuel st st' BB rest log lg hout hws h
    unfold passOne_body_log at h
    obtain ⟨b, hb, h⟩ := (bind_eq_ok _ _ _).mp h
    obtain ⟨r1, h1, h⟩ := (bind_eq_ok _ _ _).mp h
    obtain ⟨r2, h2, h⟩ := (bind_eq_ok _ _ _).mp h
    obtain ⟨Successors, hc, h⟩ := (bind_eq_ok _ _ _).mp h
    obtain ⟨r3, h3, h⟩ := (bind_eq_ok _ _ _).mp h
    simp only [pure, Except.pure, Except.ok.injEq, Prod.mk.injEq] at h
    obtain ⟨rfl, rfl⟩ := h
    have hinv1 := enter fuel st BB rest b r1.1 log r1.2 hout hws hb h1
    have hinv2 : Inner b.BB_registerInterval r2.1 (log ++ r1.2 ++ r2.2) := by
      unfold passOne_growth_log at h2
      obtain ⟨b', _, h2⟩ := (bind_eq_ok _ _ _).mp h2
      split at h2
      · exact hgrowth_loop fuel _ r1.1 r2.1 0 _ r2.2 hinv1 h2
      · simp only [pure, Except.pure, Except.ok.injEq] at h2
        subst h2
        simpa using hinv1
    have hinv3 := hassign _ Successors r2.1 r3.1 _ r3.2 hinv2 h3
    have := exit _ r3.1 _ hinv3
    simpa [List.append_assoc] using this
  intro fuel
  induction fuel with
  | zero =>
    intro st st' log lg hout h
    unfold passOne_loop_log at h
    cases hws : st.WS with
    | nil =>
      simp only [hws, Except.ok.injEq, Prod.mk.injEq] at h
      obtain ⟨rfl, rfl⟩ := h
      rw [List.append_nil]
      exact ⟨hout, hws⟩
    | cons BB rest => simp [hws] at h
  | succ fuel ih =>
    intro st st' log lg hout h
    unfold passOne_loop_log at h
    cases hws : st.WS with
    | nil =>
      simp only [hws, Except.ok.injEq, Prod.mk.injEq] at h
      obtain ⟨rfl, rfl⟩ := h
      rw [List.append_nil]
      exact ⟨hout, hws⟩
    | cons BB rest =>
      simp only [hws] at h
      obtain ⟨r, h1, h⟩ := (bind_eq_ok _ _ _).mp h
      obtain ⟨r', h2, h⟩ := (bind_eq_ok _ _ _).mp h
      simp only [pure, Except.pure, Except.ok.injEq, Prod.mk.injEq] at h
      obtain ⟨rfl, rfl⟩ := h
      have := ih r.1 r'.1 (log ++ r.2) r'.2 (hbody fuel st r.1 BB rest log r.2 hout hws h1) h2
      rw [List.append_assoc] at this
      exact this

/-! ## The record of the creations and the single entry -/

theorem nodup_append_fresh (l : List Nat) (n : Nat) (h : l.Nodup) (hlt : ∀ t ∈ l, t < n) :
    (l ++ [n]).Nodup := by
  rw [List.nodup_append]
  refine ⟨h, List.nodup_singleton n, ?_⟩
  intro a ha hb
  rw [List.mem_singleton] at hb
  have := hlt a ha
  omega

theorem Created.created_setBlock_same {st : State} {log : List (Nat × Nat)}
    (h : Created st log) {BB : Nat} {b b' : basicBlock} (hb : st.blocks[BB]? = some b)
    (hi : b'.BB_registerInterval = b.BB_registerInterval)
    (hp : b'.predecessors = b.predecessors) : Created (setBlock st BB b') log := by
  obtain ⟨h1, h2, h3⟩ := h
  refine ⟨h1, h2, ?_⟩
  intro c hc cb hcb t ht
  have key : ∀ (p : Nat) (pb : basicBlock), st.blocks[p]? = some pb →
      pb.BB_registerInterval = some t →
      ∃ pb' : basicBlock, (setBlock st BB b').blocks[p]? = some pb' ∧
        pb'.BB_registerInterval = some t := by
    intro p pb hpb hpt
    by_cases hpB : p = BB
    · rw [hpB] at hpb ⊢
      rw [hb] at hpb; cases hpb
      exact ⟨b', setBlock_lookup_self st _ _ b' hb, by rw [hi]; exact hpt⟩
    · exact ⟨pb, by rw [setBlock_lookup_ne st BB b' p hpB]; exact hpb, hpt⟩
  rcases setBlock_lookup st BB b' cb c hcb with ⟨ec, ecb⟩ | ⟨_, hcb'⟩
  · rw [ecb, hi] at ht
    rcases h3 c hc b (ec ▸ hb) t ht with hl | hr
    · exact Or.inl hl
    · refine Or.inr (fun p hpm => ?_)
      rw [ecb, hp] at hpm
      obtain ⟨pb, hpb, hpt⟩ := hr p hpm
      exact key p pb hpb hpt
  · rcases h3 c hc cb hcb' t ht with hl | hr
    · exact Or.inl hl
    · refine Or.inr (fun p hpm => ?_)
      obtain ⟨pb, hpb, hpt⟩ := hr p hpm
      exact key p pb hpb hpt

theorem Created.created_split {st : State} {log : List (Nat × Nat)} (h : Created st log)
    (hbase : Base st) {BB : Nat} {b : basicBlock} (hb : st.blocks[BB]? = some b)
    (found1 : Nat) (rl : List Str) (code2 : Str) :
    Created (split_state st b BB found1 rl code2)
      (log ++ [(st.intervals.length, st.blocks.length)]) := by
  obtain ⟨h1, h2, h3⟩ := h
  have hBlt : BB < st.blocks.length := (List.getElem?_eq_some_iff.mp hb).1
  refine ⟨?_, ?_, ?_⟩
  · simp [split_state, h1]
  · exact nodup_append_fresh _ _ h2 hbase.2.2.2
  · intro c hc cb hcb t ht
    have key : ∀ (p : Nat) (pb : basicBlock), st.blocks[p]? = some pb →
        pb.BB_registerInterval = some t →
        ∃ pb' : basicBlock, (split_state st b BB found1 rl code2).blocks[p]? = some pb' ∧
          pb'.BB_registerInterval = some t := by
      intro p pb hpb hpt
      have hplt : p < st.blocks.length := (List.getElem?_eq_some_iff.mp hpb).1
      by_cases hpB : p = BB
      · rw [hpB] at hpb ⊢
        rw [hb] at hpb; cases hpb
        exact ⟨_, split_state_lookup_old st _ _ found1 rl code2 hb, hpt⟩
      · exact ⟨pb, by rw [split_state_lookup_ne st b BB found1 rl code2 p hpB hplt]; exact hpb,
          hpt⟩
    simp only [split_state, List.mem_append, List.mem_singleton] at hc
    rcases split_state_lookup st b BB found1 rl code2 cb c hb hcb with
      ⟨ec, ecb⟩ | ⟨ec, ecb⟩ | ⟨hcne, hclt, hcb'⟩
    · have hcin : c ∈ st.basic_blocks := by
        rcases hc with hc | hc
        · exact hc
        · omega
      have ht' : b.BB_registerInterval = some t := by rw [ecb] at ht; exact ht
      rcases h3 c hcin b (ec ▸ hb) t ht' with hl | hr
      · exact Or.inl (List.mem_append_left _ hl)
      · refine Or.inr (fun p hpm => ?_)
        rw [ecb] at hpm
        obtain ⟨pb, hpb, hpt⟩ := hr p hpm
        exact key p pb hpb hpt
    · rw [ecb] at ht
      simp only [split_new, Option.some.injEq] at ht
      left
      rw [ec, ← ht]
      simp
    · have hcin : c ∈ st.basic_blocks := by
        rcases hc with hc | hc
        · exact hc
        · omega
      rcases h3 c hcin cb hcb' t ht with hl | hr
      · exact Or.inl (List.mem_append_left _ hl)
      · refine Or.inr (fun p hpm => ?_)
        obtain ⟨pb, hpb, hpt⟩ := hr p hpm
        exact key p pb hpb hpt

theorem Created.created_traverse {st st' : State} {log lg : List (Nat × Nat)}
    (h : Created st log) (hbase : Base st) (fuel : Nat) (BB : Nat) (N : Int)
    (ht : traverse_log fuel st BB N = .ok (st', lg)) : Created st' (log ++ lg) := by
  cases hb : getBlock st BB with
  | error e => simp [traverse_log, hb, bind, Except.bind] at ht
  | ok b =>
    have hb' := (getBlock_eq_ok _ _ _).mp hb
    rcases (traverse_log_effect fuel st st' BB N b lg hb ht).2 with
      ⟨rfl, rfl | ⟨r, rfl⟩⟩ | ⟨rfl, f1, rl, code2, rfl⟩
    · rw [List.append_nil]; exact h
    · rw [List.append_nil]; exact h.created_setBlock_same hb' rfl rfl
    · exact h.created_split hbase hb' f1 rl code2

theorem Created.created_assign {st : State} {log : List (Nat × Nat)} (h : Created st log)
    {b : Nat} {blk : basicBlock} (hb : st.blocks[b]? = some blk)
    (hnone : blk.BB_registerInterval = none) (i : Option Nat) (Union : List Str)
    (hpred : ∀ p ∈ blk.predecessors, ∃ pb : basicBlock, st.blocks[p]? = some pb ∧
      pb.BB_registerInterval = i) :
    Created (setBlock st b { blk with BB_registerInterval := i, input_list := Union }) log := by
  obtain ⟨h1, h2, h3⟩ := h
  refine ⟨h1, h2, ?_⟩
  intro c hc cb hcb t ht
  have key : ∀ (p : Nat) (pb : basicBlock), st.blocks[p]? = some pb →
      pb.BB_registerInterval = some t →
      ∃ pb' : basicBlock,
        (setBlock st b { blk with BB_registerInterval := i, input_list := Union }).blocks[p]? =
          some pb' ∧ pb'.BB_registerInterval = some t := by
    intro p pb hpb hpt
    have hpb_ne : p ≠ b := by
      intro e
      rw [e, hb] at hpb; cases hpb
      rw [hnone] at hpt; cases hpt
    exact ⟨pb, by rw [setBlock_lookup_ne st b _ p hpb_ne]; exact hpb, hpt⟩
  rcases setBlock_lookup st b _ cb c hcb with ⟨_, ecb⟩ | ⟨_, hcb'⟩
  · refine Or.inr (fun p hpm => ?_)
    rw [ecb] at hpm ht
    obtain ⟨pb, hpb, hpt⟩ := hpred p hpm
    exact key p pb hpb (hpt.trans ht)
  · rcases h3 c hc cb hcb' t ht with hl | hr
    · exact Or.inl hl
    · refine Or.inr (fun p hpm => ?_)
      obtain ⟨pb, hpb, hpt⟩ := hr p hpm
      exact key p pb hpb hpt

theorem Created.created_frontier {st : State} {log : List (Nat × Nat)} (h : Created st log)
    (hbase : Base st) {s : Nat} {sb : basicBlock} (hs : st.blocks[s]? = some sb)
    (hnone : sb.BB_registerInterval = none) :
    Created (frontier_state st s sb) (log ++ [(st.intervals.length, s)]) := by
  obtain ⟨h1, h2, h3⟩ := h
  refine ⟨?_, ?_, ?_⟩
  · simp [frontier_state, h1]
  · exact nodup_append_fresh _ _ h2 hbase.2.2.2
  · intro c hc cb hcb t ht
    have hcin : c ∈ st.basic_blocks := hc
    rcases frontier_state_lookup st s sb cb c hcb with ⟨ec, ecb⟩ | ⟨hcs, hcb'⟩
    · rw [ecb] at ht
      simp only [Option.some.injEq] at ht
      left
      rw [ec, ← ht]
      simp
    · rcases h3 c hcin cb hcb' t ht with hl | hr
      · exact Or.inl (List.mem_append_left _ hl)
      · refine Or.inr (fun p hpm => ?_)
        obtain ⟨pb, hpb, hpt⟩ := hr p hpm
        have hps : p ≠ s := by
          intro e
          rw [e, hs] at hpb; cases hpb
          rw [hnone] at hpt; cases hpt
        exact ⟨pb, by rw [frontier_state_lookup_ne st s sb p hps]; exact hpb, hpt⟩

theorem Holds.holds_kept {st st' : State} {log : List (Nat × Nat)} (h : Holds st log)
    (hk : Kept st st') : Holds st' log := by
  intro t e hte
  obtain ⟨eb, heb, het⟩ := h t e hte
  exact hk e eb t heb het

theorem Holds.holds_add {st : State} {log : List (Nat × Nat)} (h : Holds st log)
    {t e : Nat} {eb : basicBlock} (heb : st.blocks[e]? = some eb)
    (het : eb.BB_registerInterval = some t) : Holds st (log ++ [(t, e)]) := by
  intro t' e' hte
  rcases List.mem_append.mp hte with hl | hr
  · exact h t' e' hl
  · simp only [List.mem_singleton, Prod.mk.injEq] at hr
    obtain ⟨rfl, rfl⟩ := hr
    exact ⟨eb, heb, het⟩

theorem Holds.holds_traverse {st st' : State} {log lg : List (Nat × Nat)}
    (h : Holds st log) (fuel : Nat) (BB : Nat) (N : Int)
    (ht : traverse_log fuel st BB N = .ok (st', lg)) : Holds st' (log ++ lg) := by
  cases hb : getBlock st BB with
  | error e => simp [traverse_log, hb, bind, Except.bind] at ht
  | ok b =>
    have hb' := (getBlock_eq_ok _ _ _).mp hb
    obtain ⟨hreal, hcase⟩ := traverse_log_effect fuel st st' BB N b lg hb ht
    have hk : Holds st' log := h.holds_kept (traverse_kept fuel st st' BB N hreal)
    rcases hcase with ⟨rfl, _⟩ | ⟨rfl, f1, rl, code2, rfl⟩
    · rw [List.append_nil]; exact hk
    · exact hk.holds_add (split_state_lookup_new st b BB f1 rl code2) rfl

theorem Holds.holds_frontier {st : State} {log : List (Nat × Nat)} (h : Holds st log)
    {s : Nat} {sb : basicBlock} (hs : st.blocks[s]? = some sb)
    (hnone : sb.BB_registerInterval = none) :
    Holds (frontier_state st s sb) (log ++ [(st.intervals.length, s)]) := by
  have hk : Holds (frontier_state st s sb) log :=
    h.holds_kept (Kept.kept_frontier st s sb hs hnone)
  exact hk.holds_add (frontier_state_lookup_self st s sb hs) rfl

theorem passOne_seed_turn_log_effect (r r' : State × List (Nat × Nat)) (b : Nat)
    (h : passOne_seed_turn_log r b = .ok r') :
    ∃ blk : basicBlock, r.1.blocks[b]? = some blk ∧
      ((blk.predecessors.length = 0 ∧
          r'.1.blocks = r.1.blocks.set b { blk with BB_registerInterval := some r.1.intervals.length } ∧
          r'.1.intervals.length = r.1.intervals.length + 1 ∧
          r'.1.RegisterIntervals = r.1.RegisterIntervals ++ [r.1.intervals.length] ∧
          r'.2 = r.2 ++ [(r.1.intervals.length, b)]) ∨
       (blk.predecessors.length ≠ 0 ∧ r' = r)) := by
  unfold passOne_seed_turn_log at h
  obtain ⟨blk, hblk, h⟩ := (bind_eq_ok _ _ _).mp h
  refine ⟨blk, (getBlock_eq_ok _ _ _).mp hblk, ?_⟩
  split at h
  · rename_i hp
    simp only [pure, Except.pure, Except.ok.injEq] at h
    subst h
    exact Or.inl ⟨hp, by simp [setBlock, new_registerInterval],
      by simp [setBlock, new_registerInterval], by simp [setBlock, new_registerInterval],
      by simp [new_registerInterval]⟩
  · rename_i hp
    simp only [pure, Except.pure, Except.ok.injEq] at h
    exact Or.inr ⟨hp, h.symm⟩

/-- The seeding loop with the record of the creations: the record lists the
register-intervals of `RegisterIntervals` in order; on a list of distinct blocks
without register-interval, every block of the record has the register-interval
created for it when the loop ends. -/
theorem passOne_seed_log_spec (l : List Nat) :
    ∀ (r r' : State × List (Nat × Nat)), l.foldlM passOne_seed_turn_log r = .ok r' →
      (r.2.map Prod.fst = r.1.RegisterIntervals → r.1.RegisterIntervals.Nodup →
        (∀ t ∈ r.1.RegisterIntervals, t < r.1.intervals.length) →
        r'.2.map Prod.fst = r'.1.RegisterIntervals ∧ r'.1.RegisterIntervals.Nodup) ∧
      (l.Nodup →
        (∀ c ∈ l, ∀ b : basicBlock, r.1.blocks[c]? = some b → b.BB_registerInterval = none) →
        Holds r.1 r.2 → Holds r'.1 r'.2) := by
  induction l with
  | nil =>
    intro r r' h
    simp only [List.foldlM_nil, pure, Except.pure, Except.ok.injEq] at h
    subst h
    exact ⟨fun h1 h2 _ => ⟨h1, h2⟩, fun _ _ h => h⟩
  | cons c l ih =>
    intro r r' h
    rw [List.foldlM_cons] at h
    obtain ⟨r1, h1, h⟩ := (bind_eq_ok _ _ _).mp h
    obtain ⟨ih1, ih2⟩ := ih r1 r' h
    obtain ⟨blk, hblk, hcase⟩ := passOne_seed_turn_log_effect r r1 c h1
    constructor
    · intro g1 g2 g3
      rcases hcase with ⟨_, e1, e2, e3, e4⟩ | ⟨_, rfl⟩
      · refine ih1 ?_ ?_ ?_
        · rw [e4, e3, List.map_append, g1]
          rfl
        · rw [e3]
          exact nodup_append_fresh _ _ g2 g3
        · intro t ht
          rw [e3] at ht
          rw [e2]
          rcases List.mem_append.mp ht with ht | ht
          · have := g3 t ht
            omega
          · rw [List.mem_singleton] at ht
            omega
      · exact ih1 g1 g2 g3
    · intro hnd hnone hh
      rw [List.nodup_cons] at hnd
      rcases hcase with ⟨_, e1, e2, e3, e4⟩ | ⟨_, rfl⟩
      · have hcnone := hnone c (List.mem_cons_self _ _) blk hblk
        have hclt : c < r.1.blocks.length := (List.getElem?_eq_some_iff.mp hblk).1
        refine ih2 hnd.2 ?_ ?_
        · intro c' hc' b hb
          have hne : c ≠ c' := fun e => hnd.1 (e ▸ hc')
          rw [e1, List.getElem?_set_ne hne] at hb
          exact hnone c' (List.mem_cons_of_mem _ hc') b hb
        · intro t e hte
          rw [e4] at hte
          rcases List.mem_append.mp hte with hl | hr
          · obtain ⟨eb, heb, het⟩ := hh t e hl
            have hne : c ≠ e := by
              intro e'
              rw [← e', hblk] at heb
              cases heb
              rw [hcnone] at het
              cases het
            exact ⟨eb, by rw [e1, List.getElem?_set_ne hne]; exact heb, het⟩
          · simp only [List.mem_singleton, Prod.mk.injEq] at hr
            obtain ⟨rfl, rfl⟩ := hr
            exact ⟨_, by rw [e1, List.getElem?_set_self hclt], rfl⟩
      · exact ih2 hnd.2 (fun c' hc' => hnone c' (List.mem_cons_of_mem _ hc')) hh

/-- C2. When pass one, called with an empty working set, returns, the run with
the record of the creations returns the same state and the same vector together
with the record `log`, which holds one pair `(t, e)` for every returned
register-interval `t`: `e` is the block that `t` was created for, that is the
block that received `t` where `new registerInterval()` created it.  Every block
of the block list that belongs to `t` and is not `e` has all the predecessors
of its predecessor list in `t`; and when the block list given to pass one has no
repeated element, `e` belongs to `t` in the returned state. -/
theorem passOne_single_entry (fuel : Nat) (st st' : State) (BB_vector l : List Nat) (N : Int)
    (hws : st.WS = [])
    (h : registerIntervalCreationPassOne fuel st BB_vector N = .ok (st', l)) :
    ∃ log : List (Nat × Nat),
      registerIntervalCreationPassOne_log fuel st BB_vector N = .ok (st', l, log) ∧
      log.map Prod.fst = l ∧
      ∀ t ∈ l, ∃ e : Nat, (t, e) ∈ log ∧ (∀ e', (t, e') ∈ log → e' = e) ∧
        (BB_vector.Nodup → ∃ eb : basicBlock, st'.blocks[e]? = some eb ∧
          eb.BB_registerInterval = some t) ∧
        ∀ c ∈ st'.basic_blocks, ∀ cb : basicBlock, st'.blocks[c]? = some cb →
          cb.BB_registerInterval = some t → c ≠ e →
          ∀ p ∈ cb.predecessors, ∃ pb : basicBlock, st'.blocks[p]? = some pb ∧
            pb.BB_registerInterval = some t := by
  have herase := registerIntervalCreationPassOne_log_fst fuel st BB_vector N
  rw [h] at herase
  obtain ⟨⟨s', l', log⟩, hlog, he⟩ := ok_of_map_eq _ _ _ herase
  simp only [Prod.mk.injEq] at he
  obtain ⟨rfl, rfl⟩ := he
  refine ⟨log, hlog, ?_⟩
  unfold registerIntervalCreationPassOne_log at hlog
  obtain ⟨st1, h1, hlog⟩ := (bind_eq_ok _ _ _).mp hlog
  obtain ⟨r, h2, hlog⟩ := (bind_eq_ok _ _ _).mp hlog
  obtain ⟨r', h3, hlog⟩ := (bind_eq_ok _ _ _).mp hlog
  obtain ⟨st4, h4, hlog⟩ := (bind_eq_ok _ _ _).mp hlog
  obtain ⟨st5, h5, hlog⟩ := (bind_eq_ok _ _ _).mp hlog
  obtain ⟨st6, h6, hlog⟩ := (bind_eq_ok _ _ _).mp hlog
  simp only [pure, Except.pure, Except.ok.injEq, Prod.mk.injEq] at hlog
  obtain ⟨rfl, rfl, rfl⟩ := hlog
  have e4 := passOne_register_lists_frame r'.1 st4 h4
  have e5 := passOne_codes_frame st4 st5 h5
  have e6 := passOne_edges_frame st5 st6 h6
  have hblocks : st6.blocks = r'.1.blocks := by rw [e6, e5, e4]
  have hbbs : st6.basic_blocks = r'.1.basic_blocks := by rw [e6, e5, e4]
  have hri : st6.RegisterIntervals = r'.1.RegisterIntervals := by rw [e6, e5, e4]
  -- the state after the seeding loop
  have h2real : passOne_seed { st1 with RegisterIntervals := [] } = .ok r.1 := by
    rw [← passOne_seed_log_fst]
    exact (map_fst_ok _ _).mpr ⟨r.2, h2⟩
  obtain ⟨hseed, _⟩ := passOne_start st st1 r.1 BB_vector hws h1 h2real
  have hi := h1
  unfold passOne_init at hi
  obtain ⟨i1, _, i3, i4⟩ := passOne_init_spec BB_vector _ st1 hi
  have hbb1 : st1.basic_blocks = BB_vector := by rw [i1]
  have hnone : ∀ c ∈ BB_vector, ∀ b : basicBlock, st1.blocks[c]? = some b →
      b.BB_registerInterval = none := by
    intro c hc b hb
    have hlt : c < st.blocks.length := i3 c hc
    have hb0 : st.blocks[c]? = some st.blocks[c] := List.getElem?_eq_getElem hlt
    have := i4 c _ hb0
    rw [if_pos hc] at this
    rw [this] at hb
    cases hb
    rfl
  have h2' : BB_vector.foldlM passOne_seed_turn_log
      (({ st1 with RegisterIntervals := [] } : State), []) = .ok r := by
    rw [← hbb1]
    exact h2
  obtain ⟨hs1, hs2⟩ := passOne_seed_log_spec BB_vector _ r h2'
  obtain ⟨hL, hN⟩ := hs1 rfl List.nodup_nil (fun t ht => by cases ht)
  have hcreated : Created r.1 r.2 := by
    refine ⟨hL, hN, ?_⟩
    intro c hc cb hcb t ht
    right
    intro p hp
    have := (hseed.2 c hc cb hcb (by rw [ht]; simp)).1
    rw [this] at hp
    cases hp
  have hholds : BB_vector.Nodup → Holds r.1 r.2 := fun hnd =>
    hs2 hnd hnone (fun t e hte => by cases hte)
  -- the main loop
  have hloop := passOne_loop_log_rule N
    (fun s lg => Base s ∧ Created s lg ∧ (BB_vector.Nodup → Holds s lg))
    (fun i s lg => BaseIn i s ∧ Created s lg ∧ (BB_vector.Nodup → Holds s lg))
    (fun fuel s BB rest b s' log lg hout hws hb ht => by
      have hreal := (traverse_log_effect fuel { s with WS := rest } s' BB N b lg hb ht).1
      exact ⟨BaseIn.enter hout.1 fuel N hws hb hreal,
        Created.created_traverse (show Created { s with WS := rest } log from hout.2.1)
          (hout.1.base_pop hws).1 fuel BB N ht,
        fun hnd => Holds.holds_traverse (show Holds { s with WS := rest } log from hout.2.2 hnd)
          fuel BB N ht⟩)
    (fun i s m log hin => ⟨hin.1.basein_marks m, hin.2.1, hin.2.2⟩)
    (fun fuel i s b blk Union s' log lg hin _ hblk hnone hpred _ ht => by
      have hblk' := (getBlock_eq_ok _ _ _).mp hblk
      have hgb : getBlock (setBlock s b
          { blk with BB_registerInterval := i, input_list := Union }) b =
          .ok { blk with BB_registerInterval := i, input_list := Union } :=
        (getBlock_eq_ok _ _ _).mpr (setBlock_lookup_self s b blk _ hblk')
      have hreal := (traverse_log_effect fuel _ s' b N _ lg hgb ht).1
      refine ⟨hin.1.grow fuel N Union hblk hreal, ?_, ?_⟩
      · refine Created.created_traverse
          (hin.2.1.created_assign hblk' hnone i Union
            (fun p hp => by
              obtain ⟨pb, hpb, hpi⟩ := hpred p hp
              exact ⟨pb, (getBlock_eq_ok _ _ _).mp hpb, hpi⟩))
          ?_ fuel b N ht
        obtain ⟨hb0, t, rfl, htm⟩ := hin.1
        refine hb0.base_setBlock hblk' ?_ ?_
        · intro _ t' ht'
          simp only [Option.some.injEq] at ht'
          subst ht'
          exact htm
        · intro _; simp
      · intro hnd
        exact Holds.holds_traverse
          ((hin.2.2 hnd).holds_kept
            (Kept.kept_setBlock s b blk _ hblk' (fun t ht => by rw [hnone] at ht; cases ht)))
          fuel b N ht)
    (fun i s x sb log hin hx hnone =>
      ⟨hin.1.basein_frontier hx,
        hin.2.1.created_frontier hin.1.1 ((getBlock_eq_ok _ _ _).mp hx) hnone,
        fun hnd => (hin.2.2 hnd).holds_frontier ((getBlock_eq_ok _ _ _).mp hx) hnone⟩)
    (fun i s log hin => ⟨hin.1.1, hin.2.1, hin.2.2⟩)
    fuel r.1 r'.1 r.2 r'.2 ⟨hseed.1, hcreated, hholds⟩ h3
  obtain ⟨⟨_, ⟨hL', hN', hA⟩, hH⟩, _⟩ := hloop
  have hl' : (r.2 ++ r'.2).map Prod.fst = st6.RegisterIntervals := by rw [hri]; exact hL'
  refine ⟨hl', ?_⟩
  intro t ht
  have htin : t ∈ (r.2 ++ r'.2).map Prod.fst := by rw [hl']; exact ht
  obtain ⟨⟨t', e⟩, hmem, hfst⟩ := List.mem_map.mp htin
  simp only at hfst
  subst hfst
  have huniq : ∀ e', (t', e') ∈ r.2 ++ r'.2 → e' = e := by
    intro e' hmem'
    have hnd : ((r.2 ++ r'.2).map Prod.fst).Nodup := by rw [hL']; exact hN'
    have hinj := List.inj_on_of_nodup_map hnd hmem' hmem rfl
    exact (Prod.mk.inj hinj).2
  refine ⟨e, hmem, huniq, ?_, ?_⟩
  · intro hnd
    rw [hblocks]
    exact hH hnd t' e hmem
  · rw [hblocks, hbbs]
    intro c hc cb hcb hct hne p hp
    rcases hA c hc cb hcb t' hct with hl | hr
    · exact absurd (huniq c hl) hne
    · exact hr p hp

/-- Pass one on `entry_chain_and_loop` with budget 2: the record of the creations
is `(0, A)`, `(1, A3)`, `(2, B)`, `(3, C)`; the block `A2` belongs to the
register-interval 0, was not the block it was created for, and its predecessor
`A` is in the register-interval 0. -/
theorem passOne_single_entry_witness :
    entry_chain_and_loop.WS = [] ∧
    ∃ st' l, registerIntervalCreationPassOne 20 entry_chain_and_loop [0, 1, 2, 3, 4] 2 =
        .ok (st', l) ∧
      st'.blocks.map (fun b => b.BB_registerInterval) =
        [some 0, some 1, some 0, some 2, some 3] ∧
      ∃ log : List (Nat × Nat),
        registerIntervalCreationPassOne_log 20 entry_chain_and_loop [0, 1, 2, 3, 4] 2 =
          .ok (st', l, log) ∧
        log = [(0, 0), (1, 1), (2, 3), (3, 4)] ∧
        log.map Prod.fst = l ∧
        ∀ t ∈ l, ∃ e : Nat, (t, e) ∈ log ∧ (∀ e', (t, e') ∈ log → e' = e) ∧
          (([0, 1, 2, 3, 4] : List Nat).Nodup → ∃ eb : basicBlock, st'.blocks[e]? = some eb ∧
            eb.BB_registerInterval = some t) ∧
          ∀ c ∈ st'.basic_blocks, ∀ cb : basicBlock, st'.blocks[c]? = some cb →
            cb.BB_registerInterval = some t → c ≠ e →
            ∀ p ∈ cb.predecessors, ∃ pb : basicBlock, st'.blocks[p]? = some pb ∧
              pb.BB_registerInterval = some t := by
  obtain ⟨⟨st', l⟩, hrun, hv⟩ :=
    ok_of_map_eq (registerIntervalCreationPassOne 20 entry_chain_and_loop [0, 1, 2, 3, 4] 2)
      (fun r => r.1.blocks.map (fun b => b.BB_registerInterval))
      [some 0, some 1, some 0, some 2, some 3] (by decide)
  obtain ⟨log, hlog, hmap, hrest⟩ :=
    passOne_single_entry 20 entry_chain_and_loop st' [0, 1, 2, 3, 4] l 2 rfl hrun
  have hv2 : (registerIntervalCreationPassOne_log 20 entry_chain_and_loop [0, 1, 2, 3, 4] 2).map
      (fun r => r.2.2) = .ok [(0, 0), (1, 1), (2, 3), (3, 4)] := by
    set_option maxRecDepth 4000 in
    decide
  rw [hlog] at hv2
  simp only [Except.map, Except.ok.injEq] at hv2
  exact ⟨rfl, st', l, hrun, hv, log, hlog, hv2, hmap, hrest⟩


end RegisterInterval
